import Mathlib

/-!
# UniQ compiler: a shallow embedding of `compiler.cpp`, `circuit.cpp` and `utils.h`

Qubit sets (`idx_t`, a 64-bit word) are natural-number bit masks; the shifts
`1 << q` never overflow because every qubit index is below the word size.  The
per-qubit arrays `related[]`, `cur[]`, `blocked[]` are functions on qubit
indices (the source indexes them with the operands of the gates, which are
below `numQubits` on a valid input), `std::bitset<MAX_GATES>` is a
natural-number bit mask over batch positions, `std::set<int> remain` is an
increasing list, and `int` values whose sign matters (`localSize`) are
integers.  Loops without a static bound carry a fuel argument and return `none`
when it runs out; failed assertions are `none`.  Where the difference between
an abort and a run that goes on matters (`AdvanceCompiler::run` and the backend
stage of `Compiler::run`), the result is an `Outcome`: a value, the abort, or
the end of the fuel.
-/

namespace UniQ

/-! ## utils.h -/

/-- The value of `(idx_t) -1`: all 64 bits set. -/
def minusOne : Nat := 2 ^ 64 - 1

/-- The expression `i & (-i)` of `bitCount` on a 64-bit word. -/
def lowbit (i : Nat) : Nat := i &&& ((2 ^ 64 - i) % 2 ^ 64)

/-- The loop `for (T i = x; i; i -= i & (-i)) ret++` of `bitCount`; a 64-bit
word leaves the loop after at most 64 rounds. -/
def bitCountLoop : Nat → Nat → Nat → Nat
  | 0, _, ret => ret
  | fuel + 1, i, ret => if i = 0 then ret else bitCountLoop fuel (i - lowbit i) (ret + 1)

/-- The function `bitCount` of `utils.h`. -/
def bitCount (x : Nat) : Nat := bitCountLoop 64 x 0

/-- Update of one cell of an array that is modelled as a function. -/
def upd {α : Type} (f : Nat → α) (i : Nat) (v : α) : Nat → α :=
  fun j => if j = i then v else f j

/-- The method `std::bitset::count`, the number of set bits. -/
def bitsetCount : Nat → Nat → Nat
  | 0, _ => 0
  | fuel + 1, b => if b = 0 then 0 else b % 2 + bitsetCount fuel (b / 2)

/-- The bitset `a & ~b`: the bits of `a` that are not bits of `b`. -/
def bitsetAndNot (a b : Nat) : Nat := a ^^^ (a &&& b)

/-! ## Gates and gate groups -/

/-- Modelled from the spec: `gate.h` is missing.  The spec's data model lists
the operand fields of a gate and asks for a tagged variant with four
constructors, one for each of the predicates `isMCGate`, `isTwoQubitGate`,
`isControlGate` and the remaining single-qubit gates; `diag` is the value of
`isDiagonal()`, which depends on the gate type only. -/
inductive Gate where
  | single (diag : Bool) (targetQubit : Nat)
  | control (diag : Bool) (controlQubit targetQubit : Nat)
  | twoQubit (diag : Bool) (encodeQubit targetQubit : Nat)
  | mc (diag : Bool) (controlQubits : List Nat) (targetQubit : Nat)
  deriving DecidableEq, Repr, Inhabited

namespace Gate

def isDiagonal : Gate → Bool
  | single d _ => d
  | control d _ _ => d
  | twoQubit d _ _ => d
  | mc d _ _ => d

def isMCGate : Gate → Bool
  | mc _ _ _ => true
  | _ => false

def isTwoQubitGate : Gate → Bool
  | twoQubit _ _ _ => true
  | _ => false

def isControlGate : Gate → Bool
  | control _ _ _ => true
  | _ => false

def targetQubit : Gate → Nat
  | single _ t => t
  | control _ _ t => t
  | twoQubit _ _ t => t
  | mc _ _ t => t

/-- The operand qubits of a gate: the target, the control, the second qubit of
a two-qubit gate, every control of a multi-controlled gate. -/
def qubits : Gate → List Nat
  | single _ t => [t]
  | control _ c t => [c, t]
  | twoQubit _ e t => [e, t]
  | mc _ cs t => t :: cs

/-- The bit mask with exactly the listed qubits set. -/
def maskOf (qs : List Nat) : Nat := qs.foldl (fun m q => m ||| 1 <<< q) 0

/-- The field `encodeQubit` of a multi-controlled gate: the mask of its
controls. -/
def encodeMask (cs : List Nat) : Nat := maskOf cs

/-- All operand qubits of the gate are below `n`. -/
def valid (n : Nat) (g : Gate) : Prop := ∀ q ∈ g.qubits, q < n

instance (n : Nat) (g : Gate) : Decidable (g.valid n) := by
  unfold valid; infer_instance

end Gate

/-- Modelled from the spec: `GateGroup` is declared in `schedule.h`, which is
missing.  Spec §3: the ordered list of gates and the mask `relatedQubits` (the
backend tag plays no part in the functions embedded here). -/
structure GateGroup where
  gates : List Gate
  relatedQubits : Nat
  deriving DecidableEq, Repr

namespace GateGroup

/-- Modelled from the spec: the default-constructed `GateGroup()`, before any
gate is added; scenario 1 of spec §8 (mask `0b0011` after `H(0), H(1),
CX(0,1)`) needs its mask to be `0`. -/
def empty : GateGroup := ⟨[], 0⟩

/-- Modelled from the spec: `GateGroup::newRelated` lives in `schedule.cpp`,
which is missing.  Spec §4.1: if `enableGlobal` and `g.isDiagonal()` and
`localQubits != -1`, the gate's qubits intersected with `localQubits` are
required to be within the mask and the rest need not enter it; otherwise all
operand qubits of `g` must be in the mask. -/
def newRelated (old : Nat) (g : Gate) (localQubits : Nat) (enableGlobal : Bool) : Nat :=
  if enableGlobal && g.isDiagonal && (localQubits != minusOne) then
    old ||| (Gate.maskOf g.qubits &&& localQubits)
  else
    old ||| Gate.maskOf g.qubits

/-- Modelled from the spec: `GateGroup::addGate` lives in `schedule.cpp`, which
is missing.  Spec §4.1: appends `g` and updates `relatedQubits` via
`newRelated`. -/
def addGate (gg : GateGroup) (g : Gate) (localQubits : Nat) (enableGlobal : Bool) : GateGroup :=
  ⟨gg.gates ++ [g], newRelated gg.relatedQubits g localQubits enableGlobal⟩

/-- The loop `for (auto& x: idx) gg.addGate(remainGates[x], ...)`. -/
def addGates (gg : GateGroup) (gs : List Gate) (localQubits : Nat) (enableGlobal : Bool) :
    GateGroup :=
  gs.foldl (fun acc g => acc.addGate g localQubits enableGlobal) gg

end GateGroup

/-- Modelled from the spec: `LocalGroup` is declared in `schedule.h`, which is
missing.  Spec §3: the ordered list `fullGroups` and the mask `relatedQubits`
(the fields that the scheduler fills in later are left out). -/
structure LocalGroup where
  fullGroups : List GateGroup
  relatedQubits : Nat
  deriving DecidableEq, Repr

/-! ## OneLayerCompiler -/

/-- The members of `OneLayerCompiler<MAX_GATES>`: `remain` is the `std::set`
of the indices of the gates not yet placed, iterated in increasing order. -/
structure OneLayerCompiler where
  MAX_GATES : Nat
  numQubits : Nat
  remainGates : List Gate
  remain : List Nat

/-- The arrays and the mask that Pass A of `getGroupOpt` updates. -/
structure PassA where
  full : Nat
  related : Nat → Nat
  cur : Nat → Nat

/-- The test `live` of both periodic early exits: some qubit below
`numQubits` is not yet in the mask. -/
def anyLive (numQubits : Nat) (isSet : Nat → Bool) : Bool :=
  (List.range numQubits).any (fun i => !isSet i)

/-- The blocking statements at the end of a branch of Pass A, reached when the
gate was not accepted: every operand enters `full`. -/
def rejectGate (s : PassA) (gate : Gate) : PassA :=
  match gate with
  | .mc _ cs t => { s with full := cs.foldl (fun f q => f ||| 1 <<< q) (s.full ||| 1 <<< t) }
  | .twoQubit _ e t => { s with full := (s.full ||| 1 <<< e) ||| 1 <<< t }
  | .control _ c t => { s with full := (s.full ||| 1 <<< c) ||| 1 <<< t }
  | .single _ _ => s

/-- The accepting part of a branch of Pass A: `some` of the new state when the
branch reaches its `continue`, `none` when it falls through to the blocking
statements. -/
def acceptGate (localSize : Int) (localQubits : Nat) (enableGlobal : Bool)
    (s : PassA) (id : Nat) (gate : Gate) : Option PassA :=
  match gate with
  | .mc _ cs t =>
    if (s.full &&& Gate.encodeMask cs == 0) && !(s.full.testBit t) then
      let newRelated := cs.foldl (fun r q => r ||| s.related q) (s.related t)
      let newRelated := GateGroup.newRelated newRelated gate localQubits enableGlobal
      if (bitCount newRelated : Int) ≤ localSize then
        let new_cur := cs.foldl (fun c q => c ||| s.cur q) (s.cur t) ||| 1 <<< id
        some { full := s.full
               cur := upd (cs.foldl (fun c q => upd c q new_cur) s.cur) t new_cur
               related := upd s.related t newRelated }
      else none
    else none
  | .twoQubit _ t1 t2 =>
    if !(s.full.testBit t1) && !(s.full.testBit t2) then
      let newRelated := s.related t1 ||| s.related t2
      let newRelated := GateGroup.newRelated newRelated gate localQubits enableGlobal
      if (bitCount newRelated : Int) ≤ localSize then
        let new_cur := (s.cur t1 ||| s.cur t2) ||| 1 <<< id
        some { full := s.full
               cur := upd (upd s.cur t1 new_cur) t2 new_cur
               related := upd (upd s.related t2 newRelated) t1 newRelated }
      else none
    else none
  | .control _ c t =>
    if !(s.full.testBit c) && !(s.full.testBit t) then
      let newRelated := s.related c ||| s.related t
      let newRelated := GateGroup.newRelated newRelated gate localQubits enableGlobal
      if (bitCount newRelated : Int) ≤ localSize then
        let new_cur := (s.cur c ||| s.cur t) ||| 1 <<< id
        some { full := s.full
               cur := upd (upd s.cur c new_cur) t new_cur
               related := upd (upd s.related t newRelated) c newRelated }
      else none
    else none
  | .single _ t =>
    if !(s.full.testBit t) then
      some { full := s.full
             cur := upd s.cur t (s.cur t ||| 1 <<< id)
             related := upd s.related t
               (GateGroup.newRelated (s.related t) gate localQubits enableGlobal) }
    else none

/-- The body of the Pass A loop for the gate at batch position `id`, after the
early-exit test. -/
def passAGate (localSize : Int) (localQubits : Nat) (enableGlobal : Bool)
    (s : PassA) (id : Nat) (gate : Gate) : PassA :=
  match acceptGate localSize localQubits enableGlobal s id gate with
  | some s' => s'
  | none => rejectGate s gate

/-- Pass A: the loop `for (id = 0; id < gate_num; id++)` from position `id` on,
over the rest `gateIDs` of the batch, with the `break` taken every 100 gates
when `full` covers all qubits. -/
def passA (numQubits : Nat) (remainGates : List Gate) (localSize : Int) (localQubits : Nat)
    (enableGlobal : Bool) : Nat → List Nat → PassA → PassA
  | _, [], s => s
  | id, x :: rest, s =>
    if id % 100 == 0 && !(anyLive numQubits (fun i => s.full.testBit i)) then s
    else passA numQubits remainGates localSize localQubits enableGlobal (id + 1) rest
      (passAGate localSize localQubits enableGlobal s id (remainGates.getD x default))

/-- The variables of Pass B. -/
structure PassB where
  cur : Nat → Nat
  blocked : Nat → Bool
  selected : Nat
  selectedRelated : Nat

/-- The variables `mx`, `id` and the array `blocked` during the scan of a
round of Pass B.  `id` starts at `-1` in the source and is read only when
`mx != 0`, that is after it was assigned; it starts at `0` here. -/
structure Scan where
  mx : Nat
  id : Nat
  blocked : Nat → Bool

/-- The body of the scan loop of a round of Pass B for qubit `i`. -/
def scanStep (MAX_GATES : Nat) (localSize : Int) (related cur : Nat → Nat)
    (selectedRelated : Nat) (sc : Scan) (i : Nat) : Scan :=
  let count_i := bitsetCount MAX_GATES (cur i)
  if !(sc.blocked i) && decide (count_i > sc.mx) then
    if (bitCount (selectedRelated ||| related i) : Int) ≤ localSize then
      { sc with mx := count_i, id := i }
    else
      { sc with blocked := upd sc.blocked i true }
  else sc

/-- The scan `for (i = 0; i < numQubits; i++)` that looks for the qubit with
the largest `cur[i].count()` that still fits. -/
def passBScan (MAX_GATES : Nat) (localSize : Int) (related cur : Nat → Nat)
    (selectedRelated : Nat) (qs : List Nat) (init : Scan) : Scan :=
  qs.foldl (scanStep MAX_GATES localSize related cur selectedRelated) init

/-- The body of the second loop of a round of Pass B for qubit `i`. -/
def absorbStep (related : Nat → Nat) (id : Nat) (s : PassB) (i : Nat) : PassB :=
  if !(s.blocked i) && (s.cur i != 0) then
    if (related i ||| s.selectedRelated) == s.selectedRelated then
      { s with selected := s.selected ||| s.cur i, blocked := upd s.blocked i true }
    else
      { s with cur := upd s.cur i (bitsetAndNot (s.cur i) (s.cur id)) }
  else s

/-- The second loop of a round of Pass B: qubits whose `related` is inside
`selectedRelated` are absorbed, the others lose the gates of `cur[id]`. -/
def passBAbsorb (related : Nat → Nat) (id : Nat) (qs : List Nat) (init : PassB) : PassB :=
  qs.foldl (absorbStep related id) init

/-- Pass B: the loop `while (true)`, with fuel; `none` when the fuel runs out
before the `break`. -/
def passB (numQubits MAX_GATES : Nat) (localSize : Int) (related : Nat → Nat) :
    Nat → PassB → Option PassB
  | 0, _ => none
  | fuel + 1, s =>
    let sc := passBScan MAX_GATES localSize related s.cur s.selectedRelated
      (List.range numQubits) ⟨0, 0, s.blocked⟩
    if sc.mx == 0 then some { s with blocked := sc.blocked }
    else
      let s1 : PassB :=
        { cur := s.cur
          blocked := upd sc.blocked sc.id true
          selected := s.selected ||| s.cur sc.id
          selectedRelated := s.selectedRelated ||| related sc.id }
      passB numQubits MAX_GATES localSize related fuel
        (passBAbsorb related sc.id (List.range numQubits) s1)

/-- The variables of Pass C. -/
structure PassC where
  blocked : Nat → Bool
  selected : Nat
  cnt : Nat

/-- The body of the Pass C loop for an unchosen gate at batch position `id`. -/
def passCGate (enableGlobal : Bool) (s : PassC) (id : Nat) (g : Gate) : PassC :=
  if g.isDiagonal && enableGlobal then
    match g with
    | .mc _ cs t =>
      let avail := cs.foldl (fun a q => a && !(s.blocked q)) (!(s.blocked t))
      if avail then { s with selected := s.selected ||| 1 <<< id }
      else { s with blocked := cs.foldl (fun b q => upd b q true) (upd s.blocked t true) }
    | .twoQubit _ e t =>
      if !(s.blocked e) && !(s.blocked t) then { s with selected := s.selected ||| 1 <<< id }
      else { s with blocked := upd (upd s.blocked t true) e true }
    | .control _ c t =>
      if !(s.blocked c) && !(s.blocked t) then { s with selected := s.selected ||| 1 <<< id }
      else { s with blocked := upd (upd s.blocked t true) c true }
    | .single _ t =>
      if !(s.blocked t) then { s with selected := s.selected ||| 1 <<< id } else s
  else
    match g with
    | .mc _ cs t => { s with blocked := upd (cs.foldl (fun b q => upd b q true) s.blocked) t true }
    | .twoQubit _ e t => { s with blocked := upd (upd s.blocked e true) t true }
    | .control _ c t => { s with blocked := upd (upd s.blocked c true) t true }
    | .single _ t => { s with blocked := upd s.blocked t true }

/-- Pass C: the diagonal mop-up loop from batch position `id` on, with the
`break` taken at every 100th gate when every qubit is blocked. -/
def passC (numQubits : Nat) (remainGates : List Gate) (enableGlobal : Bool) :
    Nat → List Nat → PassC → PassC
  | _, [], s => s
  | id, x :: rest, s =>
    let s1 : PassC := { s with cnt := s.cnt + 1 }
    if s1.cnt % 100 == 0 && !(anyLive numQubits s1.blocked) then s1
    else if s1.selected.testBit id then
      passC numQubits remainGates enableGlobal (id + 1) rest s1
    else
      passC numQubits remainGates enableGlobal (id + 1) rest
        (passCGate enableGlobal s1 id (remainGates.getD x default))

/-- The result loop: the gate ids of the batch positions set in `selected`. -/
def collect (selected : Nat) : Nat → List Nat → List Nat
  | _, [] => []
  | id, x :: rest =>
    if selected.testBit id then x :: collect selected (id + 1) rest
    else collect selected (id + 1) rest

namespace OneLayerCompiler

/-- The batch `gateIDs[0..gate_num)`: the first `MAX_GATES` elements of
`remain`. -/
def gateIDs (c : OneLayerCompiler) : List Nat := c.remain.take c.MAX_GATES

/-- The bitset `selected` at the end of Pass B, started from the result of
Pass A. -/
def selectedB (c : OneLayerCompiler) (full : Nat) (related : Nat → Nat) (enableGlobal : Bool)
    (localSize : Int) (localQubits : Nat) : Option PassB :=
  let a := passA c.numQubits c.remainGates localSize localQubits enableGlobal 0 c.gateIDs
    ⟨full, related, fun _ => 0⟩
  passB c.numQubits c.MAX_GATES localSize a.related (c.numQubits + 1)
    ⟨a.cur, fun _ => false, 0, 0⟩

/-- The method `OneLayerCompiler::getGroupOpt`.  The result is `none` only if Pass B runs
out of its `numQubits + 1` rounds of fuel. -/
def getGroupOpt (c : OneLayerCompiler) (full : Nat) (related : Nat → Nat) (enableGlobal : Bool)
    (localSize : Int) (localQubits : Nat) : Option (List Nat) :=
  match c.selectedB full related enableGlobal localSize localQubits with
  | none => none
  | some b =>
    if !enableGlobal then some (collect b.selected 0 c.gateIDs)
    else
      let s := passC c.numQubits c.remainGates enableGlobal 0 c.gateIDs
        ⟨fun _ => false, b.selected, 0⟩
      some (collect s.selected 0 c.gateIDs)

/-- The method `OneLayerCompiler::removeGatesOpt`. -/
def removeGatesOpt (c : OneLayerCompiler) (remove : List Nat) : OneLayerCompiler :=
  let remain := remove.foldl (fun r x => r.erase x) c.remain
  { c with remain := remain, remainGates := if remain.isEmpty then [] else c.remainGates }

end OneLayerCompiler

/-! ## SimpleCompiler -/

/-- The members of `SimpleCompiler` (a `OneLayerCompiler<2048>`). -/
structure SimpleCompiler where
  numQubits : Nat
  localSize : Int
  localQubits : Nat
  inputGates : List Gate
  enableGlobal : Bool
  whiteList : Nat
  required : Nat

namespace SimpleCompiler

/-- The initial value of `full` in an iteration: the qubits below `numQubits`
outside `whiteList` when `whiteList` is not zero. -/
def initFull (numQubits whiteList : Nat) : Nat :=
  if whiteList != 0 then
    (List.range numQubits).foldl
      (fun full i => if !(whiteList.testBit i) then full ||| 1 <<< i else full) 0
  else 0

/-- One iteration of the `while` loop of `SimpleCompiler::run`: the indices
chosen by `getGroupOpt`, the gate group built from them and the compiler after
`removeGatesOpt`. -/
def step (sc : SimpleCompiler) (c : OneLayerCompiler) :
    Option (List Nat × GateGroup × OneLayerCompiler) :=
  match c.getGroupOpt (initFull sc.numQubits sc.whiteList) (fun _ => sc.required)
      sc.enableGlobal sc.localSize sc.localQubits with
  | none => none
  | some idx =>
    let gg := GateGroup.empty.addGates (idx.map (fun x => c.remainGates.getD x default))
      sc.localQubits sc.enableGlobal
    some (idx, gg, c.removeGatesOpt idx)

/-- The `while (remainGates.size() > 0)` loop with fuel; besides the
`LocalGroup` it returns the index lists of the groups in order. -/
def loop (sc : SimpleCompiler) :
    Nat → OneLayerCompiler → LocalGroup → List (List Nat) → Option (LocalGroup × List (List Nat))
  | 0, _, _, _ => none
  | fuel + 1, c, lg, idxs =>
    if c.remainGates.length > 0 then
      match sc.step c with
      | none => none
      | some (idx, gg, c1) =>
        let lg1 : LocalGroup :=
          ⟨lg.fullGroups ++ [gg], lg.relatedQubits ||| gg.relatedQubits⟩
        if sc.whiteList != 0 then some (lg1, idxs ++ [idx])
        else loop sc fuel c1 lg1 (idxs ++ [idx])
    else some (lg, idxs)

/-- The method `SimpleCompiler::run`, together with the index lists of the groups. -/
def runIdx (sc : SimpleCompiler) (fuel : Nat) : Option (LocalGroup × List (List Nat)) :=
  if sc.localSize == (sc.numQubits : Int) then
    let gg := GateGroup.empty.addGates sc.inputGates sc.localQubits sc.enableGlobal
    some (⟨[gg], gg.relatedQubits⟩, [List.range sc.inputGates.length])
  else
    loop sc fuel ⟨2048, sc.numQubits, sc.inputGates, List.range sc.inputGates.length⟩
      ⟨[], 0⟩ []

/-- The method `SimpleCompiler::run`. -/
def run (sc : SimpleCompiler) (fuel : Nat) : Option LocalGroup :=
  (sc.runIdx fuel).map Prod.fst

end SimpleCompiler

/-! ## Compiler -/

/-- Modelled from the spec: the build-time constants, which are macros defined
outside the source files.  Spec §6 lists `MODE ∈ {0, 1, 2}`, `BACKEND ∈
{0..5}`, `INPLACE ∈ {0, 1}` and `ENABLE_OVERLAP`. -/
structure Config where
  MODE : Nat
  GPU_BACKEND : Nat
  INPLACE : Nat
  ENABLE_OVERLAP : Bool

/-- The members of `Compiler`; `localSize` is `numQubits - globalBit`. -/
structure Compiler where
  numQubits : Nat
  gates : List Gate
  globalBit : Nat

/-- The loop `for (int i = 0;; i++)` of `fillLocals` from bit `i` on.  The
fuel bounds `i` by the word size, beyond which the shift is undefined. -/
def fillLoop (numLocalQubits : Int) : Nat → Nat → Nat → Int → Option Nat
  | 0, _, _, _ => none
  | fuel + 1, i, related, numRelated =>
    if !(related.testBit i) then
      if numRelated + 1 == numLocalQubits then some (related ||| 1 <<< i)
      else fillLoop numLocalQubits fuel (i + 1) (related ||| 1 <<< i) (numRelated + 1)
    else fillLoop numLocalQubits fuel (i + 1) related numRelated

/-- Modelled from the spec: `removeGates` is declared outside the source
files.  Spec §4.6 step 4 removes the overlap gates from `G_{i-1}.gates`, and a
gate's identity is its position (spec §3); `positions` are the positions of the
gates to remove in `gates`. -/
def removeGates (gates : List Gate) (positions : List Nat) : List Gate :=
  (gates.enum.filter (fun p => !(positions.contains p.1))).map Prod.snd

namespace Compiler

/-- The body of the loop of `fillLocals` for one gate group; `none` when the
assertion `numRelated <= numLocalQubits` fails. -/
def fillGroup (c : Compiler) (gg : GateGroup) : Option GateGroup :=
  let numLocalQubits : Int := (c.numQubits : Int) - c.globalBit
  let related := gg.relatedQubits
  let numRelated : Int := bitCount related
  if numRelated ≤ numLocalQubits then
    if numRelated < numLocalQubits then
      (fillLoop numLocalQubits 64 0 related numRelated).map (fun r => { gg with relatedQubits := r })
    else some { gg with relatedQubits := related }
  else none

/-- The loop `for (auto& gg: lg.fullGroups)` of `fillLocals`. -/
def fillGroups (c : Compiler) : List GateGroup → Option (List GateGroup)
  | [] => some []
  | gg :: rest =>
    match c.fillGroup gg with
    | none => none
    | some gg1 =>
      match fillGroups c rest with
      | none => none
      | some rest1 => some (gg1 :: rest1)

/-- The method `Compiler::fillLocals`. -/
def fillLocals (c : Compiler) (lg : LocalGroup) : Option LocalGroup :=
  (c.fillGroups lg.fullGroups).map (fun gs => { lg with fullGroups := gs })

/-- The value of `numQubits - 2 * globalBit` passed as the `idx_t` argument
`localQubits` of the backward compiler: the 64-bit word of that integer. -/
def backLocalQubits (c : Compiler) : Nat :=
  (((c.numQubits : Int) - 2 * c.globalBit) % 2 ^ 64).toNat

/-- The backward compiler of iteration `i` of `moveToNext`, on the reversed
gates of group `i - 1`. -/
def backCompiler (cfg : Config) (c : Compiler) (prev next : GateGroup) : SimpleCompiler :=
  { numQubits := c.numQubits
    localSize := (c.numQubits : Int) - 2 * c.globalBit
    localQubits := c.backLocalQubits
    inputGates := prev.gates.reverse
    enableGlobal := !(cfg.GPU_BACKEND == 3)
    whiteList := prev.relatedQubits
    required := next.relatedQubits }

/-- One iteration of the loop of `moveToNext` on the groups `prev =
fullGroups[i-1]` and `next = fullGroups[i]`: the two groups afterwards and the
pair pushed to `result`.  The iteration needs one round of the backward
compiler at most, which stops after its first group because `whiteList != 0`;
`none` when an assertion fails. -/
def moveStep (cfg : Config) (c : Compiler) (prev next : GateGroup) :
    Option (GateGroup × GateGroup × (List Gate × Nat)) :=
  if prev.relatedQubits != 0 then
    match (c.backCompiler cfg prev next).runIdx 1 with
    | none => none
    | some (toRemove, idxs) =>
      match toRemove.fullGroups, idxs with
      | [], _ => some (prev, next, ([], 0))
      | [gg], [idx] =>
        let toRemoveGates := gg.gates.reverse
        let positions := idx.map (fun p => prev.gates.length - 1 - p)
        some ({ prev with gates := removeGates prev.gates positions },
              { next with relatedQubits := next.relatedQubits ||| toRemove.relatedQubits },
              (toRemoveGates, gg.relatedQubits))
      | _, _ => none
  else none

/-- The loop `for (i = 1; i < lg.fullGroups.size(); i++)` of `moveToNext`,
where `prev` is `fullGroups[i-1]` in its current state and `rest` holds
`fullGroups[i..]`, which no earlier iteration has touched.  It returns the
groups from `i - 1` on and the entries of `result` from `i` on. -/
def moveLoop (cfg : Config) (c : Compiler) :
    GateGroup → List GateGroup → Option (List GateGroup × List (List Gate × Nat))
  | prev, [] => some ([prev], [])
  | prev, next :: rest =>
    match c.moveStep cfg prev next with
    | none => none
    | some (prev1, next1, entry) =>
      match moveLoop cfg c next1 rest with
      | none => none
      | some (groups, entries) => some (prev1 :: groups, entry :: entries)

/-- The method `Compiler::moveToNext`: the local group afterwards and the returned
vector. -/
def moveToNext (cfg : Config) (c : Compiler) (lg : LocalGroup) :
    Option (LocalGroup × List (List Gate × Nat)) :=
  if !cfg.ENABLE_OVERLAP then some (lg, lg.fullGroups.map (fun _ => ([], 0)))
  else
    match lg.fullGroups with
    | [] => some (lg, [([], 0)])
    | g0 :: rest =>
      (c.moveLoop cfg g0 rest).map
        (fun r => ({ lg with fullGroups := r.1 }, ([], 0) :: r.2))

/-- The local compiler that `Compiler::run` starts with. -/
def localCompiler (cfg : Config) (c : Compiler) : SimpleCompiler :=
  let localSize : Int := (c.numQubits : Int) - c.globalBit
  let inplaceSize : Int := min (cfg.INPLACE : Int) (localSize - 2)
  { numQubits := c.numQubits
    localSize := localSize
    localQubits := minusOne
    inputGates := c.gates
    enableGlobal := !(cfg.MODE == 2)
    whiteList := 0
    required := (1 <<< inplaceSize.toNat) - 1 }

/-- The first three statements of `Compiler::run`: the local group after
`localCompiler.run()`, `moveToNext` and `fillLocals`, with the vector
`moveBack`. -/
def prepare (cfg : Config) (c : Compiler) (fuel : Nat) :
    Option (LocalGroup × List (List Gate × Nat)) :=
  match (c.localCompiler cfg).run fuel with
  | none => none
  | some localGroup =>
    match c.moveToNext cfg localGroup with
    | none => none
    | some (lg1, moveBack) =>
      match c.fillLocals lg1 with
      | none => none
      | some lg2 => some (lg2, moveBack)

/-- The list `newGlobals` that `Compiler::run` builds for a full group. -/
def newGlobals (c : Compiler) (gg : GateGroup) : List Nat :=
  (List.range c.numQubits).filter (fun i => !(gg.relatedQubits.testBit i))

end Compiler

/-! ## Auxiliary definitions for the statements -/

/-- The set of the bits of a 64-bit word that are set. -/
def bitsOf (x : Nat) : Finset Nat := (Finset.range 64).filter (fun i => x.testBit i = true)

/-- The number of qubits below `n` that are not blocked. -/
def numLive (n : Nat) (blocked : Nat → Bool) : Nat :=
  ((Finset.range n).filter (fun i => blocked i = false)).card

/-- What the scan of a round of Pass B has established about `mx`, `id` and
`blocked` after the qubits of `L`. -/
structure ScanInv (MAX_GATES : Nat) (localSize : Int) (related cur : Nat → Nat)
    (selectedRelated : Nat) (L : List Nat) (b0 : Nat → Bool) (sc : Scan) : Prop where
  mono : ∀ i, b0 i = true → sc.blocked i = true
  chosen : sc.mx ≠ 0 → sc.id ∈ L ∧ sc.blocked sc.id = false ∧
    (bitCount (selectedRelated ||| related sc.id) : Int) ≤ localSize ∧
    sc.mx = bitsetCount MAX_GATES (cur sc.id)

/-- The gate lists of the groups that hold the gates at the index lists
`idxs` of the input. -/
def gatesAt (input : List Gate) (idxs : List (List Nat)) : List (List Gate) :=
  idxs.map (fun idx => idx.map (fun x => input.getD x default))

/-- The `m` lowest-indexed qubits below `n` that are not in `mask`. -/
def lowestUnused (n mask m : Nat) : List Nat :=
  ((List.range n).filter (fun i => !(mask.testBit i))).take m

/-- The mask that `fillLocals` is to produce: the old mask together with the
lowest-indexed unused qubits that bring it to `n - g` bits. -/
def filledMask (n g mask : Nat) : Nat :=
  mask ||| Gate.maskOf (lowestUnused n mask (n - g - bitCount mask))

/-- Two gates share an operand qubit. -/
def Gate.shares (a b : Gate) : Prop := ∃ q ∈ a.qubits, q ∈ b.qubits

instance (a b : Gate) : Decidable (a.shares b) := by
  unfold Gate.shares; infer_instance

/-- The function `G` gives the gates at the batch positions `id, id + 1, ...`,
whose gate ids are `xs`. -/
def Agree (G : Nat → Gate) (remainGates : List Gate) (id : Nat) (xs : List Nat) : Prop :=
  ∀ k x, xs[k]? = some x → G (id + k) = remainGates.getD x default

/-- A bitset over batch positions is dependency closed: with a gate it holds
every earlier gate of the batch that shares an operand qubit with it. -/
def ClosedSet (G : Nat → Gate) (S : Nat) : Prop :=
  ∀ p, S.testBit p = true → ∀ p', p' < p → (G p').shares (G p) → S.testBit p' = true

/-- The invariant of Pass A after the batch positions below `id`. -/
structure InvA (G : Nat → Gate) (id : Nat) (s : PassA) : Prop where
  bound : ∀ q p, (s.cur q).testBit p = true → p < id
  closed : ∀ q, ClosedSet G (s.cur q)
  owned : ∀ p', p' < id → ∀ r ∈ (G p').qubits, s.full.testBit r = false →
    (s.cur r).testBit p' = true

/-- The invariant of Pass B.  `acur` and `related` are the arrays at the end
of Pass A and `contrib` gives, for a batch position, a mask that `related`
covers wherever `acur` holds the position. -/
structure InvB (G : Nat → Gate) (acur related contrib : Nat → Nat) (ls : Int) (s : PassB) :
    Prop where
  sub : ∀ q p, (s.cur q).testBit p = true → (acur q).testBit p = true
  cover : ∀ q p, (acur q).testBit p = true →
    (s.cur q).testBit p = true ∨ s.selected.testBit p = true
  closed : ClosedSet G s.selected
  within : ∀ p, s.selected.testBit p = true →
    ∀ j, (contrib p).testBit j = true → s.selectedRelated.testBit j = true
  fits : s.selectedRelated = 0 ∨ (bitCount s.selectedRelated : Int) ≤ ls

/-- The invariant of Pass C after the batch positions below `k`. -/
structure InvC (G : Nat → Gate) (k : Nat) (s : PassC) : Prop where
  closed : ClosedSet G s.selected
  blockedOwn : ∀ p', p' < k → s.selected.testBit p' = false →
    ∀ r ∈ (G p').qubits, s.blocked r = true

/-- The gate at a batch position of `getGroupOpt`. -/
def OneLayerCompiler.gateAtPos (c : OneLayerCompiler) (p : Nat) : Gate :=
  c.remainGates.getD (c.gateIDs.getD p 0) default

/-- Placing gate `x` before gate `y` is no inversion: it is not the case that
`y` precedes `x` in the input and shares an operand qubit with it. -/
def NoInversion (input : List Gate) (x y : Nat) : Prop :=
  ¬ (y < x ∧ (input.getD y default).shares (input.getD x default))

/-- The gates at the positions `hoisted` of `gates` are moved out of `gates`
into `moved`, leaving `left`, and the positions form a dependency-closed tail:
with a position they hold every later position of `gates` whose gate shares an
operand qubit. -/
def HoistClosed (gates moved left : List Gate) (hoisted : List Nat) : Prop :=
  (∀ p ∈ hoisted, p < gates.length) ∧
  moved = hoisted.reverse.map (fun p => gates.getD p default) ∧
  left = removeGates gates hoisted ∧
  ∀ pg ∈ hoisted, ∀ ph, pg < ph → ph < gates.length →
    (gates.getD pg default).shares (gates.getD ph default) → ph ∈ hoisted

/-- A gate on which the budget of `getGroupOpt` holds: it is not
multi-controlled, its operands lie inside a 64-bit word and, if it is diagonal
while `enableGlobal` is set (a gate that Pass C may add), `newRelated` puts
none of its operands into the mask. -/
def Gate.budgeted (lq : Nat) (eg : Bool) (g : Gate) : Prop :=
  g.isMCGate = false ∧ g.valid 64 ∧
    ((g.isDiagonal && eg) = true → GateGroup.newRelated 0 g lq eg = 0)

/-- The invariant of Pass A that ties `related` to `cur`: `related[q]` is a
64-bit word that covers what `newRelated` puts into the mask for every gate in
`cur[q]`. -/
structure InvR (G : Nat → Gate) (lq : Nat) (eg : Bool) (s : PassA) : Prop where
  covers : ∀ q p, (s.cur q).testBit p = true →
    ∀ j, (GateGroup.newRelated 0 (G p) lq eg).testBit j = true →
      (s.related q).testBit j = true
  word : ∀ q, s.related q < 2 ^ 64

/-- The build configurations of spec §6 under which `Compiler::run` compiles:
`MODE` in `{0, 1, 2}`, `GPU_BACKEND` in `{1, .., 5}`, `INPLACE` in `{0, 1}`,
with and without `ENABLE_OVERLAP`. -/
def buildConfigs : List Config :=
  [0, 1, 2].flatMap (fun mode => [1, 2, 3, 4, 5].flatMap (fun backend =>
    [0, 1].flatMap (fun inplace => [true, false].map (fun overlap =>
      ⟨mode, backend, inplace, overlap⟩))))

/-- The invariant of Pass A on `related[]` in a call whose seed leaves room
for two more qubits and whose `localQubits` is `-1`: every entry is a 64-bit
word within the budget, and an entry that does not hold its own qubit has room
for one more qubit. -/
structure InvT (ls : Int) (s : PassA) : Prop where
  word : ∀ i, s.related i < 2 ^ 64
  fits : ∀ i, (bitCount (s.related i) : Int) ≤ ls
  room : ∀ i, (s.related i).testBit i = true ∨ (bitCount (s.related i) : Int) + 1 ≤ ls

/-! ## ChunkCompiler -/

/-- The members of `ChunkCompiler` (both sizes are `int` in the source). -/
structure ChunkCompiler where
  numQubits : Nat
  localSize : Int
  chunkSize : Int
  inputGates : List Gate

/-- The method `std::set<int>::insert` on a set kept as an increasing list. -/
def setInsert (x : Nat) (l : List Nat) : List Nat :=
  if x ∈ l then l else l.orderedInsert (· ≤ ·) x

/-- The variables of the loop of `ChunkCompiler::run`: the set `locals`, the
local group `lg` and the gate group `cur`. -/
structure ChunkState where
  locals : List Nat
  lg : LocalGroup
  cur : GateGroup

namespace ChunkCompiler

/-- The body of the loop of `ChunkCompiler::run` for the gate `g =
remainGates[i]`, where `later` is the number of gates after position `i`;
`none` when `*cur_locals.begin()` is taken on an empty set.  The inner loop
`for (j = i + 1; j < size && cur_locals.size() > 1; j++)` erases the target of
`remainGates[i]`, as the source has it, in each of its rounds. -/
def step (cc : ChunkCompiler) (s : ChunkState) (g : Gate) (later : Nat) : Option ChunkState :=
  if g.isDiagonal || decide (g.targetQubit ∈ s.locals) then
    some { s with cur := s.cur.addGate g minusOne true }
  else
    let newRelated := Gate.maskOf s.locals
    let lg1 : LocalGroup :=
      ⟨s.lg.fullGroups ++ [{ s.cur with relatedQubits := newRelated }],
        s.lg.relatedQubits ||| newRelated⟩
    let cur1 := (GateGroup.mk [] 0).addGate g minusOne true
    let cur_locals := (List.range cc.numQubits).filter
      (fun (j : Nat) => decide (cc.chunkSize + 1 ≤ (j : Int)) && decide (j ∈ s.locals))
    let cur_locals := (List.range later).foldl
      (fun cl _ =>
        if cl.length > 1 then (if !g.isDiagonal then cl.erase g.targetQubit else cl) else cl)
      cur_locals
    match cur_locals with
    | [] => none
    | to_move :: _ => some ⟨setInsert g.targetQubit (s.locals.erase to_move), lg1, cur1⟩

/-- The loop `for (i = 0; i < remainGates.size(); i++)` over the gates that are
left. -/
def loop (cc : ChunkCompiler) : List Gate → ChunkState → Option ChunkState
  | [], s => some s
  | g :: rest, s =>
    match cc.step s g rest.length with
    | none => none
    | some s1 => loop cc rest s1

/-- The method `ChunkCompiler::run`.  The source leaves `lg.relatedQubits`
to the default constructor of `LocalGroup`; it starts at `0` here. -/
def run (cc : ChunkCompiler) : Option LocalGroup :=
  match cc.loop cc.inputGates ⟨List.range cc.localSize.toNat, ⟨[], 0⟩, ⟨[], 0⟩⟩ with
  | none => none
  | some s =>
    let newRelated := Gate.maskOf s.locals
    some ⟨s.lg.fullGroups ++ [{ s.cur with relatedQubits := newRelated }],
      s.lg.relatedQubits ||| newRelated⟩

end ChunkCompiler

/-- The mask `b` is the mask `a` with exactly one qubit removed and one qubit
added. -/
def Swapped (a b : Nat) : Prop :=
  ∃ x y, a.testBit x = true ∧ a.testBit y = false ∧
    ∀ j, b.testBit j = true ↔ (j = y ∨ (a.testBit j = true ∧ j ≠ x))

/-- The invariant of the loop of `ChunkCompiler::run`. -/
structure ChunkInv (cc : ChunkCompiler) (s : ChunkState) : Prop where
  sorted : s.locals.Sorted (· ≤ ·)
  nodup : s.locals.Nodup
  length : (s.locals.length : Int) = cc.localSize
  below : ∀ x ∈ s.locals, x < cc.numQubits
  chunk : ∀ q : Nat, (q : Int) ≤ cc.chunkSize → q ∈ s.locals
  groups : ∀ gg ∈ s.lg.fullGroups, (bitCount gg.relatedQubits : Int) = cc.localSize ∧
    ∀ q : Nat, (q : Int) < cc.chunkSize → gg.relatedQubits.testBit q = true
  chain : (s.lg.fullGroups.map (fun gg => gg.relatedQubits)).Chain' Swapped
  last : ∀ m ∈ (s.lg.fullGroups.map (fun gg => gg.relatedQubits)).getLast?,
    Swapped m (Gate.maskOf s.locals)

/-! ## AdvanceCompiler -/

/-- Modelled from the spec: the enumeration `Backend` is declared in
`schedule.h`, which is missing.  Spec §3: the backend tag `{PerGate, BLAS}` of
a gate group. -/
inductive Backend where
  | PerGate
  | BLAS
  deriving DecidableEq, Repr

/-- Modelled from the spec: `State` is declared in `schedule.h`, which is
missing.  Spec §3: `layout[i]` is the logical qubit stored at physical
position `i` and `pos` is its inverse. -/
structure State where
  pos : List Nat
  layout : List Nat
  deriving DecidableEq, Repr

/-! ## The type `double` -/

/-- The loop that counts the binary digits of `n`, with fuel. -/
def bitLenLoop : Nat → Nat → Nat
  | 0, _ => 0
  | fuel + 1, n => if n = 0 then 0 else bitLenLoop fuel (n / 2) + 1

/-- The number of binary digits of `n`. -/
def bitLen (n : Nat) : Nat := bitLenLoop n n

/-- The values of the C++ type `double` (IEEE 754 binary64): a NaN, an
infinity with its sign, or the finite value `(-1)^neg * m * 2^e`.  One value
has several such terms (`1 * 2^1` and `2 * 2^0`); `Dbl.lt` compares the
values.  Dividing a `double` by a count of at least 1 does not leave the range
of binary64, so `Dbl.div` never has to round to an infinity. -/
inductive Dbl where
  | nan
  | inf (neg : Bool)
  | fin (neg : Bool) (m : Nat) (e : Int)
  deriving DecidableEq, Repr

/-- Rounding to binary64, to nearest with ties to even: the mantissa and the
exponent of the `double` nearest to `(Q + s) * 2^x`, where `0 <= s < 1` and
`sticky` tells whether `s` is not zero.  The result keeps at most 53 binary
digits of `Q` and has no exponent below `-1074`, that of the subnormal
numbers. -/
def roundBits (Q : Nat) (sticky : Bool) (x : Int) : Nat × Int :=
  let E := max (x + (bitLen Q : Int) - 53) (-1074)
  if E ≤ x then (Q, x)
  else
    let drop := (E - x).toNat
    let keep := Q >>> drop
    let rem := Q % (1 <<< drop)
    let half := 1 <<< (drop - 1)
    let up := decide (rem > half) || (decide (rem = half) && (sticky || keep % 2 == 1))
    (if up then keep + 1 else keep, E)

namespace Dbl

/-- The operator `/` of a `double` by a `size_t`: the count `n` is converted
to `double` (rounded when it has more than 53 binary digits) and the exact
quotient is rounded to binary64. -/
def div (a : Dbl) (n : Nat) : Dbl :=
  match a with
  | nan => nan
  | inf s => inf s
  | fin s m e =>
    if n = 0 then (if m = 0 then nan else inf s)
    else if m = 0 then fin s 0 0
    else
      let d := roundBits n false 0
      let k := 64 + bitLen d.1
      let r := roundBits ((m <<< k) / d.1) ((m <<< k) % d.1 != 0) (e - d.2 - k)
      fin s r.1 r.2

/-- The operator `<` on `double`: false when an operand is a NaN. -/
def lt : Dbl → Dbl → Bool
  | fin s1 m1 e1, fin s2 m2 e2 =>
    let z1 : Int := if s1 then -(m1 : Int) else m1
    let z2 : Int := if s2 then -(m2 : Int) else m2
    let e := min e1 e2
    decide (z1 * ((1 <<< (e1 - e).toNat : Nat) : Int) < z2 * ((1 <<< (e2 - e).toNat : Nat) : Int))
  | fin _ _ _, inf s => !s
  | inf s, fin _ _ _ => s
  | inf s1, inf s2 => s1 && !s2
  | _, _ => false

end Dbl

/-- Modelled from the spec: what the backend stage uses from outside the
source files, taken as parameters.  `COALESCE_GLOBAL` and `BLAS_MAT_LIMIT` are
macros (spec §6); `perfPerGate` and `perfBLAS` are the predictors of the
`Evaluator` (spec §6), with the gates themselves in place of their types;
`initState` is `GateGroup::initState` of `schedule.cpp` (spec §4.4), which
reads the group with its backend tag, the state and `cuttSize`.

The costs are values of the C++ type `double`.  The type `Double`, the
literal `1e10`, the operator `/` of a `double` by a `size_t` (the count is
converted to `double` and the quotient is rounded) and the operator `<` on
`double` are fields as well: what is proved for every environment assumes
nothing about floating-point arithmetic, and `ieeeEnv` below fills these
fields with IEEE 754 binary64. -/
structure AdvanceEnv where
  COALESCE_GLOBAL : Nat
  BLAS_MAT_LIMIT : Int
  Double : Type
  lit1e10 : Double
  div : Double → Nat → Double
  lt : Double → Double → Bool
  perfPerGate : Int → List Gate → Double
  perfBLAS : Int → Int → Double
  initState : GateGroup → Backend → State → Int → State

/-- The environment of the program on a platform with IEEE arithmetic:
`double` is `Dbl` with its division and its comparison, and `1e10` is the
integer `10^10`, which binary64 represents exactly; the predictors, the macros
and `initState` remain parameters. -/
def ieeeEnv (COALESCE_GLOBAL : Nat) (BLAS_MAT_LIMIT : Int) (perfPerGate : Int → List Gate → Dbl)
    (perfBLAS : Int → Int → Dbl) (initState : GateGroup → Backend → State → Int → State) :
    AdvanceEnv :=
  { COALESCE_GLOBAL := COALESCE_GLOBAL
    BLAS_MAT_LIMIT := BLAS_MAT_LIMIT
    Double := Dbl
    lit1e10 := Dbl.fin false 10000000000 0
    div := Dbl.div
    lt := Dbl.lt
    perfPerGate := perfPerGate
    perfBLAS := perfBLAS
    initState := initState }

/-- The outcome of a run that can hit a fatal assertion: a result, the abort,
or the end of the fuel of the model. -/
inductive Outcome (α : Type) where
  | done (a : α)
  | abort
  | unfinished
  deriving DecidableEq, Repr

/-- The members of `AdvanceCompiler` (a `OneLayerCompiler<512>`). -/
structure AdvanceCompiler where
  numQubits : Nat
  localQubits : Nat
  blasForbid : Nat
  inputGates : List Gate
  enableGlobal : Bool
  globalBit : Int

/-- The variables `ggIdx`, `ggBackend` and `bestEff` of the branch of
`AdvanceCompiler::run` with both backends; `D` is the type of `double`. -/
structure Choice (D : Type) where
  ggIdx : List Nat
  ggBackend : Backend
  bestEff : D

/-- The variables of the loop of `AdvanceCompiler::run`: the compiler with
`remain` and `remainGates`, the state, the local group built so far and the
backend tags of its gate groups. -/
structure AdvState where
  c : OneLayerCompiler
  state : State
  lg : LocalGroup
  backends : List Backend

namespace AdvanceCompiler

/-- The value that `fillRelated` writes to every `related[i]`: the mask of the
first `COALESCE_GLOBAL` entries of `layout` (which a state of the source
has). -/
def fillRelated (env : AdvanceEnv) (layout : List Nat) : Nat :=
  (List.range env.COALESCE_GLOBAL).foldl (fun r j => r ||| 1 <<< layout.getD j 0) 0

/-- The per-gate candidate of the branch with both backends. -/
def perGateCandidate (env : AdvanceEnv) (c : OneLayerCompiler) (state : State)
    (perGateSize : Int) : Option (List Nat) :=
  c.getGroupOpt 0 (fun _ => fillRelated env state.layout) true perGateSize minusOne

/-- The BLAS candidate for the budget `matSize`. -/
def blasCandidate (ac : AdvanceCompiler) (c : OneLayerCompiler) (matSize : Int) :
    Option (List Nat) :=
  c.getGroupOpt ac.blasForbid (fun _ => 0) false matSize (ac.localQubits ||| ac.blasForbid)

/-- The initial value of `bestEff`: the cost per gate of the per-gate
candidate `ggIdx`, which is `1e10` when the candidate is empty. -/
def perGateEff (env : AdvanceEnv) (ac : AdvanceCompiler) (c : OneLayerCompiler)
    (ggIdx : List Nat) : env.Double :=
  if ggIdx.length == 0 then env.lit1e10
  else env.div (env.perfPerGate ((ac.numQubits : Int) - ac.globalBit)
    (ggIdx.map (fun x => c.remainGates.getD x default))) ggIdx.length

/-- The value `eff` of a non-empty BLAS candidate `idx` for `matSize`. -/
def blasEff (env : AdvanceEnv) (ac : AdvanceCompiler) (matSize : Int) (idx : List Nat) :
    env.Double :=
  env.div (env.perfBLAS ((ac.numQubits : Int) - ac.globalBit) matSize) idx.length

/-- The body of the loop `for (matSize = 4; matSize < 8; matSize++)`. -/
def blasRound (env : AdvanceEnv) (ac : AdvanceCompiler) (c : OneLayerCompiler)
    (ch : Option (Choice env.Double)) (matSize : Nat) : Option (Choice env.Double) :=
  match ch with
  | none => none
  | some ch =>
    match ac.blasCandidate c matSize with
    | none => none
    | some idx =>
      if idx.length == 0 then some ch
      else
        let eff := blasEff env ac matSize idx
        if env.lt eff ch.bestEff then some ⟨idx, Backend.BLAS, eff⟩ else some ch

/-- The branch `usePerGate && useBLAS` of an iteration: the chosen candidate
with its cost per gate. -/
def chooseBoth (env : AdvanceEnv) (ac : AdvanceCompiler) (c : OneLayerCompiler) (state : State)
    (perGateSize : Int) : Option (Choice env.Double) :=
  match perGateCandidate env c state perGateSize with
  | none => none
  | some ggIdx =>
    let bestEff := perGateEff env ac c ggIdx
    [4, 5, 6, 7].foldl (blasRound env ac c) (some ⟨ggIdx, Backend.PerGate, bestEff⟩)

/-- The selection of an iteration: `ggIdx`, `ggBackend` and `cacheRelated`.
The result is `unfinished` only if Pass B of a `getGroupOpt` call runs out of
fuel, and `abort` in the branch `UNREACHABLE()`. -/
def select (env : AdvanceEnv) (ac : AdvanceCompiler) (c : OneLayerCompiler) (state : State)
    (usePerGate useBLAS : Bool) (perGateSize blasSize : Int) :
    Outcome (List Nat × Backend × Nat) :=
  if usePerGate && useBLAS then
    match chooseBoth env ac c state perGateSize with
    | none => Outcome.unfinished
    | some ch => Outcome.done (ch.ggIdx, ch.ggBackend, fillRelated env state.layout)
  else if usePerGate && !useBLAS then
    match c.getGroupOpt 0 (fun _ => fillRelated env state.layout) (true && ac.enableGlobal)
        perGateSize minusOne with
    | none => Outcome.unfinished
    | some idx => Outcome.done (idx, Backend.PerGate, fillRelated env state.layout)
  else if !usePerGate && useBLAS then
    match c.getGroupOpt ac.blasForbid (fun _ => 0) false blasSize
        (ac.localQubits ||| ac.blasForbid) with
    | none => Outcome.unfinished
    | some idx => Outcome.done (idx, Backend.BLAS, 0)
  else Outcome.abort

/-- The gate group that an iteration builds from its selection. -/
def buildGroup (ac : AdvanceCompiler) (c : OneLayerCompiler) (ggIdx : List Nat)
    (ggBackend : Backend) (cacheRelated : Nat) : GateGroup :=
  let gates := ggIdx.map (fun x => c.remainGates.getD x default)
  match ggBackend with
  | Backend.PerGate =>
    let gg := GateGroup.empty.addGates gates minusOne ac.enableGlobal
    { gg with relatedQubits := gg.relatedQubits ||| cacheRelated }
  | Backend.BLAS => GateGroup.empty.addGates gates ac.localQubits false

/-- The body of the `while` loop of `AdvanceCompiler::run` up to
`lg.fullGroups.push_back`, without the counter. -/
def body (env : AdvanceEnv) (ac : AdvanceCompiler) (usePerGate useBLAS : Bool)
    (perGateSize blasSize cuttSize : Int) (s : AdvState) : Outcome AdvState :=
  match select env ac s.c s.state usePerGate useBLAS perGateSize blasSize with
  | Outcome.unfinished => Outcome.unfinished
  | Outcome.abort => Outcome.abort
  | Outcome.done (ggIdx, ggBackend, cacheRelated) =>
    let gg := buildGroup ac s.c ggIdx ggBackend cacheRelated
    Outcome.done
      { c := s.c.removeGatesOpt ggIdx
        state := env.initState gg ggBackend s.state cuttSize
        lg := ⟨s.lg.fullGroups ++ [gg], s.lg.relatedQubits ||| gg.relatedQubits⟩
        backends := s.backends ++ [ggBackend] }

/-- The loop `while (remainGates.size() > 0)` of `AdvanceCompiler::run` with
its counter `cnt` and the assertion `cnt < 1000` at the end of the body. -/
def loop (env : AdvanceEnv) (ac : AdvanceCompiler) (usePerGate useBLAS : Bool)
    (perGateSize blasSize cuttSize : Int) : Nat → Nat → AdvState → Outcome AdvState
  | 0, _, _ => Outcome.unfinished
  | fuel + 1, cnt, s =>
    if s.c.remainGates.length > 0 then
      match body env ac usePerGate useBLAS perGateSize blasSize cuttSize s with
      | Outcome.unfinished => Outcome.unfinished
      | Outcome.abort => Outcome.abort
      | Outcome.done s1 =>
        if cnt + 1 < 1000 then
          loop env ac usePerGate useBLAS perGateSize blasSize cuttSize fuel (cnt + 1) s1
        else Outcome.abort
    else Outcome.done s

/-- The state in which `AdvanceCompiler::run` enters its loop. -/
def start (ac : AdvanceCompiler) (state : State) : AdvState :=
  ⟨⟨512, ac.numQubits, ac.inputGates, List.range ac.inputGates.length⟩, state, ⟨[], 0⟩, []⟩

/-- The method `AdvanceCompiler::run`; the assertion stops the loop before the
fuel of 1000 iterations is used up. -/
def run (env : AdvanceEnv) (ac : AdvanceCompiler) (state : State) (usePerGate useBLAS : Bool)
    (perGateSize blasSize cuttSize : Int) : Outcome AdvState :=
  if usePerGate || useBLAS then
    loop env ac usePerGate useBLAS perGateSize blasSize cuttSize 1000 0 (ac.start state)
  else Outcome.abort

end AdvanceCompiler

/-! ## The backend stage of `Compiler::run` -/

namespace Compiler

end Compiler

/-- Modelled from the spec: the class `Circuit` is declared in `circuit.h`,
which is missing.  These are the members that `toPhysicalID` and `toLogicID`
read: `numQubits` and `schedule.finalState` (spec §3: the `State` after the
last group). -/
structure Circuit where
  numQubits : Nat
  finalState : State

namespace Circuit

/-- The method `Circuit::toPhysicalID`. -/
def toPhysicalID (c : Circuit) (idx : Nat) : Nat :=
  (List.range c.numQubits).foldl
    (fun id i => if idx.testBit i then id ||| 1 <<< c.finalState.pos.getD i 0 else id) 0

/-- The method `Circuit::toLogicID`. -/
def toLogicID (c : Circuit) (idx : Nat) : Nat :=
  (List.range c.numQubits).foldl
    (fun id i => if idx.testBit (c.finalState.pos.getD i 0) then id ||| 1 <<< i else id) 0

end Circuit

/-! ## getGroupOpt without the early exits (the comparison algorithm) -/

/-- Pass A of `getGroupOpt` with the check `if (id % 100 == 0)` and its
`break` removed: every gate of the batch runs through the body of the loop. -/
def passANoExit (remainGates : List Gate) (localSize : Int) (localQubits : Nat)
    (enableGlobal : Bool) : Nat → List Nat → PassA → PassA
  | _, [], s => s
  | id, x :: rest, s =>
    passANoExit remainGates localSize localQubits enableGlobal (id + 1) rest
      (passAGate localSize localQubits enableGlobal s id (remainGates.getD x default))

/-- Pass C of `getGroupOpt` with the check `if (cnt % 100 == 0)` and its
`break` removed. -/
def passCNoExit (remainGates : List Gate) (enableGlobal : Bool) :
    Nat → List Nat → PassC → PassC
  | _, [], s => s
  | id, x :: rest, s =>
    let s1 : PassC := { s with cnt := s.cnt + 1 }
    if s1.selected.testBit id then
      passCNoExit remainGates enableGlobal (id + 1) rest s1
    else
      passCNoExit remainGates enableGlobal (id + 1) rest
        (passCGate enableGlobal s1 id (remainGates.getD x default))

/-- The method `getGroupOpt` with both periodic early-exit checks removed:
Pass A and Pass C are replaced by `passANoExit` and `passCNoExit`, Pass B and
the result loop are those of `getGroupOpt`. -/
def OneLayerCompiler.getGroupOptNoExit (c : OneLayerCompiler) (full : Nat)
    (related : Nat → Nat) (enableGlobal : Bool) (localSize : Int) (localQubits : Nat) :
    Option (List Nat) :=
  let a := passANoExit c.remainGates localSize localQubits enableGlobal 0 c.gateIDs
    ⟨full, related, fun _ => 0⟩
  match passB c.numQubits c.MAX_GATES localSize a.related (c.numQubits + 1)
      ⟨a.cur, fun _ => false, 0, 0⟩ with
  | none => none
  | some b =>
    if !enableGlobal then some (collect b.selected 0 c.gateIDs)
    else
      let s := passCNoExit c.remainGates enableGlobal 0 c.gateIDs
        ⟨fun _ => false, b.selected, 0⟩
      some (collect s.selected 0 c.gateIDs)

/-! ## Auxiliary definitions for the statements about `getGroupOpt` -/

/-- A qubit that a round of Pass B may choose: it is below `numQubits`, not
blocked when the round starts, and `selectedRelated | related[q]` has at most
`localSize` bits. -/
def Candidate (numQubits : Nat) (localSize : Int) (related : Nat → Nat) (s : PassB)
    (q : Nat) : Prop :=
  q < numQubits ∧ s.blocked q = false ∧
    (bitCount (s.selectedRelated ||| related q) : Int) ≤ localSize

/-- A list of gate ids is prefix-respecting: with a gate it holds every
earlier gate of the input that shares an operand qubit with it. -/
def PrefixRespecting (input : List Gate) (S : List Nat) : Prop :=
  ∀ h ∈ S, ∀ g, g < h → (input.getD g default).shares (input.getD h default) → g ∈ S

instance (input : List Gate) (S : List Nat) : Decidable (PrefixRespecting input S) := by
  unfold PrefixRespecting; infer_instance

/-- The combined qubit footprint of the gates with the ids `S`, together with
the seeds. -/
def footprint (input : List Gate) (seeds : Nat) (S : List Nat) : Nat :=
  S.foldl (fun m x => m ||| Gate.maskOf (input.getD x default).qubits) seeds

/-! ## The overlap reordering of `Compiler::run` -/

/-- The call `std::swap(v[p], v[i])` on the elements of a vector. -/
def swapAt (v : List Nat) (p i : Nat) : List Nat :=
  (v.set p (v.getD i 0)).set i (v.getD p 0)

/-- The variables of the loop `while (modified)` of `Compiler::run`. -/
structure Overlap where
  newGlobals : List Nat
  overlapGlobals : Nat
  overlapCnt : Nat
  modified : Bool
  deriving DecidableEq, Repr

namespace Compiler

/-- The range `layout[numLocalQubits .. numQubits)` that the lambda
`globalPos` searches, where `numLocalQubits = numQubits - globalBit`. -/
def globalArea (c : Compiler) (layout : List Nat) : List Nat :=
  (layout.take c.numQubits).drop (c.numQubits - c.globalBit)

/-- The lambda `globalPos` of `Compiler::run`: `std::find` looks for `x` in
`layout[numLocalQubits .. numQubits)`; the result is whether `x` was found,
and the offset of the place from `numLocalQubits` (the length of the range
when `x` was not found). -/
def globalPos (c : Compiler) (layout : List Nat) (x : Nat) : Bool × Nat :=
  (decide (x ∈ c.globalArea layout), (c.globalArea layout).indexOf x)

/-- The body of the loop `for (i = 0; i < newGlobals.size(); i++)`; `none`
when the index `p` given to `newGlobals[p]` is not below `newGlobals.size()`. -/
def overlapStep (c : Compiler) (layout : List Nat) (v : Overlap) (i : Nat) : Option Overlap :=
  let r := c.globalPos layout (v.newGlobals.getD i 0)
  let isGlobal := r.1
  let p := r.2
  if isGlobal then
    if p < v.newGlobals.length then
      some { newGlobals := swapAt v.newGlobals p i
             overlapGlobals := v.overlapGlobals ||| 1 <<< p
             overlapCnt := v.overlapCnt + 1
             modified := v.modified || (p != i) }
    else none
  else some v

/-- One pass of the loop `while (modified)`: the variables are reset and the
loop over the indices of `newGlobals` runs. -/
def overlapPass (c : Compiler) (layout : List Nat) (newGlobals : List Nat) : Option Overlap :=
  (List.range newGlobals.length).foldlM (c.overlapStep layout) ⟨newGlobals, 0, 0, false⟩

/-- The loop `while (modified)` of `Compiler::run`, with fuel: the variables
at the exit and the number of passes made; `none` when an index is out of
range or the fuel runs out. -/
def overlapLoop (c : Compiler) (layout : List Nat) : Nat → List Nat → Option (Overlap × Nat)
  | 0, _ => none
  | fuel + 1, newGlobals =>
    match c.overlapPass layout newGlobals with
    | none => none
    | some v =>
      if v.modified then
        (overlapLoop c layout fuel v.newGlobals).map (fun r => (r.1, r.2 + 1))
      else some (v, 1)

end Compiler

/-- Slot `j` of `newGlobals` is settled: it holds the qubit that the layout
holds at the global place `j`. -/
def Settled (A l : List Nat) (j : Nat) : Prop := j < A.length ∧ l[j]? = A[j]?

instance (A l : List Nat) (j : Nat) : Decidable (Settled A l j) := by
  unfold Settled; infer_instance

/-- The invariant of a pass of the loop `while (modified)` after the indices
below `k`, started from the list `l0`, where `A` is the global area of the
layout. -/
structure PassInv (A l0 : List Nat) (k : Nat) (v : Overlap) : Prop where
  perm : v.newGlobals.Perm l0
  keep : ∀ j, Settled A l0 j → Settled A v.newGlobals j
  gain : v.modified = true → ∃ j, Settled A v.newGlobals j ∧ ¬ Settled A l0 j
  same : v.modified = false → v.newGlobals = l0
  found : v.modified = false → ∀ j, j < k → l0.getD j 0 ∈ A → Settled A l0 j
  bits : v.modified = false →
    ∀ p, v.overlapGlobals.testBit p = true ↔ (p < k ∧ l0.getD p 0 ∈ A)
  cnt : v.modified = false →
    v.overlapCnt = ((List.range k).filter (fun j => decide (l0.getD j 0 ∈ A))).length

/-! # Theorems -/

/-! ## `bitCount` counts the set bits -/

theorem mem_bitsOf {x i : Nat} : i ∈ bitsOf x ↔ i < 64 ∧ x.testBit i = true := by
  simp [bitsOf]

theorem land_compl_eq_zero {w m : Nat} (h : m < 2 ^ w) : m &&& (2 ^ w - (m + 1)) = 0 := by
  apply Nat.eq_of_testBit_eq
  intro j
  rw [Nat.testBit_and, Nat.testBit_two_pow_sub_succ h]
  cases hm : m.testBit j <;> simp

/-- Clearing the lowest set bit, at any word width. -/
theorem clear_lowest (w : Nat) : ∀ i, 0 < i → i < 2 ^ w →
    ∃ k, k < w ∧ i.testBit k = true ∧
      ∀ j, (i - (i &&& (2 ^ w - i))).testBit j = (i.testBit j && decide (j ≠ k)) := by
  induction w with
  | zero => intro i h0 h1; simp at h1; omega
  | succ w ih =>
    intro i h0 h1
    have hpow : 2 ^ (w + 1) = 2 * 2 ^ w := by rw [pow_succ]; ring
    rcases Nat.mod_two_eq_zero_or_one i with hev | hodd
    · -- even
      obtain ⟨m, rfl⟩ : ∃ m, i = 2 * m := ⟨i / 2, by omega⟩
      have hm0 : 0 < m := by omega
      have hm1 : m < 2 ^ w := by omega
      obtain ⟨k, hk, hbit, hclr⟩ := ih m hm0 hm1
      have hn : 2 ^ (w + 1) - 2 * m = 2 * (2 ^ w - m) := by omega
      have hand : 2 * m &&& 2 * (2 ^ w - m) = 2 * (m &&& (2 ^ w - m)) := by
        have h1 : (2 * m &&& 2 * (2 ^ w - m)) / 2 = m &&& (2 ^ w - m) := by
          rw [Nat.and_div_two]; simp
        have h2 : (2 * m &&& 2 * (2 ^ w - m)) % 2 = 0 := by
          rcases Nat.mod_two_eq_zero_or_one (2 * m &&& 2 * (2 ^ w - m)) with h | h
          · exact h
          · rw [Nat.and_mod_two_eq_one] at h; omega
        omega
      refine ⟨k + 1, by omega, ?_, ?_⟩
      · rw [Nat.testBit_succ]; simpa using hbit
      · intro j
        rw [hn, hand]
        have hle : m &&& (2 ^ w - m) ≤ m := Nat.and_le_left
        have : 2 * m - 2 * (m &&& (2 ^ w - m)) = 2 * (m - (m &&& (2 ^ w - m))) := by omega
        rw [this]
        cases j with
        | zero => simp
        | succ j =>
          rw [Nat.testBit_succ, Nat.testBit_succ]
          simp only [Nat.mul_div_cancel_left _ (by decide : 0 < 2)]
          rw [hclr j]
          simp
    · -- odd
      obtain ⟨m, rfl⟩ : ∃ m, i = 2 * m + 1 := ⟨i / 2, by omega⟩
      have hm1 : m < 2 ^ w := by omega
      have hn : 2 ^ (w + 1) - (2 * m + 1) = 2 * (2 ^ w - (m + 1)) + 1 := by omega
      have hand : (2 * m + 1) &&& (2 * (2 ^ w - (m + 1)) + 1) = 1 := by
        have h1 : ((2 * m + 1) &&& (2 * (2 ^ w - (m + 1)) + 1)) / 2 = 0 := by
          rw [Nat.and_div_two]
          have e1 : (2 * m + 1) / 2 = m := by omega
          have e2 : (2 * (2 ^ w - (m + 1)) + 1) / 2 = 2 ^ w - (m + 1) := by omega
          rw [e1, e2, land_compl_eq_zero hm1]
        have h2 : ((2 * m + 1) &&& (2 * (2 ^ w - (m + 1)) + 1)) % 2 = 1 := by
          rw [Nat.and_mod_two_eq_one]; omega
        omega
      refine ⟨0, by omega, by rw [Nat.testBit_zero]; simpa using hodd, ?_⟩
      intro j
      rw [hn, hand]
      have : 2 * m + 1 - 1 = 2 * m := by omega
      rw [this]
      cases j with
      | zero => simp
      | succ j =>
        rw [Nat.testBit_succ, Nat.testBit_succ]
        have e1 : (2 * m + 1) / 2 = m := by omega
        simp [e1]

theorem lowbit_clear {i : Nat} (h0 : 0 < i) (h1 : i < 2 ^ 64) :
    ∃ k, k < 64 ∧ i.testBit k = true ∧
      ∀ j, (i - lowbit i).testBit j = (i.testBit j && decide (j ≠ k)) := by
  have hmod : (2 ^ 64 - i) % 2 ^ 64 = 2 ^ 64 - i := Nat.mod_eq_of_lt (by omega)
  unfold lowbit
  rw [hmod]
  exact clear_lowest 64 i h0 h1

theorem bitsOf_clear {i : Nat} (h0 : 0 < i) (h1 : i < 2 ^ 64) :
    (bitsOf (i - lowbit i)).card + 1 = (bitsOf i).card := by
  obtain ⟨k, hk, hbit, hclr⟩ := lowbit_clear h0 h1
  have : bitsOf (i - lowbit i) = (bitsOf i).erase k := by
    ext j
    simp only [mem_bitsOf, Finset.mem_erase, hclr j]
    simp
    tauto
  rw [this, Finset.card_erase_of_mem (mem_bitsOf.2 ⟨hk, hbit⟩)]
  have : 0 < (bitsOf i).card := Finset.card_pos.2 ⟨k, mem_bitsOf.2 ⟨hk, hbit⟩⟩
  omega

theorem bitCountLoop_eq : ∀ (fuel i ret : Nat), i < 2 ^ 64 → (bitsOf i).card ≤ fuel →
    bitCountLoop fuel i ret = ret + (bitsOf i).card := by
  intro fuel
  induction fuel with
  | zero =>
    intro i ret _ h
    have h0 : (bitsOf i).card = 0 := by omega
    rw [h0]; rfl
  | succ fuel ih =>
    intro i ret h1 hc
    unfold bitCountLoop
    by_cases h0 : i = 0
    · subst h0; simp [bitsOf]
    · rw [if_neg h0]
      have hcl := bitsOf_clear (Nat.pos_of_ne_zero h0) h1
      rw [ih (i - lowbit i) (ret + 1) (lt_of_le_of_lt (Nat.sub_le _ _) h1) (by omega)]
      omega

theorem bitsOf_card_le (x : Nat) : (bitsOf x).card ≤ 64 := by
  unfold bitsOf
  exact (Finset.card_filter_le _ _).trans (by simp)

/-- On a 64-bit word `bitCount` is the number of set bits. -/
theorem bitCount_eq_card {x : Nat} (h : x < 2 ^ 64) : bitCount x = (bitsOf x).card := by
  unfold bitCount
  rw [bitCountLoop_eq 64 x 0 h (bitsOf_card_le x)]
  simp

theorem bitCount_mono {a b : Nat} (ha : a < 2 ^ 64) (hb : b < 2 ^ 64)
    (h : ∀ i, a.testBit i = true → b.testBit i = true) : bitCount a ≤ bitCount b := by
  rw [bitCount_eq_card ha, bitCount_eq_card hb]
  apply Finset.card_le_card
  intro i
  simp only [mem_bitsOf]
  exact fun ⟨h1, h2⟩ => ⟨h1, h i h2⟩

theorem testBit_one_shiftLeft (i j : Nat) : (1 <<< i).testBit j = decide (i = j) := by
  rw [Nat.one_shiftLeft, Nat.testBit_two_pow]

theorem one_shiftLeft_lt {i n : Nat} (h : i < n) : 1 <<< i < 2 ^ n := by
  rw [Nat.one_shiftLeft]; exact Nat.pow_lt_pow_right (by decide) h

theorem bitCount_or_bit {x i : Nat} (hx : x < 2 ^ 64) (hi : i < 64) (hbit : x.testBit i = false) :
    bitCount (x ||| 1 <<< i) = bitCount x + 1 := by
  have hlt : x ||| 1 <<< i < 2 ^ 64 := Nat.or_lt_two_pow hx (one_shiftLeft_lt hi)
  rw [bitCount_eq_card hlt, bitCount_eq_card hx]
  have : bitsOf (x ||| 1 <<< i) = insert i (bitsOf x) := by
    ext j
    simp only [mem_bitsOf, Finset.mem_insert, Nat.testBit_or, testBit_one_shiftLeft]
    by_cases hij : i = j
    · subst hij; simp [hi]
    · simp [hij, Ne.symm hij]
  rw [this, Finset.card_insert_of_not_mem]
  simp [mem_bitsOf, hbit]

theorem bitCount_le_of_lt {x n : Nat} (hn : n ≤ 64) (hx : x < 2 ^ n) : bitCount x ≤ n := by
  have hx64 : x < 2 ^ 64 := lt_of_lt_of_le hx (Nat.pow_le_pow_right (by decide) hn)
  rw [bitCount_eq_card hx64]
  have : bitsOf x ⊆ Finset.range n := by
    intro i
    simp only [mem_bitsOf, Finset.mem_range]
    intro ⟨_, h2⟩
    by_contra hge
    have := Nat.testBit_lt_two_pow (lt_of_lt_of_le hx (Nat.pow_le_pow_right (by decide) (not_lt.1 hge)))
    simp [this] at h2
  exact (Finset.card_le_card this).trans (by simp)

/-! ## `getGroupOpt` returns a subsequence of the batch -/

theorem collect_sublist (sel : Nat) : ∀ (xs : List Nat) (id : Nat), (collect sel id xs).Sublist xs := by
  intro xs
  induction xs with
  | nil => intro id; simp [collect]
  | cons x rest ih =>
    intro id
    unfold collect
    split
    · exact (ih (id + 1)).cons₂ x
    · exact (ih (id + 1)).cons x

theorem numLive_lt {n : Nat} {b b' : Nat → Bool} (hmono : ∀ i, b i = true → b' i = true)
    {id : Nat} (hid : id < n) (h1 : b id = false) (h2 : b' id = true) :
    numLive n b' < numLive n b := by
  unfold numLive
  apply Finset.card_lt_card
  rw [Finset.ssubset_iff_of_subset]
  · exact ⟨id, by simp [hid, h1], by simp [h2]⟩
  · intro i
    simp only [Finset.mem_filter, Finset.mem_range]
    rintro ⟨hi, hb⟩
    refine ⟨hi, ?_⟩
    cases hbi : b i
    · rfl
    · rw [hmono i hbi] at hb; exact absurd hb (by simp)

theorem passBScan_inv (M : Nat) (ls : Int) (related cur : Nat → Nat) (sr : Nat)
    (L : List Nat) (b0 : Nat → Bool) :
    ∀ (qs : List Nat) (init : Scan), (∀ q ∈ qs, q ∈ L) → ScanInv M ls related cur sr L b0 init →
      ScanInv M ls related cur sr L b0 (passBScan M ls related cur sr qs init) := by
  intro qs
  induction qs with
  | nil => intro init _ h; simpa [passBScan] using h
  | cons q rest ih =>
    intro init hL h
    have hstep : passBScan M ls related cur sr (q :: rest) init =
        passBScan M ls related cur sr rest (scanStep M ls related cur sr init q) := rfl
    rw [hstep]
    apply ih _ (fun x hx => hL x (List.mem_cons_of_mem _ hx))
    unfold scanStep
    simp only
    by_cases hc : (!(init.blocked q) && decide (bitsetCount M (cur q) > init.mx)) = true
    · rw [if_pos hc]
      simp only [Bool.and_eq_true, Bool.not_eq_true', decide_eq_true_eq] at hc
      by_cases hfit : (bitCount (sr ||| related q) : Int) ≤ ls
      · rw [if_pos hfit]
        exact ⟨h.mono, fun _ => ⟨hL q (List.mem_cons_self _ _), hc.1, hfit, rfl⟩⟩
      · rw [if_neg hfit]
        refine ⟨fun i hi => ?_, fun hmx => ?_⟩
        · simp only [upd]; split
          · rfl
          · exact h.mono i hi
        · obtain ⟨h1, h2, h3, h4⟩ := h.chosen hmx
          refine ⟨h1, ?_, h3, h4⟩
          simp only [upd]
          rw [if_neg]
          · exact h2
          · intro heq
            have : bitsetCount M (cur q) > init.mx := hc.2
            rw [h4, heq] at this
            exact absurd this (lt_irrefl _)
    · rw [if_neg hc]; exact h

theorem passBAbsorb_blocked_mono (related : Nat → Nat) (id : Nat) :
    ∀ (qs : List Nat) (init : PassB) (i : Nat), init.blocked i = true →
      (passBAbsorb related id qs init).blocked i = true := by
  intro qs
  induction qs with
  | nil => intro init i h; simpa [passBAbsorb] using h
  | cons q rest ih =>
    intro init i h
    simp only [passBAbsorb, List.foldl_cons]
    apply ih
    unfold absorbStep
    split
    · split
      · simp only [upd]; split
        · rfl
        · exact h
      · exact h
    · exact h

/-- Pass B reaches its `break` when the fuel exceeds the number of qubits that
are not blocked. -/
theorem passB_isSome (n M : Nat) (ls : Int) (related : Nat → Nat) :
    ∀ (fuel : Nat) (s : PassB), numLive n s.blocked < fuel →
      ∃ r, passB n M ls related fuel s = some r := by
  intro fuel
  induction fuel with
  | zero => intro s h; omega
  | succ fuel ih =>
    intro s h
    unfold passB
    have hinv := passBScan_inv M ls related s.cur s.selectedRelated (List.range n) s.blocked
      (List.range n) ⟨0, 0, s.blocked⟩ (fun _ h => h) ⟨fun _ h => h, fun h => absurd rfl h⟩
    simp only
    generalize passBScan M ls related s.cur s.selectedRelated (List.range n)
      ⟨0, 0, s.blocked⟩ = sc at hinv ⊢
    by_cases hmx : (sc.mx == 0) = true
    · rw [if_pos hmx]; exact ⟨_, rfl⟩
    · rw [if_neg hmx]
      apply ih
      have hne : sc.mx ≠ 0 := by simpa using hmx
      obtain ⟨h1, h2, _, _⟩ := hinv.chosen hne
      refine Nat.lt_of_lt_of_le (@numLive_lt n s.blocked _ ?_ sc.id ?_ ?_ ?_)
        (Nat.le_of_lt_succ h)
      · intro i hi
        apply passBAbsorb_blocked_mono
        simp only [upd]; split
        · rfl
        · exact hinv.mono i hi
      · exact List.mem_range.1 h1
      · cases hb : s.blocked sc.id
        · rfl
        · rw [hinv.mono _ hb] at h2; exact absurd h2 (by simp)
      · apply passBAbsorb_blocked_mono
        simp [upd]

theorem numLive_le (n : Nat) (b : Nat → Bool) : numLive n b ≤ n := by
  unfold numLive
  exact (Finset.card_filter_le _ _).trans (by simp)

theorem selectedB_isSome (c : OneLayerCompiler) (full : Nat) (related : Nat → Nat) (eg : Bool)
    (ls : Int) (lq : Nat) : ∃ b, c.selectedB full related eg ls lq = some b := by
  unfold OneLayerCompiler.selectedB
  apply passB_isSome
  have := numLive_le c.numQubits (fun _ => false)
  simp only
  omega

/-- The function `getGroupOpt` returns: the result is the batch positions picked by some
bitset `selected`. -/
theorem getGroupOpt_eq_collect (c : OneLayerCompiler) (full : Nat) (related : Nat → Nat) (eg : Bool)
    (ls : Int) (lq : Nat) :
    ∃ sel, c.getGroupOpt full related eg ls lq = some (collect sel 0 c.gateIDs) := by
  obtain ⟨b, hb⟩ := selectedB_isSome c full related eg ls lq
  unfold OneLayerCompiler.getGroupOpt
  rw [hb]
  simp only
  split
  · exact ⟨_, rfl⟩
  · exact ⟨_, rfl⟩

theorem addGates_gates (gs : List Gate) (lq : Nat) (eg : Bool) :
    ∀ gg : GateGroup, (gg.addGates gs lq eg).gates = gg.gates ++ gs := by
  induction gs with
  | nil => intro gg; simp [GateGroup.addGates]
  | cons g rest ih =>
    intro gg
    have : gg.addGates (g :: rest) lq eg = (gg.addGate g lq eg).addGates rest lq eg := rfl
    rw [this, ih]
    simp [GateGroup.addGate]

/-- C4. Order preservation: every call of `getGroupOpt` returns, and the
returned list of gate indices is strictly increasing (hence free of
duplicates) and is a subsequence of the first `min(|remain|, MAX_GATES)`
elements of `remain`; the gate group built from it by `addGate` holds exactly
the gates at these indices, in this order. -/
theorem getGroupOpt_order_preservation (c : OneLayerCompiler) (full : Nat) (related : Nat → Nat)
    (enableGlobal : Bool) (localSize : Int) (localQubits : Nat)
    (hsorted : c.remain.Sorted (· < ·)) :
    ∃ ret, c.getGroupOpt full related enableGlobal localSize localQubits = some ret ∧
      ret.Sorted (· < ·) ∧ ret.Nodup ∧
      ret.Sublist (c.remain.take (min c.remain.length c.MAX_GATES)) ∧
      (GateGroup.empty.addGates (ret.map (fun x => c.remainGates.getD x default))
        localQubits enableGlobal).gates = ret.map (fun x => c.remainGates.getD x default) := by
  obtain ⟨sel, hsel⟩ := getGroupOpt_eq_collect c full related enableGlobal localSize localQubits
  have hsub : (collect sel 0 c.gateIDs).Sublist (c.remain.take c.MAX_GATES) :=
    collect_sublist sel _ 0
  have htake : c.remain.take (min c.remain.length c.MAX_GATES) = c.remain.take c.MAX_GATES := by
    rcases Nat.le_total c.remain.length c.MAX_GATES with h | h
    · rw [Nat.min_eq_left h, List.take_of_length_le h, List.take_of_length_le (le_refl _)]
    · rw [Nat.min_eq_right h]
  have hs : (collect sel 0 c.gateIDs).Sorted (· < ·) :=
    (hsorted.sublist (List.take_sublist _ _)).sublist hsub
  refine ⟨_, hsel, hs, hs.nodup, ?_, ?_⟩
  · rw [htake]; exact hsub
  · rw [addGates_gates]; rfl

theorem getGroupOpt_order_preservation_witness :
    ∃ ret, (⟨2048, 3, [Gate.single false 0, Gate.control false 0 1, Gate.single true 2], [0, 1, 2]⟩ :
        OneLayerCompiler).getGroupOpt 0 (fun _ => 0) true 2 minusOne = some ret ∧
      ret.Sorted (· < ·) ∧ ret.Nodup ∧
      ret.Sublist (([0, 1, 2] : List Nat).take (min 3 2048)) ∧
      (GateGroup.empty.addGates (ret.map (fun x =>
          ([Gate.single false 0, Gate.control false 0 1, Gate.single true 2] : List Gate).getD x default))
        minusOne true).gates = ret.map (fun x =>
          ([Gate.single false 0, Gate.control false 0 1, Gate.single true 2] : List Gate).getD x default) :=
  getGroupOpt_order_preservation
    ⟨2048, 3, [Gate.single false 0, Gate.control false 0 1, Gate.single true 2], [0, 1, 2]⟩
    0 (fun _ => 0) true 2 minusOne (by decide)

/-! ## Coverage of `SimpleCompiler::run` -/

theorem step_spec (sc : SimpleCompiler) (c : OneLayerCompiler) :
    ∃ idx, idx.Sublist (c.remain.take c.MAX_GATES) ∧
      sc.step c = some (idx,
        GateGroup.empty.addGates (idx.map (fun x => c.remainGates.getD x default))
          sc.localQubits sc.enableGlobal,
        c.removeGatesOpt idx) := by
  obtain ⟨sel, hsel⟩ := getGroupOpt_eq_collect c (SimpleCompiler.initFull sc.numQubits sc.whiteList)
    (fun _ => sc.required) sc.enableGlobal sc.localSize sc.localQubits
  refine ⟨_, collect_sublist sel _ 0, ?_⟩
  unfold SimpleCompiler.step
  rw [hsel]
  rfl

theorem removeGatesOpt_remain (c : OneLayerCompiler) (idx : List Nat) :
    (c.removeGatesOpt idx).remain = c.remain.diff idx := by
  simp [OneLayerCompiler.removeGatesOpt, List.diff_eq_foldl]

theorem perm_append_diff_of_sublist {idx remain : List Nat} (h : idx.Sublist remain) :
    (idx ++ remain.diff idx).Perm remain :=
  List.subperm_append_diff_self_of_count_le (List.subperm_ext_iff.1 h.subperm)

/-- The invariant of the loop of `SimpleCompiler::run`. -/
theorem loop_coverage (sc : SimpleCompiler) (hw : sc.whiteList = 0) (input : List Gate) :
    ∀ (fuel : Nat) (c : OneLayerCompiler) (lg : LocalGroup) (idxs : List (List Nat))
      (lg' : LocalGroup) (idxs' : List (List Nat)),
      (idxs.flatten ++ c.remain).Perm (List.range input.length) →
      lg.fullGroups.map (fun g => g.gates) = gatesAt input idxs →
      ((c.remainGates = [] ∧ c.remain = []) ∨ c.remainGates = input) →
      SimpleCompiler.loop sc fuel c lg idxs = some (lg', idxs') →
      idxs'.flatten.Perm (List.range input.length) ∧
        lg'.fullGroups.map (fun g => g.gates) = gatesAt input idxs' := by
  intro fuel
  induction fuel with
  | zero => intro c lg idxs lg' idxs' _ _ _ h; simp [SimpleCompiler.loop] at h
  | succ fuel ih =>
    intro c lg idxs lg' idxs' hperm hgates hrg h
    unfold SimpleCompiler.loop at h
    by_cases hlen : c.remainGates.length > 0
    · rw [if_pos hlen] at h
      have hin : c.remainGates = input := by
        rcases hrg with ⟨h1, _⟩ | h1
        · rw [h1] at hlen; simp at hlen
        · exact h1
      obtain ⟨idx, hsub, hstep⟩ := step_spec sc c
      rw [hstep] at h
      simp only [hw, bne_self_eq_false, Bool.false_eq_true, if_false] at h
      apply ih _ _ _ _ _ ?_ ?_ ?_ h
      · rw [removeGatesOpt_remain, List.flatten_append, List.append_assoc]
        simp only [List.flatten_cons, List.flatten_nil, List.append_nil]
        exact ((perm_append_diff_of_sublist (hsub.trans (List.take_sublist _ _))).append_left _).trans hperm
      · simp only [List.map_append, List.map_cons, List.map_nil, hgates, gatesAt, addGates_gates,
          GateGroup.empty, List.nil_append, hin]
      · simp only [OneLayerCompiler.removeGatesOpt]
        by_cases he : (List.foldl (fun r x => r.erase x) c.remain idx).isEmpty = true
        · left; simp [he]; simpa using he
        · right; simp [he, hin]
    · rw [if_neg hlen] at h
      simp only [Option.some.injEq, Prod.mk.injEq] at h
      obtain ⟨rfl, rfl⟩ := h
      refine ⟨?_, hgates⟩
      have hnil : c.remain = [] := by
        rcases hrg with ⟨_, h2⟩ | h1
        · exact h2
        · have : input = [] := by
            rw [h1] at hlen
            exact List.length_eq_zero.1 (by omega)
          rw [this] at hperm
          simp at hperm
          exact hperm.2
      simpa [hnil] using hperm

theorem getD_range_map (input : List Gate) :
    (List.range input.length).map (fun x => input.getD x default) = input := by
  apply List.ext_getElem
  · simp
  · intro i h1 h2
    simp at h1
    simp [List.getD_eq_getElem?_getD, List.getElem?_eq_getElem h1]

/-- C2. Coverage: whenever `SimpleCompiler::run` with `whiteList = 0` returns,
the index lists of the returned groups, concatenated, are a permutation of the
positions `0 .. |gates| - 1` of the input list (every input gate is in exactly
one group, none is dropped and none is duplicated), every group holds the
gates at its indices, and so the concatenation of the groups' gate lists is a
permutation of the input list. -/
theorem run_coverage (sc : SimpleCompiler) (fuel : Nat) (lg : LocalGroup)
    (idxs : List (List Nat)) (hw : sc.whiteList = 0)
    (hrun : sc.runIdx fuel = some (lg, idxs)) :
    sc.run fuel = some lg ∧
      idxs.flatten.Perm (List.range sc.inputGates.length) ∧
      lg.fullGroups.map (fun g => g.gates) = gatesAt sc.inputGates idxs ∧
      (lg.fullGroups.map (fun g => g.gates)).flatten.Perm sc.inputGates := by
  have hrun' : sc.run fuel = some lg := by simp [SimpleCompiler.run, hrun]
  have key : idxs.flatten.Perm (List.range sc.inputGates.length) ∧
      lg.fullGroups.map (fun g => g.gates) = gatesAt sc.inputGates idxs := by
    unfold SimpleCompiler.runIdx at hrun
    by_cases hd : (sc.localSize == (sc.numQubits : Int)) = true
    · rw [if_pos hd] at hrun
      simp only [Option.some.injEq, Prod.mk.injEq] at hrun
      obtain ⟨rfl, rfl⟩ := hrun
      simp only [gatesAt, addGates_gates, GateGroup.empty, getD_range_map, List.flatten_cons,
        List.flatten_nil, List.append_nil, List.map_cons, List.map_nil, List.nil_append]
      exact ⟨List.Perm.refl _, trivial⟩
    · rw [if_neg hd] at hrun
      exact loop_coverage sc hw sc.inputGates fuel _ _ _ _ _ (by simp) (by simp [gatesAt])
        (Or.inr rfl) hrun
  refine ⟨hrun', key.1, key.2, ?_⟩
  rw [key.2]
  have : (gatesAt sc.inputGates idxs).flatten =
      idxs.flatten.map (fun x => sc.inputGates.getD x default) := by
    simp [gatesAt, List.map_flatten]
  rw [this]
  have := key.1.map (fun x => sc.inputGates.getD x default)
  rwa [getD_range_map] at this

theorem run_coverage_witness :
    (⟨5, 4, minusOne, [Gate.single false 0, Gate.single false 1, Gate.single false 2,
        Gate.single false 3, Gate.control false 3 4, Gate.single false 3], true, 0, 0⟩ :
      SimpleCompiler).run 3 = some ⟨[⟨[Gate.single false 0, Gate.single false 1,
        Gate.single false 3, Gate.control false 3 4, Gate.single false 3], 27⟩,
        ⟨[Gate.single false 2], 4⟩], 31⟩ ∧
    ([[0, 1, 3, 4, 5], [2]] : List (List Nat)).flatten.Perm (List.range 6) :=
  have h := run_coverage
    ⟨5, 4, minusOne, [Gate.single false 0, Gate.single false 1, Gate.single false 2,
        Gate.single false 3, Gate.control false 3 4, Gate.single false 3], true, 0, 0⟩
    3 ⟨[⟨[Gate.single false 0, Gate.single false 1,
        Gate.single false 3, Gate.control false 3 4, Gate.single false 3], 27⟩,
        ⟨[Gate.single false 2], 4⟩], 31⟩ [[0, 1, 3, 4, 5], [2]] rfl (by decide)
  ⟨h.1, h.2.1⟩

/-! ## The degenerate one-pass case -/

theorem addGates_relatedQubits (gs : List Gate) (lq : Nat) (eg : Bool) :
    ∀ gg : GateGroup, (gg.addGates gs lq eg).relatedQubits =
      gs.foldl (fun m g => GateGroup.newRelated m g lq eg) gg.relatedQubits := by
  induction gs with
  | nil => intro gg; simp [GateGroup.addGates]
  | cons g rest ih =>
    intro gg
    have : gg.addGates (g :: rest) lq eg = (gg.addGate g lq eg).addGates rest lq eg := rfl
    rw [this, ih]
    simp [GateGroup.addGate]

/-- C8. Degenerate one-pass case: when `localSize == numQubits`,
`SimpleCompiler::run` returns (with any fuel) exactly one full group, which
holds all input gates in input order and whose `relatedQubits` is the mask
that `addGate` accumulates over them from `0`; the returned `LocalGroup` has
the same mask. -/
theorem run_degenerate (sc : SimpleCompiler) (fuel : Nat)
    (h : sc.localSize = (sc.numQubits : Int)) :
    sc.run fuel = some
      ⟨[⟨sc.inputGates,
          sc.inputGates.foldl (fun m g => GateGroup.newRelated m g sc.localQubits sc.enableGlobal) 0⟩],
        sc.inputGates.foldl (fun m g => GateGroup.newRelated m g sc.localQubits sc.enableGlobal) 0⟩ := by
  have hg : GateGroup.empty.addGates sc.inputGates sc.localQubits sc.enableGlobal =
      ⟨sc.inputGates,
        sc.inputGates.foldl (fun m g => GateGroup.newRelated m g sc.localQubits sc.enableGlobal) 0⟩ := by
    have h1 := addGates_gates sc.inputGates sc.localQubits sc.enableGlobal GateGroup.empty
    have h2 := addGates_relatedQubits sc.inputGates sc.localQubits sc.enableGlobal GateGroup.empty
    cases hgg : GateGroup.empty.addGates sc.inputGates sc.localQubits sc.enableGlobal with
    | mk gs m =>
      rw [hgg] at h1 h2
      simp only [GateGroup.empty, List.nil_append] at h1 h2
      rw [h1, h2]
  simp only [SimpleCompiler.run, SimpleCompiler.runIdx, h, beq_self_eq_true, if_true, hg,
    Option.map_some']

/-- The two scenarios of the degenerate case: `N = 4`, `[H(0), H(1), CX(0,1)]`
gives one group of three gates with mask `0b0011`, and `N = 3`,
`[Rz(0), Rz(1), H(0)]` gives one group of three gates. -/
theorem run_degenerate_witness :
    (⟨4, 4, minusOne, [Gate.single false 0, Gate.single false 1, Gate.control false 0 1],
        true, 0, 0⟩ : SimpleCompiler).run 0 =
      some ⟨[⟨[Gate.single false 0, Gate.single false 1, Gate.control false 0 1], 0b0011⟩], 0b0011⟩ ∧
    (⟨3, 3, minusOne, [Gate.single true 0, Gate.single true 1, Gate.single false 0],
        true, 0, 0⟩ : SimpleCompiler).run 0 =
      some ⟨[⟨[Gate.single true 0, Gate.single true 1, Gate.single false 0], 0b011⟩], 0b011⟩ :=
  ⟨run_degenerate ⟨4, 4, minusOne, [Gate.single false 0, Gate.single false 1,
      Gate.control false 0 1], true, 0, 0⟩ 0 rfl,
   run_degenerate ⟨3, 3, minusOne, [Gate.single true 0, Gate.single true 1,
      Gate.single false 0], true, 0, 0⟩ 0 rfl⟩

/-! ## `fillLocals` -/

theorem testBit_foldl_or (qs : List Nat) : ∀ (m j : Nat),
    (qs.foldl (fun m q => m ||| 1 <<< q) m).testBit j = (m.testBit j || decide (j ∈ qs)) := by
  induction qs with
  | nil => intro m j; simp
  | cons q rest ih =>
    intro m j
    rw [List.foldl_cons, ih, Nat.testBit_or, testBit_one_shiftLeft]
    by_cases h : q = j
    · subst h; simp
    · have h' : ¬ j = q := fun e => h e.symm
      simp [h, h']

theorem testBit_maskOf (qs : List Nat) (j : Nat) :
    (Gate.maskOf qs).testBit j = decide (j ∈ qs) := by
  unfold Gate.maskOf
  rw [testBit_foldl_or]
  simp

theorem maskOf_lt {qs : List Nat} {n : Nat} (h : ∀ q ∈ qs, q < n) : Gate.maskOf qs < 2 ^ n := by
  apply Nat.lt_pow_two_of_testBit
  intro i hi
  rw [testBit_maskOf]
  simp only [decide_eq_false_iff_not]
  intro hmem
  exact absurd (h i hmem) (by omega)

theorem fillLoop_spec (target : Int) : ∀ (fuel i related : Nat) (numRel : Int) (m : Nat),
    target - numRel = (m : Int) + 1 →
    m + 1 ≤ ((List.range' i fuel).filter (fun j => !(related.testBit j))).length →
    fillLoop target fuel i related numRel = some (related |||
      Gate.maskOf (((List.range' i fuel).filter (fun j => !(related.testBit j))).take (m + 1))) := by
  intro fuel
  induction fuel with
  | zero => intro i related numRel m _ h; simp at h
  | succ fuel ih =>
    intro i related numRel m hm hlen
    have hfilter : ∀ (r : Nat), (∀ j, i < j → r.testBit j = related.testBit j) →
        (List.range' (i + 1) fuel).filter (fun j => !(r.testBit j)) =
        (List.range' (i + 1) fuel).filter (fun j => !(related.testBit j)) := by
      intro r hr
      apply List.filter_congr
      intro j hj
      rw [List.mem_range'_1] at hj
      rw [hr j (by omega)]
    unfold fillLoop
    rw [List.range'_succ] at hlen ⊢
    by_cases hbit : related.testBit i = true
    · have hf : (!(related.testBit i)) = false := by simp [hbit]
      rw [List.filter_cons_of_neg (by simp [hbit])] at hlen ⊢
      simp only [hf, Bool.false_eq_true, if_false]
      exact ih (i + 1) related numRel m hm hlen
    · have hbit' : related.testBit i = false := by simpa using hbit
      have hf : (!(related.testBit i)) = true := by simp [hbit']
      rw [List.filter_cons_of_pos (by simp [hbit'])] at hlen ⊢
      simp only [hf, if_true]
      have hr : ∀ j, i < j → (related ||| 1 <<< i).testBit j = related.testBit j := by
        intro j hj
        rw [Nat.testBit_or, testBit_one_shiftLeft]
        have : ¬ i = j := by omega
        simp [this]
      cases m with
      | zero =>
        have : numRel + 1 = target := by omega
        simp only [this, beq_self_eq_true, if_true, zero_add, List.take_succ_cons, List.take_zero]
        have hm1 : Gate.maskOf [i] = 1 <<< i := by simp [Gate.maskOf]
        rw [hm1]
      | succ m =>
        have hne : ¬ (numRel + 1 == target) = true := by
          simp only [beq_iff_eq]; omega
        rw [if_neg hne]
        simp only [List.length_cons] at hlen
        rw [ih (i + 1) (related ||| 1 <<< i) (numRel + 1) m (by push_cast at hm ⊢; omega)
          (by rw [hfilter _ hr]; omega), hfilter _ hr]
        congr 1
        apply Nat.eq_of_testBit_eq
        intro j
        simp only [Nat.testBit_or, testBit_maskOf, testBit_one_shiftLeft, List.take_succ_cons,
          List.mem_cons]
        by_cases hij : i = j
        · subst hij; simp
        · have : ¬ j = i := fun e => hij e.symm
          simp [hij, this]

theorem bitsOf_eq_toFinset {x n : Nat} (hn : n ≤ 64) (hx : x < 2 ^ n) :
    bitsOf x = ((List.range n).filter (fun i => x.testBit i)).toFinset := by
  ext i
  simp only [mem_bitsOf, List.mem_toFinset, List.mem_filter, List.mem_range]
  constructor
  · rintro ⟨_, h2⟩
    refine ⟨?_, h2⟩
    by_contra hge
    have := Nat.testBit_lt_two_pow (lt_of_lt_of_le hx (Nat.pow_le_pow_right (by decide) (not_lt.1 hge)))
    rw [this] at h2; exact absurd h2 (by simp)
  · rintro ⟨h1, h2⟩
    exact ⟨by omega, h2⟩

theorem length_unset {x n : Nat} (hn : n ≤ 64) (hx : x < 2 ^ n) :
    ((List.range n).filter (fun i => !(x.testBit i))).length + bitCount x = n := by
  have hx64 : x < 2 ^ 64 := lt_of_lt_of_le hx (Nat.pow_le_pow_right (by decide) hn)
  rw [bitCount_eq_card hx64, bitsOf_eq_toFinset hn hx,
    List.toFinset_card_of_nodup ((List.nodup_range n).filter _)]
  have := List.length_eq_length_filter_add (l := List.range n) (fun i => x.testBit i)
  simp only [List.length_range] at this
  omega

theorem bitCount_or_maskOf : ∀ (L : List Nat) (x : Nat), x < 2 ^ 64 → L.Nodup →
    (∀ q ∈ L, q < 64 ∧ x.testBit q = false) →
    (x ||| Gate.maskOf L) < 2 ^ 64 ∧ bitCount (x ||| Gate.maskOf L) = bitCount x + L.length := by
  intro L
  induction L with
  | nil =>
    intro x hx _ _
    have : Gate.maskOf [] = 0 := rfl
    rw [this, Nat.or_zero]
    exact ⟨hx, rfl⟩
  | cons q rest ih =>
    intro x hx hnd hq
    have hcons : x ||| Gate.maskOf (q :: rest) = (x ||| 1 <<< q) ||| Gate.maskOf rest := by
      apply Nat.eq_of_testBit_eq
      intro j
      simp only [Nat.testBit_or, testBit_maskOf, testBit_one_shiftLeft, List.mem_cons]
      by_cases hij : q = j
      · subst hij; simp
      · have : ¬ j = q := fun e => hij e.symm
        simp [hij, this]
    have hq1 := hq q (List.mem_cons_self _ _)
    have hx' : x ||| 1 <<< q < 2 ^ 64 := Nat.or_lt_two_pow hx (one_shiftLeft_lt hq1.1)
    rw [List.nodup_cons] at hnd
    have := ih (x ||| 1 <<< q) hx' hnd.2 (by
      intro r hr
      refine ⟨(hq r (List.mem_cons_of_mem _ hr)).1, ?_⟩
      rw [Nat.testBit_or, testBit_one_shiftLeft, (hq r (List.mem_cons_of_mem _ hr)).2]
      have : ¬ q = r := by rintro rfl; exact hnd.1 hr
      simp [this])
    rw [hcons]
    refine ⟨this.1, ?_⟩
    rw [this.2, bitCount_or_bit hx hq1.1 hq1.2]
    simp only [List.length_cons]
    omega

/-- The filled mask has exactly `n - g` bits, contains the old mask and stays
below `2 ^ n`. -/
theorem filledMask_spec {n g mask : Nat} (hn : n ≤ 64) (hsub : mask < 2 ^ n)
    (hk : (bitCount mask : Int) ≤ (n : Int) - g) :
    (bitCount (filledMask n g mask) : Int) = (n : Int) - g ∧
    (∀ i, mask.testBit i = true → (filledMask n g mask).testBit i = true) ∧
    filledMask n g mask < 2 ^ n ∧
    ((bitCount mask : Int) = (n : Int) - g → filledMask n g mask = mask) := by
  have hx64 : mask < 2 ^ 64 := lt_of_lt_of_le hsub (Nat.pow_le_pow_right (by decide) hn)
  have hlen := length_unset hn hsub
  have hL : ∀ q ∈ lowestUnused n mask (n - g - bitCount mask),
      q < n ∧ mask.testBit q = false := by
    intro q hq
    have := List.mem_of_mem_take hq
    simp only [List.mem_filter, List.mem_range, Bool.not_eq_true'] at this
    exact this
  have hnd : (lowestUnused n mask (n - g - bitCount mask)).Nodup :=
    (List.take_sublist _ _).nodup ((List.nodup_range n).filter _)
  have hcount := bitCount_or_maskOf _ mask hx64 hnd (fun q hq => ⟨by have := (hL q hq).1; omega, (hL q hq).2⟩)
  have hlen2 : (lowestUnused n mask (n - g - bitCount mask)).length = n - g - bitCount mask := by
    unfold lowestUnused
    rw [List.length_take]
    omega
  refine ⟨?_, ?_, ?_, ?_⟩
  · unfold filledMask
    rw [hcount.2, hlen2]
    omega
  · intro i hi
    unfold filledMask
    rw [Nat.testBit_or, hi]; rfl
  · unfold filledMask
    exact Nat.or_lt_two_pow hsub (maskOf_lt (fun q hq => (hL q hq).1))
  · intro heq
    have h0 : n - g - bitCount mask = 0 := by omega
    unfold filledMask lowestUnused
    rw [h0]
    simp [Gate.maskOf]

theorem fillGroup_spec (c : Compiler) (gg : GateGroup) (hn : c.numQubits ≤ 64)
    (hsub : gg.relatedQubits < 2 ^ c.numQubits)
    (hk : (bitCount gg.relatedQubits : Int) ≤ (c.numQubits : Int) - c.globalBit) :
    c.fillGroup gg = some ⟨gg.gates, filledMask c.numQubits c.globalBit gg.relatedQubits⟩ := by
  unfold Compiler.fillGroup
  simp only [hk, if_true]
  by_cases hlt : (bitCount gg.relatedQubits : Int) < (c.numQubits : Int) - c.globalBit
  · rw [if_pos hlt]
    obtain ⟨m, hm⟩ : ∃ m : Nat, (c.numQubits : Int) - c.globalBit - bitCount gg.relatedQubits
        = (m : Int) + 1 :=
      ⟨((c.numQubits : Int) - c.globalBit - bitCount gg.relatedQubits - 1).toNat, by omega⟩
    have hlen := length_unset hn hsub
    have hsplit : List.range' 0 64 =
        List.range c.numQubits ++ List.range' c.numQubits (64 - c.numQubits) := by
      rw [List.range_eq_range']
      have := List.range'_append_1 0 c.numQubits (64 - c.numQubits)
      rw [Nat.zero_add] at this
      rw [this]
      congr 1; omega
    have hspec := fillLoop_spec ((c.numQubits : Int) - c.globalBit) 64 0 gg.relatedQubits
      (bitCount gg.relatedQubits) m hm (by
        rw [hsplit, List.filter_append, List.length_append]; omega)
    rw [hspec, hsplit, List.filter_append, List.take_append_of_le_length (by omega)]
    have hm' : m + 1 = c.numQubits - c.globalBit - bitCount gg.relatedQubits := by omega
    simp only [Option.map_some', filledMask, lowestUnused, hm']
  · rw [if_neg hlt]
    have heq : (bitCount gg.relatedQubits : Int) = (c.numQubits : Int) - c.globalBit := by omega
    rw [(filledMask_spec hn hsub hk).2.2.2 heq]

theorem fillGroups_spec (c : Compiler) (hn : c.numQubits ≤ 64) : ∀ (gs : List GateGroup),
    (∀ gg ∈ gs, gg.relatedQubits < 2 ^ c.numQubits ∧
      (bitCount gg.relatedQubits : Int) ≤ (c.numQubits : Int) - c.globalBit) →
    c.fillGroups gs = some (gs.map (fun gg =>
      ⟨gg.gates, filledMask c.numQubits c.globalBit gg.relatedQubits⟩)) := by
  intro gs
  induction gs with
  | nil => intro _; rfl
  | cons gg rest ih =>
    intro h
    unfold Compiler.fillGroups
    rw [fillGroup_spec c gg hn (h gg (List.mem_cons_self _ _)).1 (h gg (List.mem_cons_self _ _)).2,
      ih (fun g hg => h g (List.mem_cons_of_mem _ hg))]
    rfl

/-- C6. `fillLocals`: when every full group's `relatedQubits` is a subset of
`[0, N)` with at most `N - G` bits, `fillLocals` succeeds; it leaves the gate
lists and the local group's own mask untouched, and the new mask of each group
is the old mask together with the `N - G - k` lowest-indexed qubits not in it
(`k` the old number of bits).  The new mask has exactly `N - G` bits, contains
the old mask, stays within `[0, N)`, and equals the old mask when that already
has `N - G` bits. -/
theorem fillLocals_spec (c : Compiler) (lg : LocalGroup) (hn : c.numQubits ≤ 64)
    (h : ∀ gg ∈ lg.fullGroups, gg.relatedQubits < 2 ^ c.numQubits ∧
      (bitCount gg.relatedQubits : Int) ≤ (c.numQubits : Int) - c.globalBit) :
    c.fillLocals lg = some ⟨lg.fullGroups.map (fun gg =>
        ⟨gg.gates, gg.relatedQubits ||| Gate.maskOf (lowestUnused c.numQubits gg.relatedQubits
          (c.numQubits - c.globalBit - bitCount gg.relatedQubits))⟩), lg.relatedQubits⟩ ∧
    ∀ gg ∈ lg.fullGroups,
      (bitCount (filledMask c.numQubits c.globalBit gg.relatedQubits) : Int)
        = (c.numQubits : Int) - c.globalBit ∧
      (∀ i, gg.relatedQubits.testBit i = true →
        (filledMask c.numQubits c.globalBit gg.relatedQubits).testBit i = true) ∧
      filledMask c.numQubits c.globalBit gg.relatedQubits < 2 ^ c.numQubits ∧
      ((bitCount gg.relatedQubits : Int) = (c.numQubits : Int) - c.globalBit →
        filledMask c.numQubits c.globalBit gg.relatedQubits = gg.relatedQubits) := by
  refine ⟨?_, fun gg hgg => filledMask_spec hn (h gg hgg).1 (h gg hgg).2⟩
  unfold Compiler.fillLocals
  rw [fillGroups_spec c hn lg.fullGroups h]
  rfl

theorem fillLocals_spec_witness :
    (⟨5, [], 1⟩ : Compiler).fillLocals ⟨[⟨[Gate.single false 3], 0b01000⟩,
        ⟨[Gate.control false 0 1], 0b10111⟩], 0b11111⟩ =
      some ⟨[⟨[Gate.single false 3], 0b01111⟩, ⟨[Gate.control false 0 1], 0b10111⟩], 0b11111⟩ :=
  (fillLocals_spec ⟨5, [], 1⟩ ⟨[⟨[Gate.single false 3], 0b01000⟩,
        ⟨[Gate.control false 0 1], 0b10111⟩], 0b11111⟩ (by decide) (by decide)).1

theorem fillLoop_bitCount (target : Int) : ∀ (fuel i related : Nat) (numRel : Int) (r : Nat),
    i + fuel ≤ 64 → related < 2 ^ 64 →
    fillLoop target fuel i related numRel = some r →
    r < 2 ^ 64 ∧ (bitCount r : Int) - bitCount related = target - numRel := by
  intro fuel
  induction fuel with
  | zero => intro i related numRel r _ _ h; simp [fillLoop] at h
  | succ fuel ih =>
    intro i related numRel r hi hrel h
    unfold fillLoop at h
    by_cases hbit : related.testBit i = true
    · simp only [hbit, Bool.not_true, Bool.false_eq_true, if_false] at h
      exact ih (i + 1) related numRel r (by omega) hrel h
    · have hbit' : related.testBit i = false := by simpa using hbit
      simp only [hbit', Bool.not_false, if_true] at h
      have hlt : related ||| 1 <<< i < 2 ^ 64 :=
        Nat.or_lt_two_pow hrel (one_shiftLeft_lt (by omega))
      have hcnt := bitCount_or_bit hrel (by omega : i < 64) hbit'
      by_cases heq : (numRel + 1 == target) = true
      · rw [if_pos heq] at h
        simp only [Option.some.injEq] at h
        subst h
        simp only [beq_iff_eq] at heq
        refine ⟨hlt, ?_⟩
        rw [hcnt]; push_cast; omega
      · rw [if_neg heq] at h
        have := ih (i + 1) _ (numRel + 1) r (by omega) hlt h
        refine ⟨this.1, ?_⟩
        have h2 := this.2
        rw [hcnt] at h2
        push_cast at h2
        omega

theorem fillGroup_result (c : Compiler) (gg gg' : GateGroup) (hword : gg.relatedQubits < 2 ^ 64)
    (h : c.fillGroup gg = some gg') :
    gg'.relatedQubits < 2 ^ 64 ∧
      (bitCount gg'.relatedQubits : Int) = (c.numQubits : Int) - c.globalBit := by
  unfold Compiler.fillGroup at h
  simp only at h
  by_cases hle : (bitCount gg.relatedQubits : Int) ≤ (c.numQubits : Int) - c.globalBit
  · rw [if_pos hle] at h
    by_cases hlt : (bitCount gg.relatedQubits : Int) < (c.numQubits : Int) - c.globalBit
    · rw [if_pos hlt] at h
      cases hloop : fillLoop ((c.numQubits : Int) - c.globalBit) 64 0 gg.relatedQubits
          (bitCount gg.relatedQubits) with
      | none => rw [hloop] at h; simp at h
      | some r =>
        rw [hloop] at h
        simp only [Option.map_some', Option.some.injEq] at h
        subst h
        have := fillLoop_bitCount _ 64 0 _ _ r (by omega) hword hloop
        refine ⟨this.1, ?_⟩
        show (bitCount r : Int) = _
        have := this.2; omega
    · rw [if_neg hlt] at h
      simp only [Option.some.injEq] at h
      subst h
      refine ⟨hword, ?_⟩
      show (bitCount gg.relatedQubits : Int) = _
      omega
  · rw [if_neg hle] at h; simp at h

theorem fillGroup_fixed (c : Compiler) (gg : GateGroup)
    (h : (bitCount gg.relatedQubits : Int) = (c.numQubits : Int) - c.globalBit) :
    c.fillGroup gg = some gg := by
  unfold Compiler.fillGroup
  simp only [h, le_refl, if_true, lt_irrefl, if_false]

theorem fillGroups_idempotent (c : Compiler) : ∀ (gs gs' : List GateGroup),
    (∀ gg ∈ gs, gg.relatedQubits < 2 ^ 64) → c.fillGroups gs = some gs' →
    c.fillGroups gs' = some gs' := by
  intro gs
  induction gs with
  | nil =>
    intro gs' _ h
    simp only [Compiler.fillGroups, Option.some.injEq] at h
    subst h; rfl
  | cons gg rest ih =>
    intro gs' hword h
    unfold Compiler.fillGroups at h
    cases h1 : c.fillGroup gg with
    | none => rw [h1] at h; simp at h
    | some gg1 =>
      rw [h1] at h
      cases h2 : c.fillGroups rest with
      | none => rw [h2] at h; simp at h
      | some rest1 =>
        rw [h2] at h
        simp only [Option.some.injEq] at h
        subst h
        have hr := fillGroup_result c gg gg1 (hword gg (List.mem_cons_self _ _)) h1
        unfold Compiler.fillGroups
        rw [fillGroup_fixed c gg1 hr.2, ih rest1 (fun g hg => hword g (List.mem_cons_of_mem _ hg)) h2]

/-- C7. Idempotence of `fillLocals`: for every local group (its masks being
64-bit words) on which `fillLocals` succeeds, a second application succeeds
too and leaves the result of the first exactly as it is. -/
theorem fillLocals_idempotent (c : Compiler) (lg lg' : LocalGroup)
    (hword : ∀ gg ∈ lg.fullGroups, gg.relatedQubits < 2 ^ 64)
    (h : c.fillLocals lg = some lg') : c.fillLocals lg' = some lg' := by
  unfold Compiler.fillLocals at h ⊢
  cases hg : c.fillGroups lg.fullGroups with
  | none => rw [hg] at h; simp at h
  | some gs =>
    rw [hg] at h
    simp only [Option.map_some', Option.some.injEq] at h
    subst h
    simp only
    rw [fillGroups_idempotent c _ gs hword hg]
    rfl

theorem fillLocals_idempotent_witness :
    (⟨5, [], 1⟩ : Compiler).fillLocals
        ⟨[⟨[Gate.single false 3], 0b01111⟩, ⟨[Gate.control false 0 1], 0b10111⟩], 0b11111⟩ =
      some ⟨[⟨[Gate.single false 3], 0b01111⟩, ⟨[Gate.control false 0 1], 0b10111⟩], 0b11111⟩ :=
  fillLocals_idempotent ⟨5, [], 1⟩
    ⟨[⟨[Gate.single false 3], 0b01000⟩, ⟨[Gate.control false 0 1], 0b10111⟩], 0b11111⟩
    ⟨[⟨[Gate.single false 3], 0b01111⟩, ⟨[Gate.control false 0 1], 0b10111⟩], 0b11111⟩
    (by decide) (by decide)

/-! ## `moveToNext` -/

theorem loop_groups_sublist (sc : SimpleCompiler) (input : List Gate) :
    ∀ (fuel : Nat) (c : OneLayerCompiler) (lg : LocalGroup) (idxs : List (List Nat))
      (lg' : LocalGroup) (idxs' : List (List Nat)),
      c.remain.Sublist (List.range input.length) →
      ((c.remainGates = [] ∧ c.remain = []) ∨ c.remainGates = input) →
      (∀ g ∈ lg.fullGroups, g.gates.Sublist input) →
      SimpleCompiler.loop sc fuel c lg idxs = some (lg', idxs') →
      ∀ g ∈ lg'.fullGroups, g.gates.Sublist input := by
  intro fuel
  induction fuel with
  | zero => intro c lg idxs lg' idxs' _ _ _ h; simp [SimpleCompiler.loop] at h
  | succ fuel ih =>
    intro c lg idxs lg' idxs' hrem hrg hsub h
    unfold SimpleCompiler.loop at h
    by_cases hlen : c.remainGates.length > 0
    · rw [if_pos hlen] at h
      have hin : c.remainGates = input := by
        rcases hrg with ⟨h1, _⟩ | h1
        · rw [h1] at hlen; simp at hlen
        · exact h1
      obtain ⟨idx, hidx, hstep⟩ := step_spec sc c
      rw [hstep] at h
      simp only at h
      have hnew : ∀ g ∈ lg.fullGroups ++ [GateGroup.empty.addGates
          (idx.map (fun x => c.remainGates.getD x default)) sc.localQubits sc.enableGlobal],
          g.gates.Sublist input := by
        intro g hg
        rcases List.mem_append.1 hg with hg | hg
        · exact hsub g hg
        · simp only [List.mem_singleton] at hg
          subst hg
          rw [addGates_gates, hin]
          simp only [GateGroup.empty, List.nil_append]
          have h1 : idx.Sublist (List.range input.length) :=
            (hidx.trans (List.take_sublist _ _)).trans hrem
          have h2 := h1.map (fun x => input.getD x default)
          rwa [getD_range_map] at h2
      by_cases hw : (sc.whiteList != 0) = true
      · rw [if_pos hw] at h
        simp only [Option.some.injEq, Prod.mk.injEq] at h
        obtain ⟨rfl, _⟩ := h
        exact hnew
      · rw [if_neg hw] at h
        apply ih _ _ _ _ _ ?_ ?_ hnew h
        · rw [removeGatesOpt_remain]
          exact (List.diff_sublist _ _).trans hrem
        · simp only [OneLayerCompiler.removeGatesOpt]
          by_cases he : (List.foldl (fun r x => r.erase x) c.remain idx).isEmpty = true
          · left; simp [he]; simpa using he
          · right; simp [he, hin]
    · rw [if_neg hlen] at h
      simp only [Option.some.injEq, Prod.mk.injEq] at h
      obtain ⟨rfl, _⟩ := h
      exact hsub

/-- Every group that `SimpleCompiler::run` returns holds a subsequence of the
input gates. -/
theorem runIdx_groups_sublist (sc : SimpleCompiler) (fuel : Nat) (lg : LocalGroup)
    (idxs : List (List Nat)) (h : sc.runIdx fuel = some (lg, idxs)) :
    ∀ g ∈ lg.fullGroups, g.gates.Sublist sc.inputGates := by
  unfold SimpleCompiler.runIdx at h
  by_cases hd : (sc.localSize == (sc.numQubits : Int)) = true
  · rw [if_pos hd] at h
    simp only [Option.some.injEq, Prod.mk.injEq] at h
    obtain ⟨rfl, _⟩ := h
    intro g hg
    simp only [List.mem_singleton] at hg
    subst hg
    rw [addGates_gates]
    simp [GateGroup.empty]
  · rw [if_neg hd] at h
    exact loop_groups_sublist sc sc.inputGates fuel _ _ _ _ _ (List.Sublist.refl _) (Or.inr rfl)
      (by simp) h

theorem moveStep_spec (cfg : Config) (c : Compiler) (prev next prev1 next1 : GateGroup)
    (entry : List Gate × Nat) (h : c.moveStep cfg prev next = some (prev1, next1, entry)) :
    entry.1.Sublist prev.gates ∧ next1.gates = next.gates := by
  unfold Compiler.moveStep at h
  by_cases h0 : (prev.relatedQubits != 0) = true
  · rw [if_pos h0] at h
    cases hrun : (c.backCompiler cfg prev next).runIdx 1 with
    | none => rw [hrun] at h; simp at h
    | some r =>
      obtain ⟨toRemove, idxs⟩ := r
      rw [hrun] at h
      have hsub := runIdx_groups_sublist _ _ _ _ hrun
      simp only at h
      split at h
      · simp only [Option.some.injEq, Prod.mk.injEq] at h
        obtain ⟨_, rfl, rfl⟩ := h
        exact ⟨List.nil_sublist _, rfl⟩
      · rename_i _ _ gg idx hfg
        simp only [Option.some.injEq, Prod.mk.injEq] at h
        obtain ⟨_, rfl, rfl⟩ := h
        refine ⟨?_, rfl⟩
        have := hsub gg (by rw [hfg]; exact List.mem_singleton_self _)
        have h2 := this.reverse
        simpa [Compiler.backCompiler] using h2
      · simp at h
  · rw [if_neg h0] at h; simp at h

theorem moveLoop_spec (cfg : Config) (c : Compiler) :
    ∀ (rest : List GateGroup) (prev : GateGroup) (groups : List GateGroup)
      (entries : List (List Gate × Nat)),
      c.moveLoop cfg prev rest = some (groups, entries) →
      entries.length = rest.length ∧
      ∀ (i : Nat) (e : List Gate × Nat) (g : GateGroup),
        entries[i]? = some e → (prev :: rest)[i]? = some g → e.1.Sublist g.gates := by
  intro rest
  induction rest with
  | nil =>
    intro prev groups entries h
    simp only [Compiler.moveLoop, Option.some.injEq, Prod.mk.injEq] at h
    obtain ⟨_, rfl⟩ := h
    simp
  | cons next rest ih =>
    intro prev groups entries h
    unfold Compiler.moveLoop at h
    cases hs : c.moveStep cfg prev next with
    | none => rw [hs] at h; simp at h
    | some r =>
      obtain ⟨prev1, next1, entry⟩ := r
      rw [hs] at h
      simp only at h
      cases hl : c.moveLoop cfg next1 rest with
      | none => rw [hl] at h; simp at h
      | some r2 =>
        obtain ⟨groups2, entries2⟩ := r2
        rw [hl] at h
        simp only [Option.some.injEq, Prod.mk.injEq] at h
        obtain ⟨_, rfl⟩ := h
        have hstep := moveStep_spec cfg c prev next prev1 next1 entry hs
        have hrec := ih next1 groups2 entries2 hl
        refine ⟨by simp [hrec.1], ?_⟩
        intro i e g he hg
        cases i with
        | zero =>
          simp only [List.getElem?_cons_zero, Option.some.injEq] at he hg
          subst he; subst hg
          exact hstep.1
        | succ i =>
          simp only [List.getElem?_cons_succ] at he hg
          cases i with
          | zero =>
            simp only [List.getElem?_cons_zero, Option.some.injEq] at hg
            subst hg
            have := hrec.2 0 e next1 he (by simp)
            rwa [hstep.2] at this
          | succ i =>
            simp only [List.getElem?_cons_succ] at hg
            exact hrec.2 (i + 1) e g he (by simpa using hg)

/-- C10. Move-back order: when `moveToNext` returns on a local group that has
a group 0 (or without `ENABLE_OVERLAP`), it returns one entry per full group,
the entry for group 0 is the empty list with mask 0, and for every `i >= 1`
the gate list of entry `i` is a subsequence of the gate list that
`fullGroups[i-1]` had before the call, in the same relative order. -/
theorem moveToNext_order (cfg : Config) (c : Compiler) (lg lg' : LocalGroup)
    (res : List (List Gate × Nat))
    (hne : lg.fullGroups ≠ [] ∨ cfg.ENABLE_OVERLAP = false)
    (h : c.moveToNext cfg lg = some (lg', res)) :
    res.length = lg.fullGroups.length ∧
    (∀ e, res[0]? = some e → e = ([], 0)) ∧
    ∀ (i : Nat) (e : List Gate × Nat) (g : GateGroup),
      res[i + 1]? = some e → lg.fullGroups[i]? = some g → e.1.Sublist g.gates := by
  unfold Compiler.moveToNext at h
  by_cases ho : (!cfg.ENABLE_OVERLAP) = true
  · rw [if_pos ho] at h
    simp only [Option.some.injEq, Prod.mk.injEq] at h
    obtain ⟨_, rfl⟩ := h
    refine ⟨by simp, ?_, ?_⟩
    · intro e he
      rw [List.getElem?_map] at he
      cases hg : lg.fullGroups[0]? with
      | none => rw [hg] at he; simp at he
      | some g => rw [hg] at he; simp at he; exact he.symm
    · intro i e g he _
      rw [List.getElem?_map] at he
      cases hg : lg.fullGroups[i + 1]? with
      | none => rw [hg] at he; simp at he
      | some g' =>
        rw [hg] at he
        simp only [Option.map_some', Option.some.injEq] at he
        subst he
        exact List.nil_sublist _
  · rw [if_neg ho] at h
    cases hfg : lg.fullGroups with
    | nil =>
      rcases hne with h1 | h1
      · exact absurd hfg h1
      · rw [h1] at ho; simp at ho
    | cons g0 rest =>
      rw [hfg] at h
      simp only at h
      cases hl : c.moveLoop cfg g0 rest with
      | none => rw [hl] at h; simp at h
      | some r =>
        obtain ⟨groups, entries⟩ := r
        rw [hl] at h
        simp only [Option.map_some', Option.some.injEq, Prod.mk.injEq] at h
        obtain ⟨_, rfl⟩ := h
        have hspec := moveLoop_spec cfg c rest g0 groups entries hl
        refine ⟨by simp [hspec.1], ?_, ?_⟩
        · intro e he
          simp only [List.getElem?_cons_zero, Option.some.injEq] at he
          exact he.symm
        · intro i e g he hg
          simp only [List.getElem?_cons_succ] at he
          exact hspec.2 i e g he hg

theorem moveToNext_order_witness :
    (⟨5, [], 1⟩ : Compiler).moveToNext ⟨0, 1, 0, true⟩
        ⟨[⟨[Gate.single false 0, Gate.single false 1, Gate.single false 3,
            Gate.control false 3 4, Gate.single false 3], 27⟩,
          ⟨[Gate.single false 2], 4⟩], 31⟩ =
      some (⟨[⟨[Gate.single false 0, Gate.single false 1], 27⟩, ⟨[Gate.single false 2], 28⟩], 31⟩,
        [([], 0), ([Gate.single false 3, Gate.control false 3 4, Gate.single false 3], 24)]) ∧
    ([([], 0), ([Gate.single false 3, Gate.control false 3 4, Gate.single false 3], 24)] :
        List (List Gate × Nat)).length = 2 :=
  have h : (⟨5, [], 1⟩ : Compiler).moveToNext ⟨0, 1, 0, true⟩
        ⟨[⟨[Gate.single false 0, Gate.single false 1, Gate.single false 3,
            Gate.control false 3 4, Gate.single false 3], 27⟩,
          ⟨[Gate.single false 2], 4⟩], 31⟩ =
      some (⟨[⟨[Gate.single false 0, Gate.single false 1], 27⟩, ⟨[Gate.single false 2], 28⟩], 31⟩,
        [([], 0), ([Gate.single false 3, Gate.control false 3 4, Gate.single false 3], 24)]) := by
    decide
  ⟨h, (moveToNext_order _ _ _ _ _ (Or.inl (by decide)) h).1⟩

/-! ## Pass A keeps every `cur[q]` dependency closed -/

theorem testBit_foldl_lor (cur : Nat → Nat) (cs : List Nat) : ∀ (m p : Nat),
    (cs.foldl (fun c q => c ||| cur q) m).testBit p = true ↔
      m.testBit p = true ∨ ∃ q ∈ cs, (cur q).testBit p = true := by
  induction cs with
  | nil => intro m p; simp
  | cons c rest ih =>
    intro m p
    rw [List.foldl_cons, ih, Nat.testBit_or]
    simp only [Bool.or_eq_true, List.mem_cons, exists_eq_or_imp]
    tauto

theorem foldl_upd {α : Type} (v : α) (cs : List Nat) : ∀ (f : Nat → α) (r : Nat),
    (cs.foldl (fun c q => upd c q v) f) r = if r ∈ cs then v else f r := by
  induction cs with
  | nil => intro f r; simp
  | cons c rest ih =>
    intro f r
    rw [List.foldl_cons, ih]
    by_cases h1 : r ∈ rest
    · simp [h1]
    · by_cases h2 : r = c
      · simp [h2, upd]
      · simp [h1, h2, upd]

theorem encode_check {full : Nat} {cs : List Nat}
    (h : (full &&& Gate.encodeMask cs == 0) = true) : ∀ q ∈ cs, full.testBit q = false := by
  intro q hq
  have h0 : full &&& Gate.maskOf cs = 0 := by simpa [Gate.encodeMask] using h
  have := congrArg (fun x => x.testBit q) h0
  simp only [Nat.testBit_and, testBit_maskOf, Nat.zero_testBit] at this
  simpa [hq] using this

/-- What an accepted gate does to `full` and `cur`: `full` is unchanged and
holds none of the operands, and every operand's `cur` becomes the union of the
operands' previous `cur` sets plus the gate. -/
theorem acceptGate_cur {ls : Int} {lq : Nat} {eg : Bool} {s s' : PassA} {id : Nat} {gate : Gate}
    (h : acceptGate ls lq eg s id gate = some s') :
    s'.full = s.full ∧ (∀ q ∈ gate.qubits, s.full.testBit q = false) ∧
    ∃ NC : Nat, (∀ p, NC.testBit p = true ↔
        p = id ∨ ∃ q ∈ gate.qubits, (s.cur q).testBit p = true) ∧
      ∀ q, s'.cur q = if q ∈ gate.qubits then NC else s.cur q := by
  cases gate with
  | single d t =>
    simp only [acceptGate] at h
    split at h
    · rename_i hc
      simp only [Option.some.injEq] at h
      subst h
      refine ⟨rfl, ?_, s.cur t ||| 1 <<< id, ?_, ?_⟩
      · intro q hq
        simp only [Gate.qubits, List.mem_singleton] at hq
        subst hq; simpa using hc
      · intro p
        simp only [Nat.testBit_or, testBit_one_shiftLeft, Gate.qubits, List.mem_singleton,
          exists_eq_left, Bool.or_eq_true, decide_eq_true_eq]
        constructor
        · rintro (h | h)
          · exact Or.inr h
          · exact Or.inl h.symm
        · rintro (h | h)
          · exact Or.inr h.symm
          · exact Or.inl h
      · intro q
        simp only [upd, Gate.qubits, List.mem_singleton]
    · simp at h
  | control d c t =>
    simp only [acceptGate] at h
    split at h
    · rename_i hc
      split at h
      · simp only [Option.some.injEq] at h
        subst h
        simp only [Bool.and_eq_true, Bool.not_eq_true'] at hc
        refine ⟨rfl, ?_, (s.cur c ||| s.cur t) ||| 1 <<< id, ?_, ?_⟩
        · intro q hq
          simp only [Gate.qubits, List.mem_cons, List.mem_singleton, List.not_mem_nil, or_false] at hq
          rcases hq with rfl | rfl
          · exact hc.1
          · exact hc.2
        · intro p
          simp only [Nat.testBit_or, testBit_one_shiftLeft, Gate.qubits, List.mem_cons,
            List.mem_singleton, List.not_mem_nil, or_false, exists_eq_or_imp, exists_eq_left,
            Bool.or_eq_true, decide_eq_true_eq]
          constructor
          · rintro ((h | h) | h)
            · exact Or.inr (Or.inl h)
            · exact Or.inr (Or.inr h)
            · exact Or.inl h.symm
          · rintro (h | h | h)
            · exact Or.inr h.symm
            · exact Or.inl (Or.inl h)
            · exact Or.inl (Or.inr h)
        · intro q
          simp only [upd, Gate.qubits, List.mem_cons, List.mem_singleton, List.not_mem_nil, or_false]
          by_cases h1 : q = t
          · simp [h1]
          · by_cases h2 : q = c
            · simp [h2]
            · simp [h1, h2]
      · simp at h
    · simp at h
  | twoQubit d e t =>
    simp only [acceptGate] at h
    split at h
    · rename_i hc
      split at h
      · simp only [Option.some.injEq] at h
        subst h
        simp only [Bool.and_eq_true, Bool.not_eq_true'] at hc
        refine ⟨rfl, ?_, (s.cur e ||| s.cur t) ||| 1 <<< id, ?_, ?_⟩
        · intro q hq
          simp only [Gate.qubits, List.mem_cons, List.mem_singleton, List.not_mem_nil, or_false] at hq
          rcases hq with rfl | rfl
          · exact hc.1
          · exact hc.2
        · intro p
          simp only [Nat.testBit_or, testBit_one_shiftLeft, Gate.qubits, List.mem_cons,
            List.mem_singleton, List.not_mem_nil, or_false, exists_eq_or_imp, exists_eq_left,
            Bool.or_eq_true, decide_eq_true_eq]
          constructor
          · rintro ((h | h) | h)
            · exact Or.inr (Or.inl h)
            · exact Or.inr (Or.inr h)
            · exact Or.inl h.symm
          · rintro (h | h | h)
            · exact Or.inr h.symm
            · exact Or.inl (Or.inl h)
            · exact Or.inl (Or.inr h)
        · intro q
          simp only [upd, Gate.qubits, List.mem_cons, List.mem_singleton, List.not_mem_nil, or_false]
          by_cases h1 : q = t
          · simp [h1]
          · by_cases h2 : q = e
            · simp [h2]
            · simp [h1, h2]
      · simp at h
    · simp at h
  | mc d cs t =>
    simp only [acceptGate] at h
    split at h
    · rename_i hc
      split at h
      · simp only [Option.some.injEq] at h
        subst h
        simp only [Bool.and_eq_true, Bool.not_eq_true'] at hc
        refine ⟨rfl, ?_, cs.foldl (fun c q => c ||| s.cur q) (s.cur t) ||| 1 <<< id, ?_, ?_⟩
        · intro q hq
          simp only [Gate.qubits, List.mem_cons] at hq
          rcases hq with rfl | hq
          · exact hc.2
          · exact encode_check hc.1 q hq
        · intro p
          rw [Nat.testBit_or, Bool.or_eq_true, testBit_foldl_lor, testBit_one_shiftLeft]
          simp only [Gate.qubits, List.mem_cons, exists_eq_or_imp, decide_eq_true_eq]
          constructor
          · rintro ((h | h) | h)
            · exact Or.inr (Or.inl h)
            · exact Or.inr (Or.inr h)
            · exact Or.inl h.symm
          · rintro (h | h | h)
            · exact Or.inr h.symm
            · exact Or.inl (Or.inl h)
            · exact Or.inl (Or.inr h)
        · intro q
          simp only [upd, Gate.qubits, List.mem_cons, foldl_upd]
          by_cases h1 : q = t
          · simp [h1]
          · by_cases h2 : q ∈ cs
            · simp [h2]
            · simp [h1, h2]
      · simp at h
    · simp at h

theorem rejectGate_cur (s : PassA) (gate : Gate) : (rejectGate s gate).cur = s.cur := by
  cases gate <;> rfl

theorem rejectGate_related (s : PassA) (gate : Gate) : (rejectGate s gate).related = s.related := by
  cases gate <;> rfl

theorem rejectGate_full_mono (s : PassA) (gate : Gate) (r : Nat) (h : s.full.testBit r = true) :
    (rejectGate s gate).full.testBit r = true := by
  cases gate with
  | single d t => exact h
  | control d c t => simp [rejectGate, h]
  | twoQubit d e t => simp [rejectGate, h]
  | mc d cs t =>
    simp only [rejectGate, testBit_foldl_or, Nat.testBit_or, h]
    simp

/-- A gate that is not accepted leaves all its operands in `full`. -/
theorem rejectGate_full {ls : Int} {lq : Nat} {eg : Bool} {s : PassA} {id : Nat} {gate : Gate}
    (h : acceptGate ls lq eg s id gate = none) :
    ∀ q ∈ gate.qubits, (rejectGate s gate).full.testBit q = true := by
  intro q hq
  cases gate with
  | single d t =>
    simp only [Gate.qubits, List.mem_singleton] at hq
    subst hq
    simp only [acceptGate] at h
    split at h
    · simp at h
    · rename_i hc
      simpa [rejectGate] using hc
  | control d c t =>
    simp only [Gate.qubits, List.mem_cons, List.mem_singleton, List.not_mem_nil, or_false] at hq
    rcases hq with rfl | rfl <;> simp [rejectGate, testBit_one_shiftLeft]
  | twoQubit d e t =>
    simp only [Gate.qubits, List.mem_cons, List.mem_singleton, List.not_mem_nil, or_false] at hq
    rcases hq with rfl | rfl <;> simp [rejectGate, testBit_one_shiftLeft]
  | mc d cs t =>
    simp only [Gate.qubits, List.mem_cons] at hq
    simp only [rejectGate, testBit_foldl_or, Nat.testBit_or, testBit_one_shiftLeft]
    rcases hq with rfl | hq
    · simp
    · simp [hq]

theorem passAGate_inv (G : Nat → Gate) (ls : Int) (lq : Nat) (eg : Bool) (s : PassA) (id : Nat)
    (h : InvA G id s) : InvA G (id + 1) (passAGate ls lq eg s id (G id)) := by
  unfold passAGate
  cases hacc : acceptGate ls lq eg s id (G id) with
  | none =>
    simp only
    refine ⟨?_, ?_, ?_⟩
    · intro q p hp
      rw [rejectGate_cur] at hp
      exact Nat.lt_succ_of_lt (h.bound q p hp)
    · intro q
      rw [rejectGate_cur]; exact h.closed q
    · intro p' hp' r hr hfull
      rw [rejectGate_cur]
      rcases Nat.lt_succ_iff_lt_or_eq.1 hp' with hlt | heq
      · apply h.owned p' hlt r hr
        cases hf : s.full.testBit r
        · rfl
        · rw [rejectGate_full_mono s _ r hf] at hfull; exact absurd hfull (by simp)
      · subst heq
        rw [rejectGate_full hacc r hr] at hfull
        exact absurd hfull (by simp)
  | some s' =>
    simp only
    obtain ⟨hfull, hfree, NC, hNC, hcur⟩ := acceptGate_cur hacc
    have hNCclosed : ClosedSet G NC := by
      intro p hp p' hlt hsh
      rw [hNC] at hp ⊢
      rcases hp with rfl | ⟨q, hq, hqp⟩
      · obtain ⟨r, hr1, hr2⟩ := hsh
        exact Or.inr ⟨r, hr2, h.owned p' hlt r hr1 (hfree r hr2)⟩
      · exact Or.inr ⟨q, hq, h.closed q p hqp p' hlt hsh⟩
    refine ⟨?_, ?_, ?_⟩
    · intro q p hp
      rw [hcur] at hp
      split at hp
      · rw [hNC] at hp
        rcases hp with rfl | ⟨q', _, hq'⟩
        · exact Nat.lt_succ_self _
        · exact Nat.lt_succ_of_lt (h.bound q' p hq')
      · exact Nat.lt_succ_of_lt (h.bound q p hp)
    · intro q
      rw [hcur]
      split
      · exact hNCclosed
      · exact h.closed q
    · intro p' hp' r hr hfr
      rw [hfull] at hfr
      rw [hcur]
      rcases Nat.lt_succ_iff_lt_or_eq.1 hp' with hlt | heq
      · have := h.owned p' hlt r hr hfr
        split
        · rw [hNC]; rename_i hmem; exact Or.inr ⟨r, hmem, this⟩
        · exact this
      · subst heq
        rw [if_pos hr, hNC]
        exact Or.inl rfl

theorem passA_inv (G : Nat → Gate) (n : Nat) (rg : List Gate) (ls : Int) (lq : Nat) (eg : Bool) :
    ∀ (xs : List Nat) (id : Nat) (s : PassA), Agree G rg id xs → InvA G id s →
      ∃ id', InvA G id' (passA n rg ls lq eg id xs s) := by
  intro xs
  induction xs with
  | nil => intro id s _ h; exact ⟨id, by simpa [passA] using h⟩
  | cons x rest ih =>
    intro id s hag h
    unfold passA
    split
    · exact ⟨id, h⟩
    · have hx : G id = rg.getD x default := by
        have := hag 0 x (by simp)
        simpa using this
      rw [← hx]
      apply ih (id + 1) _ ?_ (passAGate_inv G ls lq eg s id h)
      intro k y hy
      have := hag (k + 1) y (by simpa using hy)
      rw [← this]; congr 1; omega

/-! ## Pass B and Pass C keep `selected` dependency closed -/

theorem testBit_bitsetAndNot (a b p : Nat) :
    (bitsetAndNot a b).testBit p = (a.testBit p && !(b.testBit p)) := by
  unfold bitsetAndNot
  rw [Nat.testBit_xor, Nat.testBit_and]
  cases a.testBit p <;> cases b.testBit p <;> rfl

theorem foldl_preserves {α β : Type} (P : α → Prop) (f : α → β → α)
    (hf : ∀ s i, P s → P (f s i)) : ∀ (qs : List β) (init : α), P init → P (qs.foldl f init) := by
  intro qs
  induction qs with
  | nil => intro init h; exact h
  | cons q rest ih => intro init h; exact ih _ (hf _ _ h)

section PassB

variable {G : Nat → Gate} {acur related contrib : Nat → Nat} {ls : Int}

/-- Taking the gates of `cur[i]` into `selected` keeps the invariant, whatever
happens to `blocked`, provided `selectedRelated` covers `related[i]`. -/
theorem InvB.select (hA : ∀ q, ClosedSet G (acur q))
    (hcontrib : ∀ q p, (acur q).testBit p = true →
      ∀ j, (contrib p).testBit j = true → (related q).testBit j = true)
    {s : PassB} (h : InvB G acur related contrib ls s) (i : Nat) (b : Nat → Bool) (sr : Nat)
    (hsr : ∀ j, s.selectedRelated.testBit j = true → sr.testBit j = true)
    (hri : ∀ j, (related i).testBit j = true → sr.testBit j = true)
    (hfit : sr = 0 ∨ (bitCount sr : Int) ≤ ls) :
    InvB G acur related contrib ls
      { cur := s.cur, blocked := b, selected := s.selected ||| s.cur i, selectedRelated := sr } := by
  refine ⟨h.sub, ?_, ?_, ?_, hfit⟩
  · intro q p hp
    rcases h.cover q p hp with h1 | h1
    · exact Or.inl h1
    · right; simp [Nat.testBit_or, h1]
  · intro p hp p' hlt hsh
    simp only [Nat.testBit_or, Bool.or_eq_true] at hp ⊢
    rcases hp with hp | hp
    · exact Or.inl (h.closed p hp p' hlt hsh)
    · have := hA i p (h.sub i p hp) p' hlt hsh
      rcases h.cover i p' this with h1 | h1
      · exact Or.inr h1
      · exact Or.inl h1
  · intro p hp j hj
    simp only [Nat.testBit_or, Bool.or_eq_true] at hp
    rcases hp with hp | hp
    · exact hsr j (h.within p hp j hj)
    · exact hri j (hcontrib i p (h.sub i p hp) j hj)

theorem absorbStep_inv (hA : ∀ q, ClosedSet G (acur q))
    (hcontrib : ∀ q p, (acur q).testBit p = true →
      ∀ j, (contrib p).testBit j = true → (related q).testBit j = true)
    (id : Nat) (s : PassB) (i : Nat)
    (h : InvB G acur related contrib ls s ∧ s.blocked id = true ∧
      ∀ p, (s.cur id).testBit p = true → s.selected.testBit p = true) :
    InvB G acur related contrib ls (absorbStep related id s i) ∧
      (absorbStep related id s i).blocked id = true ∧
      ∀ p, ((absorbStep related id s i).cur id).testBit p = true →
        (absorbStep related id s i).selected.testBit p = true := by
  obtain ⟨hinv, hblk, hsel⟩ := h
  unfold absorbStep
  split
  · rename_i hc
    simp only [Bool.and_eq_true, Bool.not_eq_true'] at hc
    have hne : i ≠ id := by
      rintro rfl
      rw [hblk] at hc; exact absurd hc.1 (by simp)
    split
    · rename_i hsubset
      have hsubset' : related i ||| s.selectedRelated = s.selectedRelated := by
        simpa using hsubset
      refine ⟨?_, ?_, ?_⟩
      · exact hinv.select hA hcontrib i _ s.selectedRelated (fun _ h => h)
          (fun j hj => by rw [← hsubset']; simp [Nat.testBit_or, hj]) hinv.fits
      · simp only [upd]; split
        · rfl
        · exact hblk
      · intro p hp
        simp [Nat.testBit_or, hsel p hp]
    · refine ⟨⟨?_, ?_, hinv.closed, hinv.within, hinv.fits⟩, hblk, ?_⟩
      · intro q p hp
        simp only [upd] at hp
        split at hp
        · rename_i hq
          subst hq
          rw [testBit_bitsetAndNot] at hp
          simp only [Bool.and_eq_true] at hp
          exact hinv.sub _ p hp.1
        · exact hinv.sub q p hp
      · intro q p hp
        simp only [upd]
        split
        · rename_i hq
          subst hq
          rcases hinv.cover _ p hp with h1 | h1
          · rw [testBit_bitsetAndNot]
            cases hid : (s.cur id).testBit p
            · left; simp [h1]
            · right; exact hsel p hid
          · exact Or.inr h1
        · exact hinv.cover q p hp
      · intro p hp
        simp only [upd, if_neg (Ne.symm hne)] at hp
        exact hsel p hp
  · exact ⟨hinv, hblk, hsel⟩

theorem passB_inv (hA : ∀ q, ClosedSet G (acur q))
    (hcontrib : ∀ q p, (acur q).testBit p = true →
      ∀ j, (contrib p).testBit j = true → (related q).testBit j = true)
    (n M : Nat) : ∀ (fuel : Nat) (s r : PassB), InvB G acur related contrib ls s →
      passB n M ls related fuel s = some r → InvB G acur related contrib ls r := by
  intro fuel
  induction fuel with
  | zero => intro s r _ h; simp [passB] at h
  | succ fuel ih =>
    intro s r hinv h
    unfold passB at h
    have hscan := passBScan_inv M ls related s.cur s.selectedRelated (List.range n) s.blocked
      (List.range n) ⟨0, 0, s.blocked⟩ (fun _ h => h) ⟨fun _ h => h, fun h => absurd rfl h⟩
    simp only at h
    generalize passBScan M ls related s.cur s.selectedRelated (List.range n)
      ⟨0, 0, s.blocked⟩ = sc at hscan h
    by_cases hmx : (sc.mx == 0) = true
    · rw [if_pos hmx] at h
      simp only [Option.some.injEq] at h
      subst h
      exact ⟨hinv.sub, hinv.cover, hinv.closed, hinv.within, hinv.fits⟩
    · rw [if_neg hmx] at h
      have hne : sc.mx ≠ 0 := by simpa using hmx
      obtain ⟨_, _, hfit, _⟩ := hscan.chosen hne
      apply ih _ r ?_ h
      have hs1 : InvB G acur related contrib ls
          { cur := s.cur, blocked := upd sc.blocked sc.id true,
            selected := s.selected ||| s.cur sc.id,
            selectedRelated := s.selectedRelated ||| related sc.id } :=
        hinv.select hA hcontrib sc.id _ _ (fun j hj => by simp [Nat.testBit_or, hj])
          (fun j hj => by simp [Nat.testBit_or, hj]) (Or.inr hfit)
      exact (foldl_preserves
        (fun s' => InvB G acur related contrib ls s' ∧ s'.blocked sc.id = true ∧
          ∀ p, (s'.cur sc.id).testBit p = true → s'.selected.testBit p = true)
        (absorbStep related sc.id) (absorbStep_inv hA hcontrib sc.id) (List.range n) _
        ⟨hs1, by simp [upd], fun p hp => by simp [Nat.testBit_or, hp]⟩).1

end PassB

theorem foldl_avail (blocked : Nat → Bool) (cs : List Nat) : ∀ (a : Bool),
    cs.foldl (fun a q => a && !(blocked q)) a = true ↔
      a = true ∧ ∀ q ∈ cs, blocked q = false := by
  induction cs with
  | nil => intro a; simp
  | cons c rest ih =>
    intro a
    rw [List.foldl_cons, ih]
    simp only [Bool.and_eq_true, Bool.not_eq_true', List.mem_cons, forall_eq_or_imp]
    tauto

/-- What the body of Pass C does for an unchosen gate: it either selects the
gate, whose operands are then all unblocked, or it leaves `selected` alone and
leaves all operands of the gate blocked. -/
theorem passCGate_spec (eg : Bool) (s : PassC) (id : Nat) (g : Gate) :
    ((passCGate eg s id g).selected = s.selected ||| 1 <<< id ∧
        (passCGate eg s id g).blocked = s.blocked ∧
        (g.isDiagonal && eg) = true ∧ ∀ r ∈ g.qubits, s.blocked r = false) ∨
    ((passCGate eg s id g).selected = s.selected ∧
        (∀ r, s.blocked r = true → (passCGate eg s id g).blocked r = true) ∧
        ∀ r ∈ g.qubits, (passCGate eg s id g).blocked r = true) := by
  unfold passCGate
  by_cases hd : (g.isDiagonal && eg) = true
  · rw [if_pos hd]
    cases g with
    | single d t =>
      simp only
      by_cases hb : s.blocked t = true
      · right
        simp only [hb, Bool.not_true, Bool.false_eq_true, if_false, Gate.qubits,
          List.mem_singleton, forall_eq, and_true, true_and]
        exact fun _ h => h
      · left
        have hb' : s.blocked t = false := by simpa using hb
        simp [hb', Gate.qubits, hd]
    | control d c t =>
      simp only
      by_cases hb : (!(s.blocked c) && !(s.blocked t)) = true
      · left
        rw [if_pos hb]
        simp only [Bool.and_eq_true, Bool.not_eq_true'] at hb
        simp [Gate.qubits, hb.1, hb.2, hd]
      · right
        rw [if_neg hb]
        refine ⟨rfl, ?_, ?_⟩
        · intro r hr
          simp only [upd]
          split
          · rfl
          · split
            · rfl
            · exact hr
        · intro r hr
          simp only [Gate.qubits, List.mem_cons, List.mem_singleton, List.not_mem_nil,
            or_false] at hr
          rcases hr with rfl | rfl <;> simp [upd]
    | twoQubit d e t =>
      simp only
      by_cases hb : (!(s.blocked e) && !(s.blocked t)) = true
      · left
        rw [if_pos hb]
        simp only [Bool.and_eq_true, Bool.not_eq_true'] at hb
        simp [Gate.qubits, hb.1, hb.2, hd]
      · right
        rw [if_neg hb]
        refine ⟨rfl, ?_, ?_⟩
        · intro r hr
          simp only [upd]
          split
          · rfl
          · split
            · rfl
            · exact hr
        · intro r hr
          simp only [Gate.qubits, List.mem_cons, List.mem_singleton, List.not_mem_nil,
            or_false] at hr
          rcases hr with rfl | rfl <;> simp [upd]
    | mc d cs t =>
      simp only
      by_cases hb : cs.foldl (fun a q => a && !(s.blocked q)) (!(s.blocked t)) = true
      · left
        rw [if_pos hb]
        rw [foldl_avail] at hb
        refine ⟨rfl, rfl, hd, ?_⟩
        intro r hr
        simp only [Gate.qubits, List.mem_cons] at hr
        rcases hr with rfl | hr
        · simpa using hb.1
        · exact hb.2 r hr
      · right
        rw [if_neg hb]
        refine ⟨rfl, ?_, ?_⟩
        · intro r hr
          simp only [foldl_upd, upd]
          split
          · rfl
          · split
            · rfl
            · exact hr
        · intro r hr
          simp only [Gate.qubits, List.mem_cons] at hr
          simp only [foldl_upd, upd]
          rcases hr with rfl | hr
          · simp
          · simp [hr]
  · rw [if_neg hd]
    right
    cases g with
    | single d t =>
      refine ⟨rfl, ?_, ?_⟩
      · intro r hr
        simp only [upd]; split
        · rfl
        · exact hr
      · intro r hr
        simp only [Gate.qubits, List.mem_singleton] at hr
        subst hr; simp [upd]
    | control d c t =>
      refine ⟨rfl, ?_, ?_⟩
      · intro r hr
        simp only [upd]
        split
        · rfl
        · split
          · rfl
          · exact hr
      · intro r hr
        simp only [Gate.qubits, List.mem_cons, List.mem_singleton, List.not_mem_nil,
          or_false] at hr
        rcases hr with rfl | rfl <;> simp [upd]
    | twoQubit d e t =>
      refine ⟨rfl, ?_, ?_⟩
      · intro r hr
        simp only [upd]
        split
        · rfl
        · split
          · rfl
          · exact hr
      · intro r hr
        simp only [Gate.qubits, List.mem_cons, List.mem_singleton, List.not_mem_nil,
          or_false] at hr
        rcases hr with rfl | rfl <;> simp [upd]
    | mc d cs t =>
      refine ⟨rfl, ?_, ?_⟩
      · intro r hr
        simp only [foldl_upd, upd]
        split
        · rfl
        · split
          · rfl
          · exact hr
      · intro r hr
        simp only [Gate.qubits, List.mem_cons] at hr
        simp only [foldl_upd, upd]
        rcases hr with rfl | hr
        · simp
        · by_cases h1 : r = t
          · simp [h1]
          · simp [h1, hr]

theorem passCGate_inv (G : Nat → Gate) (eg : Bool) (s : PassC) (id : Nat)
    (h : InvC G id s) (hsel : s.selected.testBit id = false) :
    InvC G (id + 1) (passCGate eg s id (G id)) := by
  rcases passCGate_spec eg s id (G id) with ⟨h1, h2, _, h4⟩ | ⟨h1, h2, h3⟩
  · refine ⟨?_, ?_⟩
    · rw [h1]
      intro p hp p' hlt hsh
      simp only [Nat.testBit_or, testBit_one_shiftLeft, Bool.or_eq_true, decide_eq_true_eq] at hp ⊢
      rcases hp with hp | hp
      · exact Or.inl (h.closed p hp p' hlt hsh)
      · subst hp
        left
        cases hs : s.selected.testBit p'
        · obtain ⟨r, hr1, hr2⟩ := hsh
          have := h.blockedOwn p' hlt hs r hr1
          rw [h4 r hr2] at this
          exact absurd this (by simp)
        · rfl
    · rw [h1, h2]
      intro p' hp' hs r hr
      simp only [Nat.testBit_or, testBit_one_shiftLeft, Bool.or_eq_false_iff,
        decide_eq_false_iff_not] at hs
      rcases Nat.lt_succ_iff_lt_or_eq.1 hp' with hlt | heq
      · exact h.blockedOwn p' hlt hs.1 r hr
      · exact absurd heq.symm hs.2
  · refine ⟨?_, ?_⟩
    · rw [h1]; exact h.closed
    · rw [h1]
      intro p' hp' hs r hr
      rcases Nat.lt_succ_iff_lt_or_eq.1 hp' with hlt | heq
      · exact h2 r (h.blockedOwn p' hlt hs r hr)
      · subst heq; exact h3 r hr

theorem passC_closed (G : Nat → Gate) (n : Nat) (rg : List Gate) (eg : Bool) :
    ∀ (xs : List Nat) (id : Nat) (s : PassC), Agree G rg id xs → InvC G id s →
      ClosedSet G (passC n rg eg id xs s).selected := by
  intro xs
  induction xs with
  | nil => intro id s _ h; simpa [passC] using h.closed
  | cons x rest ih =>
    intro id s hag h
    have hag' : Agree G rg (id + 1) rest := by
      intro k y hy
      have := hag (k + 1) y (by simpa using hy)
      rw [← this]; congr 1; omega
    have hx : G id = rg.getD x default := by
      have := hag 0 x (by simp)
      simpa using this
    unfold passC
    simp only
    split
    · exact h.closed
    · split
      · rename_i hsel
        apply ih (id + 1) _ hag'
        refine ⟨h.closed, ?_⟩
        intro p' hp' hs r hr
        rcases Nat.lt_succ_iff_lt_or_eq.1 hp' with hlt | heq
        · exact h.blockedOwn p' hlt hs r hr
        · subst heq
          simp only at hsel hs
          rw [hsel] at hs; exact absurd hs (by simp)
      · rename_i hsel
        rw [← hx]
        apply ih (id + 1) _ hag'
        have hsel' : s.selected.testBit id = false := by simpa using hsel
        exact passCGate_inv G eg { s with cnt := s.cnt + 1 } id ⟨h.closed, h.blockedOwn⟩ hsel'

/-! ## The result of `getGroupOpt` is dependency closed -/

theorem collect_mem (sel : Nat) : ∀ (xs : List Nat) (id x : Nat),
    x ∈ collect sel id xs ↔ ∃ k, xs[k]? = some x ∧ sel.testBit (id + k) = true := by
  intro xs
  induction xs with
  | nil => intro id x; simp [collect]
  | cons y rest ih =>
    intro id x
    unfold collect
    constructor
    · intro h
      split at h
      · rename_i hb
        rcases List.mem_cons.1 h with rfl | h
        · exact ⟨0, by simp, by simpa using hb⟩
        · obtain ⟨k, hk1, hk2⟩ := (ih (id + 1) x).1 h
          exact ⟨k + 1, by simpa using hk1, by rw [← hk2]; congr 1; omega⟩
      · obtain ⟨k, hk1, hk2⟩ := (ih (id + 1) x).1 h
        exact ⟨k + 1, by simpa using hk1, by rw [← hk2]; congr 1; omega⟩
    · rintro ⟨k, hk1, hk2⟩
      cases k with
      | zero =>
        simp only [List.getElem?_cons_zero, Option.some.injEq] at hk1
        subst hk1
        simp only [Nat.add_zero] at hk2
        rw [if_pos hk2]
        exact List.mem_cons_self _ _
      | succ k =>
        simp only [List.getElem?_cons_succ] at hk1
        have : x ∈ collect sel (id + 1) rest :=
          (ih (id + 1) x).2 ⟨k, hk1, by rw [← hk2]; congr 1; omega⟩
        split
        · exact List.mem_cons_of_mem _ this
        · exact this

theorem agree_gateAtPos (c : OneLayerCompiler) :
    Agree c.gateAtPos c.remainGates 0 c.gateIDs := by
  intro k x hx
  simp only [OneLayerCompiler.gateAtPos, Nat.zero_add, List.getD_eq_getElem?_getD, hx,
    Option.getD_some]

/-- At the level of batch positions: the bitset that `getGroupOpt` turns into
its result is dependency closed. -/
theorem getGroupOpt_closed_pos (c : OneLayerCompiler) (full : Nat) (related : Nat → Nat)
    (eg : Bool) (ls : Int) (lq : Nat) :
    ∃ sel, c.getGroupOpt full related eg ls lq = some (collect sel 0 c.gateIDs) ∧
      ClosedSet c.gateAtPos sel := by
  obtain ⟨b, hb⟩ := selectedB_isSome c full related eg ls lq
  have hb' := hb
  unfold OneLayerCompiler.selectedB at hb'
  simp only at hb'
  obtain ⟨K, hA⟩ := passA_inv c.gateAtPos c.numQubits c.remainGates ls lq eg c.gateIDs 0
    ⟨full, related, fun _ => 0⟩ (agree_gateAtPos c)
    ⟨fun q p hp => by simp at hp, fun q p hp => by simp at hp, fun p' hp' => absurd hp' (by omega)⟩
  have hB := @passB_inv c.gateAtPos _ _ (fun _ => 0) ls hA.closed
    (fun q p _ j hj => by simp at hj) c.numQubits c.MAX_GATES (c.numQubits + 1) _ b
    ⟨fun q p hp => hp, fun q p hp => Or.inl hp, fun p hp => by simp at hp,
      fun p hp => by simp at hp, Or.inl rfl⟩ hb'
  unfold OneLayerCompiler.getGroupOpt
  rw [hb]
  simp only
  split
  · exact ⟨_, rfl, hB.closed⟩
  · refine ⟨_, rfl, ?_⟩
    exact passC_closed c.gateAtPos c.numQubits c.remainGates eg c.gateIDs 0 _ (agree_gateAtPos c)
      ⟨hB.closed, fun p' hp' => absurd hp' (by omega)⟩

theorem sorted_index_lt {l : List Nat} (hs : l.Sorted (· < ·)) {k k' x y : Nat}
    (hx : l[k]? = some x) (hy : l[k']? = some y) (hlt : y < x) : k' < k := by
  by_contra hge
  have hle : k ≤ k' := not_lt.1 hge
  obtain ⟨hk, hxe⟩ := List.getElem?_eq_some_iff.1 hx
  obtain ⟨hk', hye⟩ := List.getElem?_eq_some_iff.1 hy
  rcases Nat.lt_or_eq_of_le hle with h | h
  · have := List.pairwise_iff_getElem.1 hs k k' hk hk' h
    rw [hxe, hye] at this
    omega
  · subst h
    rw [hxe] at hye
    omega

/-- The result of `getGroupOpt` is dependency closed: with a gate it holds
every gate of `remain` that comes earlier and shares an operand qubit. -/
theorem getGroupOpt_closed (c : OneLayerCompiler) (full : Nat) (related : Nat → Nat)
    (eg : Bool) (ls : Int) (lq : Nat) (hs : c.remain.Sorted (· < ·)) :
    ∃ ret, c.getGroupOpt full related eg ls lq = some ret ∧
      ret.Sublist (c.remain.take c.MAX_GATES) ∧
      ∀ x ∈ ret, ∀ y ∈ c.remain, y < x →
        (c.remainGates.getD y default).shares (c.remainGates.getD x default) → y ∈ ret := by
  obtain ⟨sel, hsel, hclosed⟩ := getGroupOpt_closed_pos c full related eg ls lq
  refine ⟨_, hsel, collect_sublist sel _ 0, ?_⟩
  intro x hx y hy hlt hsh
  rw [collect_mem] at hx ⊢
  obtain ⟨k, hk1, hk2⟩ := hx
  have hxtake : x ∈ c.remain.take c.MAX_GATES := List.mem_iff_getElem?.2 ⟨k, hk1⟩
  have hytake : y ∈ c.remain.take c.MAX_GATES := by
    have hsplit := List.take_append_drop c.MAX_GATES c.remain
    rw [← hsplit] at hy
    rcases List.mem_append.1 hy with h | h
    · exact h
    · have := hs.rel_of_mem_take_of_mem_drop hxtake h
      omega
  obtain ⟨k', hk'⟩ := List.mem_iff_getElem?.1 hytake
  have hstake : (c.remain.take c.MAX_GATES).Sorted (· < ·) := hs.sublist (List.take_sublist _ _)
  have hkk : k' < k := sorted_index_lt hstake hk1 hk' hlt
  refine ⟨k', hk', ?_⟩
  rw [Nat.zero_add] at hk2 ⊢
  apply hclosed k hk2 k' hkk
  have e1 : c.gateAtPos k = c.remainGates.getD x default := by
    have := agree_gateAtPos c k x hk1
    rwa [Nat.zero_add] at this
  have e2 : c.gateAtPos k' = c.remainGates.getD y default := by
    have := agree_gateAtPos c k' y hk'
    rwa [Nat.zero_add] at this
  rw [e1, e2]
  exact hsh

/-! ## Cross-group order of `SimpleCompiler::run` -/

theorem step_closed (sc : SimpleCompiler) (c : OneLayerCompiler) (hs : c.remain.Sorted (· < ·)) :
    ∃ idx, idx.Sublist (c.remain.take c.MAX_GATES) ∧
      (∀ x ∈ idx, ∀ y ∈ c.remain, y < x →
        (c.remainGates.getD y default).shares (c.remainGates.getD x default) → y ∈ idx) ∧
      sc.step c = some (idx,
        GateGroup.empty.addGates (idx.map (fun x => c.remainGates.getD x default))
          sc.localQubits sc.enableGlobal,
        c.removeGatesOpt idx) := by
  obtain ⟨ret, hret, hsub, hcl⟩ := getGroupOpt_closed c
    (SimpleCompiler.initFull sc.numQubits sc.whiteList)
    (fun _ => sc.required) sc.enableGlobal sc.localSize sc.localQubits hs
  refine ⟨ret, hsub, hcl, ?_⟩
  unfold SimpleCompiler.step
  rw [hret]

theorem loop_order (sc : SimpleCompiler) (input : List Gate) :
    ∀ (fuel : Nat) (c : OneLayerCompiler) (lg : LocalGroup) (idxs : List (List Nat))
      (lg' : LocalGroup) (idxs' : List (List Nat)),
      c.remain.Sorted (· < ·) →
      ((c.remainGates = [] ∧ c.remain = []) ∨ c.remainGates = input) →
      idxs.flatten.Pairwise (NoInversion input) →
      (∀ x ∈ idxs.flatten, ∀ y ∈ c.remain, NoInversion input x y) →
      SimpleCompiler.loop sc fuel c lg idxs = some (lg', idxs') →
      idxs'.flatten.Pairwise (NoInversion input) := by
  intro fuel
  induction fuel with
  | zero => intro c lg idxs lg' idxs' _ _ _ _ h; simp [SimpleCompiler.loop] at h
  | succ fuel ih =>
    intro c lg idxs lg' idxs' hs hrg hpw hcross h
    unfold SimpleCompiler.loop at h
    by_cases hlen : c.remainGates.length > 0
    · rw [if_pos hlen] at h
      have hin : c.remainGates = input := by
        rcases hrg with ⟨h1, _⟩ | h1
        · rw [h1] at hlen; simp at hlen
        · exact h1
      obtain ⟨idx, hsub, hcl, hstep⟩ := step_closed sc c hs
      rw [hstep] at h
      simp only at h
      have hsubr : idx.Sublist c.remain := hsub.trans (List.take_sublist _ _)
      have hidxs : idx.Sorted (· < ·) := hs.sublist hsubr
      have hpw' : (idxs ++ [idx]).flatten.Pairwise (NoInversion input) := by
        rw [List.flatten_append, List.pairwise_append]
        simp only [List.flatten_cons, List.flatten_nil, List.append_nil]
        refine ⟨hpw, ?_, fun x hx y hy => hcross x hx y (hsubr.subset hy)⟩
        exact hidxs.imp (fun {a b} hab hinv => by
          have := hinv.1
          omega)
      by_cases hw : (sc.whiteList != 0) = true
      · rw [if_pos hw] at h
        simp only [Option.some.injEq, Prod.mk.injEq] at h
        obtain ⟨_, rfl⟩ := h
        exact hpw'
      · rw [if_neg hw] at h
        apply ih _ _ _ _ _ ?_ ?_ hpw' ?_ h
        · rw [removeGatesOpt_remain]
          exact hs.sublist (List.diff_sublist _ _)
        · simp only [OneLayerCompiler.removeGatesOpt]
          by_cases he : (List.foldl (fun r x => r.erase x) c.remain idx).isEmpty = true
          · left; simp [he]; simpa using he
          · right; simp [he, hin]
        · intro x hx y hy
          rw [removeGatesOpt_remain] at hy
          have hy' := (List.Nodup.mem_diff_iff hs.nodup).1 hy
          rw [List.flatten_append] at hx
          simp only [List.flatten_cons, List.flatten_nil, List.append_nil] at hx
          rcases List.mem_append.1 hx with hx | hx
          · exact hcross x hx y hy'.1
          · intro hinv
            rw [← hin] at hinv
            exact hy'.2 (hcl x hx y hy'.1 hinv.1 hinv.2)
    · rw [if_neg hlen] at h
      simp only [Option.some.injEq, Prod.mk.injEq] at h
      obtain ⟨_, rfl⟩ := h
      exact hpw

theorem sorted_range (n : Nat) : (List.range n).Sorted (· < ·) := by
  rw [List.Sorted, List.pairwise_iff_getElem]
  intro i j hi hj hij
  simpa using hij

/-- C3. Cross-group order: when `SimpleCompiler::run` with `whiteList = 0`
returns, every group holds the gates at its index list, and in the flattened
sequence of these index lists no gate `x` stands before a gate `y` that
preceded it in the input and shares an operand qubit with it.  This holds for
all pairs of gates, two diagonal gates included, so the exception the claim
allows is never used. -/
theorem run_cross_group_order (sc : SimpleCompiler) (fuel : Nat) (lg : LocalGroup)
    (idxs : List (List Nat)) (hw : sc.whiteList = 0)
    (hrun : sc.runIdx fuel = some (lg, idxs)) :
    lg.fullGroups.map (fun g => g.gates) = gatesAt sc.inputGates idxs ∧
    idxs.flatten.Pairwise (fun x y =>
      ¬ (y < x ∧ (sc.inputGates.getD y default).shares (sc.inputGates.getD x default))) := by
  unfold SimpleCompiler.runIdx at hrun
  by_cases hd : (sc.localSize == (sc.numQubits : Int)) = true
  · rw [if_pos hd] at hrun
    simp only [Option.some.injEq, Prod.mk.injEq] at hrun
    obtain ⟨rfl, rfl⟩ := hrun
    refine ⟨?_, ?_⟩
    · simp only [gatesAt, addGates_gates, GateGroup.empty, getD_range_map, List.map_cons,
        List.map_nil, List.nil_append]
    · simp only [List.flatten_cons, List.flatten_nil, List.append_nil]
      exact (sorted_range _).imp (fun {a b} hab hinv => by
        have := hinv.1
        omega)
  · rw [if_neg hd] at hrun
    refine ⟨(loop_coverage sc hw sc.inputGates fuel _ _ _ _ _ (by simp) (by simp [gatesAt])
      (Or.inr rfl) hrun).2, ?_⟩
    exact loop_order sc sc.inputGates fuel _ _ _ _ _ (sorted_range _) (Or.inr rfl)
      (by simp) (by simp) hrun

theorem run_cross_group_order_witness :
    ([[0, 1, 3, 4, 5], [2]] : List (List Nat)).flatten.Pairwise (fun x y =>
      ¬ (y < x ∧ (([Gate.single false 0, Gate.single false 1, Gate.single false 2,
          Gate.single false 3, Gate.control false 3 4, Gate.single false 3] : List Gate).getD y
            default).shares
        (([Gate.single false 0, Gate.single false 1, Gate.single false 2,
          Gate.single false 3, Gate.control false 3 4, Gate.single false 3] : List Gate).getD x
            default))) :=
  (run_cross_group_order
    ⟨5, 4, minusOne, [Gate.single false 0, Gate.single false 1, Gate.single false 2,
        Gate.single false 3, Gate.control false 3 4, Gate.single false 3], true, 0, 0⟩
    3 ⟨[⟨[Gate.single false 0, Gate.single false 1,
        Gate.single false 3, Gate.control false 3 4, Gate.single false 3], 27⟩,
        ⟨[Gate.single false 2], 4⟩], 31⟩ [[0, 1, 3, 4, 5], [2]] rfl (by decide)).2

/-! ## Move-back soundness -/

theorem removeGates_nil (gates : List Gate) : removeGates gates [] = gates := by
  unfold removeGates
  have : (gates.enum.filter (fun p => !(([] : List Nat).contains p.1))) = gates.enum := by
    apply List.filter_eq_self.2
    intro a _; simp
  rw [this]
  exact List.enum_map_snd gates

theorem hoistClosed_nil (gates : List Gate) : HoistClosed gates [] gates [] :=
  ⟨fun p hp => by simp at hp, rfl, (removeGates_nil gates).symm, fun pg hpg => by simp at hpg⟩

/-- The first round of `SimpleCompiler::run`, which is all that the backward
compiler of `moveToNext` runs: no group at all, or one group whose index list
is dependency closed in the input. -/
theorem runIdx_one (sc : SimpleCompiler) (lg : LocalGroup) (idxs : List (List Nat))
    (h : sc.runIdx 1 = some (lg, idxs)) :
    (lg.fullGroups = [] ∧ idxs = []) ∨
    ∃ idx gg, lg.fullGroups = [gg] ∧ idxs = [idx] ∧
      gg.gates = idx.map (fun x => sc.inputGates.getD x default) ∧
      (∀ x ∈ idx, x < sc.inputGates.length) ∧
      ∀ x ∈ idx, ∀ y, y < x →
        (sc.inputGates.getD y default).shares (sc.inputGates.getD x default) → y ∈ idx := by
  unfold SimpleCompiler.runIdx at h
  by_cases hd : (sc.localSize == (sc.numQubits : Int)) = true
  · rw [if_pos hd] at h
    simp only [Option.some.injEq, Prod.mk.injEq] at h
    obtain ⟨rfl, rfl⟩ := h
    right
    refine ⟨_, _, rfl, rfl, ?_, ?_, ?_⟩
    · rw [addGates_gates, getD_range_map]; rfl
    · intro x hx; exact List.mem_range.1 hx
    · intro x hx y hy _
      exact List.mem_range.2 (lt_trans hy (List.mem_range.1 hx))
  · rw [if_neg hd] at h
    unfold SimpleCompiler.loop at h
    simp only at h
    by_cases hlen : sc.inputGates.length > 0
    · rw [if_pos hlen] at h
      obtain ⟨idx, hsub, hcl, hstep⟩ := step_closed sc
        ⟨2048, sc.numQubits, sc.inputGates, List.range sc.inputGates.length⟩ (sorted_range _)
      rw [hstep] at h
      simp only at h
      by_cases hw : (sc.whiteList != 0) = true
      · rw [if_pos hw] at h
        simp only [Option.some.injEq, Prod.mk.injEq] at h
        obtain ⟨rfl, rfl⟩ := h
        right
        have hsubr : idx.Sublist (List.range sc.inputGates.length) :=
          hsub.trans (List.take_sublist _ _)
        refine ⟨_, _, rfl, rfl, ?_, ?_, ?_⟩
        · rw [addGates_gates]; rfl
        · intro x hx; exact List.mem_range.1 (hsubr.subset hx)
        · intro x hx y hy hsh
          exact hcl x hx y (List.mem_range.2 (lt_trans hy (List.mem_range.1 (hsubr.subset hx))))
            hy hsh
      · rw [if_neg hw] at h
        simp [SimpleCompiler.loop] at h
    · rw [if_neg hlen] at h
      simp only [Option.some.injEq, Prod.mk.injEq] at h
      obtain ⟨rfl, rfl⟩ := h
      exact Or.inl ⟨rfl, rfl⟩

theorem getD_reverse (L : List Gate) (y : Nat) (hy : y < L.length) :
    L.reverse.getD y default = L.getD (L.length - 1 - y) default := by
  simp only [List.getD_eq_getElem?_getD]
  rw [List.getElem?_reverse hy]

theorem moveStep_hoist (cfg : Config) (c : Compiler) (prev next prev1 next1 : GateGroup)
    (entry : List Gate × Nat) (h : c.moveStep cfg prev next = some (prev1, next1, entry)) :
    ∃ hoisted, HoistClosed prev.gates entry.1 prev1.gates hoisted := by
  unfold Compiler.moveStep at h
  by_cases h0 : (prev.relatedQubits != 0) = true
  · rw [if_pos h0] at h
    cases hrun : (c.backCompiler cfg prev next).runIdx 1 with
    | none => rw [hrun] at h; simp at h
    | some r =>
      obtain ⟨toRemove, idxs⟩ := r
      rw [hrun] at h
      have hone := runIdx_one _ _ _ hrun
      simp only at h
      rcases hone with ⟨hfg, hidx⟩ | ⟨idx, gg, hfg, hidx, hgates, hbound, hcl⟩
      · rw [hfg] at h
        simp only [Option.some.injEq, Prod.mk.injEq] at h
        obtain ⟨rfl, _, rfl⟩ := h
        exact ⟨[], hoistClosed_nil _⟩
      · rw [hfg, hidx] at h
        simp only [Option.some.injEq, Prod.mk.injEq] at h
        obtain ⟨rfl, _, rfl⟩ := h
        have hin : (c.backCompiler cfg prev next).inputGates = prev.gates.reverse := rfl
        rw [hin] at hgates hbound hcl
        simp only [List.length_reverse] at hbound
        refine ⟨idx.map (fun p => prev.gates.length - 1 - p), ?_, ?_, rfl, ?_⟩
        · intro p hp
          obtain ⟨x, hx, rfl⟩ := List.mem_map.1 hp
          have := hbound x hx
          omega
        · simp only [hgates, ← List.map_reverse, List.map_map]
          apply List.map_congr_left
          intro x hx
          simp only [Function.comp]
          exact getD_reverse _ x (hbound x (List.mem_reverse.1 hx))
        · intro pg hpg ph hlt hph hsh
          obtain ⟨x, hx, rfl⟩ := List.mem_map.1 hpg
          have hxb := hbound x hx
          refine List.mem_map.2 ⟨prev.gates.length - 1 - ph, ?_, by omega⟩
          apply hcl x hx (prev.gates.length - 1 - ph) (by omega)
          rw [getD_reverse _ _ (by omega), getD_reverse _ x hxb]
          have e : prev.gates.length - 1 - (prev.gates.length - 1 - ph) = ph := by omega
          rw [e]
          obtain ⟨q, hq1, hq2⟩ := hsh
          exact ⟨q, hq2, hq1⟩
  · rw [if_neg h0] at h; simp at h

theorem moveLoop_hoist (cfg : Config) (c : Compiler) :
    ∀ (rest : List GateGroup) (prev : GateGroup) (groups : List GateGroup)
      (entries : List (List Gate × Nat)),
      c.moveLoop cfg prev rest = some (groups, entries) →
      ∀ (i : Nat) (e : List Gate × Nat) (g g' : GateGroup),
        entries[i]? = some e → (prev :: rest)[i]? = some g → groups[i]? = some g' →
        ∃ hoisted, HoistClosed g.gates e.1 g'.gates hoisted := by
  intro rest
  induction rest with
  | nil =>
    intro prev groups entries h
    simp only [Compiler.moveLoop, Option.some.injEq, Prod.mk.injEq] at h
    obtain ⟨_, rfl⟩ := h
    intro i e g g' he
    simp at he
  | cons next rest ih =>
    intro prev groups entries h
    unfold Compiler.moveLoop at h
    cases hs : c.moveStep cfg prev next with
    | none => rw [hs] at h; simp at h
    | some r =>
      obtain ⟨prev1, next1, entry⟩ := r
      rw [hs] at h
      simp only at h
      cases hl : c.moveLoop cfg next1 rest with
      | none => rw [hl] at h; simp at h
      | some r2 =>
        obtain ⟨groups2, entries2⟩ := r2
        rw [hl] at h
        simp only [Option.some.injEq, Prod.mk.injEq] at h
        obtain ⟨rfl, rfl⟩ := h
        have hstep := moveStep_hoist cfg c prev next prev1 next1 entry hs
        have hnext := (moveStep_spec cfg c prev next prev1 next1 entry hs).2
        have hrec := ih next1 groups2 entries2 hl
        intro i e g g' he hg hg'
        cases i with
        | zero =>
          simp only [List.getElem?_cons_zero, Option.some.injEq] at he hg hg'
          subst he; subst hg; subst hg'
          exact hstep
        | succ i =>
          simp only [List.getElem?_cons_succ] at he hg hg'
          cases i with
          | zero =>
            simp only [List.getElem?_cons_zero, Option.some.injEq] at hg
            subst hg
            have := hrec 0 e next1 g' he (by simp) hg'
            rwa [hnext] at this
          | succ i =>
            simp only [List.getElem?_cons_succ] at hg
            exact hrec (i + 1) e g g' he (by simpa using hg) hg'

/-- C9. Move-back soundness: when `moveToNext` returns, then for every
`i >= 1` the gates hoisted out of `fullGroups[i-1]` (entry `i` of the result)
are the gates at a set of positions of the gate list that `fullGroups[i-1]`
had before the call, the group keeps the other gates, and the set is a
dependency-closed tail: with the position of a gate `g` it holds the position
of every gate `h` that comes after `g` in the group and shares an operand qubit
with `g`.  This holds for all such pairs, two diagonal gates included. -/
theorem moveToNext_hoist_closed (cfg : Config) (c : Compiler) (lg lg' : LocalGroup)
    (res : List (List Gate × Nat)) (h : c.moveToNext cfg lg = some (lg', res)) :
    ∀ (i : Nat) (e : List Gate × Nat) (g g' : GateGroup),
      res[i + 1]? = some e → lg.fullGroups[i]? = some g → lg'.fullGroups[i]? = some g' →
      ∃ hoisted : List Nat,
        (∀ p ∈ hoisted, p < g.gates.length) ∧
        e.1 = hoisted.reverse.map (fun p => g.gates.getD p default) ∧
        g'.gates = removeGates g.gates hoisted ∧
        ∀ pg ∈ hoisted, ∀ ph, pg < ph → ph < g.gates.length →
          (g.gates.getD pg default).shares (g.gates.getD ph default) → ph ∈ hoisted := by
  unfold Compiler.moveToNext at h
  by_cases ho : (!cfg.ENABLE_OVERLAP) = true
  · rw [if_pos ho] at h
    simp only [Option.some.injEq, Prod.mk.injEq] at h
    obtain ⟨rfl, rfl⟩ := h
    intro i e g g' he hg hg'
    rw [hg] at hg'
    simp only [Option.some.injEq] at hg'
    subst hg'
    rw [List.getElem?_map] at he
    cases hgi : lg.fullGroups[i + 1]? with
    | none => rw [hgi] at he; simp at he
    | some g2 =>
      rw [hgi] at he
      simp only [Option.map_some', Option.some.injEq] at he
      subst he
      exact ⟨[], hoistClosed_nil _⟩
  · rw [if_neg ho] at h
    cases hfg : lg.fullGroups with
    | nil =>
      intro i e g g' _ hg
      simp at hg
    | cons g0 rest =>
      rw [hfg] at h
      simp only at h
      cases hl : c.moveLoop cfg g0 rest with
      | none => rw [hl] at h; simp at h
      | some r =>
        obtain ⟨groups, entries⟩ := r
        rw [hl] at h
        simp only [Option.map_some', Option.some.injEq, Prod.mk.injEq] at h
        obtain ⟨rfl, rfl⟩ := h
        intro i e g g' he hg hg'
        simp only [List.getElem?_cons_succ] at he
        exact moveLoop_hoist cfg c rest g0 groups entries hl i e g g' he hg hg'

theorem moveToNext_hoist_closed_witness :
    ∃ hoisted : List Nat,
      (∀ p ∈ hoisted, p < 5) ∧
      [Gate.single false 3, Gate.control false 3 4, Gate.single false 3] =
        hoisted.reverse.map (fun p => ([Gate.single false 0, Gate.single false 1,
          Gate.single false 3, Gate.control false 3 4, Gate.single false 3] : List Gate).getD p
            default) ∧
      [Gate.single false 0, Gate.single false 1] =
        removeGates [Gate.single false 0, Gate.single false 1,
          Gate.single false 3, Gate.control false 3 4, Gate.single false 3] hoisted ∧
      ∀ pg ∈ hoisted, ∀ ph, pg < ph → ph < 5 →
        (([Gate.single false 0, Gate.single false 1, Gate.single false 3,
            Gate.control false 3 4, Gate.single false 3] : List Gate).getD pg default).shares
          (([Gate.single false 0, Gate.single false 1, Gate.single false 3,
            Gate.control false 3 4, Gate.single false 3] : List Gate).getD ph default) →
        ph ∈ hoisted :=
  moveToNext_hoist_closed ⟨0, 1, 0, true⟩ ⟨5, [], 1⟩
    ⟨[⟨[Gate.single false 0, Gate.single false 1, Gate.single false 3,
        Gate.control false 3 4, Gate.single false 3], 27⟩,
      ⟨[Gate.single false 2], 4⟩], 31⟩
    ⟨[⟨[Gate.single false 0, Gate.single false 1], 27⟩, ⟨[Gate.single false 2], 28⟩], 31⟩
    [([], 0), ([Gate.single false 3, Gate.control false 3 4, Gate.single false 3], 24)]
    (by decide) 0
    ([Gate.single false 3, Gate.control false 3 4, Gate.single false 3], 24)
    ⟨[Gate.single false 0, Gate.single false 1, Gate.single false 3,
        Gate.control false 3 4, Gate.single false 3], 27⟩
    ⟨[Gate.single false 0, Gate.single false 1], 27⟩ rfl rfl rfl

/-! ## The budget of the groups of `SimpleCompiler::run` -/

theorem newRelated_plain {eg : Bool} {g : Gate} (h : eg = false ∨ g.isDiagonal = false)
    (old lq : Nat) : GateGroup.newRelated old g lq eg = old ||| Gate.maskOf g.qubits := by
  unfold GateGroup.newRelated
  rcases h with h | h <;> simp [h]

theorem newRelated_eq_or (old : Nat) (g : Gate) (lq : Nat) (eg : Bool) :
    GateGroup.newRelated old g lq eg = old ||| GateGroup.newRelated 0 g lq eg := by
  unfold GateGroup.newRelated
  split <;> simp

theorem testBit_foldl_newRelated (lq : Nat) (eg : Bool) (gs : List Gate) : ∀ (m j : Nat),
    (gs.foldl (fun m g => GateGroup.newRelated m g lq eg) m).testBit j = true ↔
      m.testBit j = true ∨ ∃ g ∈ gs, (GateGroup.newRelated 0 g lq eg).testBit j = true := by
  induction gs with
  | nil => intro m j; simp
  | cons g rest ih =>
    intro m j
    rw [List.foldl_cons, ih, newRelated_eq_or m g]
    simp only [Nat.testBit_or, Bool.or_eq_true, List.mem_cons, exists_eq_or_imp]
    tauto

theorem newRelated_zero_lt {g : Gate} (h : g.valid 64) (lq : Nat) (eg : Bool) :
    GateGroup.newRelated 0 g lq eg < 2 ^ 64 := by
  have hm : Gate.maskOf g.qubits < 2 ^ 64 := maskOf_lt h
  unfold GateGroup.newRelated
  split
  · rw [Nat.zero_or]
    exact lt_of_le_of_lt Nat.and_le_left hm
  · rw [Nat.zero_or]; exact hm

theorem newRelated_lt {g : Gate} (h : g.valid 64) {old : Nat} (ho : old < 2 ^ 64) (lq : Nat)
    (eg : Bool) : GateGroup.newRelated old g lq eg < 2 ^ 64 := by
  rw [newRelated_eq_or]
  exact Nat.or_lt_two_pow ho (newRelated_zero_lt h lq eg)

theorem testBit_newRelated_of_old {old j : Nat} (h : old.testBit j = true) (g : Gate) (lq : Nat)
    (eg : Bool) : (GateGroup.newRelated old g lq eg).testBit j = true := by
  rw [newRelated_eq_or, Nat.testBit_or, h]; rfl

theorem testBit_newRelated_of_zero {j : Nat} {g : Gate} {lq : Nat} {eg : Bool}
    (h : (GateGroup.newRelated 0 g lq eg).testBit j = true) (old : Nat) :
    (GateGroup.newRelated old g lq eg).testBit j = true := by
  rw [newRelated_eq_or, Nat.testBit_or, h]; simp

/-- What an accepted gate that is not multi-controlled does to `related`:
every operand's entry becomes one mask that covers the operands' previous
entries and what `newRelated` adds for the gate. -/
theorem acceptGate_related {ls : Int} {lq : Nat} {eg : Bool} {s s' : PassA} {id : Nat}
    {gate : Gate} (hmc : gate.isMCGate = false) (hval : gate.valid 64)
    (hw : ∀ q, s.related q < 2 ^ 64)
    (h : acceptGate ls lq eg s id gate = some s') :
    ∃ NR : Nat, NR < 2 ^ 64 ∧
      (∀ q ∈ gate.qubits, ∀ j, (s.related q).testBit j = true → NR.testBit j = true) ∧
      (∀ j, (GateGroup.newRelated 0 gate lq eg).testBit j = true → NR.testBit j = true) ∧
      ∀ r, s'.related r = if r ∈ gate.qubits then NR else s.related r := by
  cases gate with
  | single d t =>
    simp only [acceptGate] at h
    split at h
    · simp only [Option.some.injEq] at h
      subst h
      refine ⟨GateGroup.newRelated (s.related t) (Gate.single d t) lq eg,
        newRelated_lt hval (hw t) lq eg, ?_, fun j hj => testBit_newRelated_of_zero hj _, ?_⟩
      · intro q hq j hj
        simp only [Gate.qubits, List.mem_singleton] at hq
        subst hq
        exact testBit_newRelated_of_old hj _ _ _
      · intro r
        simp only [upd, Gate.qubits, List.mem_singleton]
    · simp at h
  | control d c t =>
    simp only [acceptGate] at h
    split at h
    · split at h
      · simp only [Option.some.injEq] at h
        subst h
        refine ⟨GateGroup.newRelated (s.related c ||| s.related t) (Gate.control d c t) lq eg,
          newRelated_lt hval (Nat.or_lt_two_pow (hw c) (hw t)) lq eg, ?_,
          fun j hj => testBit_newRelated_of_zero hj _, ?_⟩
        · intro q hq j hj
          simp only [Gate.qubits, List.mem_cons, List.mem_singleton, List.not_mem_nil,
            or_false] at hq
          apply testBit_newRelated_of_old
          rcases hq with rfl | rfl <;> simp [Nat.testBit_or, hj]
        · intro r
          simp only [upd, Gate.qubits, List.mem_cons, List.mem_singleton, List.not_mem_nil,
            or_false]
          by_cases h1 : r = c
          · simp [h1]
          · by_cases h2 : r = t
            · simp [h2]
            · simp [h1, h2]
      · simp at h
    · simp at h
  | twoQubit d e t =>
    simp only [acceptGate] at h
    split at h
    · split at h
      · simp only [Option.some.injEq] at h
        subst h
        refine ⟨GateGroup.newRelated (s.related e ||| s.related t) (Gate.twoQubit d e t) lq eg,
          newRelated_lt hval (Nat.or_lt_two_pow (hw e) (hw t)) lq eg, ?_,
          fun j hj => testBit_newRelated_of_zero hj _, ?_⟩
        · intro q hq j hj
          simp only [Gate.qubits, List.mem_cons, List.mem_singleton, List.not_mem_nil,
            or_false] at hq
          apply testBit_newRelated_of_old
          rcases hq with rfl | rfl <;> simp [Nat.testBit_or, hj]
        · intro r
          simp only [upd, Gate.qubits, List.mem_cons, List.mem_singleton, List.not_mem_nil,
            or_false]
          by_cases h1 : r = e
          · simp [h1]
          · by_cases h2 : r = t
            · simp [h2]
            · simp [h1, h2]
      · simp at h
    · simp at h
  | mc d cs t => simp [Gate.isMCGate] at hmc

theorem passAGate_invR (G : Nat → Gate) (ls : Int) (lq : Nat) (eg : Bool) (s : PassA) (id : Nat)
    (hp : (G id).budgeted lq eg) (h : InvR G lq eg s) :
    InvR G lq eg (passAGate ls lq eg s id (G id)) := by
  unfold passAGate
  cases hacc : acceptGate ls lq eg s id (G id) with
  | none =>
    simp only
    refine ⟨?_, ?_⟩
    · rw [rejectGate_cur, rejectGate_related]; exact h.covers
    · rw [rejectGate_related]; exact h.word
  | some s' =>
    simp only
    obtain ⟨_, _, NC, hNC, hcur⟩ := acceptGate_cur hacc
    obtain ⟨NR, hNRw, hNR1, hNR2, hrel⟩ := acceptGate_related hp.1 hp.2.1 h.word hacc
    refine ⟨?_, ?_⟩
    · intro q p hqp j hj
      rw [hcur] at hqp
      rw [hrel]
      split at hqp
      · rename_i hq
        rw [if_pos hq]
        rw [hNC] at hqp
        rcases hqp with rfl | ⟨q', hq', hq'p⟩
        · exact hNR2 j hj
        · exact hNR1 q' hq' j (h.covers q' p hq'p j hj)
      · rename_i hq
        rw [if_neg hq]
        exact h.covers q p hqp j hj
    · intro q
      rw [hrel]
      split
      · exact hNRw
      · exact h.word q

theorem passA_invR (G : Nat → Gate) (n : Nat) (rg : List Gate) (ls : Int) (lq : Nat) (eg : Bool)
    (hp : ∀ p, (G p).budgeted lq eg) :
    ∀ (xs : List Nat) (id : Nat) (s : PassA), Agree G rg id xs → InvR G lq eg s →
      InvR G lq eg (passA n rg ls lq eg id xs s) := by
  intro xs
  induction xs with
  | nil => intro id s _ h; simpa [passA] using h
  | cons x rest ih =>
    intro id s hag h
    unfold passA
    split
    · exact h
    · have hx : G id = rg.getD x default := by
        have := hag 0 x (by simp)
        simpa using this
      rw [← hx]
      apply ih (id + 1) _ ?_ (passAGate_invR G ls lq eg s id (hp id) h)
      intro k y hy
      have := hag (k + 1) y (by simpa using hy)
      rw [← this]; congr 1; omega

theorem absorbStep_selectedRelated (related : Nat → Nat) (id : Nat) (s : PassB) (i : Nat) :
    (absorbStep related id s i).selectedRelated = s.selectedRelated := by
  unfold absorbStep
  split
  · split <;> rfl
  · rfl

theorem passB_word (n M : Nat) (ls : Int) (related : Nat → Nat) (hw : ∀ q, related q < 2 ^ 64) :
    ∀ (fuel : Nat) (s r : PassB), s.selectedRelated < 2 ^ 64 →
      passB n M ls related fuel s = some r → r.selectedRelated < 2 ^ 64 := by
  intro fuel
  induction fuel with
  | zero => intro s r _ h; simp [passB] at h
  | succ fuel ih =>
    intro s r hs h
    unfold passB at h
    simp only at h
    split at h
    · simp only [Option.some.injEq] at h
      subst h; exact hs
    · apply ih _ r ?_ h
      unfold passBAbsorb
      apply foldl_preserves (fun s' : PassB => s'.selectedRelated < 2 ^ 64)
      · intro s' i hs'
        show (absorbStep related _ s' i).selectedRelated < 2 ^ 64
        rw [absorbStep_selectedRelated]; exact hs'
      · exact Nat.or_lt_two_pow hs (hw _)

/-- Pass C keeps the operands that count for the mask inside `sr`, because a
gate it adds is diagonal under `enableGlobal` and so adds nothing to the
mask. -/
theorem passC_within (G : Nat → Gate) (n : Nat) (rg : List Gate) (lq : Nat) (eg : Bool) (sr : Nat)
    (hd : ∀ p, ((G p).isDiagonal && eg) = true → GateGroup.newRelated 0 (G p) lq eg = 0) :
    ∀ (xs : List Nat) (id : Nat) (s : PassC), Agree G rg id xs →
      (∀ p, s.selected.testBit p = true →
        ∀ j, (GateGroup.newRelated 0 (G p) lq eg).testBit j = true → sr.testBit j = true) →
      ∀ p, (passC n rg eg id xs s).selected.testBit p = true →
        ∀ j, (GateGroup.newRelated 0 (G p) lq eg).testBit j = true → sr.testBit j = true := by
  intro xs
  induction xs with
  | nil => intro id s _ h; simpa [passC] using h
  | cons x rest ih =>
    intro id s hag h
    have hag' : Agree G rg (id + 1) rest := by
      intro k y hy
      have := hag (k + 1) y (by simpa using hy)
      rw [← this]; congr 1; omega
    have hx : G id = rg.getD x default := by
      have := hag 0 x (by simp)
      simpa using this
    unfold passC
    simp only
    split
    · exact h
    · split
      · exact ih (id + 1) _ hag' h
      · rw [← hx]
        apply ih (id + 1) _ hag'
        rcases passCGate_spec eg { s with cnt := s.cnt + 1 } id (G id) with
          ⟨h1, _, h3, _⟩ | ⟨h1, _, _⟩
        · rw [h1]
          intro p hp j hj
          simp only [Nat.testBit_or, testBit_one_shiftLeft, Bool.or_eq_true,
            decide_eq_true_eq] at hp
          rcases hp with hp | hp
          · exact h p hp j hj
          · subst hp
            rw [hd id h3] at hj
            simp at hj
        · rw [h1]; exact h

/-- At the level of batch positions: on a batch of budgeted gates, what
`newRelated` adds to the mask for the gates that `getGroupOpt` returns lies in
one 64-bit mask that is empty or has at most `localSize` bits. -/
theorem getGroupOpt_budget_pos (c : OneLayerCompiler) (full : Nat) (related : Nat → Nat)
    (eg : Bool) (ls : Int) (lq : Nat) (hp : ∀ p, (c.gateAtPos p).budgeted lq eg)
    (hrel : ∀ q, related q < 2 ^ 64) :
    ∃ sel sr, c.getGroupOpt full related eg ls lq = some (collect sel 0 c.gateIDs) ∧
      sr < 2 ^ 64 ∧ (sr = 0 ∨ (bitCount sr : Int) ≤ ls) ∧
      ∀ p, sel.testBit p = true →
        ∀ j, (GateGroup.newRelated 0 (c.gateAtPos p) lq eg).testBit j = true →
          sr.testBit j = true := by
  obtain ⟨b, hb⟩ := selectedB_isSome c full related eg ls lq
  have hb' := hb
  unfold OneLayerCompiler.selectedB at hb'
  simp only at hb'
  have hA0 : InvA c.gateAtPos 0 ⟨full, related, fun _ => 0⟩ :=
    ⟨fun q p hp => by simp at hp, fun q p hp => by simp at hp, fun p' hp' => absurd hp' (by omega)⟩
  obtain ⟨K, hA⟩ := passA_inv c.gateAtPos c.numQubits c.remainGates ls lq eg c.gateIDs 0
    ⟨full, related, fun _ => 0⟩ (agree_gateAtPos c) hA0
  have hR := passA_invR c.gateAtPos c.numQubits c.remainGates ls lq eg hp c.gateIDs 0
    ⟨full, related, fun _ => 0⟩ (agree_gateAtPos c) ⟨fun q p hp => by simp at hp, hrel⟩
  have hB := @passB_inv c.gateAtPos _ _
    (fun p => GateGroup.newRelated 0 (c.gateAtPos p) lq eg) ls hA.closed
    hR.covers c.numQubits c.MAX_GATES (c.numQubits + 1) _ b
    ⟨fun q p hp => hp, fun q p hp => Or.inl hp, fun p hp => by simp at hp,
      fun p hp => by simp at hp, Or.inl rfl⟩ hb'
  have hW := passB_word c.numQubits c.MAX_GATES ls _ hR.word (c.numQubits + 1) _ b
    (by simp) hb'
  unfold OneLayerCompiler.getGroupOpt
  rw [hb]
  simp only
  split
  · exact ⟨_, b.selectedRelated, rfl, hW, hB.fits, hB.within⟩
  · refine ⟨_, b.selectedRelated, rfl, hW, hB.fits, ?_⟩
    exact passC_within c.gateAtPos c.numQubits c.remainGates lq eg b.selectedRelated
      (fun p => (hp p).2.2) c.gateIDs 0 _ (agree_gateAtPos c) hB.within

theorem default_budgeted (lq : Nat) (eg : Bool) : (default : Gate).budgeted lq eg :=
  ⟨rfl, by decide, fun h => by
    have h' : (false && eg) = true := h
    simp at h'⟩

theorem gateAtPos_budgeted (c : OneLayerCompiler) (lq : Nat) (eg : Bool)
    (h : ∀ g ∈ c.remainGates, g.budgeted lq eg) (p : Nat) : (c.gateAtPos p).budgeted lq eg := by
  unfold OneLayerCompiler.gateAtPos
  rw [List.getD_eq_getElem?_getD]
  cases hx : c.remainGates[c.gateIDs.getD p 0]? with
  | none => exact default_budgeted lq eg
  | some g => exact h g (List.mem_iff_getElem?.2 ⟨_, hx⟩)

/-- Every gate of a group that is not a diagonal gate under `enableGlobal` has
all its operand qubits in the mask that `addGate` accumulates. -/
theorem addGates_operands (gs : List Gate) (lq : Nat) (eg : Bool) :
    ∀ g ∈ (GateGroup.empty.addGates gs lq eg).gates, (g.isDiagonal && eg) = false →
      ∀ q ∈ g.qubits, (GateGroup.empty.addGates gs lq eg).relatedQubits.testBit q = true := by
  intro g hg hd q hq
  rw [addGates_gates] at hg
  simp only [GateGroup.empty, List.nil_append] at hg
  rw [addGates_relatedQubits, testBit_foldl_newRelated]
  right
  refine ⟨g, hg, ?_⟩
  have hplain : eg = false ∨ g.isDiagonal = false := by
    cases eg
    · exact Or.inl rfl
    · right; simpa using hd
  rw [newRelated_plain hplain, Nat.zero_or, testBit_maskOf]
  simpa using hq

/-- One iteration of `SimpleCompiler::run` on budgeted gates builds a group
whose mask has at most `localSize` bits. -/
theorem step_budget (sc : SimpleCompiler) (c : OneLayerCompiler)
    (hp : ∀ g ∈ c.remainGates, g.budgeted sc.localQubits sc.enableGlobal)
    (hreq : sc.required < 2 ^ 64)
    (hls : 0 ≤ sc.localSize) (idx : List Nat) (gg : GateGroup) (c1 : OneLayerCompiler)
    (h : sc.step c = some (idx, gg, c1)) :
    (bitCount gg.relatedQubits : Int) ≤ sc.localSize := by
  obtain ⟨sel, sr, hget, hsr, hfit, hwithin⟩ := getGroupOpt_budget_pos c
    (SimpleCompiler.initFull sc.numQubits sc.whiteList) (fun _ => sc.required) sc.enableGlobal
    sc.localSize sc.localQubits (gateAtPos_budgeted c sc.localQubits sc.enableGlobal hp)
    (fun _ => hreq)
  unfold SimpleCompiler.step at h
  rw [hget] at h
  simp only [Option.some.injEq, Prod.mk.injEq] at h
  obtain ⟨_, rfl, _⟩ := h
  have hsub : ∀ j, (GateGroup.empty.addGates
      ((collect sel 0 c.gateIDs).map (fun x => c.remainGates.getD x default))
      sc.localQubits sc.enableGlobal).relatedQubits.testBit j = true → sr.testBit j = true := by
    intro j hj
    rw [addGates_relatedQubits, testBit_foldl_newRelated] at hj
    rcases hj with hj | ⟨g, hg, hj⟩
    · simp [GateGroup.empty] at hj
    · obtain ⟨x, hx, rfl⟩ := List.mem_map.1 hg
      obtain ⟨k, hk1, hk2⟩ := (collect_mem sel _ 0 x).1 hx
      rw [Nat.zero_add] at hk2
      have e : c.gateAtPos k = c.remainGates.getD x default := by
        have := agree_gateAtPos c k x hk1
        rwa [Nat.zero_add] at this
      apply hwithin k hk2 j
      rw [e]; exact hj
  generalize (GateGroup.empty.addGates
      ((collect sel 0 c.gateIDs).map (fun x => c.remainGates.getD x default))
      sc.localQubits sc.enableGlobal).relatedQubits = mask at hsub ⊢
  have hmask : mask < 2 ^ 64 := by
    apply Nat.lt_pow_two_of_testBit
    intro i hi
    cases hb : mask.testBit i
    · rfl
    · have h1 := hsub i hb
      have h2 := Nat.testBit_lt_two_pow (lt_of_lt_of_le hsr (Nat.pow_le_pow_right (by decide) hi))
      rw [h2] at h1; exact absurd h1 (by simp)
  have hmono := bitCount_mono hmask hsr hsub
  rcases hfit with h0 | hle
  · subst h0
    have : bitCount mask ≤ bitCount 0 := hmono
    have hz : bitCount 0 = 0 := rfl
    omega
  · omega

theorem step_group (sc : SimpleCompiler) (c : OneLayerCompiler) (idx : List Nat)
    (gg : GateGroup) (c1 : OneLayerCompiler) (h : sc.step c = some (idx, gg, c1)) :
    gg = GateGroup.empty.addGates (idx.map (fun x => c.remainGates.getD x default))
      sc.localQubits sc.enableGlobal := by
  unfold SimpleCompiler.step at h
  split at h
  · simp at h
  · simp only [Option.some.injEq, Prod.mk.injEq] at h
    obtain ⟨rfl, rfl, _⟩ := h
    rfl

/-- A property of the groups that the iterations build holds for every group
that the loop of `SimpleCompiler::run` returns. -/
theorem loop_groups_forall (sc : SimpleCompiler) (input : List Gate) (P : GateGroup → Prop)
    (hstep : ∀ (c : OneLayerCompiler) (idx : List Nat) (gg : GateGroup) (c1 : OneLayerCompiler),
      c.remainGates = input → sc.step c = some (idx, gg, c1) → P gg) :
    ∀ (fuel : Nat) (c : OneLayerCompiler) (lg : LocalGroup) (idxs : List (List Nat))
      (lg' : LocalGroup) (idxs' : List (List Nat)),
      ((c.remainGates = [] ∧ c.remain = []) ∨ c.remainGates = input) →
      (∀ g ∈ lg.fullGroups, P g) →
      SimpleCompiler.loop sc fuel c lg idxs = some (lg', idxs') →
      ∀ g ∈ lg'.fullGroups, P g := by
  intro fuel
  induction fuel with
  | zero => intro c lg idxs lg' idxs' _ _ h; simp [SimpleCompiler.loop] at h
  | succ fuel ih =>
    intro c lg idxs lg' idxs' hrg hP h
    unfold SimpleCompiler.loop at h
    by_cases hlen : c.remainGates.length > 0
    · rw [if_pos hlen] at h
      have hin : c.remainGates = input := by
        rcases hrg with ⟨h1, _⟩ | h1
        · rw [h1] at hlen; simp at hlen
        · exact h1
      cases hs : sc.step c with
      | none => rw [hs] at h; simp at h
      | some r =>
        obtain ⟨idx, gg, c1⟩ := r
        rw [hs] at h
        simp only at h
        have hc1 : c1 = c.removeGatesOpt idx := by
          unfold SimpleCompiler.step at hs
          split at hs
          · simp at hs
          · simp only [Option.some.injEq, Prod.mk.injEq] at hs
            obtain ⟨rfl, _, rfl⟩ := hs
            rfl
        have hnew : ∀ g ∈ lg.fullGroups ++ [gg], P g := by
          intro g hg
          rcases List.mem_append.1 hg with hg | hg
          · exact hP g hg
          · simp only [List.mem_singleton] at hg
            subst hg
            exact hstep c idx g c1 hin hs
        by_cases hw : (sc.whiteList != 0) = true
        · rw [if_pos hw] at h
          simp only [Option.some.injEq, Prod.mk.injEq] at h
          obtain ⟨rfl, _⟩ := h
          exact hnew
        · rw [if_neg hw] at h
          apply ih _ _ _ _ _ ?_ hnew h
          rw [hc1]
          simp only [OneLayerCompiler.removeGatesOpt]
          by_cases he : (List.foldl (fun r x => r.erase x) c.remain idx).isEmpty = true
          · left; simp [he]; simpa using he
          · right; simp [he, hin]
    · rw [if_neg hlen] at h
      simp only [Option.some.injEq, Prod.mk.injEq] at h
      obtain ⟨rfl, _⟩ := h
      exact hP

/-- The part of the budget that holds on the code.  For every group that
`SimpleCompiler::run` returns on its non-degenerate path, every operand qubit
of every gate in the group is in `relatedQubits` unless the gate is diagonal
and `enableGlobal` is set (for all gate lists, multi-controlled gates
included); and `bitCount(relatedQubits) <= localSize` holds when the gate list
over `[0, N)`, `N <= 64`, has no multi-controlled gate, every diagonal gate
has, if `enableGlobal` is set, no operand qubit in `localQubits`
(`localQubits != -1`), `required` is a 64-bit word and `localSize >= 0`. -/
theorem run_budget (sc : SimpleCompiler) (fuel : Nat) (lg : LocalGroup) (idxs : List (List Nat))
    (hnd : sc.localSize ≠ (sc.numQubits : Int))
    (hrun : sc.runIdx fuel = some (lg, idxs)) :
    (∀ gg ∈ lg.fullGroups, ∀ g ∈ gg.gates, (g.isDiagonal && sc.enableGlobal) = false →
      ∀ q ∈ g.qubits, gg.relatedQubits.testBit q = true) ∧
    (sc.numQubits ≤ 64 → (∀ g ∈ sc.inputGates, g.valid sc.numQubits) →
      (∀ g ∈ sc.inputGates, g.isMCGate = false) →
      (∀ g ∈ sc.inputGates, g.isDiagonal = true → sc.enableGlobal = true →
        sc.localQubits ≠ minusOne ∧ Gate.maskOf g.qubits &&& sc.localQubits = 0) →
      sc.required < 2 ^ 64 → 0 ≤ sc.localSize →
      ∀ gg ∈ lg.fullGroups, (bitCount gg.relatedQubits : Int) ≤ sc.localSize) := by
  unfold SimpleCompiler.runIdx at hrun
  have hd : ¬ (sc.localSize == (sc.numQubits : Int)) = true := by simpa using hnd
  rw [if_neg hd] at hrun
  refine ⟨?_, ?_⟩
  · apply loop_groups_forall sc sc.inputGates
      (fun gg => ∀ g ∈ gg.gates, (g.isDiagonal && sc.enableGlobal) = false →
        ∀ q ∈ g.qubits, gg.relatedQubits.testBit q = true) ?_ fuel _ _ _ _ _ (Or.inr rfl)
      (by simp) hrun
    intro c idx gg c1 _ hs
    rw [step_group sc c idx gg c1 hs]
    exact addGates_operands _ _ _
  · intro hN hval hmc hdiag hreq hls
    apply loop_groups_forall sc sc.inputGates
      (fun gg => (bitCount gg.relatedQubits : Int) ≤ sc.localSize) ?_ fuel _ _ _ _ _ (Or.inr rfl)
      (by simp) hrun
    intro c idx gg c1 hin hs
    apply step_budget sc c ?_ hreq hls idx gg c1 hs
    intro g hg
    rw [hin] at hg
    refine ⟨hmc g hg, fun q hq => lt_of_lt_of_le (hval g hg q hq) hN, ?_⟩
    intro hde
    simp only [Bool.and_eq_true] at hde
    obtain ⟨hne, hzero⟩ := hdiag g hg hde.1 hde.2
    unfold GateGroup.newRelated
    have hb : (sc.localQubits != minusOne) = true := by simpa using hne
    simp only [hde.1, hde.2, hb, Bool.and_self, if_true, Nat.zero_or]
    exact hzero

theorem run_budget_witness :
    (bitCount 11 : Int) ≤ 3 ∧ (bitCount 4 : Int) ≤ 3 :=
  have h := (run_budget
    ⟨5, 3, 0b00111, [Gate.single false 0, Gate.single true 4, Gate.control false 0 1,
        Gate.single false 2, Gate.single false 3, Gate.control true 3 4], true, 0, 0⟩
    4 ⟨[⟨[Gate.single false 0, Gate.single true 4, Gate.control false 0 1,
        Gate.single false 3, Gate.control true 3 4], 11⟩,
        ⟨[Gate.single false 2], 4⟩], 15⟩ [[0, 1, 2, 4, 5], [3]] (by decide) (by decide)).2
    (by decide) (by decide) (by decide) (by decide) (by decide) (by decide)
  ⟨h ⟨[Gate.single false 0, Gate.single true 4, Gate.control false 0 1,
      Gate.single false 3, Gate.control true 3 4], 11⟩ (by decide),
    h ⟨[Gate.single false 2], 4⟩ (by decide)⟩

/-- C1 fails on the code: with `N = 3`, `localSize = 2` and `enableGlobal`
set, the diagonal gates `[Rz(0), Rz(1), Rz(2)]` are all placed in one group
(Pass B takes the first two, Pass C adds the third without a budget test), and
`addGate` gives the group the mask `0b111` of three bits, more than
`localSize`; this holds with `localQubits = -1` and with
`localQubits = 0b111`.  The first is the local compiler of `Compiler::run` for
`G = 1` under each of the 40 build configurations with `MODE != 2`, and there
the assertion `numRelated <= numLocalQubits` of `fillLocals` fails on the
group. -/
theorem run_budget_overflow :
    (∀ g ∈ [Gate.single true 0, Gate.single true 1, Gate.single true 2], g.valid 3) ∧
    (⟨3, 2, minusOne, [Gate.single true 0, Gate.single true 1, Gate.single true 2], true, 0, 0⟩ :
      SimpleCompiler).run 2 =
      some ⟨[⟨[Gate.single true 0, Gate.single true 1, Gate.single true 2], 0b111⟩], 0b111⟩ ∧
    (⟨3, 2, 0b111, [Gate.single true 0, Gate.single true 1, Gate.single true 2], true, 0, 0⟩ :
      SimpleCompiler).run 2 =
      some ⟨[⟨[Gate.single true 0, Gate.single true 1, Gate.single true 2], 0b111⟩], 0b111⟩ ∧
    ¬ ((bitCount 0b111 : Int) ≤ 2) ∧
    (buildConfigs.filter (fun cfg => cfg.MODE != 2)).length = 40 ∧
    (buildConfigs.filter (fun cfg => cfg.MODE != 2)).all (fun cfg =>
      decide ((Compiler.localCompiler cfg
          ⟨3, [Gate.single true 0, Gate.single true 1, Gate.single true 2], 1⟩).run 2 =
          some ⟨[⟨[Gate.single true 0, Gate.single true 1, Gate.single true 2], 0b111⟩],
            0b111⟩) &&
      decide ((⟨3, [Gate.single true 0, Gate.single true 1, Gate.single true 2], 1⟩ :
          Compiler).fillLocals
          ⟨[⟨[Gate.single true 0, Gate.single true 1, Gate.single true 2], 0b111⟩], 0b111⟩ =
          none) &&
      decide (Compiler.prepare cfg
          ⟨3, [Gate.single true 0, Gate.single true 1, Gate.single true 2], 1⟩ 2 =
          none)) = true := by
  decide

/-! ## The global count after `moveToNext` and `fillLocals` -/

/-- C5 fails on the code: for `N = 5`, `G = 1` and the gates
`[MC(controls [0, 1], target 2), CX(0,3), CX(3,4)]`, under every build
configuration of `buildConfigs`, the local compiler returns one group that
holds all three gates and has the mask `0b11111` of five bits, more than the
`N - G = 4` local qubits; `moveToNext` leaves the group as it is, and the
assertion `numRelated <= numLocalQubits` of `fillLocals` fails on it. -/
theorem prepare_assertion_fails :
    (∀ g ∈ [Gate.mc false [0, 1] 2, Gate.control false 0 3, Gate.control false 3 4],
      g.valid 5) ∧
    bitCount 0b11111 = 5 ∧
    (⟨5, [Gate.mc false [0, 1] 2, Gate.control false 0 3, Gate.control false 3 4], 1⟩ :
        Compiler).fillLocals
      ⟨[⟨[Gate.mc false [0, 1] 2, Gate.control false 0 3, Gate.control false 3 4],
        0b11111⟩], 0b11111⟩ = none ∧
    buildConfigs.length = 60 ∧
    buildConfigs.all (fun cfg =>
      decide ((Compiler.localCompiler cfg
          ⟨5, [Gate.mc false [0, 1] 2, Gate.control false 0 3, Gate.control false 3 4], 1⟩).run 2 =
          some ⟨[⟨[Gate.mc false [0, 1] 2, Gate.control false 0 3, Gate.control false 3 4],
            0b11111⟩], 0b11111⟩) &&
      decide ((⟨5, [Gate.mc false [0, 1] 2, Gate.control false 0 3, Gate.control false 3 4], 1⟩ :
          Compiler).moveToNext cfg
          ⟨[⟨[Gate.mc false [0, 1] 2, Gate.control false 0 3, Gate.control false 3 4],
            0b11111⟩], 0b11111⟩ =
          some (⟨[⟨[Gate.mc false [0, 1] 2, Gate.control false 0 3, Gate.control false 3 4],
            0b11111⟩], 0b11111⟩, [([], 0)])) &&
      decide (Compiler.prepare cfg
          ⟨5, [Gate.mc false [0, 1] 2, Gate.control false 0 3, Gate.control false 3 4], 1⟩ 2 =
          none)) = true := by
  decide

/-! ## Prefix-respecting selection -/

/-- C19. Prefix-respecting selection: every call of `getGroupOpt` (for any
`full`, `related` seeds, `enableGlobal`, `localSize` and `localQubits`)
returns, and if the gate `h` at batch position `k` is in the returned list and
the gate `g` stands at an earlier batch position `k' < k` and shares an
operand qubit with `h`, then `g` is in the returned list too. -/
theorem getGroupOpt_prefix_respecting (c : OneLayerCompiler) (full : Nat)
    (related : Nat → Nat) (enableGlobal : Bool) (localSize : Int) (localQubits : Nat)
    (hsorted : c.remain.Sorted (· < ·)) :
    ∃ ret, c.getGroupOpt full related enableGlobal localSize localQubits = some ret ∧
      ∀ (k k' h g : Nat), c.gateIDs[k]? = some h → c.gateIDs[k']? = some g → k' < k → h ∈ ret →
        (c.remainGates.getD g default).shares (c.remainGates.getD h default) → g ∈ ret := by
  obtain ⟨ret, hret, _, hclosed⟩ :=
    getGroupOpt_closed c full related enableGlobal localSize localQubits hsorted
  refine ⟨ret, hret, ?_⟩
  intro k k' h g hk hk' hlt hmem hsh
  have hstake : (c.remain.take c.MAX_GATES).Sorted (· < ·) :=
    hsorted.sublist (List.take_sublist _ _)
  obtain ⟨hk1, hk2⟩ := List.getElem?_eq_some_iff.1 hk
  obtain ⟨hk1', hk2'⟩ := List.getElem?_eq_some_iff.1 hk'
  have hgh : g < h := by
    have := List.pairwise_iff_getElem.1 hstake k' k hk1' hk1 hlt
    rw [← hk2, ← hk2']
    exact this
  have hgmem : g ∈ c.remain :=
    (List.take_sublist _ _).subset (List.mem_iff_getElem?.2 ⟨k', hk'⟩)
  exact hclosed h hmem g hgmem hgh hsh

theorem getGroupOpt_prefix_respecting_witness :
    ∃ ret, (⟨2048, 3, [Gate.single false 0, Gate.single false 2, Gate.control false 0 1],
        [0, 1, 2]⟩ : OneLayerCompiler).getGroupOpt 0 (fun _ => 0) true 2 minusOne = some ret ∧
      ∀ (k k' h g : Nat), ([0, 1, 2] : List Nat)[k]? = some h → ([0, 1, 2] : List Nat)[k']? = some g →
        k' < k → h ∈ ret →
        (([Gate.single false 0, Gate.single false 2, Gate.control false 0 1] : List Gate).getD g
            default).shares
          (([Gate.single false 0, Gate.single false 2, Gate.control false 0 1] : List Gate).getD h
            default) → g ∈ ret :=
  getGroupOpt_prefix_respecting
    ⟨2048, 3, [Gate.single false 0, Gate.single false 2, Gate.control false 0 1], [0, 1, 2]⟩
    0 (fun _ => 0) true 2 minusOne (by decide)

/-! ## Pass A bookkeeping of `related` -/

/-- C20 fails on the code for multi-controlled gates: Pass A on the batch
`[MC(controls [0, 1], target 2)]` with `full = 0`, `related[] = 0`,
`localSize = 3` accepts the gate and puts it into `cur[0]`, `cur[1]` and
`cur[2]`, but only `related[2]` becomes `new_related = 0b111`; `related[0]`
and `related[1]` keep their old value `0`, so the gate in `cur[0]` has none of
its operand qubits inside `related[0]`. -/
theorem passA_mc_related_stale :
    (acceptGate 3 minusOne false ⟨0, fun _ => 0, fun _ => 0⟩ 0
      (Gate.mc false [0, 1] 2)).isSome = true ∧
    (passA 3 [Gate.mc false [0, 1] 2] 3 minusOne false 0 [0] ⟨0, fun _ => 0, fun _ => 0⟩).cur 0 = 1 ∧
    (passA 3 [Gate.mc false [0, 1] 2] 3 minusOne false 0 [0] ⟨0, fun _ => 0, fun _ => 0⟩).cur 1 = 1 ∧
    (passA 3 [Gate.mc false [0, 1] 2] 3 minusOne false 0 [0] ⟨0, fun _ => 0, fun _ => 0⟩).cur 2 = 1 ∧
    (passA 3 [Gate.mc false [0, 1] 2] 3 minusOne false 0 [0]
      ⟨0, fun _ => 0, fun _ => 0⟩).related 2 = 0b111 ∧
    (passA 3 [Gate.mc false [0, 1] 2] 3 minusOne false 0 [0]
      ⟨0, fun _ => 0, fun _ => 0⟩).related 0 = 0 ∧
    (passA 3 [Gate.mc false [0, 1] 2] 3 minusOne false 0 [0]
      ⟨0, fun _ => 0, fun _ => 0⟩).related 1 = 0 ∧
    (passA 3 [Gate.control false 0 1] 3 minusOne false 0 [0]
      ⟨0, fun _ => 0, fun _ => 0⟩).related 0 = 0b11 ∧
    (passA 3 [Gate.control false 0 1] 3 minusOne false 0 [0]
      ⟨0, fun _ => 0, fun _ => 0⟩).related 1 = 0b11 := by
  decide

/-! ## The scenarios of the local packing -/

/-- C14 as stated fails: for `N = 4`, `G = 1` and the gates
`[H(0), H(3), CX(0,3)]` the local compiler (`localSize = 3`, `whiteList = 0`)
returns one group, not two or more. -/
theorem scenario2_counterexample :
    ∃ lg, (⟨4, 3, minusOne, [Gate.single false 0, Gate.single false 3, Gate.control false 0 3],
        true, 0, 0⟩ : SimpleCompiler).run 2 = some lg ∧ ¬ (2 ≤ lg.fullGroups.length) :=
  ⟨⟨[⟨[Gate.single false 0, Gate.single false 3, Gate.control false 0 3], 0b1001⟩], 0b1001⟩,
    by decide, by decide⟩

/-- C14 (as amended). Scenario 2: for `N = 4`, `G = 1` and the gates
`[H(0), H(3), CX(0,3)]`, under every build configuration the local compiler of
`Compiler::run` places the three gates in one local group, whose mask
`0b1001` has two bits, within the three local qubits. -/
theorem scenario2_one_group :
    buildConfigs.all (fun cfg =>
      decide ((Compiler.localCompiler cfg
          ⟨4, [Gate.single false 0, Gate.single false 3, Gate.control false 0 3], 1⟩).run 2 =
        some ⟨[⟨[Gate.single false 0, Gate.single false 3, Gate.control false 0 3], 0b1001⟩],
          0b1001⟩)) = true ∧
    bitCount 0b1001 = 2 := by
  decide

/-- C15 as stated fails: for `N = 5`, `G = 1` and the gates
`[H(0), H(1), H(2), H(3), CX(3,4), H(3)]` the local compiler returns two
groups, but the second group is `[H(2)]`; the trailing `H(3)` is in the first
group. -/
theorem scenario4_counterexample :
    ∃ g1 g2 m, (⟨5, 4, minusOne, [Gate.single false 0, Gate.single false 1, Gate.single false 2,
        Gate.single false 3, Gate.control false 3 4, Gate.single false 3], true, 0, 0⟩ :
        SimpleCompiler).run 3 = some ⟨[g1, g2], m⟩ ∧ g2.gates ≠ [Gate.single false 3] :=
  ⟨⟨[Gate.single false 0, Gate.single false 1, Gate.single false 3, Gate.control false 3 4,
      Gate.single false 3], 0b11011⟩, ⟨[Gate.single false 2], 0b00100⟩, 0b11111,
    by decide, by decide⟩

/-- C15 (as amended). Scenario 4 without overlap: for `N = 5`, `G = 1` and the
gates `[H(0), H(1), H(2), H(3), CX(3,4), H(3)]`, under every build
configuration the local compiler of `Compiler::run` returns exactly two
groups: the first holds `H(0), H(1), H(3), CX(3,4), H(3)` with the mask
`0b11011`, the second consists of exactly `H(2)` with the mask `0b00100`. -/
theorem scenario4_two_groups :
    buildConfigs.all (fun cfg =>
      decide ((Compiler.localCompiler cfg
          ⟨5, [Gate.single false 0, Gate.single false 1, Gate.single false 2,
            Gate.single false 3, Gate.control false 3 4, Gate.single false 3], 1⟩).run 3 =
        some ⟨[⟨[Gate.single false 0, Gate.single false 1, Gate.single false 3,
              Gate.control false 3 4, Gate.single false 3], 0b11011⟩,
            ⟨[Gate.single false 2], 0b00100⟩], 0b11111⟩)) = true := by
  decide

/-! ## Termination of `SimpleCompiler::run` on a well-formed input -/

theorem newRelated_minusOne (old : Nat) (g : Gate) (eg : Bool) :
    GateGroup.newRelated old g minusOne eg = old ||| Gate.maskOf g.qubits := by
  unfold GateGroup.newRelated
  simp

theorem or_bit_of_testBit {x i : Nat} (h : x.testBit i = true) : x ||| 1 <<< i = x := by
  apply Nat.eq_of_testBit_eq
  intro j
  rw [Nat.testBit_or, testBit_one_shiftLeft]
  by_cases hij : i = j
  · subst hij; simp [h]
  · simp [hij]

theorem maskOf_singleton (t : Nat) : Gate.maskOf [t] = 1 <<< t := by
  simp [Gate.maskOf]

theorem bitCount_or_maskOf_le {x : Nat} (hx : x < 2 ^ 64) {L : List Nat} (hL : ∀ q ∈ L, q < 64) :
    bitCount (x ||| Gate.maskOf L) ≤ bitCount x + L.toFinset.card := by
  have hm : Gate.maskOf L < 2 ^ 64 := maskOf_lt hL
  rw [bitCount_eq_card (Nat.or_lt_two_pow hx hm), bitCount_eq_card hx]
  refine le_trans (Finset.card_le_card ?_) (Finset.card_union_le _ _)
  intro i hi
  rw [mem_bitsOf, Nat.testBit_or, testBit_maskOf] at hi
  rw [Finset.mem_union, mem_bitsOf, List.mem_toFinset]
  rcases hi with ⟨h1, h2⟩
  simp only [Bool.or_eq_true, decide_eq_true_eq] at h2
  rcases h2 with h2 | h2
  · exact Or.inl ⟨h1, h2⟩
  · exact Or.inr h2

theorem acceptGate_invT {ls : Int} {eg : Bool} {s s' : PassA} {id : Nat} {gate : Gate}
    (hval : gate.valid 64) (h : InvT ls s)
    (hacc : acceptGate ls minusOne eg s id gate = some s') : InvT ls s' := by
  have key : ∀ (s2 : PassA) (NR : Nat) (qs : List Nat), NR < 2 ^ 64 → (bitCount NR : Int) ≤ ls →
      (∀ q ∈ qs, NR.testBit q = true) →
      (∀ r, s2.related r = if r ∈ qs then NR else s.related r) → InvT ls s2 := by
    intro s2 NR qs h1 h2 h3 h4
    refine ⟨fun i => ?_, fun i => ?_, fun i => ?_⟩
    · rw [h4]; split
      · exact h1
      · exact h.word i
    · rw [h4]; split
      · exact h2
      · exact h.fits i
    · rw [h4]; split
      · rename_i hi; exact Or.inl (h3 i hi)
      · exact h.room i
  cases gate with
  | single d t =>
    simp only [acceptGate] at hacc
    split at hacc
    · simp only [Option.some.injEq] at hacc
      subst hacc
      have ht : t < 64 := hval t (by simp [Gate.qubits])
      rw [newRelated_minusOne]
      simp only [Gate.qubits, maskOf_singleton]
      apply key _ (s.related t ||| 1 <<< t) [t]
      · exact Nat.or_lt_two_pow (h.word t) (one_shiftLeft_lt ht)
      · cases hb : (s.related t).testBit t
        · rw [bitCount_or_bit (h.word t) ht hb]
          rcases h.room t with hr | hr
          · rw [hb] at hr; exact absurd hr (by simp)
          · push_cast; exact hr
        · rw [or_bit_of_testBit hb]; exact h.fits t
      · intro q hq
        simp only [List.mem_singleton] at hq
        subst hq
        simp [Nat.testBit_or, testBit_one_shiftLeft]
      · intro r
        simp only [upd, List.mem_singleton]
    · exact absurd hacc (by simp)
  | control d c t =>
    simp only [acceptGate] at hacc
    split at hacc
    · split at hacc
      · rename_i hfit
        simp only [Option.some.injEq] at hacc
        subst hacc
        rw [newRelated_minusOne] at hfit ⊢
        apply key _ _ [c, t] ?_ hfit
        · intro q hq
          rw [Nat.testBit_or, testBit_maskOf]
          simp only [Gate.qubits, decide_eq_true hq, Bool.or_true]
        · intro r
          simp only [upd, List.mem_cons, List.mem_singleton, List.not_mem_nil, or_false]
          by_cases h1 : r = c
          · simp [h1]
          · by_cases h2 : r = t
            · simp [h1, h2]
            · simp [h1, h2]
        · exact Nat.or_lt_two_pow (Nat.or_lt_two_pow (h.word c) (h.word t)) (maskOf_lt hval)
      · exact absurd hacc (by simp)
    · exact absurd hacc (by simp)
  | twoQubit d c t =>
    simp only [acceptGate] at hacc
    split at hacc
    · split at hacc
      · rename_i hfit
        simp only [Option.some.injEq] at hacc
        subst hacc
        rw [newRelated_minusOne] at hfit ⊢
        apply key _ _ [c, t] ?_ hfit
        · intro q hq
          rw [Nat.testBit_or, testBit_maskOf]
          simp only [Gate.qubits, decide_eq_true hq, Bool.or_true]
        · intro r
          simp only [upd, List.mem_cons, List.mem_singleton, List.not_mem_nil, or_false]
          by_cases h1 : r = c
          · simp [h1]
          · by_cases h2 : r = t
            · simp [h1, h2]
            · simp [h1, h2]
        · exact Nat.or_lt_two_pow (Nat.or_lt_two_pow (h.word c) (h.word t)) (maskOf_lt hval)
      · exact absurd hacc (by simp)
    · exact absurd hacc (by simp)
  | mc d cs t =>
    simp only [acceptGate] at hacc
    split at hacc
    · split at hacc
      · rename_i hfit
        simp only [Option.some.injEq] at hacc
        subst hacc
        rw [newRelated_minusOne] at hfit ⊢
        apply key _ _ [t] ?_ hfit
        · intro q hq
          simp only [List.mem_singleton] at hq
          subst hq
          rw [Nat.testBit_or, testBit_maskOf]
          simp [Gate.qubits]
        · intro r
          simp only [upd, List.mem_singleton]
        · refine Nat.or_lt_two_pow ?_ (maskOf_lt hval)
          have : ∀ (l : List Nat) (x : Nat), x < 2 ^ 64 →
              l.foldl (fun r q => r ||| s.related q) x < 2 ^ 64 := by
            intro l
            induction l with
            | nil => intro x hx; exact hx
            | cons a l ih => intro x hx; exact ih _ (Nat.or_lt_two_pow hx (h.word a))
          exact this cs _ (h.word t)
      · exact absurd hacc (by simp)
    · exact absurd hacc (by simp)

theorem passAGate_invT {ls : Int} {eg : Bool} {s : PassA} {id : Nat} {gate : Gate}
    (hval : gate.valid 64) (h : InvT ls s) : InvT ls (passAGate ls minusOne eg s id gate) := by
  unfold passAGate
  cases hacc : acceptGate ls minusOne eg s id gate with
  | none =>
    simp only
    exact ⟨by rw [rejectGate_related]; exact h.word, by rw [rejectGate_related]; exact h.fits,
      by rw [rejectGate_related]; exact h.room⟩
  | some s' => exact acceptGate_invT hval h hacc

theorem passA_invT (n : Nat) (rg : List Gate) (ls : Int) (eg : Bool)
    (hval : ∀ x, (rg.getD x default).valid 64) :
    ∀ (xs : List Nat) (id : Nat) (s : PassA), InvT ls s →
      InvT ls (passA n rg ls minusOne eg id xs s) := by
  intro xs
  induction xs with
  | nil => intro id s h; simpa [passA] using h
  | cons x rest ih =>
    intro id s h
    unfold passA
    split
    · exact h
    · exact ih _ _ (passAGate_invT (hval x) h)

theorem passAGate_cur_mono (ls : Int) (lq : Nat) (eg : Bool) (s : PassA) (id : Nat) (gate : Gate)
    (q p : Nat) (h : (s.cur q).testBit p = true) :
    ((passAGate ls lq eg s id gate).cur q).testBit p = true := by
  unfold passAGate
  cases hacc : acceptGate ls lq eg s id gate with
  | none => simp only; rw [rejectGate_cur]; exact h
  | some s' =>
    obtain ⟨_, _, NC, hNC, hcur⟩ := acceptGate_cur hacc
    simp only
    rw [hcur]
    split
    · rename_i hq
      exact (hNC p).2 (Or.inr ⟨q, hq, h⟩)
    · exact h

theorem passA_cur_mono (n : Nat) (rg : List Gate) (ls : Int) (lq : Nat) (eg : Bool) :
    ∀ (xs : List Nat) (id : Nat) (s : PassA) (q p : Nat), (s.cur q).testBit p = true →
      ((passA n rg ls lq eg id xs s).cur q).testBit p = true := by
  intro xs
  induction xs with
  | nil => intro id s q p h; simpa [passA] using h
  | cons x rest ih =>
    intro id s q p h
    unfold passA
    split
    · exact h
    · exact ih _ _ q p (passAGate_cur_mono ls lq eg s id _ q p h)

theorem passA_bound (n : Nat) (rg : List Gate) (ls : Int) (lq : Nat) (eg : Bool) :
    ∀ (xs : List Nat) (id : Nat) (s : PassA), (∀ q p, (s.cur q).testBit p = true → p < id) →
      ∀ q p, ((passA n rg ls lq eg id xs s).cur q).testBit p = true → p < id + xs.length := by
  intro xs
  induction xs with
  | nil => intro id s h q p hp; simpa [passA] using h q p (by simpa [passA] using hp)
  | cons x rest ih =>
    intro id s h q p hp
    unfold passA at hp
    split at hp
    · have := h q p hp
      omega
    · have := ih (id + 1) _ ?_ q p hp
      · simp only [List.length_cons]; omega
      · intro q' p' hp'
        unfold passAGate at hp'
        cases hacc : acceptGate ls lq eg s id (rg.getD x default) with
        | none =>
          rw [hacc] at hp'
          simp only [rejectGate_cur] at hp'
          have := h q' p' hp'
          omega
        | some s' =>
          rw [hacc] at hp'
          obtain ⟨_, _, NC, hNC, hcur⟩ := acceptGate_cur hacc
          simp only [hcur] at hp'
          split at hp'
          · rcases (hNC p').1 hp' with h1 | ⟨q2, _, h2⟩
            · omega
            · have := h q2 p' h2
              omega
          · have := h q' p' hp'
            omega

theorem foldl_or_const (R : Nat) : ∀ (cs : List Nat), cs.foldl (fun r _ => r ||| R) R = R := by
  intro cs
  induction cs with
  | nil => rfl
  | cons a l ih => rw [List.foldl_cons, Nat.or_self]; exact ih

/-- The first gate of the batch is accepted by Pass A when `full` is empty,
every `related[]` entry is the seed and the seed leaves room for the (at most
two) operand qubits of the gate. -/
theorem acceptGate_first {ls : Int} {eg : Bool} {R : Nat} {gate : Gate} (hR : R < 2 ^ 64)
    (hval : gate.valid 64) (hcard : gate.qubits.toFinset.card ≤ 2)
    (hbud : (bitCount R : Int) + 2 ≤ ls) :
    ∃ s', acceptGate ls minusOne eg ⟨0, fun _ => R, fun _ => 0⟩ 0 gate = some s' := by
  have hfit : ∀ x, x = R → (bitCount (GateGroup.newRelated x gate minusOne eg) : Int) ≤ ls := by
    intro x hx
    subst hx
    rw [newRelated_minusOne]
    have := bitCount_or_maskOf_le hR hval
    omega
  apply Option.isSome_iff_exists.1
  cases gate with
  | single d t => simp [acceptGate]
  | control d c t =>
    have := hfit (R ||| R) (Nat.or_self R)
    simp only [acceptGate, Nat.zero_testBit, Bool.not_false, Bool.and_self, if_true, this,
      Option.isSome_some]
  | twoQubit d c t =>
    have := hfit (R ||| R) (Nat.or_self R)
    simp only [acceptGate, Nat.zero_testBit, Bool.not_false, Bool.and_self, if_true, this,
      Option.isSome_some]
  | mc d cs t =>
    have := hfit (cs.foldl (fun r _ => r ||| R) R) (foldl_or_const R cs)
    simp only [acceptGate, Nat.zero_and, beq_self_eq_true, Nat.zero_testBit,
      Bool.not_false, Bool.and_self, if_true, this, Option.isSome_some]

theorem bitsetCount_pos {M b : Nat} (hM : 0 < M) (hb : b.testBit 0 = true) :
    0 < bitsetCount M b := by
  obtain ⟨M', rfl⟩ := Nat.exists_eq_succ_of_ne_zero (Nat.pos_iff_ne_zero.1 hM)
  have hodd : b % 2 = 1 := by
    rw [Nat.testBit_zero] at hb
    simpa using hb
  have hne : b ≠ 0 := by
    intro h0; rw [h0] at hodd; simp at hodd
  unfold bitsetCount
  rw [if_neg hne, hodd]
  omega

theorem bitsetCount_zero (M : Nat) : bitsetCount M 0 = 0 := by
  cases M with
  | zero => rfl
  | succ M => simp [bitsetCount]

/-- When every qubit fits, the scan of a round of Pass B blocks nothing and
ends with `mx` at least the count of every qubit it has looked at. -/
theorem passBScan_all_fit (M : Nat) (ls : Int) (related cur : Nat → Nat) (sr : Nat)
    (hfit : ∀ i, (bitCount (sr ||| related i) : Int) ≤ ls) :
    ∀ (qs : List Nat) (init : Scan), (∀ i, init.blocked i = false) →
      (∀ i, (passBScan M ls related cur sr qs init).blocked i = false) ∧
      init.mx ≤ (passBScan M ls related cur sr qs init).mx ∧
      ∀ i ∈ qs, bitsetCount M (cur i) ≤ (passBScan M ls related cur sr qs init).mx := by
  intro qs
  induction qs with
  | nil => intro init h; exact ⟨h, le_refl _, fun i hi => absurd hi (List.not_mem_nil _)⟩
  | cons q rest ih =>
    intro init h
    have hstep : passBScan M ls related cur sr (q :: rest) init =
        passBScan M ls related cur sr rest (scanStep M ls related cur sr init q) := rfl
    rw [hstep]
    have hs : (∀ i, (scanStep M ls related cur sr init q).blocked i = false) ∧
        init.mx ≤ (scanStep M ls related cur sr init q).mx ∧
        bitsetCount M (cur q) ≤ (scanStep M ls related cur sr init q).mx := by
      unfold scanStep
      simp only [h q, Bool.not_false, Bool.true_and, hfit q, if_true]
      by_cases hc : bitsetCount M (cur q) > init.mx
      · simp only [hc, decide_True, if_true]
        exact ⟨h, le_of_lt hc, le_refl _⟩
      · simp only [hc, decide_False, Bool.false_eq_true, if_false]
        exact ⟨h, le_refl _, not_lt.1 hc⟩
    obtain ⟨h1, h2, h3⟩ := ih _ hs.1
    refine ⟨h1, le_trans hs.2.1 h2, ?_⟩
    intro i hi
    rcases List.mem_cons.1 hi with rfl | hi
    · exact le_trans hs.2.2 h2
    · exact h3 i hi

theorem absorbStep_selected_mono (related : Nat → Nat) (id : Nat) (s : PassB) (i p : Nat)
    (h : s.selected.testBit p = true) : (absorbStep related id s i).selected.testBit p = true := by
  unfold absorbStep
  split
  · split
    · simp only [Nat.testBit_or, h, Bool.true_or]
    · exact h
  · exact h

theorem passBAbsorb_selected_mono (related : Nat → Nat) (id : Nat) (qs : List Nat) (s : PassB)
    (p : Nat) (h : s.selected.testBit p = true) :
    (passBAbsorb related id qs s).selected.testBit p = true := by
  unfold passBAbsorb
  exact foldl_preserves (fun s' => s'.selected.testBit p = true) _
    (fun s' i hs => absorbStep_selected_mono related id s' i p hs) qs s h

theorem passB_selected_mono (n M : Nat) (ls : Int) (related : Nat → Nat) :
    ∀ (fuel : Nat) (s r : PassB), passB n M ls related fuel s = some r →
      ∀ p, s.selected.testBit p = true → r.selected.testBit p = true := by
  intro fuel
  induction fuel with
  | zero => intro s r h; simp [passB] at h
  | succ fuel ih =>
    intro s r h p hp
    unfold passB at h
    simp only at h
    split at h
    · simp only [Option.some.injEq] at h
      subst h
      exact hp
    · apply ih _ _ h
      apply passBAbsorb_selected_mono
      simp only [Nat.testBit_or, hp, Bool.true_or]

theorem passCGate_selected_mono (eg : Bool) (s : PassC) (id : Nat) (g : Gate) (p : Nat)
    (h : s.selected.testBit p = true) : (passCGate eg s id g).selected.testBit p = true := by
  unfold passCGate
  split
  · cases g <;> simp only <;> split <;> simp [Nat.testBit_or, h]
  · cases g <;> exact h

theorem passC_selected_mono (n : Nat) (rg : List Gate) (eg : Bool) :
    ∀ (xs : List Nat) (id : Nat) (s : PassC) (p : Nat), s.selected.testBit p = true →
      (passC n rg eg id xs s).selected.testBit p = true := by
  intro xs
  induction xs with
  | nil => intro id s p h; simpa [passC] using h
  | cons x rest ih =>
    intro id s p h
    unfold passC
    simp only
    split
    · exact h
    · split
      · exact ih _ _ p h
      · exact ih _ _ p (passCGate_selected_mono eg _ _ _ p h)

theorem default_valid_64 : (default : Gate).valid 64 := by decide

/-- With an empty `full`, the seed `R` in every `related[]` entry, room for two
more qubits in the seed and gates of at most two distinct operand qubits,
`getGroupOpt` returns a non-empty list on a non-empty `remain`. -/
theorem getGroupOpt_nonempty (c : OneLayerCompiler) (eg : Bool) (ls : Int) (R : Nat)
    (hM : 0 < c.MAX_GATES) (hrem : c.remain ≠ []) (hlt : ∀ x ∈ c.remain, x < c.remainGates.length)
    (hN : c.numQubits ≤ 64)
    (hval : ∀ g ∈ c.remainGates, g.valid c.numQubits ∧ g.qubits.toFinset.card ≤ 2)
    (hR : R < 2 ^ 64) (hbud : (bitCount R : Int) + 2 ≤ ls) :
    ∃ ret, c.getGroupOpt 0 (fun _ => R) eg ls minusOne = some ret ∧ ret ≠ [] := by
  have hval64 : ∀ x, (c.remainGates.getD x default).valid 64 := by
    intro x
    by_cases hx : x < c.remainGates.length
    · rw [List.getD_eq_getElem _ _ hx]
      intro q hq
      exact lt_of_lt_of_le ((hval _ (List.getElem_mem hx)).1 q hq) hN
    · rw [List.getD_eq_default _ _ (not_lt.1 hx)]
      exact default_valid_64
  -- the batch starts with some gate
  obtain ⟨x0, rest, hids⟩ : ∃ x0 rest, c.gateIDs = x0 :: rest := by
    unfold OneLayerCompiler.gateIDs
    cases hr : c.remain with
    | nil => exact absurd hr hrem
    | cons a l =>
      obtain ⟨M', hM'⟩ := Nat.exists_eq_succ_of_ne_zero (Nat.pos_iff_ne_zero.1 hM)
      rw [hM']
      exact ⟨a, l.take M', rfl⟩
  have hx0 : x0 ∈ c.remain := by
    have : x0 ∈ c.gateIDs := by rw [hids]; exact List.mem_cons_self _ _
    exact (List.take_sublist _ _).subset this
  have hx0lt := hlt x0 hx0
  have hg0 := hval _ (List.getElem_mem hx0lt)
  rw [← List.getD_eq_getElem _ default hx0lt] at hg0
  have hq0 : (c.remainGates.getD x0 default).targetQubit ∈ (c.remainGates.getD x0 default).qubits := by
    cases c.remainGates.getD x0 default <;> simp [Gate.targetQubit, Gate.qubits]
  have hNpos : 0 < c.numQubits := lt_of_le_of_lt (Nat.zero_le _) (hg0.1 _ hq0)
  obtain ⟨s', hs'⟩ := @acceptGate_first ls eg R _ hR (hval64 x0) hg0.2 hbud
  obtain ⟨_, _, NC, hNC, hcur⟩ := acceptGate_cur hs'
  -- Pass A
  have hlive : anyLive c.numQubits (fun i => (0 : Nat).testBit i) = true := by
    unfold anyLive
    rw [List.any_eq_true]
    exact ⟨0, List.mem_range.2 hNpos, by simp⟩
  have hA : passA c.numQubits c.remainGates ls minusOne eg 0 c.gateIDs
      ⟨0, fun _ => R, fun _ => 0⟩ =
      passA c.numQubits c.remainGates ls minusOne eg 1 rest s' := by
    rw [hids, passA]
    simp only [hlive, Bool.not_true, Bool.and_false, Bool.false_eq_true, if_false, passAGate, hs',
      Nat.zero_add]
  have hT0 : InvT ls ⟨0, fun _ => R, fun _ => 0⟩ :=
    ⟨fun _ => hR, fun _ => by simp only; omega, fun _ => Or.inr (by simp only; omega)⟩
  have hT := passA_invT c.numQubits c.remainGates ls eg hval64 c.gateIDs 0 _ hT0
  have hbnd := passA_bound c.numQubits c.remainGates ls minusOne eg c.gateIDs 0
    ⟨0, fun _ => R, fun _ => 0⟩ (fun q p hp => by simp at hp)
  have hbit0 : ((passA c.numQubits c.remainGates ls minusOne eg 0 c.gateIDs
      ⟨0, fun _ => R, fun _ => 0⟩).cur (c.remainGates.getD x0 default).targetQubit).testBit 0
        = true := by
    rw [hA]
    apply passA_cur_mono
    rw [hcur, if_pos hq0]
    exact (hNC 0).2 (Or.inl rfl)
  -- Pass B
  obtain ⟨b, hb⟩ := selectedB_isSome c 0 (fun _ => R) eg ls minusOne
  have hb' := hb
  unfold OneLayerCompiler.selectedB at hb'
  simp only at hb'
  generalize passA c.numQubits c.remainGates ls minusOne eg 0 c.gateIDs
    ⟨0, fun _ => R, fun _ => 0⟩ = a at hT hbnd hbit0 hb'
  have hsel : ∃ p, p < c.gateIDs.length ∧ b.selected.testBit p = true := by
    unfold passB at hb'
    simp only at hb'
    have hfit : ∀ i, (bitCount (0 ||| a.related i) : Int) ≤ ls := by
      intro i; rw [Nat.zero_or]; exact hT.fits i
    obtain ⟨_, _, hmx⟩ := passBScan_all_fit c.MAX_GATES ls a.related a.cur 0 hfit
      (List.range c.numQubits) ⟨0, 0, fun _ => false⟩ (fun _ => rfl)
    have hinv := passBScan_inv c.MAX_GATES ls a.related a.cur 0 (List.range c.numQubits)
      (fun _ => false) (List.range c.numQubits) ⟨0, 0, fun _ => false⟩ (fun _ h => h)
      ⟨fun _ h => h, fun h => absurd rfl h⟩
    generalize passBScan c.MAX_GATES ls a.related a.cur 0 (List.range c.numQubits)
      ⟨0, 0, fun _ => false⟩ = sc at hmx hinv hb'
    have hpos : 0 < sc.mx :=
      lt_of_lt_of_le (bitsetCount_pos hM hbit0)
        (hmx _ (List.mem_range.2 (hg0.1 _ hq0)))
    have hne : ¬ (sc.mx == 0) = true := by simp; omega
    rw [if_neg hne] at hb'
    obtain ⟨_, _, _, hmxeq⟩ := hinv.chosen (by omega)
    have hcne : a.cur sc.id ≠ 0 := by
      intro h0
      rw [h0, bitsetCount_zero] at hmxeq
      omega
    obtain ⟨p, hp⟩ := Nat.ne_zero_implies_bit_true hcne
    refine ⟨p, ?_, ?_⟩
    · have := hbnd sc.id p hp
      omega
    · apply passB_selected_mono _ _ _ _ _ _ _ hb'
      apply passBAbsorb_selected_mono
      simp only [Nat.testBit_or, hp, Bool.or_true]
  obtain ⟨p, hplt, hp⟩ := hsel
  have hmem : ∀ sel : Nat, sel.testBit p = true → collect sel 0 c.gateIDs ≠ [] := by
    intro sel hsel hnil
    have : c.gateIDs[p] ∈ collect sel 0 c.gateIDs :=
      (collect_mem sel c.gateIDs 0 _).2 ⟨p, List.getElem?_eq_getElem hplt, by simpa using hsel⟩
    rw [hnil] at this
    exact absurd this (List.not_mem_nil _)
  unfold OneLayerCompiler.getGroupOpt
  rw [hb]
  simp only
  split
  · exact ⟨_, rfl, hmem _ hp⟩
  · exact ⟨_, rfl, hmem _ (passC_selected_mono _ _ _ _ _ _ _ hp)⟩

theorem initFull_zero (n : Nat) : SimpleCompiler.initFull n 0 = 0 := by
  simp [SimpleCompiler.initFull]

/-- The loop of `SimpleCompiler::run` leaves after at most `|remain|`
iterations when every call of `getGroupOpt` on a non-empty `remain` returns a
non-empty list; every group it appends is non-empty. -/
theorem loop_terminates (sc : SimpleCompiler) (hw : sc.whiteList = 0)
    (hlq : sc.localQubits = minusOne) (hN : sc.numQubits ≤ 64)
    (hval : ∀ g ∈ sc.inputGates, g.valid sc.numQubits ∧ g.qubits.toFinset.card ≤ 2)
    (hreq : sc.required < 2 ^ 64) (hbud : (bitCount sc.required : Int) + 2 ≤ sc.localSize) :
    ∀ (m : Nat) (c : OneLayerCompiler) (lg : LocalGroup) (idxs : List (List Nat)),
      c.remain.length ≤ m → c.MAX_GATES = 2048 → c.numQubits = sc.numQubits →
      (∀ x ∈ c.remain, x < sc.inputGates.length) →
      ((c.remainGates = [] ∧ c.remain = []) ∨ (c.remainGates = sc.inputGates ∧ c.remain ≠ [])) →
      (∀ gg ∈ lg.fullGroups, gg.gates ≠ []) →
      ∃ lg' idxs', (∀ fuel, m < fuel → SimpleCompiler.loop sc fuel c lg idxs = some (lg', idxs')) ∧
        lg'.fullGroups.length ≤ lg.fullGroups.length + c.remain.length ∧
        ∀ gg ∈ lg'.fullGroups, gg.gates ≠ [] := by
  intro m
  induction m with
  | zero =>
    intro c lg idxs hm hM hn hlt hrg hne
    have hnil : c.remain = [] := List.length_eq_zero.1 (Nat.le_zero.1 hm)
    have hrg0 : c.remainGates = [] := by
      rcases hrg with ⟨h1, _⟩ | ⟨_, h2⟩
      · exact h1
      · exact absurd hnil h2
    refine ⟨lg, idxs, ?_, by omega, hne⟩
    intro fuel hf
    obtain ⟨f, rfl⟩ := Nat.exists_eq_succ_of_ne_zero (Nat.pos_iff_ne_zero.1 hf)
    simp [SimpleCompiler.loop, hrg0]
  | succ m ih =>
    intro c lg idxs hm hM hn hlt hrg hne
    rcases hrg with ⟨h1, h2⟩ | ⟨h1, h2⟩
    · refine ⟨lg, idxs, ?_, by omega, hne⟩
      intro fuel hf
      obtain ⟨f, rfl⟩ := Nat.exists_eq_succ_of_ne_zero (Nat.pos_iff_ne_zero.1 (show 0 < fuel by omega))
      simp [SimpleCompiler.loop, h1]
    · obtain ⟨ret, hret, hretne⟩ := getGroupOpt_nonempty c sc.enableGlobal sc.localSize sc.required
        (by rw [hM]; decide) h2 (by rw [h1]; exact hlt) (by rw [hn]; exact hN)
        (by rw [h1, hn]; exact hval) hreq hbud
      obtain ⟨sel, hsel⟩ := getGroupOpt_eq_collect c 0 (fun _ => sc.required) sc.enableGlobal
        sc.localSize minusOne
      have hsub : ret.Sublist c.remain := by
        have : ret = collect sel 0 c.gateIDs := by
          rw [hsel] at hret
          exact (Option.some.inj hret).symm
        rw [this]
        exact (collect_sublist sel _ 0).trans (List.take_sublist _ _)
      have hstep : sc.step c = some (ret,
          GateGroup.empty.addGates (ret.map (fun x => c.remainGates.getD x default))
            sc.localQubits sc.enableGlobal, c.removeGatesOpt ret) := by
        unfold SimpleCompiler.step
        rw [hw, initFull_zero, hlq, hret]
      have hlen : (c.remain.diff ret).length + ret.length = c.remain.length := by
        have := (perm_append_diff_of_sublist hsub).length_eq
        rw [List.length_append] at this
        omega
      have hretlen : 0 < ret.length := List.length_pos.2 hretne
      have hpos : c.remainGates.length > 0 := by
        rw [h1]
        cases hr : c.remain with
        | nil => exact absurd hr h2
        | cons a l =>
          have := hlt a (by rw [hr]; exact List.mem_cons_self _ _)
          omega
      obtain ⟨lg', idxs', hrun, hcount, hall⟩ := ih (c.removeGatesOpt ret)
        ⟨lg.fullGroups ++ [GateGroup.empty.addGates (ret.map (fun x => c.remainGates.getD x default))
            sc.localQubits sc.enableGlobal],
          lg.relatedQubits ||| (GateGroup.empty.addGates
            (ret.map (fun x => c.remainGates.getD x default))
            sc.localQubits sc.enableGlobal).relatedQubits⟩ (idxs ++ [ret])
        (by rw [removeGatesOpt_remain]; omega) hM hn
        (by
          rw [removeGatesOpt_remain]
          intro x hx
          exact hlt x ((List.diff_sublist _ _).subset hx))
        (by
          simp only [OneLayerCompiler.removeGatesOpt]
          by_cases he : (List.foldl (fun r x => r.erase x) c.remain ret).isEmpty = true
          · left; simp [he]; simpa using he
          · right
            refine ⟨by simp [he, h1], ?_⟩
            simpa using he)
        (by
          intro gg hgg
          rcases List.mem_append.1 hgg with h | h
          · exact hne gg h
          · simp only [List.mem_singleton] at h
            subst h
            rw [addGates_gates]
            simp only [GateGroup.empty, List.nil_append, ne_eq, List.map_eq_nil_iff]
            exact hretne)
      refine ⟨lg', idxs', ?_, ?_, hall⟩
      · intro fuel hf
        obtain ⟨f, rfl⟩ := Nat.exists_eq_succ_of_ne_zero (Nat.pos_iff_ne_zero.1 (show 0 < fuel by omega))
        unfold SimpleCompiler.loop
        rw [if_pos hpos, hstep]
        simp only [hw, bne_self_eq_false, Bool.false_eq_true, if_false]
        exact hrun f (by omega)
      · rw [removeGatesOpt_remain] at hcount
        simp only [List.length_append, List.length_singleton] at hcount
        omega

/-- C11. Termination on a well-formed input: for `SimpleCompiler::run` with
`whiteList = 0`, `localQubits = -1`, `localSize < N <= 64`, gates over
`[0, N)` with at most two distinct operand qubits each and a 64-bit `required`
with `bitCount(required) + 2 <= localSize`, every call of `getGroupOpt` on a
non-empty `remain` returns a non-empty list, and the loop leaves after at most
`|gates|` iterations: with any fuel above `|gates|` the run returns the same
local group, which has at most `|gates|` groups, all of them non-empty. -/
theorem run_terminates (sc : SimpleCompiler) (hw : sc.whiteList = 0)
    (hlq : sc.localQubits = minusOne) (hls : sc.localSize < (sc.numQubits : Int))
    (hN : sc.numQubits ≤ 64)
    (hval : ∀ g ∈ sc.inputGates, g.valid sc.numQubits ∧ g.qubits.dedup.length ≤ 2)
    (hreq : sc.required < 2 ^ 64) (hbud : (bitCount sc.required : Int) + 2 ≤ sc.localSize) :
    (∀ remain : List Nat, remain ≠ [] → (∀ x ∈ remain, x < sc.inputGates.length) →
      ∃ ret, (⟨2048, sc.numQubits, sc.inputGates, remain⟩ : OneLayerCompiler).getGroupOpt
          (SimpleCompiler.initFull sc.numQubits sc.whiteList) (fun _ => sc.required)
          sc.enableGlobal sc.localSize sc.localQubits = some ret ∧ ret ≠ []) ∧
    ∃ lg idxs, (∀ fuel, sc.inputGates.length < fuel → sc.runIdx fuel = some (lg, idxs)) ∧
      lg.fullGroups.length ≤ sc.inputGates.length ∧
      ∀ gg ∈ lg.fullGroups, gg.gates ≠ [] := by
  have hval' : ∀ g ∈ sc.inputGates, g.valid sc.numQubits ∧ g.qubits.toFinset.card ≤ 2 := by
    intro g hg
    refine ⟨(hval g hg).1, ?_⟩
    rw [List.card_toFinset]
    exact (hval g hg).2
  refine ⟨?_, ?_⟩
  · intro remain hne hlt
    rw [hw, initFull_zero, hlq]
    exact getGroupOpt_nonempty ⟨2048, sc.numQubits, sc.inputGates, remain⟩ sc.enableGlobal
      sc.localSize sc.required (by show 0 < 2048; decide) hne hlt hN hval' hreq hbud
  · have hd : ¬ (sc.localSize == (sc.numQubits : Int)) = true := by
      simp only [beq_iff_eq]; omega
    obtain ⟨lg, idxs, hrun, hcount, hall⟩ := loop_terminates sc hw hlq hN hval' hreq hbud
      sc.inputGates.length ⟨2048, sc.numQubits, sc.inputGates, List.range sc.inputGates.length⟩
      ⟨[], 0⟩ [] (by simp) rfl rfl (fun x hx => List.mem_range.1 hx)
      (by
        cases hi : sc.inputGates with
        | nil => left; simp
        | cons a l => right; simp [List.range_succ])
      (fun gg hgg => absurd hgg (List.not_mem_nil _))
    refine ⟨lg, idxs, ?_, ?_, hall⟩
    · intro fuel hf
      unfold SimpleCompiler.runIdx
      rw [if_neg hd]
      exact hrun fuel hf
    · simpa using hcount

theorem run_terminates_witness :
    ∃ lg idxs, (∀ fuel, 3 < fuel →
        (⟨3, 2, minusOne, [Gate.single false 0, Gate.control false 1 2, Gate.control false 0 1],
          true, 0, 0⟩ : SimpleCompiler).runIdx fuel = some (lg, idxs)) ∧
      lg.fullGroups.length ≤ 3 ∧ ∀ gg ∈ lg.fullGroups, gg.gates ≠ [] :=
  (run_terminates
    ⟨3, 2, minusOne, [Gate.single false 0, Gate.control false 1 2, Gate.control false 0 1],
      true, 0, 0⟩ rfl rfl (by decide) (by decide) (by decide) (by decide) (by decide)).2

/-! ## No validation at entry -/

/-- In Pass A every entry of `related[]` stays a 64-bit word and only grows. -/
theorem acceptGate_related_mono {ls : Int} {lq : Nat} {eg : Bool} {s s' : PassA} {id : Nat}
    {gate : Gate} (hval : gate.valid 64) (hw : ∀ q, s.related q < 2 ^ 64)
    (h : acceptGate ls lq eg s id gate = some s') :
    (∀ q, s'.related q < 2 ^ 64) ∧
      ∀ q j, (s.related q).testBit j = true → (s'.related q).testBit j = true := by
  cases hmc : gate.isMCGate with
  | false =>
    obtain ⟨NR, h1, h2, _, h4⟩ := acceptGate_related hmc hval hw h
    refine ⟨fun q => ?_, fun q j hj => ?_⟩
    · rw [h4]; split
      · exact h1
      · exact hw q
    · rw [h4]; split
      · rename_i hq; exact h2 q hq j hj
      · exact hj
  | true =>
    cases gate with
    | mc d cs t =>
      simp only [acceptGate] at h
      split at h
      · split at h
        · simp only [Option.some.injEq] at h
          subst h
          have hfold : List.foldl (fun r q => r ||| s.related q) (s.related t) cs < 2 ^ 64 := by
            have : ∀ (l : List Nat) (x : Nat), x < 2 ^ 64 →
                l.foldl (fun r q => r ||| s.related q) x < 2 ^ 64 := by
              intro l
              induction l with
              | nil => intro x hx; exact hx
              | cons a l ih => intro x hx; exact ih _ (Nat.or_lt_two_pow hx (hw a))
            exact this cs _ (hw t)
          refine ⟨fun q => ?_, fun q j hj => ?_⟩
          · simp only [upd]; split
            · exact newRelated_lt hval hfold lq eg
            · exact hw q
          · simp only [upd]; split
            · rename_i hq
              subst hq
              apply testBit_newRelated_of_old
              exact (testBit_foldl_lor s.related cs _ j).2 (Or.inl hj)
            · exact hj
        · exact absurd h (by simp)
      · exact absurd h (by simp)
    | single d t => simp [Gate.isMCGate] at hmc
    | control d c t => simp [Gate.isMCGate] at hmc
    | twoQubit d c t => simp [Gate.isMCGate] at hmc

theorem passA_related_mono (n : Nat) (rg : List Gate) (ls : Int) (lq : Nat) (eg : Bool)
    (hval : ∀ x, (rg.getD x default).valid 64) :
    ∀ (xs : List Nat) (id : Nat) (s : PassA), (∀ q, s.related q < 2 ^ 64) →
      (∀ q, (passA n rg ls lq eg id xs s).related q < 2 ^ 64) ∧
      ∀ q j, (s.related q).testBit j = true →
        ((passA n rg ls lq eg id xs s).related q).testBit j = true := by
  intro xs
  induction xs with
  | nil => intro id s h; exact ⟨by simpa [passA] using h, fun q j hj => by simpa [passA] using hj⟩
  | cons x rest ih =>
    intro id s h
    unfold passA
    split
    · exact ⟨h, fun q j hj => hj⟩
    · have hstep : (∀ q, (passAGate ls lq eg s id (rg.getD x default)).related q < 2 ^ 64) ∧
          ∀ q j, (s.related q).testBit j = true →
            ((passAGate ls lq eg s id (rg.getD x default)).related q).testBit j = true := by
        unfold passAGate
        cases hacc : acceptGate ls lq eg s id (rg.getD x default) with
        | none => simp only [rejectGate_related]; exact ⟨h, fun q j hj => hj⟩
        | some s' => exact acceptGate_related_mono (hval x) h hacc
      obtain ⟨h1, h2⟩ := ih (id + 1) _ hstep.1
      exact ⟨h1, fun q j hj => h2 q j (hstep.2 q j hj)⟩

/-- When no qubit fits, the scan of a round of Pass B finds nothing. -/
theorem passBScan_none_fit (M : Nat) (ls : Int) (related cur : Nat → Nat) (sr : Nat)
    (hno : ∀ i, ¬ (bitCount (sr ||| related i) : Int) ≤ ls) :
    ∀ (qs : List Nat) (init : Scan), init.mx = 0 →
      (passBScan M ls related cur sr qs init).mx = 0 := by
  intro qs
  induction qs with
  | nil => intro init h; exact h
  | cons q rest ih =>
    intro init h
    have hstep : passBScan M ls related cur sr (q :: rest) init =
        passBScan M ls related cur sr rest (scanStep M ls related cur sr init q) := rfl
    rw [hstep]
    apply ih
    unfold scanStep
    simp only [hno q, if_false]
    split
    · exact h
    · exact h

theorem passCGate_selected_nondiag (eg : Bool) (s : PassC) (id : Nat) (g : Gate)
    (h : (g.isDiagonal && eg) = false) : (passCGate eg s id g).selected = s.selected := by
  unfold passCGate
  rw [h]
  cases g <;> rfl

theorem passC_selected_nondiag (n : Nat) (rg : List Gate) (eg : Bool)
    (h : ∀ x, ((rg.getD x default).isDiagonal && eg) = false) :
    ∀ (xs : List Nat) (id : Nat) (s : PassC), (passC n rg eg id xs s).selected = s.selected := by
  intro xs
  induction xs with
  | nil => intro id s; simp [passC]
  | cons x rest ih =>
    intro id s
    unfold passC
    simp only
    split
    · rfl
    · split
      · rw [ih]
      · rw [ih, passCGate_selected_nondiag _ _ _ _ (h x)]

theorem collect_zero : ∀ (xs : List Nat) (id : Nat), collect 0 id xs = [] := by
  intro xs
  induction xs with
  | nil => intro id; rfl
  | cons x rest ih => intro id; simp [collect, ih]

/-- When the seed `R` of `related[]` alone exceeds the budget, `getGroupOpt`
returns the empty list (Pass B selects nothing; Pass C adds nothing when no
gate is diagonal or `enableGlobal` is unset). -/
theorem getGroupOpt_empty (c : OneLayerCompiler) (full : Nat) (eg : Bool) (ls : Int) (lq R : Nat)
    (hR : R < 2 ^ 64) (hbig : ls < (bitCount R : Int))
    (hval : ∀ x, (c.remainGates.getD x default).valid 64)
    (hdiag : ∀ x, ((c.remainGates.getD x default).isDiagonal && eg) = false) :
    c.getGroupOpt full (fun _ => R) eg ls lq = some [] := by
  obtain ⟨b, hb⟩ := selectedB_isSome c full (fun _ => R) eg ls lq
  have hb' := hb
  unfold OneLayerCompiler.selectedB at hb'
  simp only at hb'
  obtain ⟨hw, hsup⟩ := passA_related_mono c.numQubits c.remainGates ls lq eg hval c.gateIDs 0
    ⟨full, fun _ => R, fun _ => 0⟩ (fun _ => hR)
  generalize passA c.numQubits c.remainGates ls lq eg 0 c.gateIDs
    ⟨full, fun _ => R, fun _ => 0⟩ = a at hw hsup hb'
  have hno : ∀ i, ¬ (bitCount (0 ||| a.related i) : Int) ≤ ls := by
    intro i
    rw [Nat.zero_or]
    have := bitCount_mono hR (hw i) (hsup i)
    omega
  have hsel : b.selected = 0 := by
    rw [show c.numQubits + 1 = Nat.succ c.numQubits from rfl] at hb'
    unfold passB at hb'
    simp only at hb'
    have hmx := passBScan_none_fit c.MAX_GATES ls a.related a.cur 0 hno
      (List.range c.numQubits) ⟨0, 0, fun _ => false⟩ rfl
    rw [hmx] at hb'
    simp only [beq_self_eq_true, if_true, Option.some.injEq] at hb'
    rw [← hb']
  unfold OneLayerCompiler.getGroupOpt
  rw [hb]
  simp only
  split
  · rw [hsel, collect_zero]
  · rw [passC_selected_nondiag _ _ _ hdiag, hsel, collect_zero]

theorem removeGatesOpt_nil (c : OneLayerCompiler) (h : c.remain ≠ []) :
    c.removeGatesOpt [] = c := by
  cases c with
  | mk M n rg rem =>
    simp only [OneLayerCompiler.removeGatesOpt, List.foldl_nil]
    have : rem.isEmpty = false := by
      cases rem with
      | nil => exact absurd rfl h
      | cons a l => rfl
    simp [this]

/-- The loop of `SimpleCompiler::run` never leaves when `getGroupOpt` returns
the empty list on its state: `removeGatesOpt` changes nothing and no statement
of the loop stops it. -/
theorem loop_stuck (sc : SimpleCompiler) (hw : sc.whiteList = 0) (c : OneLayerCompiler)
    (hpos : c.remainGates.length > 0) (hrem : c.remain ≠ [])
    (hget : c.getGroupOpt (SimpleCompiler.initFull sc.numQubits sc.whiteList)
      (fun _ => sc.required) sc.enableGlobal sc.localSize sc.localQubits = some []) :
    ∀ (fuel : Nat) (lg : LocalGroup) (idxs : List (List Nat)),
      SimpleCompiler.loop sc fuel c lg idxs = none := by
  intro fuel
  induction fuel with
  | zero => intro lg idxs; rfl
  | succ fuel ih =>
    intro lg idxs
    unfold SimpleCompiler.loop
    rw [if_pos hpos]
    unfold SimpleCompiler.step
    rw [hget]
    simp only [hw, bne_self_eq_false, Bool.false_eq_true, if_false, removeGatesOpt_nil c hrem]
    exact ih _ _

/-- C13 (as amended). No validation at entry: neither the constructors nor
`SimpleCompiler::run` test their input.  On the degenerate path
(`localSize = N`) `run` returns one group holding all gates, whatever their
qubits are.  On the other path, when `bitCount(required) > localSize` (for a
64-bit `required`, `N <= 64`, a non-empty list of gates over `[0, N)` none of
which is diagonal while `enableGlobal` is set), every call of `getGroupOpt`
returns the empty list, so that `run` returns a local group with one empty
gate group if `whiteList != 0`, and never returns if `whiteList = 0`: the loop
goes on for ever and nothing aborts it. -/
theorem run_no_entry_check (sc : SimpleCompiler) (fuel : Nat) :
    (sc.localSize = (sc.numQubits : Int) →
      sc.run fuel = some
        ⟨[GateGroup.empty.addGates sc.inputGates sc.localQubits sc.enableGlobal],
          (GateGroup.empty.addGates sc.inputGates sc.localQubits sc.enableGlobal).relatedQubits⟩) ∧
    (sc.localSize ≠ (sc.numQubits : Int) → sc.numQubits ≤ 64 → sc.required < 2 ^ 64 →
      sc.localSize < (bitCount sc.required : Int) →
      (∀ g ∈ sc.inputGates, g.valid sc.numQubits ∧ (g.isDiagonal && sc.enableGlobal) = false) →
      sc.inputGates ≠ [] →
      (∀ c : OneLayerCompiler, c.remainGates = sc.inputGates → ∀ full,
        c.getGroupOpt full (fun _ => sc.required) sc.enableGlobal sc.localSize sc.localQubits =
          some []) ∧
      (sc.whiteList ≠ 0 → 0 < fuel → sc.run fuel = some ⟨[GateGroup.empty], 0⟩) ∧
      (sc.whiteList = 0 → sc.run fuel = none)) := by
  refine ⟨?_, ?_⟩
  · intro hd
    have hd' : (sc.localSize == (sc.numQubits : Int)) = true := by simpa using hd
    simp only [SimpleCompiler.run, SimpleCompiler.runIdx, hd', if_true, Option.map_some']
  · intro hnd hN hreq hbig hval hne
    have hd : ¬ (sc.localSize == (sc.numQubits : Int)) = true := by simpa using hnd
    have hget : ∀ c : OneLayerCompiler, c.remainGates = sc.inputGates → ∀ full,
        c.getGroupOpt full (fun _ => sc.required) sc.enableGlobal sc.localSize sc.localQubits =
          some [] := by
      intro c hc full
      have hx : ∀ x, (c.remainGates.getD x default).valid 64 ∧
          ((c.remainGates.getD x default).isDiagonal && sc.enableGlobal) = false := by
        intro x
        by_cases hx : x < c.remainGates.length
        · rw [List.getD_eq_getElem _ _ hx]
          have := hval _ (by rw [← hc]; exact List.getElem_mem hx)
          exact ⟨fun q hq => lt_of_lt_of_le (this.1 q hq) hN, this.2⟩
        · rw [List.getD_eq_default _ _ (not_lt.1 hx)]
          exact ⟨default_valid_64, rfl⟩
      exact getGroupOpt_empty c full sc.enableGlobal sc.localSize sc.localQubits sc.required hreq
        hbig (fun x => (hx x).1) (fun x => (hx x).2)
    have hpos : sc.inputGates.length > 0 := List.length_pos.2 hne
    have h0 := hget ⟨2048, sc.numQubits, sc.inputGates, List.range sc.inputGates.length⟩ rfl
      (SimpleCompiler.initFull sc.numQubits sc.whiteList)
    refine ⟨hget, ?_, ?_⟩
    · intro hw hf
      obtain ⟨f, rfl⟩ := Nat.exists_eq_succ_of_ne_zero (Nat.pos_iff_ne_zero.1 hf)
      have hw' : (sc.whiteList != 0) = true := by simpa using hw
      unfold SimpleCompiler.run SimpleCompiler.runIdx
      rw [if_neg hd]
      unfold SimpleCompiler.loop
      rw [if_pos hpos]
      unfold SimpleCompiler.step
      rw [h0]
      simp only [hw', if_true, List.map_nil, List.nil_append, Option.map_some',
        GateGroup.addGates, List.foldl_nil, GateGroup.empty, Nat.or_self]
    · intro hw
      unfold SimpleCompiler.run SimpleCompiler.runIdx
      rw [if_neg hd, loop_stuck sc hw _ hpos ?_ h0]
      · rfl
      · intro h
        have := congrArg List.length h
        simp only [List.length_range, List.length_nil] at this
        omega

theorem run_no_entry_check_witness :
    (⟨3, 2, minusOne, [Gate.single false 0, Gate.control false 0 1], false, 0b011, 0b111⟩ :
        SimpleCompiler).run 5 = some ⟨[GateGroup.empty], 0⟩ ∧
    (⟨3, 2, minusOne, [Gate.single false 0, Gate.control false 0 1], false, 0, 0b111⟩ :
        SimpleCompiler).run 5 = none :=
  ⟨((run_no_entry_check
      ⟨3, 2, minusOne, [Gate.single false 0, Gate.control false 0 1], false, 0b011, 0b111⟩ 5).2
      (by decide) (by decide) (by decide) (by decide) (by decide) (by decide)).2.1
      (by decide) (by decide),
    ((run_no_entry_check
      ⟨3, 2, minusOne, [Gate.single false 0, Gate.control false 0 1], false, 0, 0b111⟩ 5).2
      (by decide) (by decide) (by decide) (by decide) (by decide) (by decide)).2.2 rfl⟩

/-- C13 as stated fails: no assertion stops a violating input.  The gate
`H(5)` references a qubit `>= N = 2`, yet `SimpleCompiler::run` (on its
degenerate path) returns a local group that holds it, and `Compiler::run` gets
through `localCompiler.run()`, `moveToNext` and `fillLocals` with that group.
With `bitCount(required) = 3 > localSize = 2` and `whiteList != 0`, `run`
returns a local group with one empty gate group. -/
theorem entry_check_counterexample :
    ¬ (Gate.single false 5).valid 2 ∧
    (⟨2, 2, minusOne, [Gate.single false 5], true, 0, 0⟩ : SimpleCompiler).run 1 =
      some ⟨[⟨[Gate.single false 5], 0b100000⟩], 0b100000⟩ ∧
    Compiler.prepare ⟨0, 1, 0, true⟩ ⟨2, [Gate.single false 5], 0⟩ 1 =
      some (⟨[⟨[Gate.single false 5], 0b100001⟩], 0b100000⟩, [([], 0)]) ∧
    ¬ ((bitCount 0b111 : Int) ≤ 2) ∧
    (⟨3, 2, 0b011, [Gate.single false 0], false, 0b011, 0b111⟩ : SimpleCompiler).run 1 =
      some ⟨[⟨[], 0⟩], 0⟩ := by
  decide

/-! ## The residency invariant of `ChunkCompiler::run` -/

theorem mem_setInsert (x y : Nat) (l : List Nat) : y ∈ setInsert x l ↔ y = x ∨ y ∈ l := by
  unfold setInsert
  split
  · rename_i h
    constructor
    · exact fun hy => Or.inr hy
    · rintro (rfl | hy)
      · exact h
      · exact hy
  · rw [List.mem_orderedInsert]

theorem setInsert_sorted (x : Nat) {l : List Nat} (h : l.Sorted (· ≤ ·)) :
    (setInsert x l).Sorted (· ≤ ·) := by
  unfold setInsert
  split
  · exact h
  · exact h.orderedInsert x l

theorem setInsert_nodup (x : Nat) {l : List Nat} (h : l.Nodup) : (setInsert x l).Nodup := by
  unfold setInsert
  split
  · exact h
  · rename_i hx
    exact (List.perm_orderedInsert (· ≤ ·) x l).nodup_iff.2 (List.nodup_cons.2 ⟨hx, h⟩)

theorem setInsert_length {x : Nat} {l : List Nat} (h : x ∉ l) :
    (setInsert x l).length = l.length + 1 := by
  unfold setInsert
  rw [if_neg h, List.orderedInsert_length]

theorem bitCount_zero : bitCount 0 = 0 := by decide

theorem bitCount_maskOf {l : List Nat} (hnd : l.Nodup) (hlt : ∀ x ∈ l, x < 64) :
    bitCount (Gate.maskOf l) = l.length := by
  have := (bitCount_or_maskOf l 0 (by decide) hnd (fun q hq => ⟨hlt q hq, by simp⟩)).2
  rw [Nat.zero_or, bitCount_zero, Nat.zero_add] at this
  exact this

/-- The inner loop of `ChunkCompiler::run` never empties `cur_locals` and adds
nothing to it. -/
theorem curLocals_fold (g : Gate) : ∀ (n : Nat) (cl : List Nat), cl ≠ [] →
    (List.range n).foldl
      (fun cl _ =>
        if cl.length > 1 then (if !g.isDiagonal then cl.erase g.targetQubit else cl) else cl)
      cl ≠ [] ∧
    ∀ x ∈ (List.range n).foldl
      (fun cl _ =>
        if cl.length > 1 then (if !g.isDiagonal then cl.erase g.targetQubit else cl) else cl)
      cl, x ∈ cl := by
  intro n
  induction n with
  | zero => intro cl h; exact ⟨by simpa using h, fun x hx => by simpa using hx⟩
  | succ n ih =>
    intro cl h
    rw [List.range_succ, List.foldl_append]
    obtain ⟨h1, h2⟩ := ih cl h
    generalize (List.range n).foldl
      (fun cl _ =>
        if cl.length > 1 then (if !g.isDiagonal then cl.erase g.targetQubit else cl) else cl)
      cl = r at h1 h2
    simp only [List.foldl_cons, List.foldl_nil]
    split
    · rename_i hlen
      split
      · refine ⟨?_, fun x hx => h2 x (List.mem_of_mem_erase hx)⟩
        intro he
        have := congrArg List.length he
        rw [List.length_erase] at this
        split at this
        · simp only [List.length_nil] at this; omega
        · simp only [List.length_nil] at this; omega
      · exact ⟨h1, h2⟩
    · exact ⟨h1, h2⟩

theorem exists_above {l : List Nat} {c : Nat} (hnd : l.Nodup) (hlen : c + 2 ≤ l.length) :
    ∃ x ∈ l, c + 1 ≤ x := by
  by_contra hno
  push_neg at hno
  have hsub : l ⊆ List.range (c + 1) := by
    intro x hx
    exact List.mem_range.2 (hno x hx)
  have := (List.subperm_of_subset hnd hsub).length_le
  rw [List.length_range] at this
  omega

theorem step_inv (cc : ChunkCompiler) (hc : 0 < cc.localSize)
    (h1 : cc.chunkSize + 2 ≤ cc.localSize) (hN : cc.numQubits ≤ 64) (s : ChunkState) (g : Gate)
    (later : Nat) (hg : g.valid cc.numQubits) (h : ChunkInv cc s) :
    ∃ s1, cc.step s g later = some s1 ∧ ChunkInv cc s1 := by
  unfold ChunkCompiler.step
  by_cases hcase : (g.isDiagonal || decide (g.targetQubit ∈ s.locals)) = true
  · rw [if_pos hcase]
    exact ⟨_, rfl, ⟨h.sorted, h.nodup, h.length, h.below, h.chunk, h.groups, h.chain, h.last⟩⟩
  · rw [if_neg hcase]
    simp only [Bool.or_eq_true, decide_eq_true_eq, not_or] at hcase
    have ht : g.targetQubit ∉ s.locals := hcase.2
    have htN : g.targetQubit < cc.numQubits := by
      apply hg
      cases g <;> simp [Gate.targetQubit, Gate.qubits]
    -- the candidates for eviction
    obtain ⟨x0, hx0, hx0c⟩ : ∃ x0 ∈ s.locals, cc.chunkSize + 1 ≤ (x0 : Int) := by
      by_cases hneg : cc.chunkSize < 0
      · cases hl : s.locals with
        | nil =>
          have := h.length
          rw [hl] at this
          simp only [List.length_nil] at this
          omega
        | cons a l => exact ⟨a, List.mem_cons_self _ _, by omega⟩
      · obtain ⟨c, hceq⟩ : ∃ c : Nat, cc.chunkSize = (c : Int) :=
          ⟨cc.chunkSize.toNat, by omega⟩
        obtain ⟨x0, hx0, hx0c⟩ := @exists_above s.locals c h.nodup
          (by have := h.length; omega)
        exact ⟨x0, hx0, by omega⟩
    have hne : (List.range cc.numQubits).filter
        (fun (j : Nat) => decide (cc.chunkSize + 1 ≤ (j : Int)) && decide (j ∈ s.locals)) ≠ [] := by
      intro he
      have : x0 ∈ (List.range cc.numQubits).filter
          (fun (j : Nat) => decide (cc.chunkSize + 1 ≤ (j : Int)) && decide (j ∈ s.locals)) := by
        rw [List.mem_filter]
        refine ⟨List.mem_range.2 (h.below x0 hx0), ?_⟩
        simp only [Bool.and_eq_true, decide_eq_true_eq]
        exact ⟨hx0c, hx0⟩
      rw [he] at this
      exact absurd this (List.not_mem_nil _)
    obtain ⟨hf1, hf2⟩ := curLocals_fold g later _ hne
    simp only
    generalize (List.range later).foldl
      (fun cl _ =>
        if cl.length > 1 then (if !g.isDiagonal then cl.erase g.targetQubit else cl) else cl)
      ((List.range cc.numQubits).filter
        (fun (j : Nat) => decide (cc.chunkSize + 1 ≤ (j : Int)) && decide (j ∈ s.locals))) = cl
      at hf1 hf2
    cases cl with
    | nil => exact absurd rfl hf1
    | cons v rest =>
      have hv := hf2 v (List.mem_cons_self _ _)
      rw [List.mem_filter] at hv
      simp only [Bool.and_eq_true, decide_eq_true_eq] at hv
      obtain ⟨_, hvc, hvl⟩ := hv
      have hlt64 : ∀ x ∈ s.locals, x < 64 := fun x hx => lt_of_lt_of_le (h.below x hx) hN
      have hmem : ∀ j, j ∈ setInsert g.targetQubit (s.locals.erase v) ↔
          (j = g.targetQubit ∨ (j ∈ s.locals ∧ j ≠ v)) := by
        intro j
        rw [mem_setInsert, h.nodup.mem_erase_iff]
        tauto
      have hswap : Swapped (Gate.maskOf s.locals)
          (Gate.maskOf (setInsert g.targetQubit (s.locals.erase v))) := by
        refine ⟨v, g.targetQubit, ?_, ?_, ?_⟩
        · rw [testBit_maskOf]; simpa using hvl
        · rw [testBit_maskOf]; simpa using ht
        · intro j
          simp only [testBit_maskOf, decide_eq_true_eq]
          exact hmem j
      refine ⟨_, rfl, ⟨?_, ?_, ?_, ?_, ?_, ?_, ?_, ?_⟩⟩
      · exact setInsert_sorted _ (h.sorted.sublist (List.erase_sublist _ _))
      · exact setInsert_nodup _ (h.nodup.erase _)
      · have hnot : g.targetQubit ∉ s.locals.erase v := fun hm => ht (List.mem_of_mem_erase hm)
        simp only
        rw [setInsert_length hnot, List.length_erase_of_mem hvl]
        have hpos : 0 < s.locals.length := List.length_pos_of_mem hvl
        have := h.length
        omega
      · intro x hx
        rcases (hmem x).1 hx with rfl | ⟨hx, _⟩
        · exact htN
        · exact h.below x hx
      · intro q hq
        apply (hmem q).2
        right
        exact ⟨h.chunk q hq, by omega⟩
      · intro gg hgg
        rcases List.mem_append.1 hgg with hgg | hgg
        · exact h.groups gg hgg
        · simp only [List.mem_singleton] at hgg
          subst hgg
          simp only
          refine ⟨?_, ?_⟩
          · rw [bitCount_maskOf h.nodup hlt64]; exact h.length
          · intro q hq
            rw [testBit_maskOf]
            simpa using h.chunk q (by omega)
      · simp only [List.map_append, List.map_cons, List.map_nil]
        rw [List.chain'_append]
        refine ⟨h.chain, List.chain'_singleton _, ?_⟩
        intro x hx y hy
        simp only [List.head?_cons, Option.mem_def, Option.some.injEq] at hy
        subst hy
        exact h.last x hx
      · intro m hm
        simp only [List.map_append, List.map_cons, List.map_nil, List.getLast?_append,
          List.getLast?_singleton, Option.mem_def] at hm
        have hm' : some (Gate.maskOf s.locals) = some m := hm
        rw [← Option.some.inj hm']
        exact hswap

theorem loop_inv (cc : ChunkCompiler) (hc : 0 < cc.localSize)
    (h1 : cc.chunkSize + 2 ≤ cc.localSize) (hN : cc.numQubits ≤ 64) :
    ∀ (gs : List Gate) (s : ChunkState), (∀ g ∈ gs, g.valid cc.numQubits) → ChunkInv cc s →
      ∃ s1, cc.loop gs s = some s1 ∧ ChunkInv cc s1 := by
  intro gs
  induction gs with
  | nil => intro s _ h; exact ⟨s, rfl, h⟩
  | cons g rest ih =>
    intro s hval h
    obtain ⟨s1, hs1, hinv⟩ := step_inv cc hc h1 hN s g rest.length
      (hval g (List.mem_cons_self _ _)) h
    obtain ⟨s2, hs2, hinv2⟩ := ih s1 (fun g' hg' => hval g' (List.mem_cons_of_mem _ hg')) hinv
    refine ⟨s2, ?_, hinv2⟩
    unfold ChunkCompiler.loop
    rw [hs1]
    exact hs2

/-- C18. Residency invariant of `ChunkCompiler::run`: with
`chunkSize + 2 <= localSize <= N <= 64`, a positive `localSize` (which follows
when `chunkSize` is not negative) and gates over `[0, N)` the run
returns, every emitted group's `relatedQubits` has exactly `localSize` bits and
contains all qubits `0 .. chunkSize - 1`, and the masks of two consecutive
emitted groups differ by exactly one qubit removed and one qubit added. -/
theorem chunk_residency (cc : ChunkCompiler) (hc : 0 < cc.localSize)
    (h1 : cc.chunkSize + 2 ≤ cc.localSize) (h2 : cc.localSize ≤ (cc.numQubits : Int))
    (hN : cc.numQubits ≤ 64) (hval : ∀ g ∈ cc.inputGates, g.valid cc.numQubits) :
    ∃ lg, cc.run = some lg ∧
      (∀ gg ∈ lg.fullGroups, (bitCount gg.relatedQubits : Int) = cc.localSize ∧
        ∀ q : Nat, (q : Int) < cc.chunkSize → gg.relatedQubits.testBit q = true) ∧
      (lg.fullGroups.map (fun gg => gg.relatedQubits)).Chain' Swapped := by
  have h0 : ChunkInv cc ⟨List.range cc.localSize.toNat, ⟨[], 0⟩, ⟨[], 0⟩⟩ := by
    refine ⟨?_, List.nodup_range _, ?_, ?_, ?_, ?_, ?_, ?_⟩
    · exact (sorted_range _).imp (fun {a b} hab => le_of_lt hab)
    · simp only [List.length_range]; omega
    · intro x hx
      have := List.mem_range.1 hx
      omega
    · intro q hq
      exact List.mem_range.2 (by omega)
    · intro gg hgg; exact absurd hgg (List.not_mem_nil _)
    · exact List.chain'_nil
    · intro m hm; simp at hm
  obtain ⟨s, hs, hinv⟩ := loop_inv cc hc h1 hN cc.inputGates _ hval h0
  have hlt64 : ∀ x ∈ s.locals, x < 64 := fun x hx => lt_of_lt_of_le (hinv.below x hx) hN
  refine ⟨_, by unfold ChunkCompiler.run; rw [hs], ?_, ?_⟩
  · intro gg hgg
    rcases List.mem_append.1 hgg with hgg | hgg
    · exact hinv.groups gg hgg
    · simp only [List.mem_singleton] at hgg
      subst hgg
      simp only
      refine ⟨?_, ?_⟩
      · rw [bitCount_maskOf hinv.nodup hlt64]; exact hinv.length
      · intro q hq
        rw [testBit_maskOf]
        simpa using hinv.chunk q (by omega)
  · simp only [List.map_append, List.map_cons, List.map_nil]
    rw [List.chain'_append]
    refine ⟨hinv.chain, List.chain'_singleton _, ?_⟩
    intro x hx y hy
    simp only [List.head?_cons, Option.mem_def, Option.some.injEq] at hy
    subst hy
    exact hinv.last x hx

theorem chunk_residency_witness :
    ∃ lg, (⟨5, 3, 1, [Gate.single false 0, Gate.single false 4, Gate.single true 3,
        Gate.single false 3, Gate.control false 0 2]⟩ : ChunkCompiler).run = some lg ∧
      (∀ gg ∈ lg.fullGroups, (bitCount gg.relatedQubits : Int) = 3 ∧
        ∀ q : Nat, (q : Int) < 1 → gg.relatedQubits.testBit q = true) ∧
      (lg.fullGroups.map (fun gg => gg.relatedQubits)).Chain' Swapped :=
  chunk_residency
    ⟨5, 3, 1, [Gate.single false 0, Gate.single false 4, Gate.single true 3,
      Gate.single false 3, Gate.control false 0 2]⟩
    (by decide) (by decide) (by decide) (by decide) (by decide)

/-! ## The comparison of `double` values is a strict order -/

theorem scaled_lt_iff (z1 z2 : Int) (a b d : Nat) :
    z1 * ((1 <<< a : Nat) : Int) < z2 * ((1 <<< b : Nat) : Int) ↔
      z1 * ((1 <<< (a + d) : Nat) : Int) < z2 * ((1 <<< (b + d) : Nat) : Int) := by
  rw [Nat.one_shiftLeft, Nat.one_shiftLeft, Nat.one_shiftLeft, Nat.one_shiftLeft, pow_add,
    pow_add]
  push_cast
  rw [← mul_assoc, ← mul_assoc]
  exact (mul_lt_mul_right (pow_pos (by norm_num : (0 : Int) < 2) d)).symm

/-- The comparison of two finite values may be made at any common exponent
below both. -/
theorem lt_fin_iff (s1 s2 : Bool) (m1 m2 : Nat) (e1 e2 e0 : Int) (h1 : e0 ≤ e1) (h2 : e0 ≤ e2) :
    Dbl.lt (Dbl.fin s1 m1 e1) (Dbl.fin s2 m2 e2) = true ↔
      (if s1 then -(m1 : Int) else m1) * ((1 <<< (e1 - e0).toNat : Nat) : Int) <
        (if s2 then -(m2 : Int) else m2) * ((1 <<< (e2 - e0).toNat : Nat) : Int) := by
  unfold Dbl.lt
  simp only [decide_eq_true_eq]
  rw [scaled_lt_iff _ _ _ _ (min e1 e2 - e0).toNat]
  have ha : (e1 - min e1 e2).toNat + (min e1 e2 - e0).toNat = (e1 - e0).toNat := by omega
  have hb : (e2 - min e1 e2).toNat + (min e1 e2 - e0).toNat = (e2 - e0).toNat := by omega
  rw [ha, hb]

theorem dbl_lt_irrefl (a : Dbl) : Dbl.lt a a = false := by
  cases a with
  | nan => rfl
  | inf s => cases s <;> rfl
  | fin s m e => simp [Dbl.lt]

theorem dbl_lt_trans (a b d : Dbl) (hab : Dbl.lt a b = true) (hbd : Dbl.lt b d = true) :
    Dbl.lt a d = true := by
  cases b with
  | nan => cases a <;> simp [Dbl.lt] at hab
  | inf sb =>
    cases d with
    | nan => simp [Dbl.lt] at hbd
    | inf sd =>
      cases a with
      | nan => simp [Dbl.lt] at hab
      | inf sa =>
        simp only [Dbl.lt, Bool.and_eq_true, Bool.not_eq_true'] at hab hbd ⊢
        rw [hab.2] at hbd
        exact absurd hbd.1 (by decide)
      | fin sa ma ea =>
        simp only [Dbl.lt, Bool.and_eq_true, Bool.not_eq_true'] at hab hbd ⊢
        rw [hab] at hbd
        exact absurd hbd.1 (by decide)
    | fin sd md ed =>
      cases a with
      | nan => simp [Dbl.lt] at hab
      | inf sa =>
        simp only [Dbl.lt, Bool.and_eq_true, Bool.not_eq_true'] at hab hbd ⊢
        exact hab.1
      | fin sa ma ea =>
        simp only [Dbl.lt, Bool.not_eq_true'] at hab hbd
        rw [hab] at hbd
        exact absurd hbd (by decide)
  | fin sb mb eb =>
    cases a with
    | nan => simp [Dbl.lt] at hab
    | inf sa =>
      have hsa : sa = true := by simpa [Dbl.lt] using hab
      cases d with
      | nan => simp [Dbl.lt] at hbd
      | inf sd =>
        have hsd : sd = false := by simpa [Dbl.lt] using hbd
        subst hsa; subst hsd; rfl
      | fin sd md ed => subst hsa; rfl
    | fin sa ma ea =>
      cases d with
      | nan => simp [Dbl.lt] at hbd
      | inf sd =>
        have hsd : sd = false := by simpa [Dbl.lt] using hbd
        subst hsd; rfl
      | fin sd md ed =>
        have h0a : min ea (min eb ed) ≤ ea := by omega
        have h0b : min ea (min eb ed) ≤ eb := by omega
        have h0d : min ea (min eb ed) ≤ ed := by omega
        rw [lt_fin_iff _ _ _ _ _ _ _ h0a h0b] at hab
        rw [lt_fin_iff _ _ _ _ _ _ _ h0b h0d] at hbd
        rw [lt_fin_iff _ _ _ _ _ _ _ h0a h0d]
        exact lt_trans hab hbd

/-! ## Backend selection of `AdvanceCompiler::run` -/

theorem blasCandidate_isSome (ac : AdvanceCompiler) (c : OneLayerCompiler) (m : Int) :
    ∃ B, ac.blasCandidate c m = some B := by
  obtain ⟨sel, h⟩ := getGroupOpt_eq_collect c ac.blasForbid (fun _ => 0) false m
    (ac.localQubits ||| ac.blasForbid)
  exact ⟨_, h⟩

/-- The loop over `matSize` keeps a candidate that no candidate seen so far
beats in the comparison `<` of `double`, and it replaces the per-gate
candidate only by one that beats it. -/
theorem blasRounds_spec (env : AdvanceEnv) (ac : AdvanceCompiler) (c : OneLayerCompiler)
    (P : List Nat) (hirr : ∀ a, env.lt a a = false)
    (htrans : ∀ a b d, env.lt a b = true → env.lt b d = true → env.lt a d = true) :
    ∀ (ms seen : List Nat) (ch0 : Choice env.Double),
      (∀ m ∈ seen, ∀ B, ac.blasCandidate c (m : Int) = some B → B ≠ [] →
        env.lt (AdvanceCompiler.blasEff env ac m B) ch0.bestEff = false) →
      ((ch0.ggBackend = Backend.PerGate ∧ ch0.ggIdx = P ∧
          ch0.bestEff = AdvanceCompiler.perGateEff env ac c P) ∨
        (ch0.ggBackend = Backend.BLAS ∧
          env.lt ch0.bestEff (AdvanceCompiler.perGateEff env ac c P) = true ∧
          ∃ m ∈ seen, ac.blasCandidate c (m : Int) = some ch0.ggIdx ∧ ch0.ggIdx ≠ [] ∧
            ch0.bestEff = AdvanceCompiler.blasEff env ac m ch0.ggIdx)) →
      ∃ ch, ms.foldl (AdvanceCompiler.blasRound env ac c) (some ch0) = some ch ∧
        (∀ m ∈ seen ++ ms, ∀ B, ac.blasCandidate c (m : Int) = some B → B ≠ [] →
          env.lt (AdvanceCompiler.blasEff env ac m B) ch.bestEff = false) ∧
        ((ch.ggBackend = Backend.PerGate ∧ ch.ggIdx = P ∧
            ch.bestEff = AdvanceCompiler.perGateEff env ac c P) ∨
          (ch.ggBackend = Backend.BLAS ∧
            env.lt ch.bestEff (AdvanceCompiler.perGateEff env ac c P) = true ∧
            ∃ m ∈ seen ++ ms, ac.blasCandidate c (m : Int) = some ch.ggIdx ∧ ch.ggIdx ≠ [] ∧
              ch.bestEff = AdvanceCompiler.blasEff env ac m ch.ggIdx)) := by
  intro ms
  induction ms with
  | nil =>
    intro seen ch0 h1 h2
    refine ⟨ch0, rfl, ?_, ?_⟩
    · simpa using h1
    · simpa using h2
  | cons m rest ih =>
    intro seen ch0 h1 h2
    obtain ⟨B, hB⟩ := blasCandidate_isSome ac c (m : Int)
    have hstep : ∃ ch1, AdvanceCompiler.blasRound env ac c (some ch0) m = some ch1 ∧
        (∀ m' ∈ seen ++ [m], ∀ B', ac.blasCandidate c (m' : Int) = some B' → B' ≠ [] →
          env.lt (AdvanceCompiler.blasEff env ac m' B') ch1.bestEff = false) ∧
        ((ch1.ggBackend = Backend.PerGate ∧ ch1.ggIdx = P ∧
            ch1.bestEff = AdvanceCompiler.perGateEff env ac c P) ∨
          (ch1.ggBackend = Backend.BLAS ∧
            env.lt ch1.bestEff (AdvanceCompiler.perGateEff env ac c P) = true ∧
            ∃ m' ∈ seen ++ [m], ac.blasCandidate c (m' : Int) = some ch1.ggIdx ∧
              ch1.ggIdx ≠ [] ∧ ch1.bestEff = AdvanceCompiler.blasEff env ac m' ch1.ggIdx)) := by
      unfold AdvanceCompiler.blasRound
      simp only [hB]
      by_cases hlen : (B.length == 0) = true
      · rw [if_pos hlen]
        have hnil : B = [] := List.length_eq_zero.1 (by simpa using hlen)
        refine ⟨ch0, rfl, ?_, ?_⟩
        · intro m' hm' B' hB' hne
          rcases List.mem_append.1 hm' with hm' | hm'
          · exact h1 m' hm' B' hB' hne
          · simp only [List.mem_singleton] at hm'
            subst hm'
            rw [hB] at hB'
            exact absurd (hnil ▸ (Option.some.inj hB').symm) hne
        · rcases h2 with h | ⟨ha, hb, m', hm', hc⟩
          · exact Or.inl h
          · exact Or.inr ⟨ha, hb, m', List.mem_append_left _ hm', hc⟩
      · rw [if_neg hlen]
        have hne : B ≠ [] := by
          intro h0; rw [h0] at hlen; simp at hlen
        by_cases heff : env.lt (AdvanceCompiler.blasEff env ac (m : Int) B) ch0.bestEff = true
        · rw [if_pos heff]
          have hpg : env.lt (AdvanceCompiler.blasEff env ac (m : Int) B)
              (AdvanceCompiler.perGateEff env ac c P) = true := by
            rcases h2 with ⟨_, _, h⟩ | ⟨_, h, _⟩
            · rw [← h]; exact heff
            · exact htrans _ _ _ heff h
          refine ⟨_, rfl, ?_, Or.inr ⟨rfl, hpg, m, by simp, hB, hne, rfl⟩⟩
          intro m' hm' B' hB' hne'
          show env.lt (AdvanceCompiler.blasEff env ac m' B')
            (AdvanceCompiler.blasEff env ac (m : Int) B) = false
          rcases List.mem_append.1 hm' with hm' | hm'
          · cases hlt : env.lt (AdvanceCompiler.blasEff env ac m' B')
                (AdvanceCompiler.blasEff env ac (m : Int) B) with
            | false => rfl
            | true =>
              have := htrans _ _ _ hlt heff
              rw [h1 m' hm' B' hB' hne'] at this
              exact absurd this (by decide)
          · simp only [List.mem_singleton] at hm'
            subst hm'
            rw [hB] at hB'
            rw [← Option.some.inj hB']
            exact hirr _
        · rw [if_neg heff]
          refine ⟨ch0, rfl, ?_, ?_⟩
          · intro m' hm' B' hB' hne'
            rcases List.mem_append.1 hm' with hm' | hm'
            · exact h1 m' hm' B' hB' hne'
            · simp only [List.mem_singleton] at hm'
              subst hm'
              rw [hB] at hB'
              rw [← Option.some.inj hB']
              simpa using heff
          · rcases h2 with h | ⟨ha, hb, m', hm', hc⟩
            · exact Or.inl h
            · exact Or.inr ⟨ha, hb, m', List.mem_append_left _ hm', hc⟩
    obtain ⟨ch1, hch1, hA, hB1⟩ := hstep
    obtain ⟨ch, hch, hC, hD⟩ := ih (seen ++ [m]) ch1 hA hB1
    refine ⟨ch, ?_, ?_, ?_⟩
    · rw [List.foldl_cons, hch1]; exact hch
    · simpa using hC
    · simpa using hD

/-- C16 (as amended). Backend selection: in an iteration of
`AdvanceCompiler::run` with both backends enabled the selection returns, and
the chosen candidate is minimal for the costs that the code computes: the
cost of a candidate is the `double` that results from dividing the predicted
time by the number of gates (`1e10` for an empty per-gate candidate, not an
infinite cost), and no non-empty BLAS candidate for `matSize` 4, 5, 6, 7 has a
computed cost that is `<` the computed cost of the chosen candidate.  A BLAS
candidate is chosen only if its computed cost is `<` that of the per-gate
candidate, so the per-gate candidate wins whenever the two `double` values do
not compare as `<`.  The comparison `<` of `double` enters only as an
irreflexive and transitive relation, which it is in IEEE arithmetic. -/
theorem select_min_cost (env : AdvanceEnv) (ac : AdvanceCompiler) (c : OneLayerCompiler)
    (state : State) (perGateSize blasSize : Int) (hirr : ∀ a, env.lt a a = false)
    (htrans : ∀ a b d, env.lt a b = true → env.lt b d = true → env.lt a d = true) :
    ∃ P idx backend, AdvanceCompiler.perGateCandidate env c state perGateSize = some P ∧
      AdvanceCompiler.select env ac c state true true perGateSize blasSize =
        Outcome.done (idx, backend, AdvanceCompiler.fillRelated env state.layout) ∧
      ((backend = Backend.PerGate ∧ idx = P ∧
          ∀ m : Nat, m ∈ [4, 5, 6, 7] → ∀ B, ac.blasCandidate c (m : Int) = some B → B ≠ [] →
            env.lt (AdvanceCompiler.blasEff env ac m B)
              (AdvanceCompiler.perGateEff env ac c P) = false) ∨
        (backend = Backend.BLAS ∧
          ∃ m : Nat, m ∈ [4, 5, 6, 7] ∧ ac.blasCandidate c (m : Int) = some idx ∧ idx ≠ [] ∧
            env.lt (AdvanceCompiler.blasEff env ac m idx)
              (AdvanceCompiler.perGateEff env ac c P) = true ∧
            ∀ m' : Nat, m' ∈ [4, 5, 6, 7] → ∀ B, ac.blasCandidate c (m' : Int) = some B →
              B ≠ [] →
              env.lt (AdvanceCompiler.blasEff env ac m' B)
                (AdvanceCompiler.blasEff env ac m idx) = false)) := by
  obtain ⟨sel, hP⟩ := getGroupOpt_eq_collect c 0
    (fun _ => AdvanceCompiler.fillRelated env state.layout) true perGateSize minusOne
  obtain ⟨ch, hch, h1, h2⟩ := blasRounds_spec env ac c (collect sel 0 c.gateIDs) hirr htrans
    [4, 5, 6, 7] []
    ⟨collect sel 0 c.gateIDs, Backend.PerGate,
      AdvanceCompiler.perGateEff env ac c (collect sel 0 c.gateIDs)⟩
    (fun m hm => absurd hm (List.not_mem_nil _)) (Or.inl ⟨rfl, rfl, rfl⟩)
  refine ⟨collect sel 0 c.gateIDs, ch.ggIdx, ch.ggBackend, hP, ?_, ?_⟩
  · unfold AdvanceCompiler.select AdvanceCompiler.chooseBoth
    simp only [Bool.and_self, if_true, AdvanceCompiler.perGateCandidate, hP, hch]
  · simp only [List.nil_append] at h1 h2
    rcases h2 with ⟨ha, hb, hc⟩ | ⟨ha, hb, m, hm, hc, hd, he⟩
    · refine Or.inl ⟨ha, hb, ?_⟩
      intro m hm B hB hne
      rw [← hc]
      exact h1 m hm B hB hne
    · refine Or.inr ⟨ha, m, hm, hc, hd, ?_, ?_⟩
      · rw [← he]; exact hb
      · intro m' hm' B hB hne
        rw [← he]
        exact h1 m' hm' B hB hne

theorem ieeeEnv_irrefl (cg : Nat) (lim : Int) (pg : Int → List Gate → Dbl) (pb : Int → Int → Dbl)
    (init : GateGroup → Backend → State → Int → State) :
    ∀ a, (ieeeEnv cg lim pg pb init).lt a a = false :=
  dbl_lt_irrefl

theorem ieeeEnv_trans (cg : Nat) (lim : Int) (pg : Int → List Gate → Dbl) (pb : Int → Int → Dbl)
    (init : GateGroup → Backend → State → Int → State) :
    ∀ a b d, (ieeeEnv cg lim pg pb init).lt a b = true →
      (ieeeEnv cg lim pg pb init).lt b d = true → (ieeeEnv cg lim pg pb init).lt a d = true :=
  dbl_lt_trans

theorem select_min_cost_witness :
    ∃ P idx backend,
      AdvanceCompiler.perGateCandidate
          (ieeeEnv 0 7 (fun _ _ => Dbl.fin false 3 0) (fun _ _ => Dbl.fin false 1 0) (fun _ _ s _ => s))
          ⟨512, 2, [Gate.control false 0 1], [0]⟩ ⟨[0, 1], [0, 1]⟩ 2 = some P ∧
      AdvanceCompiler.select
          (ieeeEnv 0 7 (fun _ _ => Dbl.fin false 3 0) (fun _ _ => Dbl.fin false 1 0) (fun _ _ s _ => s))
          ⟨2, 3, 0, [Gate.control false 0 1], true, 0⟩
          ⟨512, 2, [Gate.control false 0 1], [0]⟩ ⟨[0, 1], [0, 1]⟩ true true 2 7 =
        Outcome.done (idx, backend, AdvanceCompiler.fillRelated
          (ieeeEnv 0 7 (fun _ _ => Dbl.fin false 3 0) (fun _ _ => Dbl.fin false 1 0) (fun _ _ s _ => s)) [0, 1]) ∧
      ((backend = Backend.PerGate ∧ idx = P ∧
          ∀ m : Nat, m ∈ [4, 5, 6, 7] → ∀ B,
            AdvanceCompiler.blasCandidate ⟨2, 3, 0, [Gate.control false 0 1], true, 0⟩
              ⟨512, 2, [Gate.control false 0 1], [0]⟩ (m : Int) = some B → B ≠ [] →
            (ieeeEnv 0 7 (fun _ _ => Dbl.fin false 3 0) (fun _ _ => Dbl.fin false 1 0) (fun _ _ s _ => s)).lt
              (AdvanceCompiler.blasEff
                (ieeeEnv 0 7 (fun _ _ => Dbl.fin false 3 0) (fun _ _ => Dbl.fin false 1 0) (fun _ _ s _ => s))
                ⟨2, 3, 0, [Gate.control false 0 1], true, 0⟩ m B)
              (AdvanceCompiler.perGateEff
                (ieeeEnv 0 7 (fun _ _ => Dbl.fin false 3 0) (fun _ _ => Dbl.fin false 1 0) (fun _ _ s _ => s))
                ⟨2, 3, 0, [Gate.control false 0 1], true, 0⟩
                ⟨512, 2, [Gate.control false 0 1], [0]⟩ P) = false) ∨
        (backend = Backend.BLAS ∧
          ∃ m : Nat, m ∈ [4, 5, 6, 7] ∧
            AdvanceCompiler.blasCandidate ⟨2, 3, 0, [Gate.control false 0 1], true, 0⟩
              ⟨512, 2, [Gate.control false 0 1], [0]⟩ (m : Int) = some idx ∧ idx ≠ [] ∧
            (ieeeEnv 0 7 (fun _ _ => Dbl.fin false 3 0) (fun _ _ => Dbl.fin false 1 0) (fun _ _ s _ => s)).lt
              (AdvanceCompiler.blasEff
                (ieeeEnv 0 7 (fun _ _ => Dbl.fin false 3 0) (fun _ _ => Dbl.fin false 1 0) (fun _ _ s _ => s))
                ⟨2, 3, 0, [Gate.control false 0 1], true, 0⟩ m idx)
              (AdvanceCompiler.perGateEff
                (ieeeEnv 0 7 (fun _ _ => Dbl.fin false 3 0) (fun _ _ => Dbl.fin false 1 0) (fun _ _ s _ => s))
                ⟨2, 3, 0, [Gate.control false 0 1], true, 0⟩
                ⟨512, 2, [Gate.control false 0 1], [0]⟩ P) = true ∧
            ∀ m' : Nat, m' ∈ [4, 5, 6, 7] → ∀ B,
              AdvanceCompiler.blasCandidate ⟨2, 3, 0, [Gate.control false 0 1], true, 0⟩
                ⟨512, 2, [Gate.control false 0 1], [0]⟩ (m' : Int) = some B → B ≠ [] →
              (ieeeEnv 0 7 (fun _ _ => Dbl.fin false 3 0) (fun _ _ => Dbl.fin false 1 0) (fun _ _ s _ => s)).lt
                (AdvanceCompiler.blasEff
                  (ieeeEnv 0 7 (fun _ _ => Dbl.fin false 3 0) (fun _ _ => Dbl.fin false 1 0) (fun _ _ s _ => s))
                  ⟨2, 3, 0, [Gate.control false 0 1], true, 0⟩ m' B)
                (AdvanceCompiler.blasEff
                  (ieeeEnv 0 7 (fun _ _ => Dbl.fin false 3 0) (fun _ _ => Dbl.fin false 1 0) (fun _ _ s _ => s))
                  ⟨2, 3, 0, [Gate.control false 0 1], true, 0⟩ m idx) = false)) :=
  select_min_cost (ieeeEnv 0 7 (fun _ _ => Dbl.fin false 3 0) (fun _ _ => Dbl.fin false 1 0) (fun _ _ s _ => s))
    ⟨2, 3, 0, [Gate.control false 0 1], true, 0⟩
    ⟨512, 2, [Gate.control false 0 1], [0]⟩ ⟨[0, 1], [0, 1]⟩ 2 7
    (ieeeEnv_irrefl _ _ _ _ _) (ieeeEnv_trans _ _ _ _ _)

set_option maxRecDepth 8000 in
/-- C16 as stated fails, in two ways.  First, with `perGateSize = 1` the
per-gate candidate for the batch `[CX(0,1)]` is empty, the BLAS candidate for
`matSize = 4` holds the gate and costs `2e10` per gate (the finite value
`5242880000000000 * 2^-18`); the selection keeps the empty per-gate candidate,
whose cost `1e10` is smaller, not infinite.  Second, with costs taken as exact
numbers: for the batch `[H(0), H(1), H(2)]` with `blasForbid = 0b110` the
per-gate candidate holds three gates at the predicted time `1.0` and each BLAS
candidate holds one gate at the predicted time `6004799503160661 * 2^-54`,
which is below `1/3`; the quotient `1.0 / 3` is rounded to that same `double`,
the test `eff < bestEff` fails, and the selection keeps the per-gate candidate
although its exact cost per gate `1/3` is not the minimum. -/
theorem select_counterexample :
    (AdvanceCompiler.perGateCandidate
        (ieeeEnv 0 7 (fun _ _ => Dbl.fin false 1 0) (fun _ _ => Dbl.fin false 20000000000 0)
          (fun _ _ s _ => s))
        ⟨512, 2, [Gate.control false 0 1], [0]⟩ ⟨[0, 1], [0, 1]⟩ 1 = some [] ∧
      AdvanceCompiler.blasCandidate ⟨2, 3, 0, [Gate.control false 0 1], true, 0⟩
        ⟨512, 2, [Gate.control false 0 1], [0]⟩ 4 = some [0] ∧
      AdvanceCompiler.blasEff
        (ieeeEnv 0 7 (fun _ _ => Dbl.fin false 1 0) (fun _ _ => Dbl.fin false 20000000000 0)
          (fun _ _ s _ => s))
        ⟨2, 3, 0, [Gate.control false 0 1], true, 0⟩ 4 [0] = Dbl.fin false 5242880000000000 (-18) ∧
      5242880000000000 = 20000000000 * 2 ^ 18 ∧
      AdvanceCompiler.select
        (ieeeEnv 0 7 (fun _ _ => Dbl.fin false 1 0) (fun _ _ => Dbl.fin false 20000000000 0)
          (fun _ _ s _ => s))
        ⟨2, 3, 0, [Gate.control false 0 1], true, 0⟩
        ⟨512, 2, [Gate.control false 0 1], [0]⟩ ⟨[0, 1], [0, 1]⟩ true true 1 7 =
        Outcome.done ([], Backend.PerGate, 0)) ∧
    (AdvanceCompiler.perGateCandidate
        (ieeeEnv 0 7 (fun _ _ => Dbl.fin false 1 0)
          (fun _ _ => Dbl.fin false 6004799503160661 (-54)) (fun _ _ s _ => s))
        ⟨512, 3, [Gate.single false 0, Gate.single false 1, Gate.single false 2], [0, 1, 2]⟩
        ⟨[0, 1, 2], [0, 1, 2]⟩ 3 = some [0, 1, 2] ∧
      ([4, 5, 6, 7].map (fun (m : Nat) => AdvanceCompiler.blasCandidate
        ⟨3, 0b001, 0b110, [Gate.single false 0, Gate.single false 1, Gate.single false 2], true, 0⟩
        ⟨512, 3, [Gate.single false 0, Gate.single false 1, Gate.single false 2], [0, 1, 2]⟩
        (m : Int))) = [some [0], some [0], some [0], some [0]] ∧
      AdvanceCompiler.perGateEff
        (ieeeEnv 0 7 (fun _ _ => Dbl.fin false 1 0)
          (fun _ _ => Dbl.fin false 6004799503160661 (-54)) (fun _ _ s _ => s))
        ⟨3, 0b001, 0b110, [Gate.single false 0, Gate.single false 1, Gate.single false 2], true, 0⟩
        ⟨512, 3, [Gate.single false 0, Gate.single false 1, Gate.single false 2], [0, 1, 2]⟩
        [0, 1, 2] = Dbl.fin false 6004799503160661 (-54) ∧
      AdvanceCompiler.blasEff
        (ieeeEnv 0 7 (fun _ _ => Dbl.fin false 1 0)
          (fun _ _ => Dbl.fin false 6004799503160661 (-54)) (fun _ _ s _ => s))
        ⟨3, 0b001, 0b110, [Gate.single false 0, Gate.single false 1, Gate.single false 2], true, 0⟩
        4 [0] = Dbl.fin false 6004799503160661 (-54) ∧
      3 * 6004799503160661 < 2 ^ 54 ∧
      AdvanceCompiler.select
        (ieeeEnv 0 7 (fun _ _ => Dbl.fin false 1 0)
          (fun _ _ => Dbl.fin false 6004799503160661 (-54)) (fun _ _ s _ => s))
        ⟨3, 0b001, 0b110, [Gate.single false 0, Gate.single false 1, Gate.single false 2], true, 0⟩
        ⟨512, 3, [Gate.single false 0, Gate.single false 1, Gate.single false 2], [0, 1, 2]⟩
        ⟨[0, 1, 2], [0, 1, 2]⟩ true true 3 7 =
        Outcome.done ([0, 1, 2], Backend.PerGate, 0)) := by
  refine ⟨⟨by decide, by decide, rfl, by decide, by decide⟩,
    ⟨by decide, by decide, rfl, rfl, by decide, by decide⟩⟩

/-! ## The iteration trip-wire -/

theorem absorbStep_sub (related acur : Nat → Nat) (id : Nat) (s : PassB) (i : Nat)
    (h1 : ∀ q p, (s.cur q).testBit p = true → (acur q).testBit p = true)
    (h2 : ∀ p, s.selected.testBit p = true → ∃ q, (acur q).testBit p = true) :
    (∀ q p, ((absorbStep related id s i).cur q).testBit p = true → (acur q).testBit p = true) ∧
    (∀ p, (absorbStep related id s i).selected.testBit p = true →
      ∃ q, (acur q).testBit p = true) := by
  unfold absorbStep
  split
  · split
    · refine ⟨h1, ?_⟩
      intro p hp
      simp only [Nat.testBit_or, Bool.or_eq_true] at hp
      rcases hp with hp | hp
      · exact h2 p hp
      · exact ⟨i, h1 i p hp⟩
    · refine ⟨?_, h2⟩
      intro q p hp
      simp only [upd] at hp
      split at hp
      · rename_i hq
        subst hq
        rw [testBit_bitsetAndNot] at hp
        simp only [Bool.and_eq_true] at hp
        exact h1 _ p hp.1
      · exact h1 q p hp
  · exact ⟨h1, h2⟩

theorem passBAbsorb_sub (related acur : Nat → Nat) (id : Nat) (qs : List Nat) (s : PassB)
    (h1 : ∀ q p, (s.cur q).testBit p = true → (acur q).testBit p = true)
    (h2 : ∀ p, s.selected.testBit p = true → ∃ q, (acur q).testBit p = true) :
    (∀ q p, ((passBAbsorb related id qs s).cur q).testBit p = true →
      (acur q).testBit p = true) ∧
    (∀ p, (passBAbsorb related id qs s).selected.testBit p = true →
      ∃ q, (acur q).testBit p = true) := by
  unfold passBAbsorb
  exact foldl_preserves
    (fun s' => (∀ q p, (s'.cur q).testBit p = true → (acur q).testBit p = true) ∧
      (∀ p, s'.selected.testBit p = true → ∃ q, (acur q).testBit p = true)) _
    (fun s' i hs => absorbStep_sub related acur id s' i hs.1 hs.2) qs s ⟨h1, h2⟩

/-- Pass B selects only gates that Pass A has put into some `cur[]` set. -/
theorem passB_selected_sub (n M : Nat) (ls : Int) (related acur : Nat → Nat) :
    ∀ (fuel : Nat) (s r : PassB), passB n M ls related fuel s = some r →
      (∀ q p, (s.cur q).testBit p = true → (acur q).testBit p = true) →
      (∀ p, s.selected.testBit p = true → ∃ q, (acur q).testBit p = true) →
      ∀ p, r.selected.testBit p = true → ∃ q, (acur q).testBit p = true := by
  intro fuel
  induction fuel with
  | zero => intro s r h; simp [passB] at h
  | succ fuel ih =>
    intro s r h h1 h2
    unfold passB at h
    simp only at h
    split at h
    · simp only [Option.some.injEq] at h
      subst h
      exact h2
    · obtain ⟨h3, h4⟩ := passBAbsorb_sub related acur
        (passBScan M ls related s.cur s.selectedRelated (List.range n) ⟨0, 0, s.blocked⟩).id
        (List.range n)
        { cur := s.cur
          blocked := upd (passBScan M ls related s.cur s.selectedRelated (List.range n)
            ⟨0, 0, s.blocked⟩).blocked (passBScan M ls related s.cur s.selectedRelated
              (List.range n) ⟨0, 0, s.blocked⟩).id true
          selected := s.selected ||| s.cur (passBScan M ls related s.cur s.selectedRelated
            (List.range n) ⟨0, 0, s.blocked⟩).id
          selectedRelated := s.selectedRelated ||| related (passBScan M ls related s.cur
            s.selectedRelated (List.range n) ⟨0, 0, s.blocked⟩).id }
        h1
        (by
          intro p hp
          simp only [Nat.testBit_or, Bool.or_eq_true] at hp
          rcases hp with hp | hp
          · exact h2 p hp
          · exact ⟨_, h1 _ p hp⟩)
      exact ih _ _ h h3 h4

theorem testBit_foldl_cond (P : Nat → Bool) (f : Nat → Nat) (qs : List Nat) :
    ∀ (m j : Nat), (qs.foldl (fun id i => if P i then id ||| 1 <<< f i else id) m).testBit j = true ↔
      m.testBit j = true ∨ ∃ i ∈ qs, P i = true ∧ f i = j := by
  induction qs with
  | nil => intro m j; simp
  | cons q rest ih =>
    intro m j
    rw [List.foldl_cons, ih]
    by_cases hP : P q = true
    · rw [if_pos hP, Nat.testBit_or, testBit_one_shiftLeft]
      simp only [Bool.or_eq_true, decide_eq_true_eq, List.mem_cons, exists_eq_or_imp, hP,
        true_and]
      tauto
    · rw [if_neg hP]
      simp only [List.mem_cons, exists_eq_or_imp, hP, false_and, false_or]
      simp

theorem testBit_toPhysicalID (c : Circuit) (idx j : Nat) :
    (c.toPhysicalID idx).testBit j = true ↔
      ∃ i, i < c.numQubits ∧ idx.testBit i = true ∧ c.finalState.pos.getD i 0 = j := by
  unfold Circuit.toPhysicalID
  rw [testBit_foldl_cond (fun i => idx.testBit i) (fun i => c.finalState.pos.getD i 0)]
  simp

theorem testBit_toLogicID (c : Circuit) (idx j : Nat) :
    (c.toLogicID idx).testBit j = true ↔
      j < c.numQubits ∧ idx.testBit (c.finalState.pos.getD j 0) = true := by
  unfold Circuit.toLogicID
  rw [testBit_foldl_cond (fun i => idx.testBit (c.finalState.pos.getD i 0)) (fun i => i)]
  simp

theorem perm_range_facts {pos : List Nat} {n : Nat} (h : pos.Perm (List.range n)) :
    (∀ i, i < n → pos.getD i 0 < n) ∧
    (∀ i i', i < n → i' < n → pos.getD i 0 = pos.getD i' 0 → i = i') ∧
    (∀ j, j < n → ∃ i, i < n ∧ pos.getD i 0 = j) := by
  have hlen : pos.length = n := by rw [h.length_eq, List.length_range]
  have hnd : pos.Nodup := h.nodup_iff.2 (List.nodup_range n)
  have hget : ∀ i (hi : i < pos.length), pos.getD i 0 = pos[i] := fun i hi =>
    List.getD_eq_getElem _ _ hi
  refine ⟨?_, ?_, ?_⟩
  · intro i hi
    rw [hget i (by omega)]
    exact List.mem_range.1 (h.mem_iff.1 (List.getElem_mem _))
  · intro i i' hi hi' heq
    rw [hget i (by omega), hget i' (by omega)] at heq
    exact hnd.getElem_inj_iff.1 heq
  · intro j hj
    have hmem : j ∈ pos := h.mem_iff.2 (List.mem_range.2 hj)
    obtain ⟨i, hi, hij⟩ := List.getElem_of_mem hmem
    exact ⟨i, by omega, by rw [hget i hi, hij]⟩

theorem toLogic_toPhysical (c : Circuit)
    (hperm : c.finalState.pos.Perm (List.range c.numQubits)) (idx : Nat)
    (hidx : idx < 2 ^ c.numQubits) : c.toLogicID (c.toPhysicalID idx) = idx := by
  obtain ⟨_, hinj, _⟩ := perm_range_facts hperm
  apply Nat.eq_of_testBit_eq
  intro j
  rw [Bool.eq_iff_iff, testBit_toLogicID, testBit_toPhysicalID]
  constructor
  · rintro ⟨hj, i, hi, hbit, heq⟩
    rw [← hinj i j hi hj heq]; exact hbit
  · intro hbit
    have hj : j < c.numQubits := by
      by_contra hge
      rw [Nat.testBit_lt_two_pow (lt_of_lt_of_le hidx
        (Nat.pow_le_pow_right (by decide) (by omega)))] at hbit
      exact Bool.false_ne_true hbit
    exact ⟨hj, j, hj, hbit, rfl⟩

theorem toPhysical_toLogic (c : Circuit)
    (hperm : c.finalState.pos.Perm (List.range c.numQubits)) (idx : Nat)
    (hidx : idx < 2 ^ c.numQubits) : c.toPhysicalID (c.toLogicID idx) = idx := by
  obtain ⟨_, _, hsurj⟩ := perm_range_facts hperm
  apply Nat.eq_of_testBit_eq
  intro j
  rw [Bool.eq_iff_iff, testBit_toPhysicalID]
  constructor
  · rintro ⟨i, _, hbit, heq⟩
    rw [testBit_toLogicID] at hbit
    rw [← heq]; exact hbit.2
  · intro hbit
    have hj : j < c.numQubits := by
      by_contra hge
      rw [Nat.testBit_lt_two_pow (lt_of_lt_of_le hidx
        (Nat.pow_le_pow_right (by decide) (by omega)))] at hbit
      exact Bool.false_ne_true hbit
    obtain ⟨i, hi, heq⟩ := hsurj j hj
    refine ⟨i, hi, ?_, heq⟩
    rw [testBit_toLogicID, heq]
    exact ⟨hi, hbit⟩

theorem toPhysicalID_lt (c : Circuit)
    (hperm : c.finalState.pos.Perm (List.range c.numQubits)) (idx : Nat) :
    c.toPhysicalID idx < 2 ^ c.numQubits := by
  obtain ⟨hlt, _, _⟩ := perm_range_facts hperm
  apply Nat.lt_pow_two_of_testBit
  intro j hj
  rw [Bool.eq_false_iff]
  intro hbit
  rw [testBit_toPhysicalID] at hbit
  obtain ⟨i, hi, _, heq⟩ := hbit
  have := hlt i hi
  omega

theorem toLogicID_lt (c : Circuit) (idx : Nat) : c.toLogicID idx < 2 ^ c.numQubits := by
  apply Nat.lt_pow_two_of_testBit
  intro j hj
  rw [Bool.eq_false_iff]
  intro hbit
  rw [testBit_toLogicID] at hbit
  omega

theorem bitCount_toPhysicalID (c : Circuit) (hN : c.numQubits ≤ 64)
    (hperm : c.finalState.pos.Perm (List.range c.numQubits)) (idx : Nat)
    (hidx : idx < 2 ^ c.numQubits) : bitCount (c.toPhysicalID idx) = bitCount idx := by
  obtain ⟨hlt, hinj, _⟩ := perm_range_facts hperm
  have h64 : (2 : Nat) ^ c.numQubits ≤ 2 ^ 64 := Nat.pow_le_pow_right (by decide) hN
  rw [bitCount_eq_card (lt_of_lt_of_le (toPhysicalID_lt c hperm idx) h64),
    bitCount_eq_card (lt_of_lt_of_le hidx h64)]
  have hlow : ∀ i, idx.testBit i = true → i < c.numQubits := by
    intro i hbit
    by_contra hge
    rw [Nat.testBit_lt_two_pow (lt_of_lt_of_le hidx
      (Nat.pow_le_pow_right (by decide) (by omega)))] at hbit
    exact Bool.false_ne_true hbit
  have himg : bitsOf (c.toPhysicalID idx) =
      (bitsOf idx).image (fun i => c.finalState.pos.getD i 0) := by
    ext j
    simp only [mem_bitsOf, Finset.mem_image]
    constructor
    · rintro ⟨_, hbit⟩
      obtain ⟨i, hi, hb, heq⟩ := (testBit_toPhysicalID c idx j).1 hbit
      exact ⟨i, ⟨by omega, hb⟩, heq⟩
    · rintro ⟨i, ⟨_, hb⟩, heq⟩
      have hi := hlow i hb
      have := hlt i hi
      exact ⟨by omega, (testBit_toPhysicalID c idx j).2 ⟨i, hi, hb, heq⟩⟩
  rw [himg]
  apply Finset.card_image_of_injOn
  intro a ha b hb hab
  simp only [Finset.mem_coe, mem_bitsOf] at ha hb
  exact hinj a b (hlow a ha.2) (hlow b hb.2) hab

/-- C28: when `schedule.finalState.pos` is a permutation of `[0, N)` (with
`N` at most 64, the width of `idx_t`), `toLogicID` and `toPhysicalID` are
inverse to each other on every `idx` below `2 ^ N`, and both results are below
`2 ^ N` with as many set bits as `idx`. -/
theorem index_round_trip (c : Circuit) (hN : c.numQubits ≤ 64)
    (hperm : c.finalState.pos.Perm (List.range c.numQubits)) (idx : Nat)
    (hidx : idx < 2 ^ c.numQubits) :
    c.toLogicID (c.toPhysicalID idx) = idx ∧ c.toPhysicalID (c.toLogicID idx) = idx ∧
    c.toPhysicalID idx < 2 ^ c.numQubits ∧ c.toLogicID idx < 2 ^ c.numQubits ∧
    bitCount (c.toPhysicalID idx) = bitCount idx ∧ bitCount (c.toLogicID idx) = bitCount idx := by
  refine ⟨toLogic_toPhysical c hperm idx hidx, toPhysical_toLogic c hperm idx hidx,
    toPhysicalID_lt c hperm idx, toLogicID_lt c idx, bitCount_toPhysicalID c hN hperm idx hidx, ?_⟩
  have h := bitCount_toPhysicalID c hN hperm (c.toLogicID idx) (toLogicID_lt c idx)
  rw [toPhysical_toLogic c hperm idx hidx] at h
  exact h.symm

theorem index_round_trip_witness :
    (⟨3, ⟨[2, 0, 1], [1, 2, 0]⟩⟩ : Circuit).toLogicID
        ((⟨3, ⟨[2, 0, 1], [1, 2, 0]⟩⟩ : Circuit).toPhysicalID 3) = 3 ∧
    (⟨3, ⟨[2, 0, 1], [1, 2, 0]⟩⟩ : Circuit).toPhysicalID 3 = 5 ∧
    bitCount ((⟨3, ⟨[2, 0, 1], [1, 2, 0]⟩⟩ : Circuit).toPhysicalID 3) = bitCount 3 :=
  have h := index_round_trip ⟨3, ⟨[2, 0, 1], [1, 2, 0]⟩⟩ (by decide) (by decide) 3 (by decide)
  ⟨h.1, by decide, h.2.2.2.2.1⟩

/-! ## Order of the gates and eviction in `ChunkCompiler::run` -/

/-- One step of the loop of `ChunkCompiler::run` appends its gate to the gates
placed so far. -/
theorem step_flat (cc : ChunkCompiler) (s s1 : ChunkState) (g : Gate) (later : Nat)
    (h : cc.step s g later = some s1) :
    s1.lg.fullGroups.flatMap (fun gg => gg.gates) ++ s1.cur.gates =
      (s.lg.fullGroups.flatMap (fun gg => gg.gates) ++ s.cur.gates) ++ [g] := by
  unfold ChunkCompiler.step at h
  by_cases hcase : (g.isDiagonal || decide (g.targetQubit ∈ s.locals)) = true
  · rw [if_pos hcase] at h
    rw [← Option.some.inj h]
    simp [GateGroup.addGate]
  · rw [if_neg hcase] at h
    simp only at h
    split at h
    · exact absurd h (by simp)
    · rw [← Option.some.inj h]
      simp [GateGroup.addGate, List.flatMap_append]

theorem loop_flat (cc : ChunkCompiler) : ∀ (gs : List Gate) (s s1 : ChunkState),
    cc.loop gs s = some s1 →
    s1.lg.fullGroups.flatMap (fun gg => gg.gates) ++ s1.cur.gates =
      (s.lg.fullGroups.flatMap (fun gg => gg.gates) ++ s.cur.gates) ++ gs := by
  intro gs
  induction gs with
  | nil =>
    intro s s1 h
    rw [ChunkCompiler.loop] at h
    rw [← Option.some.inj h]; simp
  | cons g rest ih =>
    intro s s1 h
    rw [ChunkCompiler.loop] at h
    cases hs : cc.step s g rest.length with
    | none => rw [hs] at h; exact absurd h (by simp)
    | some s2 =>
      rw [hs] at h
      rw [ih s2 s1 h, step_flat cc s s2 g rest.length hs]
      simp

/-- The loop of `ChunkCompiler::run` never takes `*cur_locals.begin()` on an
empty set: `locals` keeps `localSize` distinct qubits with the chunk among
them, and either all of them are below `numQubits` or every qubit below
`numQubits` is local. -/
theorem step_returns (cc : ChunkCompiler) (hc : 0 < cc.localSize)
    (h1 : cc.chunkSize + 2 ≤ cc.localSize) (s : ChunkState) (g : Gate)
    (later : Nat) (hg : g.valid cc.numQubits)
    (hnd : s.locals.Nodup) (hlen : (s.locals.length : Int) = cc.localSize)
    (hchunk : ∀ q : Nat, (q : Int) ≤ cc.chunkSize → q ∈ s.locals)
    (hbelow : (∀ x ∈ s.locals, x < cc.numQubits) ∨ (∀ q, q < cc.numQubits → q ∈ s.locals)) :
    ∃ s1, cc.step s g later = some s1 ∧ s1.locals.Nodup ∧
      (s1.locals.length : Int) = cc.localSize ∧
      (∀ q : Nat, (q : Int) ≤ cc.chunkSize → q ∈ s1.locals) ∧
      ((∀ x ∈ s1.locals, x < cc.numQubits) ∨ (∀ q, q < cc.numQubits → q ∈ s1.locals)) := by
  unfold ChunkCompiler.step
  by_cases hcase : (g.isDiagonal || decide (g.targetQubit ∈ s.locals)) = true
  · rw [if_pos hcase]
    exact ⟨_, rfl, hnd, hlen, hchunk, hbelow⟩
  · rw [if_neg hcase]
    simp only [Bool.or_eq_true, decide_eq_true_eq, not_or] at hcase
    have ht : g.targetQubit ∉ s.locals := hcase.2
    have htN : g.targetQubit < cc.numQubits := by
      apply hg
      cases g <;> simp [Gate.targetQubit, Gate.qubits]
    have hbelow1 : ∀ x ∈ s.locals, x < cc.numQubits := by
      rcases hbelow with hb | hb
      · exact hb
      · exact absurd (hb _ htN) ht
    obtain ⟨x0, hx0, hx0c⟩ : ∃ x0 ∈ s.locals, cc.chunkSize + 1 ≤ (x0 : Int) := by
      by_cases hneg : cc.chunkSize < 0
      · cases hl : s.locals with
        | nil =>
          rw [hl] at hlen
          simp only [List.length_nil] at hlen
          omega
        | cons a l => exact ⟨a, List.mem_cons_self _ _, by omega⟩
      · obtain ⟨c, hceq⟩ : ∃ c : Nat, cc.chunkSize = (c : Int) :=
          ⟨cc.chunkSize.toNat, by omega⟩
        obtain ⟨x0, hx0, hx0c⟩ := @exists_above s.locals c hnd (by omega)
        exact ⟨x0, hx0, by omega⟩
    have hne : (List.range cc.numQubits).filter
        (fun (j : Nat) => decide (cc.chunkSize + 1 ≤ (j : Int)) && decide (j ∈ s.locals)) ≠ [] := by
      intro he
      have : x0 ∈ (List.range cc.numQubits).filter
          (fun (j : Nat) => decide (cc.chunkSize + 1 ≤ (j : Int)) && decide (j ∈ s.locals)) := by
        rw [List.mem_filter]
        refine ⟨List.mem_range.2 (hbelow1 x0 hx0), ?_⟩
        simp only [Bool.and_eq_true, decide_eq_true_eq]
        exact ⟨hx0c, hx0⟩
      rw [he] at this
      exact absurd this (List.not_mem_nil _)
    obtain ⟨hf1, hf2⟩ := curLocals_fold g later _ hne
    simp only
    generalize (List.range later).foldl
      (fun cl _ =>
        if cl.length > 1 then (if !g.isDiagonal then cl.erase g.targetQubit else cl) else cl)
      ((List.range cc.numQubits).filter
        (fun (j : Nat) => decide (cc.chunkSize + 1 ≤ (j : Int)) && decide (j ∈ s.locals))) = cl
      at hf1 hf2
    cases cl with
    | nil => exact absurd rfl hf1
    | cons v rest =>
      have hv := hf2 v (List.mem_cons_self _ _)
      rw [List.mem_filter] at hv
      simp only [Bool.and_eq_true, decide_eq_true_eq] at hv
      obtain ⟨_, hvc, hvl⟩ := hv
      have hmem : ∀ j, j ∈ setInsert g.targetQubit (s.locals.erase v) ↔
          (j = g.targetQubit ∨ (j ∈ s.locals ∧ j ≠ v)) := by
        intro j
        rw [mem_setInsert, hnd.mem_erase_iff]
        tauto
      refine ⟨_, rfl, ?_, ?_, ?_, ?_⟩
      · exact setInsert_nodup _ (hnd.erase _)
      · have hnot : g.targetQubit ∉ s.locals.erase v := fun hm => ht (List.mem_of_mem_erase hm)
        simp only
        rw [setInsert_length hnot, List.length_erase_of_mem hvl]
        have hpos : 0 < s.locals.length := List.length_pos_of_mem hvl
        omega
      · intro q hq
        apply (hmem q).2
        right
        exact ⟨hchunk q hq, by omega⟩
      · left
        intro x hx
        rcases (hmem x).1 hx with rfl | ⟨hx, _⟩
        · exact htN
        · exact hbelow1 x hx

theorem loop_returns (cc : ChunkCompiler) (hc : 0 < cc.localSize)
    (h1 : cc.chunkSize + 2 ≤ cc.localSize) :
    ∀ (gs : List Gate) (s : ChunkState), (∀ g ∈ gs, g.valid cc.numQubits) →
      s.locals.Nodup → (s.locals.length : Int) = cc.localSize →
      (∀ q : Nat, (q : Int) ≤ cc.chunkSize → q ∈ s.locals) →
      ((∀ x ∈ s.locals, x < cc.numQubits) ∨ (∀ q, q < cc.numQubits → q ∈ s.locals)) →
      ∃ s1, cc.loop gs s = some s1 := by
  intro gs
  induction gs with
  | nil => intro s _ _ _ _ _; exact ⟨s, rfl⟩
  | cons g rest ih =>
    intro s hval hnd hlen hchunk hbelow
    obtain ⟨s1, hs1, hnd1, hlen1, hchunk1, hbelow1⟩ := step_returns cc hc h1 s g rest.length
      (hval g (List.mem_cons_self _ _)) hnd hlen hchunk hbelow
    obtain ⟨s2, hs2⟩ := ih s1 (fun g' hg' => hval g' (List.mem_cons_of_mem _ hg'))
      hnd1 hlen1 hchunk1 hbelow1
    refine ⟨s2, ?_⟩
    rw [ChunkCompiler.loop, hs1]
    exact hs2

/-- C29: the gate lists of the groups that `ChunkCompiler::run` returns,
concatenated in group order, are the input gate list; and the function
returns for every input with `chunkSize + 2 <= localSize`, a positive
`localSize` and gate operands below `numQubits`. -/
theorem chunk_keeps_order (cc : ChunkCompiler) :
    (∀ lg, cc.run = some lg → lg.fullGroups.flatMap (fun gg => gg.gates) = cc.inputGates) ∧
    (0 < cc.localSize → cc.chunkSize + 2 ≤ cc.localSize →
      (∀ g ∈ cc.inputGates, g.valid cc.numQubits) → ∃ lg, cc.run = some lg) := by
  constructor
  · intro lg hlg
    unfold ChunkCompiler.run at hlg
    cases hs : cc.loop cc.inputGates ⟨List.range cc.localSize.toNat, ⟨[], 0⟩, ⟨[], 0⟩⟩ with
    | none => rw [hs] at hlg; exact absurd hlg (by simp)
    | some s1 =>
      rw [hs] at hlg
      simp only [Option.some.injEq] at hlg
      have hflat := loop_flat cc _ _ _ hs
      simp only [List.flatMap_nil, List.append_nil, List.nil_append] at hflat
      rw [← hlg, List.flatMap_append]
      simpa using hflat
  · intro hc h1 hval
    obtain ⟨s1, hs1⟩ := loop_returns cc hc h1 cc.inputGates
      ⟨List.range cc.localSize.toNat, ⟨[], 0⟩, ⟨[], 0⟩⟩ hval (List.nodup_range _)
      (by simp only [List.length_range]; omega)
      (by
        intro q hq
        apply List.mem_range.2
        omega)
      (by
        by_cases hle : cc.localSize ≤ (cc.numQubits : Int)
        · left
          intro x hx
          have := List.mem_range.1 hx
          omega
        · right
          intro q hq
          apply List.mem_range.2
          omega)
    exact ⟨_, by unfold ChunkCompiler.run; rw [hs1]⟩

theorem chunk_keeps_order_witness :
    ∃ lg, (⟨5, 3, 1, [Gate.single false 0, Gate.single false 4, Gate.single true 3,
        Gate.single false 3, Gate.control false 0 2]⟩ : ChunkCompiler).run = some lg ∧
      lg.fullGroups.flatMap (fun gg => gg.gates) =
        [Gate.single false 0, Gate.single false 4, Gate.single true 3,
          Gate.single false 3, Gate.control false 0 2] :=
  have h := chunk_keeps_order
    ⟨5, 3, 1, [Gate.single false 0, Gate.single false 4, Gate.single true 3,
      Gate.single false 3, Gate.control false 0 2]⟩
  (h.2 (by decide) (by decide) (by decide)).elim (fun lg hlg => ⟨lg, hlg, h.1 lg hlg⟩)

/-- C26: with 4 qubits, `localSize = 3`, `chunkSize = 0` and the gates
`H(3), H(1)`, the group is closed at `H(3)` with the locals `0, 1, 2`.  The
candidates above `chunkSize` are the qubits 1 and 2, and the pending gate
`H(1)` needs qubit 1, so the highest-numbered candidate that no pending gate
needs is qubit 2.  The code evicts qubit 1 (the locals become `0, 2, 3`),
closes one more group at `H(1)` and returns three groups with the masks
`0b0111, 0b1101, 0b1011`. -/
theorem chunk_evicts_lowest :
    ((⟨4, 3, 0, [Gate.single false 3, Gate.single false 1]⟩ : ChunkCompiler).step
        ⟨[0, 1, 2], ⟨[], 0⟩, ⟨[], 0⟩⟩ (Gate.single false 3) 1).map (fun s => s.locals) =
      some [0, 2, 3] ∧
    ((⟨4, 3, 0, [Gate.single false 3, Gate.single false 1]⟩ : ChunkCompiler).run).map
        (fun lg => lg.fullGroups.map (fun gg => gg.relatedQubits)) = some [7, 13, 11] ∧
    ((⟨4, 3, 0, [Gate.single false 3]⟩ : ChunkCompiler).run).map
        (fun lg => lg.fullGroups.map (fun gg => gg.relatedQubits)) = some [7, 13] := by
  decide

/-! ## The early exits of `getGroupOpt` -/

theorem anyLive_false {n : Nat} {f : Nat → Bool} (h : anyLive n f = false) :
    ∀ i, i < n → f i = true := by
  intro i hi
  unfold anyLive at h
  rw [List.any_eq_false] at h
  have := h i (List.mem_range.2 hi)
  simpa using this

theorem target_mem_qubits (g : Gate) : g.targetQubit ∈ g.qubits := by
  cases g <;> simp [Gate.targetQubit, Gate.qubits]

theorem foldl_or_saturated (full : Nat) : ∀ (cs : List Nat),
    (∀ q ∈ cs, full.testBit q = true) → cs.foldl (fun f q => f ||| 1 <<< q) full = full := by
  intro cs
  induction cs with
  | nil => intro _; rfl
  | cons a l ih =>
    intro h
    rw [List.foldl_cons, or_bit_of_testBit (h a (List.mem_cons_self _ _))]
    exact ih (fun q hq => h q (List.mem_cons_of_mem _ hq))

/-- Once `full` holds every qubit below `numQubits`, the body of Pass A leaves
the state as it is for a gate on those qubits. -/
theorem passAGate_saturated (n : Nat) (ls : Int) (lq : Nat) (eg : Bool) (s : PassA) (id : Nat)
    (g : Gate) (hg : g.valid n) (hs : ∀ i, i < n → s.full.testBit i = true) :
    passAGate ls lq eg s id g = s := by
  have hq : ∀ q ∈ g.qubits, s.full.testBit q = true := fun q hq => hs q (hg q hq)
  unfold passAGate
  cases g with
  | single d t =>
    have ht := hq t (by simp [Gate.qubits])
    simp [acceptGate, rejectGate, ht]
  | control d c t =>
    have ht := hq t (by simp [Gate.qubits])
    have hc := hq c (by simp [Gate.qubits])
    simp only [acceptGate, rejectGate, ht, hc, Bool.not_true, Bool.and_self, Bool.false_eq_true,
      if_false]
    rw [or_bit_of_testBit hc, or_bit_of_testBit ht]
  | twoQubit d e t =>
    have ht := hq t (by simp [Gate.qubits])
    have he := hq e (by simp [Gate.qubits])
    simp only [acceptGate, rejectGate, ht, he, Bool.not_true, Bool.and_self, Bool.false_eq_true,
      if_false]
    rw [or_bit_of_testBit he, or_bit_of_testBit ht]
  | mc d cs t =>
    have ht := hq t (by simp [Gate.qubits])
    have hcs : ∀ q ∈ cs, s.full.testBit q = true := fun q hq' => hq q (by simp [Gate.qubits, hq'])
    simp only [acceptGate, rejectGate, ht, Bool.not_true, Bool.and_false, Bool.false_eq_true,
      if_false]
    rw [or_bit_of_testBit ht, foldl_or_saturated s.full cs hcs]

theorem passANoExit_saturated (n : Nat) (rg : List Gate) (ls : Int) (lq : Nat) (eg : Bool) :
    ∀ (xs : List Nat) (id : Nat) (s : PassA), (∀ x ∈ xs, (rg.getD x default).valid n) →
      (∀ i, i < n → s.full.testBit i = true) → passANoExit rg ls lq eg id xs s = s := by
  intro xs
  induction xs with
  | nil => intro id s _ _; rfl
  | cons x rest ih =>
    intro id s hval hs
    rw [passANoExit, passAGate_saturated n ls lq eg s id _ (hval x (List.mem_cons_self _ _)) hs]
    exact ih (id + 1) s (fun y hy => hval y (List.mem_cons_of_mem _ hy)) hs

theorem passA_eq_noExit (n : Nat) (rg : List Gate) (ls : Int) (lq : Nat) (eg : Bool) :
    ∀ (xs : List Nat) (id : Nat) (s : PassA), (∀ x ∈ xs, (rg.getD x default).valid n) →
      passA n rg ls lq eg id xs s = passANoExit rg ls lq eg id xs s := by
  intro xs
  induction xs with
  | nil => intro id s _; rfl
  | cons x rest ih =>
    intro id s hval
    rw [passA]
    split
    · rename_i hexit
      simp only [Bool.and_eq_true, Bool.not_eq_true'] at hexit
      exact (passANoExit_saturated n rg ls lq eg (x :: rest) id s hval
        (anyLive_false hexit.2)).symm
    · rw [passANoExit]
      exact ih (id + 1) _ (fun y hy => hval y (List.mem_cons_of_mem _ hy))

/-- Once every qubit below `numQubits` is blocked, the body of Pass C selects
no gate on those qubits and keeps them blocked. -/
theorem passCGate_saturated (n : Nat) (eg : Bool) (s : PassC) (id : Nat) (g : Gate)
    (hg : g.valid n) (hs : ∀ i, i < n → s.blocked i = true) :
    (passCGate eg s id g).selected = s.selected ∧
      ∀ i, i < n → (passCGate eg s id g).blocked i = true := by
  rcases passCGate_spec eg s id g with ⟨_, _, _, hfree⟩ | ⟨hsel, hmono, _⟩
  · have h1 := hfree _ (target_mem_qubits g)
    have h2 := hs _ (hg _ (target_mem_qubits g))
    rw [h1] at h2
    exact absurd h2 (by decide)
  · exact ⟨hsel, fun i hi => hmono i (hs i hi)⟩

theorem passCNoExit_saturated (n : Nat) (rg : List Gate) (eg : Bool) :
    ∀ (xs : List Nat) (id : Nat) (s : PassC), (∀ x ∈ xs, (rg.getD x default).valid n) →
      (∀ i, i < n → s.blocked i = true) →
      (passCNoExit rg eg id xs s).selected = s.selected := by
  intro xs
  induction xs with
  | nil => intro id s _ _; rfl
  | cons x rest ih =>
    intro id s hval hs
    rw [passCNoExit]
    simp only
    split
    · exact ih (id + 1) ⟨s.blocked, s.selected, s.cnt + 1⟩
        (fun y hy => hval y (List.mem_cons_of_mem _ hy)) hs
    · obtain ⟨h1, h2⟩ := passCGate_saturated n eg ⟨s.blocked, s.selected, s.cnt + 1⟩ id
        (rg.getD x default) (hval x (List.mem_cons_self _ _)) hs
      exact (ih (id + 1) _ (fun y hy => hval y (List.mem_cons_of_mem _ hy)) h2).trans h1

theorem passC_eq_noExit (n : Nat) (rg : List Gate) (eg : Bool) :
    ∀ (xs : List Nat) (id : Nat) (s : PassC), (∀ x ∈ xs, (rg.getD x default).valid n) →
      (passC n rg eg id xs s).selected = (passCNoExit rg eg id xs s).selected := by
  intro xs
  induction xs with
  | nil => intro id s _; rfl
  | cons x rest ih =>
    intro id s hval
    rw [passC]
    simp only
    split
    · rename_i hexit
      simp only [Bool.and_eq_true, Bool.not_eq_true'] at hexit
      have hs := anyLive_false hexit.2
      exact (passCNoExit_saturated n rg eg (x :: rest) id s hval hs).symm
    · rw [passCNoExit]
      simp only
      split
      · exact ih (id + 1) _ (fun y hy => hval y (List.mem_cons_of_mem _ hy))
      · exact ih (id + 1) _ (fun y hy => hval y (List.mem_cons_of_mem _ hy))

/-- C27: when every gate of the batch has its operands below `numQubits`,
`getGroupOpt` returns the same list as the algorithm with both periodic
early-exit checks removed. -/
theorem early_exit_transparent (c : OneLayerCompiler) (full : Nat) (related : Nat → Nat)
    (eg : Bool) (ls : Int) (lq : Nat)
    (hval : ∀ x ∈ c.gateIDs, (c.remainGates.getD x default).valid c.numQubits) :
    c.getGroupOpt full related eg ls lq = c.getGroupOptNoExit full related eg ls lq := by
  unfold OneLayerCompiler.getGroupOpt OneLayerCompiler.getGroupOptNoExit
    OneLayerCompiler.selectedB
  simp only
  rw [passA_eq_noExit c.numQubits c.remainGates ls lq eg c.gateIDs 0 _ hval]
  cases passB c.numQubits c.MAX_GATES ls
      (passANoExit c.remainGates ls lq eg 0 c.gateIDs ⟨full, related, fun _ => 0⟩).related
      (c.numQubits + 1)
      ⟨(passANoExit c.remainGates ls lq eg 0 c.gateIDs ⟨full, related, fun _ => 0⟩).cur,
        fun _ => false, 0, 0⟩ with
  | none => rfl
  | some b =>
    simp only
    split
    · rfl
    · rw [passC_eq_noExit c.numQubits c.remainGates eg c.gateIDs 0 _ hval]

theorem early_exit_transparent_witness :
    (⟨2048, 2, [Gate.control false 0 1, Gate.single true 0, Gate.single false 1], [0, 1, 2]⟩ :
        OneLayerCompiler).getGroupOpt 3 (fun _ => 0) true 2 minusOne =
      (⟨2048, 2, [Gate.control false 0 1, Gate.single true 0, Gate.single false 1], [0, 1, 2]⟩ :
        OneLayerCompiler).getGroupOptNoExit 3 (fun _ => 0) true 2 minusOne ∧
    (⟨2048, 2, [Gate.control false 0 1, Gate.single true 0, Gate.single false 1], [0, 1, 2]⟩ :
        OneLayerCompiler).getGroupOpt 3 (fun _ => 0) true 2 minusOne = some [] :=
  ⟨early_exit_transparent
    ⟨2048, 2, [Gate.control false 0 1, Gate.single true 0, Gate.single false 1], [0, 1, 2]⟩
    3 (fun _ => 0) true 2 minusOne (by decide), by decide⟩

/-! ## The choice of a round of Pass B -/

theorem bitsetCount_eq_zero : ∀ (M b : Nat), b < 2 ^ M → bitsetCount M b = 0 → b = 0 := by
  intro M
  induction M with
  | zero => intro b hb _; simpa using hb
  | succ M ih =>
    intro b hb h
    by_contra hne
    rw [bitsetCount, if_neg hne] at h
    have h2 : b / 2 = 0 := ih (b / 2) (by rw [Nat.pow_succ] at hb; omega) (by omega)
    omega

/-- What the scan of a round of Pass B has found after the qubits below `n`,
started with `mx = 0` from the array `b0`. -/
theorem passBScan_choice (M : Nat) (ls : Int) (related cur : Nat → Nat) (sr : Nat)
    (b0 : Nat → Bool) : ∀ (n : Nat),
    (∀ j, j < n → b0 j = false → (bitCount (sr ||| related j) : Int) ≤ ls →
      bitsetCount M (cur j) ≤ (passBScan M ls related cur sr (List.range n) ⟨0, 0, b0⟩).mx) ∧
    ((passBScan M ls related cur sr (List.range n) ⟨0, 0, b0⟩).mx ≠ 0 →
      (passBScan M ls related cur sr (List.range n) ⟨0, 0, b0⟩).id < n ∧
      b0 (passBScan M ls related cur sr (List.range n) ⟨0, 0, b0⟩).id = false ∧
      (bitCount (sr ||| related (passBScan M ls related cur sr (List.range n) ⟨0, 0, b0⟩).id) :
        Int) ≤ ls ∧
      (passBScan M ls related cur sr (List.range n) ⟨0, 0, b0⟩).mx =
        bitsetCount M (cur (passBScan M ls related cur sr (List.range n) ⟨0, 0, b0⟩).id) ∧
      ∀ j, j < (passBScan M ls related cur sr (List.range n) ⟨0, 0, b0⟩).id → b0 j = false →
        (bitCount (sr ||| related j) : Int) ≤ ls →
        bitsetCount M (cur j) < (passBScan M ls related cur sr (List.range n) ⟨0, 0, b0⟩).mx) ∧
    (∀ j, n ≤ j → (passBScan M ls related cur sr (List.range n) ⟨0, 0, b0⟩).blocked j = b0 j) := by
  intro n
  induction n with
  | zero =>
    refine ⟨fun j hj => absurd hj (Nat.not_lt_zero _), fun h => absurd rfl h, fun j _ => rfl⟩
  | succ n ih =>
    have hstep : passBScan M ls related cur sr (List.range (n + 1)) ⟨0, 0, b0⟩ =
        scanStep M ls related cur sr
          (passBScan M ls related cur sr (List.range n) ⟨0, 0, b0⟩) n := by
      unfold passBScan
      rw [List.range_succ, List.foldl_append]
      rfl
    rw [hstep]
    generalize passBScan M ls related cur sr (List.range n) ⟨0, 0, b0⟩ = sc at ih
    obtain ⟨ha, hb, hc⟩ := ih
    have hbn : sc.blocked n = b0 n := hc n (le_refl _)
    unfold scanStep
    simp only
    by_cases hcond : (!(sc.blocked n) && decide (bitsetCount M (cur n) > sc.mx)) = true
    · rw [if_pos hcond]
      simp only [Bool.and_eq_true, Bool.not_eq_true', decide_eq_true_eq] at hcond
      obtain ⟨hfree, hgt⟩ := hcond
      rw [hbn] at hfree
      by_cases hfit : (bitCount (sr ||| related n) : Int) ≤ ls
      · rw [if_pos hfit]
        refine ⟨?_, ?_, ?_⟩
        · intro j hj hj0 hjfit
          show bitsetCount M (cur j) ≤ bitsetCount M (cur n)
          rcases Nat.lt_succ_iff_lt_or_eq.1 hj with hlt | rfl
          · have := ha j hlt hj0 hjfit
            omega
          · exact le_refl _
        · intro _
          refine ⟨Nat.lt_succ_self n, hfree, hfit, rfl, ?_⟩
          intro j hj hj0 hjfit
          show bitsetCount M (cur j) < bitsetCount M (cur n)
          have := ha j hj hj0 hjfit
          omega
        · intro j hj
          exact hc j (by omega)
      · rw [if_neg hfit]
        refine ⟨?_, ?_, ?_⟩
        · intro j hj hj0 hjfit
          show bitsetCount M (cur j) ≤ sc.mx
          rcases Nat.lt_succ_iff_lt_or_eq.1 hj with hlt | rfl
          · exact ha j hlt hj0 hjfit
          · exact absurd hjfit hfit
        · intro hmx
          obtain ⟨h1, h2, h3, h4, h5⟩ := hb hmx
          exact ⟨by show sc.id < n + 1; omega, h2, h3, h4, h5⟩
        · intro j hj
          show upd sc.blocked n true j = b0 j
          unfold upd
          rw [if_neg (by omega)]
          exact hc j (by omega)
    · rw [if_neg hcond]
      simp only [Bool.and_eq_true, Bool.not_eq_true', decide_eq_true_eq, not_and] at hcond
      refine ⟨?_, ?_, ?_⟩
      · intro j hj hj0 hjfit
        rcases Nat.lt_succ_iff_lt_or_eq.1 hj with hlt | rfl
        · exact ha j hlt hj0 hjfit
        · have := hcond (by rw [hbn]; exact hj0)
          omega
      · intro hmx
        obtain ⟨h1, h2, h3, h4, h5⟩ := hb hmx
        exact ⟨by omega, h2, h3, h4, h5⟩
      · intro j hj
        exact hc j (by omega)

/-- C25: in a round of Pass B, started in any state `s` whose bitsets are
`MAX_GATES` bits wide, either no candidate (a qubit that is not yet blocked
and for which `selectedRelated | related[q]` has at most `localSize` bits) has
a non-empty `cur`, and the pass stops there, or the round chooses a candidate
`id` whose `cur[id].count()` is the largest among the candidates and which has
the lowest index among the candidates with that count, and the pass goes on
with the state that the round builds for `id`. -/
theorem passB_round_choice (n M : Nat) (ls : Int) (related : Nat → Nat) (s : PassB) (fuel : Nat)
    (hcur : ∀ q, s.cur q < 2 ^ M) :
    ((∀ q, Candidate n ls related s q → s.cur q = 0) →
      ∃ b, passB n M ls related (fuel + 1) s = some { s with blocked := b }) ∧
    ((∃ q, Candidate n ls related s q ∧ s.cur q ≠ 0) →
      ∃ id, Candidate n ls related s id ∧ s.cur id ≠ 0 ∧
        (∀ q, Candidate n ls related s q →
          bitsetCount M (s.cur q) ≤ bitsetCount M (s.cur id)) ∧
        (∀ q, Candidate n ls related s q →
          bitsetCount M (s.cur q) = bitsetCount M (s.cur id) → id ≤ q) ∧
        ∃ b, passB n M ls related (fuel + 1) s =
          passB n M ls related fuel (passBAbsorb related id (List.range n)
            ⟨s.cur, upd b id true, s.selected ||| s.cur id,
              s.selectedRelated ||| related id⟩)) := by
  obtain ⟨ha, hb, _⟩ := passBScan_choice M ls related s.cur s.selectedRelated s.blocked n
  constructor
  · intro hnone
    refine ⟨(passBScan M ls related s.cur s.selectedRelated (List.range n)
      ⟨0, 0, s.blocked⟩).blocked, ?_⟩
    rw [passB]
    simp only
    rw [if_pos]
    rw [beq_iff_eq]
    by_contra hmx
    obtain ⟨h1, h2, h3, h4, _⟩ := hb hmx
    have := hnone _ ⟨h1, h2, h3⟩
    rw [this, bitsetCount_zero] at h4
    exact hmx h4
  · rintro ⟨q, ⟨hq1, hq2, hq3⟩, hq4⟩
    have hpos : bitsetCount M (s.cur q) ≠ 0 := fun h0 =>
      hq4 (bitsetCount_eq_zero M _ (hcur q) h0)
    have hle := ha q hq1 hq2 hq3
    have hmx : (passBScan M ls related s.cur s.selectedRelated (List.range n)
        ⟨0, 0, s.blocked⟩).mx ≠ 0 := by omega
    obtain ⟨h1, h2, h3, h4, h5⟩ := hb hmx
    refine ⟨_, ⟨h1, h2, h3⟩, ?_, ?_, ?_, (passBScan M ls related s.cur s.selectedRelated
      (List.range n) ⟨0, 0, s.blocked⟩).blocked, ?_⟩
    · intro h0
      rw [h0, bitsetCount_zero] at h4
      exact hmx h4
    · intro q' ⟨hq1', hq2', hq3'⟩
      rw [← h4]
      exact ha q' hq1' hq2' hq3'
    · intro q' ⟨hq1', hq2', hq3'⟩ heq
      by_contra hlt
      have := h5 q' (by omega) hq2' hq3'
      omega
    · rw [passB]
      simp only
      rw [if_neg]
      rw [beq_iff_eq]
      exact hmx

theorem passB_round_choice_witness :
    ∃ id, Candidate 3 2 (fun q => [3, 3, 4].getD q 0) ⟨fun q => [1, 3, 6].getD q 0,
        fun _ => false, 0, 0⟩ id ∧ id = 1 ∧
      ∃ b, passB 3 8 2 (fun q => [3, 3, 4].getD q 0) 4 ⟨fun q => [1, 3, 6].getD q 0,
          fun _ => false, 0, 0⟩ =
        passB 3 8 2 (fun q => [3, 3, 4].getD q 0) 3
          (passBAbsorb (fun q => [3, 3, 4].getD q 0) id (List.range 3)
            ⟨fun q => [1, 3, 6].getD q 0, upd b id true,
              0 ||| (fun q => [1, 3, 6].getD q 0) id,
              0 ||| (fun q => [3, 3, 4].getD q 0) id⟩) := by
  have hcand0 : Candidate 3 2 (fun q => [3, 3, 4].getD q 0)
      ⟨fun q => [1, 3, 6].getD q 0, fun _ => false, 0, 0⟩ 0 :=
    ⟨by decide, rfl, by decide⟩
  have hcand2 : Candidate 3 2 (fun q => [3, 3, 4].getD q 0)
      ⟨fun q => [1, 3, 6].getD q 0, fun _ => false, 0, 0⟩ 2 :=
    ⟨by decide, rfl, by decide⟩
  obtain ⟨id, hc, hne, hmax, hlow, b, hb⟩ :=
    (passB_round_choice 3 8 2 (fun q => [3, 3, 4].getD q 0)
      ⟨fun q => [1, 3, 6].getD q 0, fun _ => false, 0, 0⟩ 3
      (by
        intro q
        show [1, 3, 6].getD q 0 < 2 ^ 8
        rcases q with _ | _ | _ | q <;> simp)).2
      ⟨0, hcand0, by decide⟩
  refine ⟨id, hc, ?_, b, hb⟩
  have h0 := hmax 0 hcand0
  have h2 := hmax 2 hcand2
  have hid : id < 3 := hc.1
  rcases id with _ | _ | _ | id
  · exact absurd h2 (by decide)
  · rfl
  · have := hlow 1 ⟨by decide, rfl, by decide⟩ (by decide)
    omega
  · omega

/-! ## The white list of `SimpleCompiler::run` -/

theorem testBit_initFull (n w q : Nat) :
    (SimpleCompiler.initFull n w).testBit q = true ↔ w ≠ 0 ∧ q < n ∧ w.testBit q = false := by
  unfold SimpleCompiler.initFull
  by_cases hw : w = 0
  · subst hw; simp
  · have hw' : (w != 0) = true := by simpa using hw
    rw [if_pos hw', testBit_foldl_cond (fun i => !(w.testBit i)) (fun i => i)]
    simp [hw]

/-- Pass A puts a gate into `cur` only if none of its operands is in the
initial `full`. -/
theorem passA_free (G : Nat → Gate) (full0 : Nat) (n : Nat) (rg : List Gate) (ls : Int)
    (lq : Nat) (eg : Bool) :
    ∀ (xs : List Nat) (id : Nat) (s : PassA), Agree G rg id xs →
      (∀ r, full0.testBit r = true → s.full.testBit r = true) →
      (∀ q p, (s.cur q).testBit p = true → ∀ r ∈ (G p).qubits, full0.testBit r = false) →
      ∀ q p, ((passA n rg ls lq eg id xs s).cur q).testBit p = true →
        ∀ r ∈ (G p).qubits, full0.testBit r = false := by
  intro xs
  induction xs with
  | nil => intro id s _ _ h q p hp; exact h q p (by simpa [passA] using hp)
  | cons x rest ih =>
    intro id s hag hfull h q p hp
    unfold passA at hp
    split at hp
    · exact h q p hp
    · have hx : G id = rg.getD x default := by
        have := hag 0 x (by simp)
        simpa using this
      rw [← hx] at hp
      have hag' : Agree G rg (id + 1) rest := by
        intro k y hy
        have := hag (k + 1) y (by simpa using hy)
        rw [← this]; congr 1; omega
      refine ih (id + 1) _ hag' ?_ ?_ q p hp
      · intro r hr
        unfold passAGate
        cases hacc : acceptGate ls lq eg s id (G id) with
        | none => exact rejectGate_full_mono s _ r (hfull r hr)
        | some s' =>
          obtain ⟨hf, _, _⟩ := acceptGate_cur hacc
          simp only
          rw [hf]; exact hfull r hr
      · intro q' p' hp' r hr
        unfold passAGate at hp'
        cases hacc : acceptGate ls lq eg s id (G id) with
        | none =>
          rw [hacc] at hp'
          simp only at hp'
          rw [rejectGate_cur] at hp'
          exact h q' p' hp' r hr
        | some s' =>
          rw [hacc] at hp'
          simp only at hp'
          obtain ⟨_, hfree, NC, hNC, hcur⟩ := acceptGate_cur hacc
          rw [hcur] at hp'
          split at hp'
          · rcases (hNC p').1 hp' with rfl | ⟨q2, _, hq2⟩
            · cases hf : full0.testBit r with
              | false => rfl
              | true =>
                have := hfull r hf
                rw [hfree r hr] at this
                exact absurd this (by decide)
            · exact h q2 p' hq2 r hr
          · exact h q' p' hp' r hr

/-- A batch position that Pass C adds to `selected` holds a diagonal gate
while `enableGlobal` is set. -/
theorem passC_selected_origin (G : Nat → Gate) (n : Nat) (rg : List Gate) (eg : Bool) :
    ∀ (xs : List Nat) (id : Nat) (s : PassC), Agree G rg id xs →
      ∀ p, (passC n rg eg id xs s).selected.testBit p = true →
        s.selected.testBit p = true ∨ ((G p).isDiagonal && eg) = true := by
  intro xs
  induction xs with
  | nil => intro id s _ p hp; exact Or.inl (by simpa [passC] using hp)
  | cons x rest ih =>
    intro id s hag p hp
    have hx : G id = rg.getD x default := by
      have := hag 0 x (by simp)
      simpa using this
    have hag' : Agree G rg (id + 1) rest := by
      intro k y hy
      have := hag (k + 1) y (by simpa using hy)
      rw [← this]; congr 1; omega
    unfold passC at hp
    simp only at hp
    split at hp
    · exact Or.inl hp
    · split at hp
      · exact ih (id + 1) ⟨s.blocked, s.selected, s.cnt + 1⟩ hag' p hp
      · rcases ih (id + 1) _ hag' p hp with h1 | h1
        · rw [← hx] at h1
          rcases passCGate_spec eg ⟨s.blocked, s.selected, s.cnt + 1⟩ id (G id) with
            ⟨hsel, _, hd, _⟩ | ⟨hsel, _, _⟩
          · rw [hsel, Nat.testBit_or, testBit_one_shiftLeft] at h1
            simp only [Bool.or_eq_true, decide_eq_true_eq] at h1
            rcases h1 with h1 | rfl
            · exact Or.inl h1
            · exact Or.inr hd
          · rw [hsel] at h1
            exact Or.inl h1
        · exact Or.inr h1

/-- At the level of batch positions: a gate in the result of `getGroupOpt`
that is not a diagonal gate under `enableGlobal` has no operand in `full`. -/
theorem getGroupOpt_free_pos (c : OneLayerCompiler) (full : Nat) (related : Nat → Nat)
    (eg : Bool) (ls : Int) (lq : Nat) :
    ∃ sel, c.getGroupOpt full related eg ls lq = some (collect sel 0 c.gateIDs) ∧
      ∀ p, sel.testBit p = true → ((c.gateAtPos p).isDiagonal && eg) = false →
        ∀ r ∈ (c.gateAtPos p).qubits, full.testBit r = false := by
  obtain ⟨b, hb⟩ := selectedB_isSome c full related eg ls lq
  have hb' := hb
  unfold OneLayerCompiler.selectedB at hb'
  simp only at hb'
  have hfree := passA_free c.gateAtPos full c.numQubits c.remainGates ls lq eg c.gateIDs 0
    ⟨full, related, fun _ => 0⟩ (agree_gateAtPos c) (fun r hr => hr)
    (fun q p hp => by simp at hp)
  have hsub := passB_selected_sub c.numQubits c.MAX_GATES ls _ _ _ _ b hb'
    (fun q p hp => hp) (fun p hp => by simp at hp)
  have hB : ∀ p, b.selected.testBit p = true →
      ∀ r ∈ (c.gateAtPos p).qubits, full.testBit r = false := by
    intro p hp r hr
    obtain ⟨q, hq⟩ := hsub p hp
    exact hfree q p hq r hr
  unfold OneLayerCompiler.getGroupOpt
  rw [hb]
  simp only
  split
  · exact ⟨_, rfl, fun p hp _ => hB p hp⟩
  · refine ⟨_, rfl, ?_⟩
    intro p hp hnd
    rcases passC_selected_origin c.gateAtPos c.numQubits c.remainGates eg c.gateIDs 0
      ⟨fun _ => false, b.selected, 0⟩ (agree_gateAtPos c) p hp with h1 | h1
    · exact hB p h1
    · rw [hnd] at h1
      exact absurd h1 (by decide)

/-- C22, amended: on the path through `getGroupOpt` (`localSize` differs from
`numQubits`), with a non-zero `whiteList` and gate operands below
`numQubits`, every gate of the returned group that Pass C cannot have added,
that is every gate that is not diagonal while `enableGlobal` is set, has all
its operand qubits inside `whiteList`. -/
theorem run_whiteList (sc : SimpleCompiler) (hw : sc.whiteList ≠ 0)
    (hls : sc.localSize ≠ (sc.numQubits : Int))
    (hval : ∀ g ∈ sc.inputGates, g.valid sc.numQubits) (fuel : Nat) (lg : LocalGroup)
    (h : sc.run fuel = some lg) :
    ∀ gg ∈ lg.fullGroups, ∀ g ∈ gg.gates, (g.isDiagonal && sc.enableGlobal) = false →
      ∀ q ∈ g.qubits, sc.whiteList.testBit q = true := by
  unfold SimpleCompiler.run SimpleCompiler.runIdx at h
  have hne : (sc.localSize == (sc.numQubits : Int)) = false := by simpa using hls
  rw [hne] at h
  simp only [Bool.false_eq_true, if_false, Option.map_eq_some', Prod.exists, exists_and_right,
    exists_eq_right] at h
  obtain ⟨idxs, h⟩ := h
  cases fuel with
  | zero => simp [SimpleCompiler.loop] at h
  | succ fuel =>
    rw [SimpleCompiler.loop] at h
    split at h
    · rename_i hlen
      simp only at hlen
      generalize hc : (⟨2048, sc.numQubits, sc.inputGates, List.range sc.inputGates.length⟩ :
        OneLayerCompiler) = c at h
      have hrg : c.remainGates = sc.inputGates := by rw [← hc]
      have hrem : c.remain = List.range sc.inputGates.length := by rw [← hc]
      cases hstep : sc.step c with
      | none => rw [hstep] at h; simp at h
      | some r =>
        obtain ⟨idx, gg, c1⟩ := r
        rw [hstep] at h
        simp only at h
        have hw' : (sc.whiteList != 0) = true := by simpa using hw
        rw [if_pos hw'] at h
        simp only [Option.some.injEq, Prod.mk.injEq] at h
        obtain ⟨hlg, _⟩ := h
        subst hlg
        intro gg' hgg' g hg hnd q hq
        simp only [List.nil_append, List.mem_singleton] at hgg'
        subst hgg'
        have hgg := step_group sc c idx gg' c1 hstep
        obtain ⟨sel, hsel, hfree⟩ := getGroupOpt_free_pos c
          (SimpleCompiler.initFull sc.numQubits sc.whiteList) (fun _ => sc.required)
          sc.enableGlobal sc.localSize sc.localQubits
        have hidx : idx = collect sel 0 c.gateIDs := by
          unfold SimpleCompiler.step at hstep
          rw [hsel] at hstep
          simp only [Option.some.injEq, Prod.mk.injEq] at hstep
          exact hstep.1.symm
        rw [hgg, addGates_gates] at hg
        simp only [GateGroup.empty, List.nil_append, List.mem_map] at hg
        obtain ⟨x, hx, rfl⟩ := hg
        rw [hidx, collect_mem] at hx
        obtain ⟨k, hk1, hk2⟩ := hx
        rw [Nat.zero_add] at hk2
        have hgk : c.gateAtPos k = c.remainGates.getD x default := by
          have := agree_gateAtPos c k x hk1
          simpa using this
        have hxmem : x ∈ c.remain := by
          have : x ∈ c.gateIDs := List.mem_iff_getElem?.2 ⟨k, hk1⟩
          exact List.mem_of_mem_take this
        have hxlt : x < sc.inputGates.length := by
          rw [hrem] at hxmem
          exact List.mem_range.1 hxmem
        have hvalid : (c.remainGates.getD x default).valid sc.numQubits := by
          rw [hrg, List.getD_eq_getElem _ _ hxlt]
          exact hval _ (List.getElem_mem hxlt)
        have hfr := hfree k hk2 (by rw [hgk]; exact hnd) q (by rw [hgk]; exact hq)
        have hqn := hvalid q hq
        cases hwq : sc.whiteList.testBit q with
        | true => rfl
        | false =>
          have := (testBit_initFull sc.numQubits sc.whiteList q).2 ⟨hw, hqn, hwq⟩
          rw [hfr] at this
          exact absurd this (by decide)
    · simp only [Option.some.injEq, Prod.mk.injEq] at h
      obtain ⟨hlg, _⟩ := h
      subst hlg
      intro gg hgg
      simp at hgg

theorem run_whiteList_witness :
    ((⟨3, 2, 3, [Gate.single false 0, Gate.control false 0 1, Gate.single true 2,
        Gate.single false 2], true, 3, 0⟩ : SimpleCompiler).run 1).map
        (fun lg => lg.fullGroups.map (fun gg => gg.gates)) =
      some [[Gate.single false 0, Gate.control false 0 1, Gate.single true 2]] ∧
    ∀ gg ∈ ([⟨[Gate.single false 0, Gate.control false 0 1, Gate.single true 2], 3⟩] :
        List GateGroup),
      ∀ g ∈ gg.gates, (g.isDiagonal && true) = false →
        ∀ q ∈ g.qubits, (3 : Nat).testBit q = true :=
  ⟨by decide, run_whiteList
    ⟨3, 2, 3, [Gate.single false 0, Gate.control false 0 1, Gate.single true 2,
      Gate.single false 2], true, 3, 0⟩ (by decide) (by decide) (by decide) 1
    ⟨[⟨[Gate.single false 0, Gate.control false 0 1, Gate.single true 2], 3⟩], 3⟩ (by decide)⟩

/-- C22 fails as stated.  With two qubits, `whiteList = 0b01`,
`localSize = 1`, `enableGlobal` set and the single diagonal gate `Rz(1)`,
Pass C adds the gate, so the returned group holds a gate on qubit 1, which is
outside `whiteList`.  With `localSize = numQubits = 2` the function takes its
first branch, which does not read `whiteList`, and the group holds `H(1)`. -/
theorem whiteList_counterexample :
    ((⟨2, 1, 1, [Gate.single true 1], true, 1, 0⟩ : SimpleCompiler).run 1).map
        (fun lg => lg.fullGroups.map (fun gg => gg.gates)) = some [[Gate.single true 1]] ∧
    ((⟨2, 2, 1, [Gate.single false 1], false, 1, 0⟩ : SimpleCompiler).run 1).map
        (fun lg => lg.fullGroups.map (fun gg => gg.gates)) = some [[Gate.single false 1]] ∧
    (1 : Nat).testBit 1 = false := by
  decide

/-! ## Maximality of the result of `getGroupOpt` -/

theorem bitsetCount_eq_zero_bits : ∀ (M b : Nat), bitsetCount M b = 0 →
    ∀ p, p < M → b.testBit p = false := by
  intro M
  induction M with
  | zero => intro b _ p hp; omega
  | succ M ih =>
    intro b h p hp
    by_cases hb : b = 0
    · subst hb; simp
    · rw [bitsetCount, if_neg hb] at h
      cases p with
      | zero =>
        rw [Nat.testBit_zero]
        simp only [decide_eq_false_iff_not]
        omega
      | succ p =>
        rw [Nat.testBit_succ]
        exact ih (b / 2) (by omega) p (by omega)

/-- The scan of a round of Pass B blocks only qubits that do not fit. -/
theorem passBScan_blocked (M : Nat) (ls : Int) (related cur : Nat → Nat) (sr : Nat) :
    ∀ (qs : List Nat) (init : Scan) (j : Nat),
      (passBScan M ls related cur sr qs init).blocked j = true →
      init.blocked j = true ∨ ¬ (bitCount (sr ||| related j) : Int) ≤ ls := by
  intro qs
  induction qs with
  | nil => intro init j h; exact Or.inl h
  | cons q rest ih =>
    intro init j h
    have hstep : passBScan M ls related cur sr (q :: rest) init =
        passBScan M ls related cur sr rest (scanStep M ls related cur sr init q) := rfl
    rw [hstep] at h
    rcases ih _ j h with h1 | h1
    · unfold scanStep at h1
      simp only at h1
      split at h1
      · split at h1
        · exact Or.inl h1
        · rename_i hfit
          simp only [upd] at h1
          split at h1
          · rename_i hj
            subst hj
            exact Or.inr hfit
          · exact Or.inl h1
      · exact Or.inl h1
    · exact Or.inr h1

/-- The second loop of a round of Pass B keeps what Pass B maintains about the
clusters: a gate of a cluster is still in `cur` or already selected, and a
blocked qubit has its whole cluster selected or does not fit. -/
theorem absorbStep_cluster (acur related : Nat → Nat) (ls : Int) (id : Nat) (s : PassB) (i : Nat)
    (h : ((∀ q p, (acur q).testBit p = true →
          (s.cur q).testBit p = true ∨ s.selected.testBit p = true) ∧
        (∀ q, s.blocked q = true → (∀ p, (acur q).testBit p = true → s.selected.testBit p = true) ∨
          ls < (bitCount (s.selectedRelated ||| related q) : Int)) ∧
        s.selectedRelated < 2 ^ 64) ∧
      s.blocked id = true ∧ ∀ p, (s.cur id).testBit p = true → s.selected.testBit p = true) :
    ((∀ q p, (acur q).testBit p = true →
          ((absorbStep related id s i).cur q).testBit p = true ∨
            (absorbStep related id s i).selected.testBit p = true) ∧
        (∀ q, (absorbStep related id s i).blocked q = true →
          (∀ p, (acur q).testBit p = true → (absorbStep related id s i).selected.testBit p = true) ∨
          ls < (bitCount ((absorbStep related id s i).selectedRelated ||| related q) : Int)) ∧
        (absorbStep related id s i).selectedRelated < 2 ^ 64) ∧
      (absorbStep related id s i).blocked id = true ∧
      ∀ p, ((absorbStep related id s i).cur id).testBit p = true →
        (absorbStep related id s i).selected.testBit p = true := by
  obtain ⟨⟨hcover, hblk, hword⟩, hbid, hown⟩ := h
  unfold absorbStep
  split
  · rename_i hc
    simp only [Bool.and_eq_true, Bool.not_eq_true'] at hc
    have hne : i ≠ id := by
      rintro rfl
      rw [hbid] at hc; exact absurd hc.1 (by simp)
    split
    · refine ⟨⟨?_, ?_, hword⟩, ?_, ?_⟩
      · intro q p hp
        rcases hcover q p hp with h1 | h1
        · exact Or.inl h1
        · right; simp [Nat.testBit_or, h1]
      · intro q hq
        simp only [upd] at hq
        split at hq
        · rename_i hqi
          subst hqi
          left
          intro p hp
          rcases hcover _ p hp with h1 | h1 <;> simp [Nat.testBit_or, h1]
        · rcases hblk q hq with h1 | h1
          · left; intro p hp; simp [Nat.testBit_or, h1 p hp]
          · exact Or.inr h1
      · simp only [upd]; split
        · rfl
        · exact hbid
      · intro p hp
        simp [Nat.testBit_or, hown p hp]
    · refine ⟨⟨?_, hblk, hword⟩, hbid, ?_⟩
      · intro q p hp
        simp only [upd]
        split
        · rename_i hq
          subst hq
          rcases hcover _ p hp with h1 | h1
          · rw [testBit_bitsetAndNot]
            cases hid : (s.cur id).testBit p
            · left; simp [h1]
            · right; exact hown p hid
          · exact Or.inr h1
        · exact hcover q p hp
      · intro p hp
        simp only [upd, if_neg (Ne.symm hne)] at hp
        exact hown p hp
  · exact ⟨⟨hcover, hblk, hword⟩, hbid, hown⟩

/-- When Pass B stops, every qubit below `numQubits` has its whole cluster
selected or does not fit beside what was selected. -/
theorem passB_cluster (acur related : Nat → Nat) (ls : Int) (n M : Nat)
    (hrel : ∀ q, related q < 2 ^ 64) (hbound : ∀ q p, (acur q).testBit p = true → p < M) :
    ∀ (fuel : Nat) (s r : PassB),
      (∀ q p, (acur q).testBit p = true →
        (s.cur q).testBit p = true ∨ s.selected.testBit p = true) →
      (∀ q, s.blocked q = true → (∀ p, (acur q).testBit p = true → s.selected.testBit p = true) ∨
        ls < (bitCount (s.selectedRelated ||| related q) : Int)) →
      s.selectedRelated < 2 ^ 64 →
      passB n M ls related fuel s = some r →
      ∀ q, q < n → (∀ p, (acur q).testBit p = true → r.selected.testBit p = true) ∨
        ls < (bitCount (r.selectedRelated ||| related q) : Int) := by
  intro fuel
  induction fuel with
  | zero => intro s r _ _ _ h; simp [passB] at h
  | succ fuel ih =>
    intro s r hcover hblk hword h
    unfold passB at h
    obtain ⟨ha, _, _⟩ := passBScan_choice M ls related s.cur s.selectedRelated s.blocked n
    have hscanb := passBScan_blocked M ls related s.cur s.selectedRelated (List.range n)
      ⟨0, 0, s.blocked⟩
    simp only at h
    generalize passBScan M ls related s.cur s.selectedRelated (List.range n)
      ⟨0, 0, s.blocked⟩ = sc at ha hscanb h
    by_cases hmx : (sc.mx == 0) = true
    · rw [if_pos hmx] at h
      simp only [Option.some.injEq] at h
      subst h
      have hmx0 : sc.mx = 0 := by simpa using hmx
      intro q hq
      show (∀ p, (acur q).testBit p = true → s.selected.testBit p = true) ∨
        ls < (bitCount (s.selectedRelated ||| related q) : Int)
      cases hb : s.blocked q with
      | true => exact hblk q hb
      | false =>
        by_cases hfit : (bitCount (s.selectedRelated ||| related q) : Int) ≤ ls
        · left
          intro p hp
          have hcnt := ha q hq hb hfit
          rw [hmx0] at hcnt
          have hno := bitsetCount_eq_zero_bits M (s.cur q) (by omega) p (hbound q p hp)
          rcases hcover q p hp with h1 | h1
          · rw [hno] at h1; exact absurd h1 (by decide)
          · exact h1
        · right; omega
    · rw [if_neg hmx] at h
      have hor : ∀ j, s.selectedRelated ||| related j < 2 ^ 64 := fun j =>
        Nat.or_lt_two_pow hword (hrel j)
      have hword1 : s.selectedRelated ||| related sc.id < 2 ^ 64 := hor sc.id
      have hgrow : ∀ q, ls < (bitCount (s.selectedRelated ||| related q) : Int) →
          ls < (bitCount ((s.selectedRelated ||| related sc.id) ||| related q) : Int) := by
        intro q hq
        have := @bitCount_mono (s.selectedRelated ||| related q)
          ((s.selectedRelated ||| related sc.id) ||| related q) (hor q)
          (Nat.or_lt_two_pow hword1 (hrel q))
          (fun i hi => by
            simp only [Nat.testBit_or, Bool.or_eq_true] at hi ⊢
            tauto)
        omega
      have hfold := foldl_preserves
        (fun s' : PassB => ((∀ q p, (acur q).testBit p = true →
              (s'.cur q).testBit p = true ∨ s'.selected.testBit p = true) ∧
            (∀ q, s'.blocked q = true →
              (∀ p, (acur q).testBit p = true → s'.selected.testBit p = true) ∨
              ls < (bitCount (s'.selectedRelated ||| related q) : Int)) ∧
            s'.selectedRelated < 2 ^ 64) ∧
          s'.blocked sc.id = true ∧
          ∀ p, (s'.cur sc.id).testBit p = true → s'.selected.testBit p = true)
        (absorbStep related sc.id) (absorbStep_cluster acur related ls sc.id) (List.range n)
        { cur := s.cur, blocked := upd sc.blocked sc.id true,
          selected := s.selected ||| s.cur sc.id,
          selectedRelated := s.selectedRelated ||| related sc.id }
        ⟨⟨?_, ?_, hword1⟩, by simp [upd], fun p hp => by simp [Nat.testBit_or, hp]⟩
      · obtain ⟨⟨h1, h2, h3⟩, _, _⟩ := hfold
        exact ih _ r h1 h2 h3 h
      · intro q p hp
        rcases hcover q p hp with h1 | h1
        · exact Or.inl h1
        · right; simp [Nat.testBit_or, h1]
      · intro q hq
        simp only [upd] at hq
        split at hq
        · rename_i hqi
          subst hqi
          left
          intro p hp
          rcases hcover _ p hp with h1 | h1 <;> simp [Nat.testBit_or, h1]
        · rcases hscanb q hq with h1 | h1
          · rcases hblk q h1 with h2 | h2
            · left; intro p hp; simp [Nat.testBit_or, h2 p hp]
            · exact Or.inr (hgrow q h2)
          · exact Or.inr (hgrow q (by omega))

/-- C21, amended: the result of `getGroupOpt` with `enableGlobal = false` is
maximal with respect to the clusters of Pass A.  For every qubit `q` below
`numQubits`, either every gate that Pass A collected in `cur[q]` is in the
returned list, or the mask `related[q]` of that cluster together with
`selectedRelated`, the mask of what Pass B selected, has more than
`localSize` bits. -/
theorem getGroupOpt_cluster_maximal (c : OneLayerCompiler) (full : Nat) (related : Nat → Nat)
    (ls : Int) (lq : Nat) (hval : ∀ g ∈ c.remainGates, g.valid 64)
    (hrel : ∀ q, related q < 2 ^ 64) :
    ∃ b, c.selectedB full related false ls lq = some b ∧
      c.getGroupOpt full related false ls lq = some (collect b.selected 0 c.gateIDs) ∧
      ∀ q, q < c.numQubits →
        (∀ p, ((passA c.numQubits c.remainGates ls lq false 0 c.gateIDs
            ⟨full, related, fun _ => 0⟩).cur q).testBit p = true →
          b.selected.testBit p = true) ∨
        ls < (bitCount (b.selectedRelated ||| (passA c.numQubits c.remainGates ls lq false 0
          c.gateIDs ⟨full, related, fun _ => 0⟩).related q) : Int) := by
  have hval64 : ∀ y, (c.remainGates.getD y default).valid 64 := by
    intro y
    by_cases hy : y < c.remainGates.length
    · rw [List.getD_eq_getElem _ _ hy]
      exact hval _ (List.getElem_mem hy)
    · rw [List.getD_eq_default _ _ (not_lt.1 hy)]
      exact default_valid_64
  obtain ⟨b, hb⟩ := selectedB_isSome c full related false ls lq
  have hb' := hb
  unfold OneLayerCompiler.selectedB at hb'
  simp only at hb'
  have hw := (passA_related_mono c.numQubits c.remainGates ls lq false hval64 c.gateIDs 0
    ⟨full, related, fun _ => 0⟩ hrel).1
  have hbound : ∀ q p, ((passA c.numQubits c.remainGates ls lq false 0 c.gateIDs
      ⟨full, related, fun _ => 0⟩).cur q).testBit p = true → p < c.MAX_GATES := by
    intro q p hp
    have := passA_bound c.numQubits c.remainGates ls lq false c.gateIDs 0
      ⟨full, related, fun _ => 0⟩ (fun q p hp => by simp at hp) q p hp
    have hlen : c.gateIDs.length ≤ c.MAX_GATES := by
      unfold OneLayerCompiler.gateIDs
      rw [List.length_take]
      exact Nat.min_le_left _ _
    omega
  refine ⟨b, hb, ?_, ?_⟩
  · unfold OneLayerCompiler.getGroupOpt
    rw [hb]
    rfl
  · exact passB_cluster _ _ ls c.numQubits c.MAX_GATES hw hbound (c.numQubits + 1) _ b
      (fun q p hp => Or.inl hp) (fun q hq => by simp at hq) (Nat.two_pow_pos 64) hb'

theorem getGroupOpt_cluster_maximal_witness :
    ∃ b, (⟨2048, 4, [Gate.control false 0 1, Gate.single false 0, Gate.single false 2,
        Gate.control false 2 3], [0, 1, 2, 3]⟩ : OneLayerCompiler).selectedB 0 (fun _ => 0)
        false 3 minusOne = some b ∧
      (⟨2048, 4, [Gate.control false 0 1, Gate.single false 0, Gate.single false 2,
        Gate.control false 2 3], [0, 1, 2, 3]⟩ : OneLayerCompiler).getGroupOpt 0 (fun _ => 0)
        false 3 minusOne = some (collect b.selected 0 [0, 1, 2, 3]) ∧
      ∀ q, q < 4 →
        (∀ p, ((passA 4 [Gate.control false 0 1, Gate.single false 0, Gate.single false 2,
            Gate.control false 2 3] 3 minusOne false 0 [0, 1, 2, 3]
            ⟨0, fun _ => 0, fun _ => 0⟩).cur q).testBit p = true →
          b.selected.testBit p = true) ∨
        (3 : Int) < (bitCount (b.selectedRelated ||| (passA 4 [Gate.control false 0 1,
          Gate.single false 0, Gate.single false 2, Gate.control false 2 3] 3 minusOne false 0
          [0, 1, 2, 3] ⟨0, fun _ => 0, fun _ => 0⟩).related q) : Int) :=
  getGroupOpt_cluster_maximal
    ⟨2048, 4, [Gate.control false 0 1, Gate.single false 0, Gate.single false 2,
      Gate.control false 2 3], [0, 1, 2, 3]⟩ 0 (fun _ => 0) 3 minusOne (by decide)
    (fun _ => Nat.two_pow_pos 64)

/-- C21 fails as stated.  With four qubits, `localSize = 3`, no seeds,
`full = 0`, `enableGlobal = false` and the batch `CX(0,1), H(0), H(2),
CX(2,3)`, `getGroupOpt` returns the gates 0 and 1: Pass B selects the cluster
of qubit 0 and then blocks the qubits 2 and 3, whose cluster `H(2), CX(2,3)`
would bring the mask to four bits.  The gate 2, `H(2)`, is outside the
returned list, and the list enlarged by it is prefix-respecting with a
footprint of three bits. -/
theorem maximality_counterexample :
    (⟨2048, 4, [Gate.control false 0 1, Gate.single false 0, Gate.single false 2,
        Gate.control false 2 3], [0, 1, 2, 3]⟩ : OneLayerCompiler).getGroupOpt 0 (fun _ => 0)
        false 3 minusOne = some [0, 1] ∧
    2 ∉ ([0, 1] : List Nat) ∧
    PrefixRespecting [Gate.control false 0 1, Gate.single false 0, Gate.single false 2,
        Gate.control false 2 3] [0, 1, 2] ∧
    footprint [Gate.control false 0 1, Gate.single false 0, Gate.single false 2,
        Gate.control false 2 3] 0 [0, 1, 2] = 7 ∧
    (bitCount 7 : Int) ≤ 3 := by
  decide

/-! ## The overlap reordering of `Compiler::run`: result and termination -/

theorem getElem?_getD {l : List Nat} {i : Nat} (h : i < l.length) :
    l[i]? = some (l.getD i 0) := by
  rw [List.getD_eq_getElem?_getD, List.getElem?_eq_getElem h]
  rfl

theorem length_swapAt (l : List Nat) (p i : Nat) : (swapAt l p i).length = l.length := by
  simp [swapAt]

theorem getElem?_swapAt {l : List Nat} {p i : Nat} (hp : p < l.length) (hi : i < l.length)
    (j : Nat) :
    (swapAt l p i)[j]? = if j = i then l[p]? else if j = p then l[i]? else l[j]? := by
  unfold swapAt
  rw [List.getElem?_set, List.getElem?_set, List.length_set]
  by_cases hji : j = i
  · subst hji
    rw [if_pos rfl, if_pos hi, if_pos rfl, getElem?_getD hp]
  · rw [if_neg (Ne.symm hji), if_neg hji]
    by_cases hjp : j = p
    · subst hjp
      rw [if_pos rfl, if_pos hp, if_pos rfl, getElem?_getD hi]
    · rw [if_neg (Ne.symm hjp), if_neg hjp]

theorem swapAt_self {l : List Nat} {i : Nat} (hi : i < l.length) : swapAt l i i = l := by
  apply List.ext_getElem?
  intro j
  rw [getElem?_swapAt hi hi]
  by_cases hji : j = i
  · subst hji; simp
  · simp [hji]

theorem swapAt_nodup {l : List Nat} {p i : Nat} (hp : p < l.length) (hi : i < l.length)
    (hl : l.Nodup) : (swapAt l p i).Nodup := by
  rw [List.nodup_iff_getElem?_ne_getElem?]
  intro a b hab hb
  rw [length_swapAt] at hb
  rw [getElem?_swapAt hp hi, getElem?_swapAt hp hi]
  intro heq
  have key : ∀ (u w : Nat), u < l.length → l[u]? = l[w]? → u = w :=
    fun u w hu h => List.getElem?_inj hu hl h
  by_cases hai : a = i
  · subst hai
    rw [if_pos rfl, if_neg (by omega)] at heq
    by_cases hbp : b = p
    · subst hbp
      rw [if_pos rfl] at heq
      have := key _ _ hp heq
      omega
    · rw [if_neg hbp] at heq
      have := key _ _ hp heq
      omega
  · rw [if_neg hai] at heq
    by_cases hap : a = p
    · subst hap
      rw [if_pos rfl] at heq
      by_cases hbi : b = i
      · subst hbi
        rw [if_pos rfl] at heq
        have := key _ _ hi heq
        omega
      · rw [if_neg hbi, if_neg (by omega)] at heq
        have := key _ _ hi heq
        omega
    · rw [if_neg hap] at heq
      by_cases hbi : b = i
      · subst hbi
        rw [if_pos rfl] at heq
        have := key _ _ (by omega) heq
        omega
      · rw [if_neg hbi] at heq
        by_cases hbp : b = p
        · subst hbp
          rw [if_pos rfl] at heq
          have := key _ _ (by omega) heq
          omega
        · rw [if_neg hbp] at heq
          have := key _ _ (by omega) heq
          omega

theorem swapAt_perm {l : List Nat} {p i : Nat} (hp : p < l.length) (hi : i < l.length)
    (hl : l.Nodup) : (swapAt l p i).Perm l := by
  rw [List.perm_ext_iff_of_nodup (swapAt_nodup hp hi hl) hl]
  intro a
  simp only [List.mem_iff_getElem?]
  constructor
  · rintro ⟨j, hj⟩
    rw [getElem?_swapAt hp hi] at hj
    by_cases hji : j = i
    · rw [if_pos hji] at hj; exact ⟨p, hj⟩
    · rw [if_neg hji] at hj
      by_cases hjp : j = p
      · rw [if_pos hjp] at hj; exact ⟨i, hj⟩
      · rw [if_neg hjp] at hj; exact ⟨j, hj⟩
  · rintro ⟨j, hj⟩
    by_cases hji : j = i
    · subst hji
      by_cases hjp : j = p
      · subst hjp
        exact ⟨j, by rw [getElem?_swapAt hp hi, if_pos rfl]; exact hj⟩
      · exact ⟨p, by
          rw [getElem?_swapAt hp hi]
          rw [if_neg (fun h => hjp h.symm), if_pos rfl]; exact hj⟩
    · by_cases hjp : j = p
      · subst hjp
        exact ⟨i, by rw [getElem?_swapAt hp hi, if_pos rfl]; exact hj⟩
      · exact ⟨j, by rw [getElem?_swapAt hp hi, if_neg hji, if_neg hjp]; exact hj⟩

/-- One step of a pass keeps the invariant; the index it gives to
`newGlobals` is in range. -/
theorem overlapStep_inv (c : Compiler) (layout l0 : List Nat) (k : Nat) (v : Overlap)
    (hA : (c.globalArea layout).Nodup) (hl0 : l0.Nodup)
    (hlen : l0.length = (c.globalArea layout).length) (hk : k < l0.length)
    (h : PassInv (c.globalArea layout) l0 k v) :
    ∃ v', c.overlapStep layout v k = some v' ∧ PassInv (c.globalArea layout) l0 (k + 1) v' := by
  have hvlen : v.newGlobals.length = l0.length := h.perm.length_eq
  have hvnd : v.newGlobals.Nodup := h.perm.nodup_iff.2 hl0
  have hrange : List.range (k + 1) = List.range k ++ [k] := List.range_succ k
  unfold Compiler.overlapStep Compiler.globalPos
  simp only
  by_cases hx : v.newGlobals.getD k 0 ∈ c.globalArea layout
  · have hp : (c.globalArea layout).indexOf (v.newGlobals.getD k 0) < v.newGlobals.length := by
      rw [hvlen, hlen]
      exact List.indexOf_lt_length.2 hx
    rw [if_pos (by simpa using hx), if_pos hp]
    have hkv : k < v.newGlobals.length := by omega
    generalize hpdef : (c.globalArea layout).indexOf (v.newGlobals.getD k 0) = p at hp
    have hAp : (c.globalArea layout)[p]? = some (v.newGlobals.getD k 0) := by
      rw [← hpdef]; exact List.getElem?_indexOf hx
    have hpA : p < (c.globalArea layout).length := by omega
    -- slot `p` is settled after the swap
    have hsetp : Settled (c.globalArea layout) (swapAt v.newGlobals p k) p := by
      refine ⟨hpA, ?_⟩
      rw [getElem?_swapAt hp hkv, hAp]
      by_cases hpk : p = k
      · rw [if_pos hpk, hpk]; exact getElem?_getD hkv
      · rw [if_neg hpk, if_pos rfl]; exact getElem?_getD hkv
    -- slot `p` was not settled before unless `p = k`
    have hnotp : p ≠ k → ¬ Settled (c.globalArea layout) v.newGlobals p := by
      intro hpk hs
      have h1 : v.newGlobals[p]? = v.newGlobals[k]? := by
        rw [hs.2, hAp, getElem?_getD hkv]
      exact hpk (List.getElem?_inj hp hvnd h1)
    -- a settled slot stays settled
    have hkeep : ∀ j, Settled (c.globalArea layout) v.newGlobals j →
        Settled (c.globalArea layout) (swapAt v.newGlobals p k) j := by
      intro j hs
      by_cases hpk : p = k
      · rw [hpk, swapAt_self hkv]; exact hs
      · refine ⟨hs.1, ?_⟩
        rw [getElem?_swapAt hp hkv]
        by_cases hjk : j = k
        · exfalso
          subst hjk
          have h1 : (c.globalArea layout)[j]? = some (v.newGlobals.getD j 0) := by
            rw [← hs.2]; exact getElem?_getD hkv
          have h2 : (c.globalArea layout)[p]? = (c.globalArea layout)[j]? := by rw [hAp, h1]
          exact hpk (List.getElem?_inj hpA hA h2)
        · rw [if_neg hjk]
          by_cases hjp : j = p
          · exfalso
            subst hjp
            exact hnotp hpk hs
          · rw [if_neg hjp]; exact hs.2
    refine ⟨_, rfl, ⟨?_, ?_, ?_, ?_, ?_, ?_, ?_⟩⟩
    · exact (swapAt_perm hp hkv hvnd).trans h.perm
    · intro j hj
      exact hkeep j (h.keep j hj)
    · intro hmod
      simp only [Bool.or_eq_true, bne_iff_ne, ne_eq] at hmod
      rcases hmod with hmod | hmod
      · obtain ⟨j, hj1, hj2⟩ := h.gain hmod
        exact ⟨j, hkeep j hj1, hj2⟩
      · exact ⟨p, hsetp, fun hs => hnotp hmod (h.keep p hs)⟩
    · intro hmod
      simp only [Bool.or_eq_false_iff, bne_eq_false_iff_eq] at hmod
      show swapAt v.newGlobals p k = l0
      rw [hmod.2, swapAt_self hkv]
      exact h.same hmod.1
    · intro hmod j hj hjA
      simp only [Bool.or_eq_false_iff, bne_eq_false_iff_eq] at hmod
      rcases Nat.lt_succ_iff_lt_or_eq.1 hj with hlt | rfl
      · exact h.found hmod.1 j hlt hjA
      · have hsame := h.same hmod.1
        refine ⟨by omega, ?_⟩
        have := hmod.2
        subst this
        rw [hAp, ← hsame]
        exact getElem?_getD hkv
    · intro hmod p'
      simp only [Bool.or_eq_false_iff, bne_eq_false_iff_eq] at hmod
      have hsame := h.same hmod.1
      show (v.overlapGlobals ||| 1 <<< p).testBit p' = true ↔ _
      rw [Nat.testBit_or, testBit_one_shiftLeft, Bool.or_eq_true, h.bits hmod.1 p', hmod.2]
      simp only [decide_eq_true_eq]
      constructor
      · rintro (⟨h1, h2⟩ | rfl)
        · exact ⟨by omega, h2⟩
        · exact ⟨by omega, by rw [← hsame]; exact hx⟩
      · rintro ⟨h1, h2⟩
        rcases Nat.lt_succ_iff_lt_or_eq.1 h1 with hlt | heq
        · exact Or.inl ⟨hlt, h2⟩
        · exact Or.inr heq.symm
    · intro hmod
      simp only [Bool.or_eq_false_iff, bne_eq_false_iff_eq] at hmod
      have hsame := h.same hmod.1
      show v.overlapCnt + 1 = _
      rw [h.cnt hmod.1, hrange, List.filter_append, List.length_append]
      have : l0.getD k 0 ∈ c.globalArea layout := by rw [← hsame]; exact hx
      rw [List.filter_cons, if_pos (decide_eq_true this)]
      rfl
  · rw [if_neg (by simpa using hx)]
    refine ⟨_, rfl, ⟨h.perm, h.keep, h.gain, h.same, ?_, ?_, ?_⟩⟩
    · intro hmod j hj hjA
      rcases Nat.lt_succ_iff_lt_or_eq.1 hj with hlt | rfl
      · exact h.found hmod j hlt hjA
      · rw [← h.same hmod] at hjA
        exact absurd hjA hx
    · intro hmod p'
      rw [h.bits hmod p']
      constructor
      · rintro ⟨h1, h2⟩
        exact ⟨by omega, h2⟩
      · rintro ⟨h1, h2⟩
        rcases Nat.lt_succ_iff_lt_or_eq.1 h1 with hlt | rfl
        · exact ⟨hlt, h2⟩
        · rw [← h.same hmod] at h2
          exact absurd h2 hx
    · intro hmod
      rw [h.cnt hmod, hrange, List.filter_append, List.length_append]
      have : l0.getD k 0 ∉ c.globalArea layout := by rw [← h.same hmod]; exact hx
      rw [List.filter_cons, if_neg (by rw [decide_eq_true_eq]; exact this)]
      rfl

/-- A pass returns and keeps the invariant up to every index. -/
theorem overlapPass_inv (c : Compiler) (layout l0 : List Nat)
    (hA : (c.globalArea layout).Nodup) (hl0 : l0.Nodup)
    (hlen : l0.length = (c.globalArea layout).length) :
    ∀ k, k ≤ l0.length →
      ∃ v, (List.range k).foldlM (c.overlapStep layout) ⟨l0, 0, 0, false⟩ = some v ∧
        PassInv (c.globalArea layout) l0 k v := by
  intro k
  induction k with
  | zero =>
    intro _
    refine ⟨_, rfl, ⟨List.Perm.refl _, fun j hj => hj, fun h => by simp at h, fun _ => rfl,
      fun _ j hj => absurd hj (Nat.not_lt_zero _), fun _ p => by simp, fun _ => by simp⟩⟩
  | succ k ih =>
    intro hk
    obtain ⟨v, hv, hinv⟩ := ih (by omega)
    obtain ⟨v', hv', hinv'⟩ := overlapStep_inv c layout l0 k v hA hl0 hlen (by omega) hinv
    refine ⟨v', ?_, hinv'⟩
    rw [List.range_succ, List.foldlM_append, hv]
    simp [hv']

/-- The global area of a layout that is a permutation of `[0, N)`: it has
`globalBit` distinct entries, the entries of the layout from `N - G` on. -/
theorem globalArea_facts (c : Compiler) (layout : List Nat)
    (hlayout : layout.Perm (List.range c.numQubits)) (hG : c.globalBit ≤ c.numQubits) :
    (c.globalArea layout).length = c.globalBit ∧ (c.globalArea layout).Nodup ∧
    ∀ p, p < c.globalBit → (c.globalArea layout)[p]? =
      some (layout.getD (c.numQubits - c.globalBit + p) 0) := by
  have hlen : layout.length = c.numQubits := by rw [hlayout.length_eq, List.length_range]
  have hnd : layout.Nodup := hlayout.nodup_iff.2 (List.nodup_range _)
  refine ⟨?_, ?_, ?_⟩
  · unfold Compiler.globalArea
    rw [List.length_drop, List.length_take, hlen]
    omega
  · unfold Compiler.globalArea
    exact (hnd.sublist (List.take_sublist _ _)).sublist (List.drop_sublist _ _)
  · intro p hp
    unfold Compiler.globalArea
    rw [List.getElem?_drop, List.getElem?_take, if_pos (by omega)]
    exact getElem?_getD (by omega)

/-- A pass that sets `modified` settles at least one more slot and unsettles
none. -/
theorem overlapPass_progress (A l0 : List Nat) (v : Overlap) (k : Nat)
    (h : PassInv A l0 k v) (hmod : v.modified = true) :
    ((Finset.range A.length).filter (fun j => Settled A l0 j)).card <
      ((Finset.range A.length).filter (fun j => Settled A v.newGlobals j)).card := by
  apply Finset.card_lt_card
  rw [Finset.ssubset_iff_of_subset]
  · obtain ⟨j, hj1, hj2⟩ := h.gain hmod
    refine ⟨j, ?_, ?_⟩
    · simp only [Finset.mem_filter, Finset.mem_range]
      exact ⟨hj1.1, hj1⟩
    · simp only [Finset.mem_filter, Finset.mem_range, not_and]
      exact fun _ => hj2
  · intro j
    simp only [Finset.mem_filter, Finset.mem_range]
    exact fun ⟨h1, h2⟩ => ⟨h1, h.keep j h2⟩

/-- The loop `while (modified)` leaves after at most one pass more than there
are unsettled slots. -/
theorem overlapLoop_terminates (c : Compiler) (layout : List Nat)
    (hA : (c.globalArea layout).Nodup) :
    ∀ (fuel : Nat) (l : List Nat), l.Nodup → l.length = (c.globalArea layout).length →
      (c.globalArea layout).length -
        ((Finset.range (c.globalArea layout).length).filter
          (fun j => Settled (c.globalArea layout) l j)).card < fuel →
      ∃ v k, c.overlapLoop layout fuel l = some (v, k) ∧
        k ≤ (c.globalArea layout).length -
          ((Finset.range (c.globalArea layout).length).filter
            (fun j => Settled (c.globalArea layout) l j)).card + 1 := by
  intro fuel
  induction fuel with
  | zero => intro l _ _ h; omega
  | succ fuel ih =>
    intro l hl hlen hfuel
    obtain ⟨v, hv, hinv⟩ := overlapPass_inv c layout l hA hl hlen l.length (le_refl _)
    rw [Compiler.overlapLoop]
    have hpass : c.overlapPass layout l = some v := hv
    rw [hpass]
    simp only
    by_cases hmod : v.modified = true
    · rw [if_pos hmod]
      have hprog := overlapPass_progress _ _ _ _ hinv hmod
      have hle : ((Finset.range (c.globalArea layout).length).filter
          (fun j => Settled (c.globalArea layout) v.newGlobals j)).card ≤
          (c.globalArea layout).length := by
        have := Finset.card_filter_le (Finset.range (c.globalArea layout).length)
          (fun j => Settled (c.globalArea layout) v.newGlobals j)
        rwa [Finset.card_range] at this
      obtain ⟨v', k', hv', hk'⟩ := ih v.newGlobals (hinv.perm.nodup_iff.2 hl)
        (by rw [hinv.perm.length_eq]; exact hlen) (by omega)
      refine ⟨v', k' + 1, ?_, by omega⟩
      rw [hv']
      rfl
    · rw [if_neg hmod]
      exact ⟨v, 1, rfl, by omega⟩

/-- What holds when the loop `while (modified)` leaves: the last pass ran on
the list that it returns and changed nothing. -/
theorem overlapLoop_result (c : Compiler) (layout : List Nat)
    (hA : (c.globalArea layout).Nodup) :
    ∀ (fuel : Nat) (l : List Nat) (v : Overlap) (k : Nat), l.Nodup →
      l.length = (c.globalArea layout).length → c.overlapLoop layout fuel l = some (v, k) →
      v.newGlobals.Perm l ∧ v.modified = false ∧
        PassInv (c.globalArea layout) v.newGlobals (c.globalArea layout).length v := by
  intro fuel
  induction fuel with
  | zero => intro l v k _ _ h; simp [Compiler.overlapLoop] at h
  | succ fuel ih =>
    intro l v k hl hlen h
    obtain ⟨v1, hv1, hinv⟩ := overlapPass_inv c layout l hA hl hlen l.length (le_refl _)
    rw [Compiler.overlapLoop] at h
    have hpass : c.overlapPass layout l = some v1 := hv1
    rw [hpass] at h
    simp only at h
    by_cases hmod : v1.modified = true
    · rw [if_pos hmod] at h
      simp only [Option.map_eq_some', Prod.mk.injEq, Prod.exists] at h
      obtain ⟨v', k', hv', rfl, _⟩ := h
      obtain ⟨h1, h2, h3⟩ := ih v1.newGlobals v' k' (hinv.perm.nodup_iff.2 hl)
        (by rw [hinv.perm.length_eq]; exact hlen) hv'
      exact ⟨h1.trans hinv.perm, h2, h3⟩
    · rw [if_neg hmod] at h
      simp only [Option.some.injEq, Prod.mk.injEq] at h
      obtain ⟨rfl, _⟩ := h
      have hmod' : v1.modified = false := by simpa using hmod
      have hsame := hinv.same hmod'
      refine ⟨hinv.perm, hmod', ?_⟩
      rw [hsame, ← hlen]
      exact hinv

theorem length_le_of_nodup_lt {l : List Nat} {n : Nat} (hnd : l.Nodup) (h : ∀ x ∈ l, x < n) :
    l.length ≤ n := by
  have hsub : l ⊆ List.range n := fun x hx => List.mem_range.2 (h x hx)
  have := (List.subperm_of_subset hnd hsub).length_le
  rwa [List.length_range] at this

/-- C24: for a layout that is a permutation of `[0, N)` and a list
`newGlobals` of `G` distinct qubits, the loop `while (modified)` of
`Compiler::run` leaves after at most `G + 1` passes without giving
`newGlobals` an index out of range (the model returns a result with fuel
`G + 1`), and every index that `globalPos` reports for a qubit it found is
below `G`. -/
theorem overlap_terminates (c : Compiler) (layout newGlobals : List Nat)
    (hlayout : layout.Perm (List.range c.numQubits))
    (hq : ∀ x ∈ newGlobals, x < c.numQubits) (hnd : newGlobals.Nodup)
    (hlen : newGlobals.length = c.globalBit) :
    (∃ v k, c.overlapLoop layout (c.globalBit + 1) newGlobals = some (v, k) ∧
      k ≤ c.globalBit + 1) ∧
    ∀ x, (c.globalPos layout x).1 = true → (c.globalPos layout x).2 < c.globalBit := by
  have hG : c.globalBit ≤ c.numQubits := by
    rw [← hlen]; exact length_le_of_nodup_lt hnd hq
  obtain ⟨hAlen, hAnd, _⟩ := globalArea_facts c layout hlayout hG
  constructor
  · obtain ⟨v, k, hv, hk⟩ := overlapLoop_terminates c layout hAnd (c.globalBit + 1) newGlobals
      hnd (by rw [hlen, hAlen]) (by rw [hAlen]; omega)
    refine ⟨v, k, hv, ?_⟩
    rw [hAlen] at hk
    omega
  · intro x hx
    unfold Compiler.globalPos at hx ⊢
    simp only [decide_eq_true_eq] at hx
    show (c.globalArea layout).indexOf x < c.globalBit
    rw [← hAlen]
    exact List.indexOf_lt_length.2 hx

theorem overlap_terminates_witness :
    (∃ v k, (⟨4, [], 2⟩ : Compiler).overlapLoop [0, 1, 2, 3] 3 [3, 2] = some (v, k) ∧ k ≤ 3) ∧
    ∀ x, ((⟨4, [], 2⟩ : Compiler).globalPos [0, 1, 2, 3] x).1 = true →
      ((⟨4, [], 2⟩ : Compiler).globalPos [0, 1, 2, 3] x).2 < 2 :=
  overlap_terminates ⟨4, [], 2⟩ [0, 1, 2, 3] [3, 2] (by decide) (by decide) (by decide)
    (by decide)

/-- C23: when the loop `while (modified)` of `Compiler::run` leaves (for a
layout that is a permutation of `[0, N)` and `G` distinct qubits in
`newGlobals`), `newGlobals` is a permutation of its initial contents in which
every qubit of it that the layout holds at the global place `(N - G) + p` is
at index `p`; `overlapGlobals` has bit `p` set exactly for the indices `p`
whose slot holds the qubit of global place `p`, and `overlapCnt` is the number
of these indices. -/
theorem overlap_result (c : Compiler) (layout newGlobals : List Nat)
    (hlayout : layout.Perm (List.range c.numQubits))
    (hq : ∀ x ∈ newGlobals, x < c.numQubits) (hnd : newGlobals.Nodup)
    (hlen : newGlobals.length = c.globalBit) (fuel : Nat) (v : Overlap) (k : Nat)
    (h : c.overlapLoop layout fuel newGlobals = some (v, k)) :
    v.newGlobals.Perm newGlobals ∧
    (∀ p, p < c.globalBit →
      layout.getD (c.numQubits - c.globalBit + p) 0 ∈ v.newGlobals →
      v.newGlobals.getD p 0 = layout.getD (c.numQubits - c.globalBit + p) 0) ∧
    (∀ p, v.overlapGlobals.testBit p = true ↔
      (p < c.globalBit ∧
        v.newGlobals.getD p 0 = layout.getD (c.numQubits - c.globalBit + p) 0)) ∧
    v.overlapCnt = ((List.range c.globalBit).filter (fun p =>
      decide (v.newGlobals.getD p 0 = layout.getD (c.numQubits - c.globalBit + p) 0))).length := by
  have hG : c.globalBit ≤ c.numQubits := by
    rw [← hlen]; exact length_le_of_nodup_lt hnd hq
  obtain ⟨hAlen, hAnd, hAget⟩ := globalArea_facts c layout hlayout hG
  obtain ⟨hperm, hmod, hinv⟩ := overlapLoop_result c layout hAnd fuel newGlobals v k hnd
    (by rw [hlen, hAlen]) h
  rw [hAlen] at hinv
  have hvlen : v.newGlobals.length = c.globalBit := by rw [hperm.length_eq, hlen]
  -- a slot holds a qubit of the global area iff it holds the qubit of its own place
  have hiff : ∀ p, p < c.globalBit → (v.newGlobals.getD p 0 ∈ c.globalArea layout ↔
      v.newGlobals.getD p 0 = layout.getD (c.numQubits - c.globalBit + p) 0) := by
    intro p hp
    constructor
    · intro hmem
      have hs := (hinv.found hmod p hp hmem).2
      rw [getElem?_getD (by omega), hAget p hp] at hs
      exact Option.some.inj hs
    · intro heq
      rw [heq]
      exact List.mem_iff_getElem?.2 ⟨p, hAget p hp⟩
  refine ⟨hperm, ?_, ?_, ?_⟩
  · intro p hp hmem
    obtain ⟨i, hi⟩ := List.mem_iff_getElem?.1 hmem
    have hilt : i < v.newGlobals.length := by
      by_contra hge
      rw [List.getElem?_eq_none (by omega)] at hi
      exact absurd hi (by simp)
    have hgi : v.newGlobals.getD i 0 = layout.getD (c.numQubits - c.globalBit + p) 0 := by
      have := getElem?_getD hilt
      rw [hi] at this
      exact (Option.some.inj this).symm
    have hmemA : v.newGlobals.getD i 0 ∈ c.globalArea layout := by
      rw [hgi]; exact List.mem_iff_getElem?.2 ⟨p, hAget p hp⟩
    have hs := (hinv.found hmod i (by omega) hmemA).2
    rw [hi, ← hAget p hp] at hs
    have hip : p = i := List.getElem?_inj (by omega) hAnd hs
    subst hip; exact hgi
  · intro p
    rw [hinv.bits hmod p]
    constructor
    · rintro ⟨h1, h2⟩
      exact ⟨h1, (hiff p h1).1 h2⟩
    · rintro ⟨h1, h2⟩
      exact ⟨h1, (hiff p h1).2 h2⟩
  · rw [hinv.cnt hmod]
    congr 1
    apply List.filter_congr
    intro p hp
    have := hiff p (List.mem_range.1 hp)
    by_cases hm : v.newGlobals.getD p 0 ∈ c.globalArea layout
    · rw [decide_eq_true hm, decide_eq_true (this.1 hm)]
    · rw [decide_eq_false hm, decide_eq_false (fun h => hm (this.2 h))]

theorem overlap_result_witness :
    (⟨[2, 3], 3, 2, false⟩ : Overlap).newGlobals.Perm [3, 2] ∧
    (∀ p, p < 2 → ([0, 1, 2, 3] : List Nat).getD (4 - 2 + p) 0 ∈ ([2, 3] : List Nat) →
      ([2, 3] : List Nat).getD p 0 = ([0, 1, 2, 3] : List Nat).getD (4 - 2 + p) 0) ∧
    (∀ p, (3 : Nat).testBit p = true ↔
      (p < 2 ∧ ([2, 3] : List Nat).getD p 0 = ([0, 1, 2, 3] : List Nat).getD (4 - 2 + p) 0)) ∧
    2 = ((List.range 2).filter (fun p =>
      decide (([2, 3] : List Nat).getD p 0 =
        ([0, 1, 2, 3] : List Nat).getD (4 - 2 + p) 0))).length :=
  overlap_result ⟨4, [], 2⟩ [0, 1, 2, 3] [3, 2] (by decide) (by decide) (by decide)
    (by decide) 3 ⟨[2, 3], 3, 2, false⟩ 2 (by decide)

end UniQ
